import Mathlib

/-!
# Graphic_Tangram: rasterisation and clipping engine

A shallow embedding of the pixel-level algorithms of the drawing engine
(`drawengine.cpp`, `lineshape.cpp`, `rasterfillshape.cpp`, `arcshape.cpp`,
`polygonshape.cpp`) together with theorems about them.

Conventions of the embedding:
* C++ `int` values are modelled by `Int`; the properties below concern
  coordinates far away from the limits of the machine type.
* `double` values are modelled by exact rationals `ℚ`; `std::round` is
  rounding to the nearest integer, halves away from zero.
* The arc rasteriser is parametrised by the ordered field of its `double`
  values and by the C library functions it calls (`Libm`); the theorems about
  angles take the real numbers with the exact `atan2`, `fmod` and `π`.
* `while` loops are recursive functions; a loop whose number of iterations
  is not bounded syntactically takes a fuel argument and returns `none`
  when the fuel is exhausted.
-/

/-! ## Data model -/

/-- Colours are opaque values compared by equality (a `QColor`). -/
abbrev Color := Nat

/-- The `QImage` canvas of the engine: its width, its height and the colour
read by `pixelColor(x, y)`. -/
structure Canvas where
  width : Nat
  height : Nat
  pixelColor : Int → Int → Color

/-- A pixel coordinate (a `QPoint`). -/
abbrev Point := Int × Int

namespace DrawEngine

/-- The bounds test of `setPixel`, negated: `(x, y)` addresses a pixel. -/
def inBounds (canvas : Canvas) (x y : Int) : Prop :=
  0 ≤ x ∧ 0 ≤ y ∧ x < canvas.width ∧ y < canvas.height

instance (canvas : Canvas) (x y : Int) : Decidable (inBounds canvas x y) := by
  unfold inBounds; infer_instance

/-- `DrawEngine::setPixel`: writes one pixel, and does nothing out of bounds. -/
def setPixel (canvas : Canvas) (x y : Int) (color : Color) : Canvas :=
  if x < 0 ∨ y < 0 ∨ x ≥ canvas.width ∨ y ≥ canvas.height then canvas
  else { canvas with
    pixelColor := fun a b => if a = x ∧ b = y then color else canvas.pixelColor a b }

/-! ### Flood fill -/

/-- The `index` lambda of `floodFillAddShape`: row-major position of `(x, y)`. -/
def index (w : Int) (x y : Int) : Int := y * w + x

/-- Reading `visited[i]`. -/
def visitedAt (visited : List Bool) (i : Int) : Bool := visited.getD i.toNat false

/-- The assignment `visited[i] = 1`. -/
def markVisited (visited : List Bool) (i : Int) : List Bool := visited.set i.toNat true

/-- The loop `while (xl - 1 >= 0 && !visited[index(xl-1,y)] &&
canvas.pixelColor(xl-1,y) == target) xl--;`. The first argument bounds the
number of iterations; the caller passes `xl`, which the loop cannot exceed. -/
def scanLeft (canvas : Canvas) (visited : List Bool) (target : Color) (y : Int) :
    Nat → Int → Int
  | 0, xl => xl
  | n + 1, xl =>
    if xl - 1 ≥ 0 ∧ visitedAt visited (index canvas.width (xl - 1) y) = false
        ∧ canvas.pixelColor (xl - 1) y = target then
      scanLeft canvas visited target y n (xl - 1)
    else xl

/-- The loop `while (xr + 1 < w && !visited[index(xr+1,y)] &&
canvas.pixelColor(xr+1,y) == target) xr++;`. The first argument bounds the
number of iterations; the caller passes `w - 1 - xr`. -/
def scanRight (canvas : Canvas) (visited : List Bool) (target : Color) (y : Int) :
    Nat → Int → Int
  | 0, xr => xr
  | n + 1, xr =>
    if xr + 1 < canvas.width ∧ visitedAt visited (index canvas.width (xr + 1) y) = false
        ∧ canvas.pixelColor (xr + 1) y = target then
      scanRight canvas visited target y n (xr + 1)
    else xr

/-- The loop `for (int xi = xl; xi <= xr; ++xi) { visited[index(xi,y)] = 1;
filledPixels.emplace_back(xi, y); }` on the pair (visited, filledPixels). -/
def markSpan (w : Int) (y xr : Int) :
    Nat → Int → List Bool → List Point → List Bool × List Point
  | 0, _, visited, filled => (visited, filled)
  | n + 1, xi, visited, filled =>
    if xi ≤ xr then
      markSpan w y xr n (xi + 1) (markVisited visited (index w xi y)) (filled ++ [(xi, y)])
    else (visited, filled)

/-- The loop `while (xi <= xr && (visited[index(xi,row)] ||
canvas.pixelColor(xi,row) != target)) xi++;`. -/
def skipBlocked (canvas : Canvas) (visited : List Bool) (target : Color) (row xr : Int) :
    Nat → Int → Int
  | 0, xi => xi
  | n + 1, xi =>
    if xi ≤ xr ∧ (visitedAt visited (index canvas.width xi row) = true
        ∨ canvas.pixelColor xi row ≠ target) then
      skipBlocked canvas visited target row xr n (xi + 1)
    else xi

/-- The loop `while (xi <= xr && !visited[index(xi,row)] &&
canvas.pixelColor(xi,row) == target) xi++;`. -/
def skipOpen (canvas : Canvas) (visited : List Bool) (target : Color) (row xr : Int) :
    Nat → Int → Int
  | 0, xi => xi
  | n + 1, xi =>
    if xi ≤ xr ∧ visitedAt visited (index canvas.width xi row) = false
        ∧ canvas.pixelColor xi row = target then
      skipOpen canvas visited target row xr n (xi + 1)
    else xi

/-- The loop over a neighbouring row (`y-1` or `y+1`): it pushes the first
pixel of every maximal run of unvisited `target` pixels of `[xi..xr]` on the
stack `st` (head of the list = top of the stack). -/
def scanRow (canvas : Canvas) (visited : List Bool) (target : Color) (row xr : Int) :
    Nat → Int → List Point → List Point
  | 0, _, st => st
  | n + 1, xi, st =>
    if xi ≤ xr then
      let xi1 := skipBlocked canvas visited target row xr (xr - xi + 1).toNat xi
      if xi1 > xr then st
      else
        let segStart := xi1
        let xi2 := skipOpen canvas visited target row xr (xr - xi1 + 1).toNat xi1
        scanRow canvas visited target row xr n xi2 ((segStart, row) :: st)
    else st

/-- The main loop `while (!st.empty())` of `floodFillAddShape`, on the state
(visited, st, filledPixels); `none` when the fuel is exhausted. -/
def floodLoop (canvas : Canvas) (target : Color) :
    Nat → List Bool → List Point → List Point → Option (List Point)
  | _, _, [], filled => some filled
  | 0, _, _ :: _, _ => none
  | fuel + 1, visited, (x, y) :: st, filled =>
    let w : Int := canvas.width
    let h : Int := canvas.height
    if x < 0 ∨ x ≥ w ∨ y < 0 ∨ y ≥ h then floodLoop canvas target fuel visited st filled
    else if visitedAt visited (index w x y) = true then
      floodLoop canvas target fuel visited st filled
    else if canvas.pixelColor x y ≠ target then
      floodLoop canvas target fuel visited st filled
    else
      let xl := scanLeft canvas visited target y x.toNat x
      let xr := scanRight canvas visited target y (w - 1 - x).toNat x
      let (visited, filled) := markSpan w y xr (xr - xl + 1).toNat xl visited filled
      let st :=
        if y - 1 ≥ 0 then
          scanRow canvas visited target (y - 1) xr (xr - xl + 1).toNat xl st
        else st
      let st :=
        if y + 1 < h then
          scanRow canvas visited target (y + 1) xr (xr - xl + 1).toNat xl st
        else st
      floodLoop canvas target fuel visited st filled

/-- `DrawEngine::floodFillAddShape(sx, sy, fillColor)`. The result is `none`
when the fuel is exhausted, and otherwise the canvas after the call together
with the returned shape: `none` for `nullptr`, `some pixels` for a
`RasterFillShape` holding `pixels` (its colour is `fillColor`). -/
def floodFillAddShape (fuel : Nat) (canvas : Canvas) (sx sy : Int) (fillColor : Color) :
    Option (Canvas × Option (List Point)) :=
  let w : Int := canvas.width
  let h : Int := canvas.height
  if sx < 0 ∨ sy < 0 ∨ sx ≥ w ∨ sy ≥ h then some (canvas, none)
  else
    let target := canvas.pixelColor sx sy
    if target = fillColor then some (canvas, none)
    else
      let visited := List.replicate (canvas.width * canvas.height) false
      match floodLoop canvas target fuel visited [(sx, sy)] [] with
      | none => none
      | some filledPixels =>
        if filledPixels.isEmpty then some (canvas, none)
        else some (canvas, some filledPixels)

end DrawEngine

/-- `RasterFillShape::draw`: writes every stored pixel back with `setPixel`. -/
def RasterFillShape.draw (pixels : List Point) (color : Color) (canvas : Canvas) : Canvas :=
  pixels.foldl (fun cv p => DrawEngine.setPixel cv p.1 p.2 color) canvas

/-! ### Bresenham line -/

/-- The `while (true)` loop of `LineShape::draw`. The state is the current
point `(x0, y0)`, the error term `err` and the counter `step`; the result is
the list of calls `drawStyledPixelAtStep(x0, y0, _, step, ...)` in the order
they are made, as triples `(x0, y0, step)`; `none` when the fuel is exhausted. -/
def LineShape.drawLoop (x1 y1 dx dy sx sy : Int) :
    Nat → Int → Int → Int → Int → Option (List (Int × Int × Int))
  | 0, _, _, _, _ => none
  | fuel + 1, x0, y0, err, step =>
    let call := (x0, y0, step)
    let step := step + 1
    if x0 = x1 ∧ y0 = y1 then some [call]
    else
      let e2 := 2 * err
      let (err, x0) := if e2 ≥ dy then (err + dy, x0 + sx) else (err, x0)
      let (err, y0) := if e2 ≤ dx then (err + dx, y0 + sy) else (err, y0)
      (LineShape.drawLoop x1 y1 dx dy sx sy fuel x0 y0 err step).map (fun l => call :: l)

/-- `LineShape::draw` for the segment from `start` to `end`: the calls of
`drawStyledPixelAtStep` it makes, as triples `(x, y, step)`. -/
def LineShape.draw (fuel : Nat) (start stop : Point) : Option (List (Int × Int × Int)) :=
  let x0 := start.1
  let y0 := start.2
  let x1 := stop.1
  let y1 := stop.2
  let dx := |x1 - x0|
  let sx : Int := if x0 < x1 then 1 else -1
  let dy := -|y1 - y0|
  let sy : Int := if y0 < y1 then 1 else -1
  let err := dx + dy
  LineShape.drawLoop x1 y1 dx dy sx sy fuel x0 y0 err 0

/-! ### Cohen-Sutherland segment clipping -/

def CS_INSIDE : Nat := 0
def CS_LEFT : Nat := 1
def CS_RIGHT : Nat := 2
def CS_BOTTOM : Nat := 4
def CS_TOP : Nat := 8

/-- `computeOutCode`: the bit mask of the window sides that `(x, y)` violates. -/
def computeOutCode (x y xmin ymin xmax ymax : Int) : Nat :=
  let code := CS_INSIDE
  let code := if x < xmin then code ||| CS_LEFT else if x > xmax then code ||| CS_RIGHT else code
  let code := if y < ymin then code ||| CS_TOP else if y > ymax then code ||| CS_BOTTOM else code
  code

/-- `std::round` followed by the conversion to `int`: the nearest integer,
halves rounded away from zero. -/
def cround (q : ℚ) : Int := if 0 ≤ q then ⌊q + 1 / 2⌋ else ⌈q - 1 / 2⌉

/-- What stops the model of `cohenSutherlandClip` short of a result. -/
inductive ClipFault
  | outOfFuel
  | zeroDivisor
  deriving DecidableEq, Repr

/-- The quotient `a + b * c / d` of the intersection formulas; a zero divisor
is reported instead of being computed with. -/
def DrawEngine.intersectAt (a b c d : ℚ) : Except ClipFault ℚ :=
  if d = 0 then .error .zeroDivisor else .ok (a + b * c / d)

/-- The `while (true)` loop of `cohenSutherlandClip` on the state
(x0d, y0d, x1d, y1d, out0, out1); it returns `accept` and the final
coordinates. -/
def DrawEngine.clipLoop (xmin ymin xmax ymax : Int) :
    Nat → ℚ → ℚ → ℚ → ℚ → Nat → Nat → Except ClipFault (Bool × ℚ × ℚ × ℚ × ℚ)
  | 0, _, _, _, _, _, _ => .error .outOfFuel
  | fuel + 1, x0d, y0d, x1d, y1d, out0, out1 =>
    if (out0 ||| out1) = 0 then .ok (true, x0d, y0d, x1d, y1d)
    else if (out0 &&& out1) ≠ 0 then .ok (false, x0d, y0d, x1d, y1d)
    else
      let outcodeOut := if out0 ≠ 0 then out0 else out1
      let point : Except ClipFault (ℚ × ℚ) :=
        if (outcodeOut &&& CS_TOP) ≠ 0 then
          (DrawEngine.intersectAt x0d (x1d - x0d) ((ymin : ℚ) - y0d) (y1d - y0d)).map
            (fun x => (x, (ymin : ℚ)))
        else if (outcodeOut &&& CS_BOTTOM) ≠ 0 then
          (DrawEngine.intersectAt x0d (x1d - x0d) ((ymax : ℚ) - y0d) (y1d - y0d)).map
            (fun x => (x, (ymax : ℚ)))
        else if (outcodeOut &&& CS_RIGHT) ≠ 0 then
          (DrawEngine.intersectAt y0d (y1d - y0d) ((xmax : ℚ) - x0d) (x1d - x0d)).map
            (fun y => ((xmax : ℚ), y))
        else if (outcodeOut &&& CS_LEFT) ≠ 0 then
          (DrawEngine.intersectAt y0d (y1d - y0d) ((xmin : ℚ) - x0d) (x1d - x0d)).map
            (fun y => ((xmin : ℚ), y))
        else .ok (0, 0)
      match point with
      | .error e => .error e
      | .ok (x, y) =>
        if outcodeOut = out0 then
          DrawEngine.clipLoop xmin ymin xmax ymax fuel x y x1d y1d
            (computeOutCode (cround x) (cround y) xmin ymin xmax ymax) out1
        else
          DrawEngine.clipLoop xmin ymin xmax ymax fuel x0d y0d x y out0
            (computeOutCode (cround x) (cround y) xmin ymin xmax ymax)

/-- `DrawEngine::cohenSutherlandClip`: the returned flag together with the
values of the reference parameters `x0, y0, x1, y1` after the call. -/
def DrawEngine.cohenSutherlandClip (fuel : Nat) (x0 y0 x1 y1 xmin ymin xmax ymax : Int) :
    Except ClipFault (Bool × Int × Int × Int × Int) :=
  let x0d : ℚ := x0
  let y0d : ℚ := y0
  let x1d : ℚ := x1
  let y1d : ℚ := y1
  let out0 := computeOutCode (cround x0d) (cround y0d) xmin ymin xmax ymax
  let out1 := computeOutCode (cround x1d) (cround y1d) xmin ymin xmax ymax
  match DrawEngine.clipLoop xmin ymin xmax ymax fuel x0d y0d x1d y1d out0 out1 with
  | .error e => .error e
  | .ok (accept, x0d, y0d, x1d, y1d) =>
    if accept then .ok (true, cround x0d, cround y0d, cround x1d, cround y1d)
    else .ok (false, x0, y0, x1, y1)

/-! ### Line styles and pen width -/

/-- The `enum class LineStyle` of `shape.h`. -/
inductive LineStyle
  | Solid
  | Dash
  | Dot
  | DashDot
  deriving DecidableEq, Repr

def SOLID_PATTERN : List Int := [1]
def SOLID_LEN : Int := 1
def DASH_PATTERN : List Int := [1, 1, 1, 1, 1, 1, 0, 0, 0, 0]
def DOT_PATTERN : List Int := [1, 0, 0]
def DASHDOT_PATTERN : List Int := [1, 1, 1, 1, 1, 1, 0, 0, 1, 0, 0]

/-- `DrawEngine::shouldDrawAtStep`. The division and the remainder are those of
C++ (truncation towards zero). The result is `none` where the C++ code has no
defined result: a division by zero, or a read outside the pattern array. -/
def DrawEngine.shouldDrawAtStep (step : Int) (style : LineStyle) (width offset : Int) :
    Option Bool :=
  let (pat, plen) : List Int × Int :=
    match style with
    | .Solid => (SOLID_PATTERN, SOLID_LEN)
    | .Dash => (DASH_PATTERN, 10)
    | .Dot => (DOT_PATTERN, 3)
    | .DashDot => (DASHDOT_PATTERN, 11)
  if width = 0 then none
  else
    let idx := (Int.tdiv step width + offset).tmod plen
    if idx < 0 then none
    else (pat[idx.toNat]?).map (fun v => v != 0)

/-- The inner loop `for (int dx = -r; dx <= r; ++dx)` of `drawThickPixel`,
from the current value of `dx` on. -/
def DrawEngine.thickInner (x y : Int) (color : Color) (r dy : Int) :
    Nat → Int → Canvas → Canvas
  | 0, _, canvas => canvas
  | n + 1, dx, canvas =>
    if dx ≤ r then
      DrawEngine.thickInner x y color r dy n (dx + 1)
        (if dx * dx + dy * dy ≤ r * r then DrawEngine.setPixel canvas (x + dx) (y + dy) color
         else canvas)
    else canvas

/-- The outer loop `for (int dy = -r; dy <= r; ++dy)` of `drawThickPixel`,
from the current value of `dy` on. -/
def DrawEngine.thickOuter (x y : Int) (color : Color) (r : Int) :
    Nat → Int → Canvas → Canvas
  | 0, _, canvas => canvas
  | n + 1, dy, canvas =>
    if dy ≤ r then
      DrawEngine.thickOuter x y color r n (dy + 1)
        (DrawEngine.thickInner x y color r dy (2 * r + 1).toNat (-r) canvas)
    else canvas

/-- `DrawEngine::drawThickPixel`: stamps the disk of radius `max(1, width / 2)`
around `(x, y)`. -/
def DrawEngine.drawThickPixel (canvas : Canvas) (x y : Int) (color : Color) (width : Int) :
    Canvas :=
  let r := max 1 (Int.tdiv width 2)
  DrawEngine.thickOuter x y color r (2 * r + 1).toNat (-r) canvas

/-! ### Sutherland-Hodgman polygon clipping -/

/-- `insideRect`: is `p` on the inner side of the window edge number `edge`
(0 = left, 1 = right, 2 = top, 3 = bottom)? -/
def insideRect (p : Point) (edge : Int) (xmin ymin xmax ymax : Int) : Bool :=
  if edge = 0 then decide (p.1 ≥ xmin)
  else if edge = 1 then decide (p.1 ≤ xmax)
  else if edge = 2 then decide (p.2 ≥ ymin)
  else if edge = 3 then decide (p.2 ≤ ymax)
  else true

/-- `intersectEdge`: the intersection of the line `AB` with the line of the
window edge number `edge`, rounded to a `QPoint`. -/
def intersectEdge (A B : Point) (edge : Int) (xmin ymin xmax ymax : Int) : Point :=
  let x1 : ℚ := A.1
  let y1 : ℚ := A.2
  let x2 : ℚ := B.1
  let y2 : ℚ := B.2
  let dx := x2 - x1
  let dy := y2 - y1
  let p : ℚ × ℚ :=
    if edge = 0 then
      if |dx| < 1 / 1000000000 then ((xmin : ℚ), y1)
      else
        let t := ((xmin : ℚ) - x1) / dx
        ((xmin : ℚ), y1 + t * dy)
    else if edge = 1 then
      if |dx| < 1 / 1000000000 then ((xmax : ℚ), y1)
      else
        let t := ((xmax : ℚ) - x1) / dx
        ((xmax : ℚ), y1 + t * dy)
    else if edge = 2 then
      if |dy| < 1 / 1000000000 then (x1, (ymin : ℚ))
      else
        let t := ((ymin : ℚ) - y1) / dy
        (x1 + t * dx, (ymin : ℚ))
    else if edge = 3 then
      if |dy| < 1 / 1000000000 then (x1, (ymax : ℚ))
      else
        let t := ((ymax : ℚ) - y1) / dy
        (x1 + t * dx, (ymax : ℚ))
    else (0, 0)
  (cround p.1, cround p.2)

/-- The loop `for (const QPoint &E : input)` of `clipPolygonWithRect` for one
window edge: the vertices pushed on `output`, in order, when the previous
vertex is `S` and the vertices still to visit are the list. -/
def DrawEngine.clipPass (edge xmin ymin xmax ymax : Int) : Point → List Point → List Point
  | _, [] => []
  | S, E :: rest =>
    let Ein := insideRect E edge xmin ymin xmax ymax
    let Sin := insideRect S edge xmin ymin xmax ymax
    let pushed : List Point :=
      if Sin && Ein then [E]
      else if Sin && !Ein then [intersectEdge S E edge xmin ymin xmax ymax]
      else if !Sin && Ein then [intersectEdge S E edge xmin ymin xmax ymax, E]
      else []
    pushed ++ DrawEngine.clipPass edge xmin ymin xmax ymax E rest

/-- The loop `for (int edge = 0; edge < 4; ++edge)` of `clipPolygonWithRect`
from the current value of `edge` on; the first argument is `4 - edge`. -/
def DrawEngine.clipEdges (xmin ymin xmax ymax : Int) : Nat → Int → List Point → List Point
  | 0, _, output => output
  | n + 1, edge, output =>
    match output.getLast? with
    | none => []
    | some S =>
      DrawEngine.clipEdges xmin ymin xmax ymax n (edge + 1)
        (DrawEngine.clipPass edge xmin ymin xmax ymax S output)

/-- `DrawEngine::clipPolygonWithRect`. -/
def DrawEngine.clipPolygonWithRect (poly : List Point) (xmin ymin xmax ymax : Int) :
    List Point :=
  if poly.isEmpty then []
  else DrawEngine.clipEdges xmin ymin xmax ymax 4 0 poly

/-! ### Midpoint circle arc -/

/-- The functions of the C library that `ArcShape::draw` calls, over a field
`R` that stands for `double`. -/
structure Libm (R : Type) where
  atan2 : R → R → R
  fmod : R → R → R
  pi : R

/-- The lambda `inArcRange` of `ArcShape::draw`: does the pixel `(px, py)` lie
in the angular range of the arc around `(cx, cy)`? -/
def ArcShape.inArcRange {R : Type} [LinearOrderedField R] (m : Libm R) (cx cy : Int)
    (startAngle endAngle : R) (px py : Int) : Bool :=
  let rotateFullCircle := decide (startAngle > endAngle)
  let startRad := startAngle * (m.pi / 180)
  let endRad := endAngle * (m.pi / 180)
  let angle := m.atan2 ((py - cy : Int) : R) ((px - cx : Int) : R)
  let angle := if angle < 0 then angle + 2 * m.pi else angle
  let start := m.fmod startRad (2 * m.pi)
  let stop := m.fmod endRad (2 * m.pi)
  let start := if start < 0 then start + 2 * m.pi else start
  let stop := if stop < 0 then stop + 2 * m.pi else stop
  if rotateFullCircle then decide (angle ≥ start ∨ angle ≤ stop)
  else decide (angle ≥ start ∧ angle ≤ stop)

/-- The array `points` of `drawSymmetricPoints`: the eight symmetric points of
the octant point `(x, y)`. -/
def ArcShape.symmetricPoints (cx cy x y : Int) : List Point :=
  [(cx + x, cy + y), (cx - x, cy + y), (cx + x, cy - y), (cx - x, cy - y),
   (cx + y, cy + x), (cx - y, cy + x), (cx + y, cy - x), (cx - y, cy - x)]

/-- The loop `for (auto& p : points)` of `drawSymmetricPoints` over the points
still to visit: the calls `drawStyledPixelAtStep(p[0], p[1], _, step, ...)` it
makes, as triples `(x, y, step)`, and the value of `step` after it. -/
def ArcShape.emitPoints (inArcRange : Int → Int → Bool) :
    List Point → Int → List (Int × Int × Int) × Int
  | [], step => ([], step)
  | p :: rest, step =>
    if inArcRange p.1 p.2 then
      let r := ArcShape.emitPoints inArcRange rest (step + 1)
      ((p.1, p.2, step) :: r.1, r.2)
    else ArcShape.emitPoints inArcRange rest step

/-- The lambda `drawSymmetricPoints` of `ArcShape::draw`. -/
def ArcShape.drawSymmetricPoints (inArcRange : Int → Int → Bool) (cx cy x y step : Int) :
    List (Int × Int × Int) × Int :=
  ArcShape.emitPoints inArcRange (ArcShape.symmetricPoints cx cy x y) step

/-- The loop `while (x <= y)` of `ArcShape::draw` on the state (x, y, d, step):
the calls of `drawStyledPixelAtStep` it makes; `none` when the fuel is
exhausted. -/
def ArcShape.drawLoop (inArcRange : Int → Int → Bool) (cx cy : Int) :
    Nat → Int → Int → Int → Int → Option (List (Int × Int × Int))
  | 0, _, _, _, _ => none
  | fuel + 1, x, y, d, step =>
    if x ≤ y then
      let r := ArcShape.drawSymmetricPoints inArcRange cx cy x y step
      let dy : Int × Int := if d < 0 then (d + (2 * x + 3), y) else (d + (2 * (x - y) + 5), y - 1)
      (ArcShape.drawLoop inArcRange cx cy fuel (x + 1) dy.2 dy.1 r.2).map (fun l => r.1 ++ l)
    else some []

/-- `ArcShape::draw` for the arc around `center` with the given radius and
angles (in degrees): the calls of `drawStyledPixelAtStep` it makes, as triples
`(x, y, step)`. -/
def ArcShape.draw {R : Type} [LinearOrderedField R] (m : Libm R) (fuel : Nat)
    (center : Point) (radius : Int) (startAngle endAngle : R) :
    Option (List (Int × Int × Int)) :=
  if radius ≤ 0 then some []
  else
    ArcShape.drawLoop (ArcShape.inArcRange m center.1 center.2 startAngle endAngle)
      center.1 center.2 fuel 0 radius (1 - radius) 0

/-- The C library over the real numbers: `atan2(y, x)` is the argument of
`x + iy` in `(-π, π]`, `fmod(x, y)` is `x - trunc(x / y) * y`, and `M_PI` is π. -/
noncomputable def realLibm : Libm ℝ where
  atan2 := fun y x => Complex.arg ⟨x, y⟩
  fmod := fun x y => x - (if 0 ≤ x / y then ((⌊x / y⌋ : Int) : ℝ) else ((⌈x / y⌉ : Int) : ℝ)) * y
  pi := Real.pi

/-! ### Polygon: scan-line fill and outline -/

/-- `std::numeric_limits<int>::max()`. -/
def INT_MAX : Int := 2147483647

/-- `std::numeric_limits<int>::min()`. -/
def INT_MIN : Int := -2147483648

/-- The `struct Edge` of the scan-line fill: the last row of the edge, the
abscissa of the edge on the current row, and the change of the abscissa from
one row to the next. -/
structure PolygonShape.Edge where
  ymax : Int
  x : ℚ
  invSlope : ℚ
  deriving DecidableEq

/-- The value of `minY` after the loop over the vertices. -/
def PolygonShape.minY (vertices : List Point) : Int :=
  vertices.foldl (fun m p => min m p.2) INT_MAX

/-- The value of `maxY` after the loop over the vertices. -/
def PolygonShape.maxY (vertices : List Point) : Int :=
  vertices.foldl (fun m p => max m p.2) INT_MIN

/-- One iteration of the loop that sorts the edges into `buckets`, for the
edge from `vertices[i]` to `vertices[(i + 1) % n]`. The vector of buckets is a
function of the index; `size` is `buckets.size()`. -/
def PolygonShape.addEdge (vertices : List Point) (minY size : Int)
    (buckets : Int → List PolygonShape.Edge) (i : Nat) : Int → List PolygonShape.Edge :=
  let n := vertices.length
  let p1 := vertices.getD i (0, 0)
  let p2 := vertices.getD ((i + 1) % n) (0, 0)
  if p1.2 = p2.2 then buckets
  else
    let ymin := min p1.2 p2.2
    let ymax := max p1.2 p2.2
    let x_at_ymin : ℚ := if p1.2 < p2.2 then (p1.1 : ℚ) else (p2.1 : ℚ)
    let dx : ℚ := ((p2.1 - p1.1 : Int) : ℚ)
    let dy : ℚ := ((p2.2 - p1.2 : Int) : ℚ)
    let invslope := dx / dy
    let bucketIndex := ymin - minY
    if bucketIndex ≥ 0 ∧ bucketIndex < size then
      fun k => if k = bucketIndex then buckets k ++ [⟨ymax, x_at_ymin, invslope⟩] else buckets k
    else buckets

/-- The buckets after the loop `for (int i = 0; i < n; ++i)` over the edges. -/
def PolygonShape.buildBuckets (vertices : List Point) (minY size : Int) :
    Int → List PolygonShape.Edge :=
  (List.range vertices.length).foldl (PolygonShape.addEdge vertices minY size) (fun _ => [])

/-- The loop `for (int x = xStart; x <= xEnd; ++x) setPixel(x, scanY, _)` after
the test `if (xStart > xEnd) continue`: the pixels it writes, in order. -/
def PolygonShape.spanPixels (scanY xStart xEnd : Int) : List Point :=
  if xStart > xEnd then []
  else (List.range (xEnd - xStart + 1).toNat).map (fun k : Nat => (xStart + (k : Int), scanY))

/-- The loop `for (size_t i = 0; i + 1 < AET.size(); i += 2)` over the pairs
of the sorted active edges that are still to visit. -/
def PolygonShape.fillSpans (scanY : Int) : List PolygonShape.Edge → List Point
  | a :: b :: rest =>
    PolygonShape.spanPixels scanY ⌈a.x⌉ ⌊b.x⌋ ++ PolygonShape.fillSpans scanY rest
  | _ => []

/-- The loop `for (int scanY = minY; scanY <= maxY; ++scanY)` on the state
(scanY, AET): the pixels written by `setPixel`, in order. The first argument
counts the rows that are left. `std::sort` is an insertion sort by `x`; the
order it gives to edges of equal `x` has no influence on the pixels. -/
def PolygonShape.fillRows (maxY minY size : Int) (buckets : Int → List PolygonShape.Edge) :
    Nat → Int → List PolygonShape.Edge → List Point
  | 0, _, _ => []
  | k + 1, scanY, aet =>
    if scanY ≤ maxY then
      let bucketIndex := scanY - minY
      let aet := if bucketIndex ≥ 0 ∧ bucketIndex < size then aet ++ buckets bucketIndex else aet
      let aet := aet.filter (fun e => !decide (e.ymax ≤ scanY))
      if aet.isEmpty then PolygonShape.fillRows maxY minY size buckets k (scanY + 1) aet
      else
        let aet := aet.insertionSort (fun a b => a.x ≤ b.x)
        PolygonShape.fillSpans scanY aet ++
          PolygonShape.fillRows maxY minY size buckets k (scanY + 1)
            (aet.map (fun e => { e with x := e.x + e.invSlope }))
    else []

/-- The scan-line fill pass of `PolygonShape::draw` for a filled polygon: the
pixels `(x, y)` of the calls `setPixel(x, y, fillColor)`, in order. -/
def PolygonShape.fillPixels (vertices : List Point) : List Point :=
  let n := vertices.length
  if n ≥ 3 then
    let minY := PolygonShape.minY vertices
    let maxY := PolygonShape.maxY vertices
    let height := maxY - minY + 1
    let size := max 1 height
    let buckets := PolygonShape.buildBuckets vertices minY size
    PolygonShape.fillRows maxY minY size buckets height.toNat minY []
  else []

/-- The `while (true)` loop of the outline pass of `PolygonShape::draw` for one
edge: the calls `drawStyledPixelAtStep(x0, y0, _, step, ...)` it makes, as
triples `(x0, y0, step)`; `none` when the fuel is exhausted. -/
def PolygonShape.strokeLoop (x1 y1 dx dy sx sy : Int) :
    Nat → Int → Int → Int → Int → Option (List (Int × Int × Int))
  | 0, _, _, _, _ => none
  | fuel + 1, x0, y0, err, step =>
    let call := (x0, y0, step)
    let step := step + 1
    if x0 = x1 ∧ y0 = y1 then some [call]
    else
      let e2 := 2 * err
      let (err, x0) := if e2 ≥ dy then (err + dy, x0 + sx) else (err, x0)
      let (err, y0) := if e2 ≤ dx then (err + dx, y0 + sy) else (err, y0)
      (PolygonShape.strokeLoop x1 y1 dx dy sx sy fuel x0 y0 err step).map (fun l => call :: l)

/-- The body of the outline loop for the edge from `p1` to `p2`. -/
def PolygonShape.strokeEdge (fuel : Nat) (p1 p2 : Point) : Option (List (Int × Int × Int)) :=
  let x0 := p1.1
  let y0 := p1.2
  let x1 := p2.1
  let y1 := p2.2
  let dx := |x1 - x0|
  let sx : Int := if x0 < x1 then 1 else -1
  let dy := -|y1 - y0|
  let sy : Int := if y0 < y1 then 1 else -1
  let err := dx + dy
  PolygonShape.strokeLoop x1 y1 dx dy sx sy fuel x0 y0 err 0

/-- The outline loop `for (int i = 0; i < n; ++i)` from the index `i` on; the
first argument counts the edges that are left. -/
def PolygonShape.strokeEdges (fuel : Nat) (vertices : List Point) :
    Nat → Nat → Option (List (Int × Int × Int))
  | 0, _ => some []
  | k + 1, i =>
    match PolygonShape.strokeEdge fuel (vertices.getD i (0, 0))
        (vertices.getD ((i + 1) % vertices.length) (0, 0)) with
    | none => none
    | some l => (PolygonShape.strokeEdges fuel vertices k (i + 1)).map (fun r => l ++ r)

/-- The outline pass of `PolygonShape::draw`: the calls of
`drawStyledPixelAtStep` it makes, as triples `(x, y, step)`, in order. -/
def PolygonShape.drawOutline (fuel : Nat) (vertices : List Point) :
    Option (List (Int × Int × Int)) :=
  PolygonShape.strokeEdges fuel vertices vertices.length 0

/-! ## Predicates used in the statements and proofs -/

namespace DrawEngine

/-- The pixel `(x, y)` is neither marked in `visited` nor of another colour
than `target`: the test that all scans of the flood fill make. -/
def Free (canvas : Canvas) (target : Color) (visited : List Bool) (x y : Int) : Prop :=
  visitedAt visited (index canvas.width x y) = false ∧ canvas.pixelColor x y = target

/-- The pixels of the span `[xi..xi+n-1]` of row `y`, from left to right. -/
def spanList (xi y : Int) (n : Nat) : List Point :=
  (List.range n).map (fun k : Nat => (xi + (k : Int), y))

/-- Two pixels are 4-neighbours: they differ by one step, horizontal or
vertical. -/
def Adjacent (p q : Point) : Prop :=
  (q.1 = p.1 ∧ (q.2 = p.2 + 1 ∨ q.2 = p.2 - 1)) ∨
    (q.2 = p.2 ∧ (q.1 = p.1 + 1 ∨ q.1 = p.1 - 1))

/-- The 4-connected component of `seed` among the pixels of colour `target`:
the pixels of the canvas of colour `target` that are reachable from `seed`
by horizontal and vertical steps through pixels of colour `target`. -/
inductive Region (canvas : Canvas) (target : Color) (seed : Point) : Point → Prop
  | seed : inBounds canvas seed.1 seed.2 → canvas.pixelColor seed.1 seed.2 = target →
      Region canvas target seed seed
  | step (p q : Point) : Region canvas target seed p → Adjacent p q →
      inBounds canvas q.1 q.2 → canvas.pixelColor q.1 q.2 = target →
      Region canvas target seed q

/-- The pixel `q` is waiting on the stack: an entry of `st` lies in the row
of `q`, at or left of `q`, and all pixels from the entry to `q` are free. -/
def Covered (canvas : Canvas) (target : Color) (visited : List Bool) (st : List Point)
    (q : Point) : Prop :=
  ∃ s ∈ st, s.2 = q.2 ∧ s.1 ≤ q.1 ∧
    ∀ j, s.1 ≤ j → j ≤ q.1 → Free canvas target visited j q.2

/-- The invariant of the main loop of `floodFillAddShape`. -/
structure Inv (canvas : Canvas) (target : Color) (seed : Point) (visited : List Bool)
    (st filled : List Point) : Prop where
  len : visited.length = canvas.width * canvas.height
  seedIn : inBounds canvas seed.1 seed.2
  mem : ∀ p : Point, p ∈ filled ↔
    inBounds canvas p.1 p.2 ∧ visitedAt visited (index canvas.width p.1 p.2) = true
  nodup : filled.Nodup
  sound : ∀ p ∈ filled, Region canvas target seed p
  stack : ∀ s ∈ st, Region canvas target seed s
  closed : ∀ p ∈ filled, ∀ q, Adjacent p q → inBounds canvas q.1 q.2 →
    canvas.pixelColor q.1 q.2 = target → q ∈ filled ∨ Covered canvas target visited st q
  seeded : seed ∈ filled ∨ Covered canvas target visited st seed

/-- The stack after the two row scans that follow the marking of the span
`[xl..xr]` of row `y`. -/
def pushRows (canvas : Canvas) (target : Color) (visited : List Bool) (y xl xr : Int)
    (st : List Point) : List Point :=
  let st1 :=
    if y - 1 ≥ 0 then
      scanRow canvas visited target (y - 1) xr (xr - xl + 1).toNat xl st
    else st
  if y + 1 < (canvas.height : Int) then
    scanRow canvas visited target (y + 1) xr (xr - xl + 1).toNat xl st1
  else st1

end DrawEngine

/-- A 4×3 canvas with a wall of colour 1 in column 2 that leaves the bottom
row open. -/
def sampleCanvas : Canvas := ⟨4, 3, fun x y => if x = 2 ∧ y < 2 then 1 else 0⟩

/-- The 20×20 canvas whose pixels are all white. -/
def whiteCanvas : Canvas := ⟨20, 20, fun _ _ => 16777215⟩

namespace LineShape

/-- The relation between two consecutive calls: one unit step towards the end
point in x, in y or in both, and the counter goes up by one. -/
def StepOk (sx sy : Int) (p q : Int × Int × Int) : Prop :=
  ((q.1 = p.1 + sx ∧ (q.2.1 = p.2.1 ∨ q.2.1 = p.2.1 + sy)) ∨
    (q.1 = p.1 ∧ q.2.1 = p.2.1 + sy)) ∧ q.2.2 = p.2.2 + 1

/-- What the loop produces from a state whose remaining distance along the
major axis is `n`. -/
def LoopPost (sx sy x1 y1 : Int) (n : Nat) (x y step : Int)
    (l : List (Int × Int × Int)) : Prop :=
  l.length = n + 1 ∧ l.head? = some (x, y, step) ∧
    l.getLast? = some (x1, y1, step + n) ∧ List.Chain' (StepOk sx sy) l

/-- The number of unit steps of the segment: the larger of the two extents. -/
def steps (start stop : Point) : Nat :=
  max (stop.1 - start.1).natAbs (stop.2 - start.2).natAbs

/-- The direction of the walk along one axis, as `LineShape::draw` computes it. -/
def dir (a b : Int) : Int := if a < b then 1 else -1

end LineShape

/-- The point `(x, y)` lies in the window, boundary included. -/
def inWindow (x y xmin ymin xmax ymax : Int) : Prop :=
  xmin ≤ x ∧ x ≤ xmax ∧ ymin ≤ y ∧ y ≤ ymax

instance (x y xmin ymin xmax ymax : Int) : Decidable (inWindow x y xmin ymin xmax ymax) := by
  unfold inWindow; infer_instance

/-- The rhythm of a line style, as the specification lists it. -/
def patternOfStyle : LineStyle → List Nat
  | .Solid => [1]
  | .Dash => [1, 1, 1, 1, 1, 1, 0, 0, 0, 0]
  | .Dot => [1, 0, 0]
  | .DashDot => [1, 1, 1, 1, 1, 1, 0, 0, 1, 0, 0]

/-- The period of a line style, as the specification lists it. -/
def patternLength : LineStyle → Nat
  | .Solid => 1
  | .Dash => 10
  | .Dot => 3
  | .DashDot => 11

/-- The angle of the pixel `(px, py)` seen from `(cx, cy)`, measured from the
`+x` axis towards the `+y` axis (clockwise on a y-down screen) and normalised
to `[0, 2π)`. -/
noncomputable def normalizedAngle (cx cy px py : Int) : ℝ :=
  let a := Complex.arg ⟨((px - cx : Int) : ℝ), ((py - cy : Int) : ℝ)⟩
  if a < 0 then a + 2 * Real.pi else a

/-- The symmetric midpoint-circle points of the circle around `center`: the
calls the loop of `ArcShape::draw` makes when the angular filter accepts every
point. -/
def ArcShape.circlePoints (fuel : Nat) (center : Point) (radius : Int) :
    Option (List (Int × Int × Int)) :=
  ArcShape.drawLoop (fun _ _ => true) center.1 center.2 fuel 0 radius (1 - radius) 0

/-- A number of loop iterations that is enough for every edge of the outline:
one more than the largest of the extents of the edges. -/
def PolygonShape.outlineFuel (vertices : List Point) : Nat :=
  ((List.range vertices.length).map (fun i =>
    LineShape.steps (vertices.getD i (0, 0))
      (vertices.getD ((i + 1) % vertices.length) (0, 0)))).foldr max 0 + 1

/-- The intersection point computed by one iteration of the loop of
`cohenSutherlandClip` for the chosen outcode (the `if` cascade of the loop
body). -/
def DrawEngine.clipPoint (xmin ymin xmax ymax : Int) (x0d y0d x1d y1d : ℚ) (outcodeOut : Nat) :
    Except ClipFault (ℚ × ℚ) :=
  if (outcodeOut &&& CS_TOP) ≠ 0 then
    (DrawEngine.intersectAt x0d (x1d - x0d) ((ymin : ℚ) - y0d) (y1d - y0d)).map
      (fun x => (x, (ymin : ℚ)))
  else if (outcodeOut &&& CS_BOTTOM) ≠ 0 then
    (DrawEngine.intersectAt x0d (x1d - x0d) ((ymax : ℚ) - y0d) (y1d - y0d)).map
      (fun x => (x, (ymax : ℚ)))
  else if (outcodeOut &&& CS_RIGHT) ≠ 0 then
    (DrawEngine.intersectAt y0d (y1d - y0d) ((xmax : ℚ) - x0d) (x1d - x0d)).map
      (fun y => ((xmax : ℚ), y))
  else if (outcodeOut &&& CS_LEFT) ≠ 0 then
    (DrawEngine.intersectAt y0d (y1d - y0d) ((xmin : ℚ) - x0d) (x1d - x0d)).map
      (fun y => ((xmin : ℚ), y))
  else .ok (0, 0)

/-- The outcode of the point `(x, y)` as the loop of `cohenSutherlandClip`
computes it: the outcode of the rounded coordinates. -/
def DrawEngine.codeAt (xmin ymin xmax ymax : Int) (x y : ℚ) : Nat :=
  computeOutCode (cround x) (cround y) xmin ymin xmax ymax

/-- The number of axes (0, 1 or 2) on which the rounded point violates the
window. -/
def DrawEngine.outAxes (xmin ymin xmax ymax : Int) (x y : ℚ) : Nat :=
  (if cround x < xmin ∨ xmax < cround x then 1 else 0) +
    (if cround y < ymin ∨ ymax < cround y then 1 else 0)

/-- The loop of `cohenSutherlandClip` stops in the state `(x0, y0, x1, y1)`:
both outcodes are zero, or they share a bit. -/
def DrawEngine.ClipDone (xmin ymin xmax ymax : Int) (x0 y0 x1 y1 : ℚ) : Prop :=
  (DrawEngine.codeAt xmin ymin xmax ymax x0 y0 = 0 ∧
      DrawEngine.codeAt xmin ymin xmax ymax x1 y1 = 0) ∨
    (DrawEngine.codeAt xmin ymin xmax ymax x0 y0 &&&
      DrawEngine.codeAt xmin ymin xmax ymax x1 y1) ≠ 0

instance (xmin ymin xmax ymax : Int) (x0 y0 x1 y1 : ℚ) :
    Decidable (DrawEngine.ClipDone xmin ymin xmax ymax x0 y0 x1 y1) := by
  unfold DrawEngine.ClipDone; infer_instance

/-- An overshoot is possible: the second endpoint violates the window on an
axis on which the first endpoint is not exactly inside the window. -/
def DrawEngine.ClipLoose (xmin ymin xmax ymax : Int) (x0 y0 x1 y1 : ℚ) : Prop :=
  ((cround x1 < xmin ∨ xmax < cround x1) ∧ ¬((xmin : ℚ) ≤ x0 ∧ x0 ≤ (xmax : ℚ))) ∨
    ((cround y1 < ymin ∨ ymax < cround y1) ∧ ¬((ymin : ℚ) ≤ y0 ∧ y0 ≤ (ymax : ℚ)))

instance (xmin ymin xmax ymax : Int) (x0 y0 x1 y1 : ℚ) :
    Decidable (DrawEngine.ClipLoose xmin ymin xmax ymax x0 y0 x1 y1) := by
  unfold DrawEngine.ClipLoose; infer_instance

/-- A bound on the number of iterations that the loop of `cohenSutherlandClip`
still makes from the state `(x0, y0, x1, y1)`. -/
def DrawEngine.clipMeasure (xmin ymin xmax ymax : Int) (x0 y0 x1 y1 : ℚ) : Nat :=
  if DrawEngine.ClipDone xmin ymin xmax ymax x0 y0 x1 y1 then 0
  else if DrawEngine.codeAt xmin ymin xmax ymax x0 y0 ≠ 0 then
    DrawEngine.outAxes xmin ymin xmax ymax x0 y0 +
      2 * DrawEngine.outAxes xmin ymin xmax ymax x1 y1 + 1
  else
    2 * DrawEngine.outAxes xmin ymin xmax ymax x1 y1 +
      (if DrawEngine.ClipLoose xmin ymin xmax ymax x0 y0 x1 y1 then 1 else 0)

/-- What the loop of `cohenSutherlandClip` maintains: while the first endpoint
is outside, the second one still has its integer coordinates; once the first
endpoint is inside, it lies exactly between the window bounds on one axis. -/
def DrawEngine.ClipInv (xmin ymin xmax ymax : Int) (x0 y0 x1 y1 : ℚ) : Prop :=
  (DrawEngine.codeAt xmin ymin xmax ymax x0 y0 ≠ 0 →
    ((cround x1 : Int) : ℚ) = x1 ∧ ((cround y1 : Int) : ℚ) = y1) ∧
  (DrawEngine.codeAt xmin ymin xmax ymax x0 y0 = 0 →
    ((xmin : ℚ) ≤ x0 ∧ x0 ≤ (xmax : ℚ)) ∨ ((ymin : ℚ) ≤ y0 ∧ y0 ≤ (ymax : ℚ)))

/-- The edge `i` of the polygon, from vertex `i` to vertex `(i + 1) mod n`,
meets the row `y` in the half-open sense of the fill: `ymin ≤ y < ymax`. -/
def PolygonShape.crosses (vs : List Point) (y : Int) (i : Nat) : Bool :=
  decide (min (vs.getD i (0, 0)).2 (vs.getD ((i + 1) % vs.length) (0, 0)).2 ≤ y ∧
    y < max (vs.getD i (0, 0)).2 (vs.getD ((i + 1) % vs.length) (0, 0)).2)

/-- The record that the fill holds for the edge `i` on the row `y`: its
abscissa is that of the point of the edge's line on this row. -/
def PolygonShape.edgeOn (vs : List Point) (y : Int) (i : Nat) : PolygonShape.Edge :=
  let p1 := vs.getD i (0, 0)
  let p2 := vs.getD ((i + 1) % vs.length) (0, 0)
  let inv : ℚ := ((p2.1 - p1.1 : Int) : ℚ) / ((p2.2 - p1.2 : Int) : ℚ)
  ⟨max p1.2 p2.2,
    (if p1.2 < p2.2 then (p1.1 : ℚ) else (p2.1 : ℚ)) +
      ((y : ℚ) - ((min p1.2 p2.2 : Int) : ℚ)) * inv, inv⟩

/-- The abscissas at which the edges of the polygon cross the row `y`. -/
def PolygonShape.crossings (vs : List Point) (y : Int) : List ℚ :=
  ((List.range vs.length).filter (PolygonShape.crosses vs y)).map
    (fun i => (PolygonShape.edgeOn vs y i).x)

/-- The integer `x` lies in one of the spans `[⌈a⌉, ⌊b⌋]` of the consecutive
pairs `(a, b)` of the list. -/
def PolygonShape.spanCover : List ℚ → Int → Prop
  | a :: b :: rest, x => (⌈a⌉ ≤ x ∧ x ≤ ⌊b⌋) ∨ PolygonShape.spanCover rest x
  | _, _ => False

/-- The abscissas of `crossings`, in increasing order. -/
def PolygonShape.sortedCrossings (vs : List Point) (y : Int) : List ℚ :=
  (PolygonShape.crossings vs y).insertionSort (fun a b => a ≤ b)

/-- The side of the directed line from `a` to `b` on which the point `(t, y)`
lies: positive on one side, negative on the other, zero on the line. -/
def PolygonShape.side (a b : Point) (t y : ℚ) : ℚ :=
  ((b.1 : ℚ) - a.1) * (y - a.2) - ((b.2 : ℚ) - a.2) * (t - a.1)

/-- The value of `side` at a vertex, as an integer. -/
def PolygonShape.sideInt (a b c : Point) : Int :=
  (b.1 - a.1) * (c.2 - a.2) - (b.2 - a.2) * (c.1 - a.1)

/-- The vertex list is a strictly convex polygon of orientation `s`: every
vertex other than the two ends of an edge lies strictly on the inner side of
the line of that edge. -/
def PolygonShape.StrictlyConvex (s : Int) (vs : List Point) : Prop :=
  3 ≤ vs.length ∧ (s = 1 ∨ s = -1) ∧
    ∀ i, i < vs.length → ∀ k, k < vs.length → k ≠ i → k ≠ (i + 1) % vs.length →
      0 < s * PolygonShape.sideInt (vs.getD i (0, 0)) (vs.getD ((i + 1) % vs.length) (0, 0))
        (vs.getD k (0, 0))

instance (s : Int) (vs : List Point) : Decidable (PolygonShape.StrictlyConvex s vs) := by
  unfold PolygonShape.StrictlyConvex; infer_instance

/-- The point `(t, y)` lies in the closed convex polygon: on the inner side of
the line of every edge, or on the line. -/
def PolygonShape.insidePolygon (s : Int) (vs : List Point) (t y : ℚ) : Prop :=
  ∀ i, i < vs.length →
    0 ≤ (s : ℚ) * PolygonShape.side (vs.getD i (0, 0)) (vs.getD ((i + 1) % vs.length) (0, 0)) t y

/-! ## Theorems -/

namespace DrawEngine

theorem index_bounds {canvas : Canvas} {x y : Int} (h : inBounds canvas x y) :
    0 ≤ index canvas.width x y ∧
      (index canvas.width x y).toNat < canvas.width * canvas.height := by
  obtain ⟨h1, h2, h3, h4⟩ := h
  unfold index
  have hyw : 0 ≤ y * (canvas.width : Int) := mul_nonneg h2 (by omega)
  refine ⟨by omega, ?_⟩
  have h5 : y + 1 ≤ (canvas.height : Int) := by omega
  have h6 : (y + 1) * (canvas.width : Int) ≤ (canvas.height : Int) * canvas.width :=
    mul_le_mul_of_nonneg_right h5 (by omega)
  have h7 : y * (canvas.width : Int) + x < (canvas.width : Int) * canvas.height := by
    nlinarith
  have h8 : ((canvas.width * canvas.height : Nat) : Int) =
      (canvas.width : Int) * canvas.height := by push_cast; ring
  omega

theorem index_inj {canvas : Canvas} {x y a b : Int} (h : inBounds canvas x y)
    (g : inBounds canvas a b) (e : index canvas.width x y = index canvas.width a b) :
    x = a ∧ y = b := by
  obtain ⟨h1, h2, h3, h4⟩ := h
  obtain ⟨g1, g2, g3, g4⟩ := g
  unfold index at e
  have hw : (0 : Int) < canvas.width := by omega
  have hx : (y * (canvas.width : Int) + x) % canvas.width = x := by
    rw [add_comm, Int.add_mul_emod_self]; exact Int.emod_eq_of_lt h1 h3
  have ha : (b * (canvas.width : Int) + a) % canvas.width = a := by
    rw [add_comm, Int.add_mul_emod_self]; exact Int.emod_eq_of_lt g1 g3
  have hxa : x = a := by rw [← hx, ← ha, e]
  subst hxa
  refine ⟨rfl, ?_⟩
  have : y * (canvas.width : Int) = b * canvas.width := by omega
  exact Int.eq_of_mul_eq_mul_right (by omega) this

theorem visitedAt_mark {canvas : Canvas} {visited : List Bool} {x y a b : Int}
    (hlen : visited.length = canvas.width * canvas.height)
    (h : inBounds canvas x y) (g : inBounds canvas a b) :
    visitedAt (markVisited visited (index canvas.width x y)) (index canvas.width a b) =
      if a = x ∧ b = y then true else visitedAt visited (index canvas.width a b) := by
  obtain ⟨i0, i1⟩ := index_bounds h
  obtain ⟨j0, j1⟩ := index_bounds g
  unfold visitedAt markVisited
  rw [List.getD_eq_getElem?_getD, List.getD_eq_getElem?_getD, List.getElem?_set]
  by_cases e : a = x ∧ b = y
  · obtain ⟨rfl, rfl⟩ := e
    simp [hlen, i1]
  · have hne : (index canvas.width x y).toNat ≠ (index canvas.width a b).toNat := by
      intro he
      have : index canvas.width x y = index canvas.width a b := by omega
      obtain ⟨r1, r2⟩ := index_inj h g this
      exact e ⟨r1.symm, r2.symm⟩
    simp [hne, e]

theorem markVisited_length (visited : List Bool) (i : Int) :
    (markVisited visited i).length = visited.length := by
  simp [markVisited]

theorem scanLeft_spec (canvas : Canvas) (visited : List Bool) (target : Color) (y : Int) :
    ∀ (n : Nat) (x : Int), 0 ≤ x → x ≤ n →
      0 ≤ scanLeft canvas visited target y n x ∧ scanLeft canvas visited target y n x ≤ x ∧
      (∀ k, scanLeft canvas visited target y n x ≤ k → k < x → Free canvas target visited k y) ∧
      (scanLeft canvas visited target y n x = 0 ∨
        ¬Free canvas target visited (scanLeft canvas visited target y n x - 1) y) := by
  intro n
  induction n with
  | zero =>
    intro x h0 hn
    have : x = 0 := by simp at hn; omega
    subst this
    rw [scanLeft]
    exact ⟨le_refl _, le_refl _, fun k h1 h2 => by omega, Or.inl rfl⟩
  | succ n ih =>
    intro x h0 hn
    rw [scanLeft]
    split_ifs with hc
    · obtain ⟨r0, r1, r2, r3⟩ := ih (x - 1) (by omega) (by push_cast at hn; omega)
      refine ⟨r0, by omega, ?_, r3⟩
      intro k hk1 hk2
      by_cases hk : k < x - 1
      · exact r2 k hk1 hk
      · have : k = x - 1 := by omega
        subst this
        exact ⟨hc.2.1, hc.2.2⟩
    · refine ⟨h0, le_refl _, fun k h1 h2 => by omega, ?_⟩
      by_cases hx : x = 0
      · exact Or.inl hx
      · right
        intro hfree
        exact hc ⟨by omega, hfree.1, hfree.2⟩

theorem scanRight_spec (canvas : Canvas) (visited : List Bool) (target : Color) (y : Int) :
    ∀ (n : Nat) (x : Int), x < canvas.width → (canvas.width : Int) - 1 - x ≤ n →
      x ≤ scanRight canvas visited target y n x ∧
      scanRight canvas visited target y n x < canvas.width ∧
      (∀ k, x < k → k ≤ scanRight canvas visited target y n x → Free canvas target visited k y) ∧
      (scanRight canvas visited target y n x + 1 = canvas.width ∨
        ¬Free canvas target visited (scanRight canvas visited target y n x + 1) y) := by
  intro n
  induction n with
  | zero =>
    intro x h0 hn
    have : x + 1 = canvas.width := by simp at hn; omega
    rw [scanRight]
    exact ⟨le_refl _, h0, fun k h1 h2 => by omega, Or.inl this⟩
  | succ n ih =>
    intro x h0 hn
    rw [scanRight]
    split_ifs with hc
    · obtain ⟨r0, r1, r2, r3⟩ := ih (x + 1) hc.1 (by push_cast at hn; omega)
      refine ⟨by omega, r1, ?_, r3⟩
      intro k hk1 hk2
      by_cases hk : x + 1 < k
      · exact r2 k hk hk2
      · have : k = x + 1 := by omega
        subst this
        exact ⟨hc.2.1, hc.2.2⟩
    · refine ⟨le_refl _, h0, fun k h1 h2 => by omega, ?_⟩
      by_cases hx : x + 1 = canvas.width
      · exact Or.inl hx
      · right
        intro hfree
        exact hc ⟨by omega, hfree.1, hfree.2⟩

theorem spanList_succ (xi y : Int) (n : Nat) :
    spanList xi y (n + 1) = (xi, y) :: spanList (xi + 1) y n := by
  unfold spanList
  rw [List.range_succ_eq_map, List.map_cons, List.map_map]
  simp only [Nat.cast_zero, add_zero, List.cons.injEq, true_and]
  apply List.map_congr_left
  intro k _
  simp only [Function.comp, Nat.cast_succ, Prod.mk.injEq, and_true]
  ring

theorem mem_spanList {xi y : Int} {n : Nat} {p : Point} :
    p ∈ spanList xi y n ↔ p.2 = y ∧ xi ≤ p.1 ∧ p.1 < xi + n := by
  unfold spanList
  simp only [List.mem_map, List.mem_range]
  constructor
  · rintro ⟨k, hk, rfl⟩
    exact ⟨rfl, by simp, by simp; omega⟩
  · rintro ⟨h1, h2, h3⟩
    refine ⟨(p.1 - xi).toNat, by omega, ?_⟩
    ext
    · simp; omega
    · exact h1.symm

theorem spanList_nodup (xi y : Int) (n : Nat) : (spanList xi y n).Nodup := by
  unfold spanList
  apply List.Nodup.map _ (List.nodup_range n)
  intro a b h
  simp only [Prod.mk.injEq, and_true] at h
  omega

theorem markSpan_spec (canvas : Canvas) (y xr : Int) (hy : 0 ≤ y ∧ y < canvas.height)
    (hxr : xr < canvas.width) :
    ∀ (n : Nat) (xi : Int) (visited : List Bool) (filled : List Point), 0 ≤ xi →
      xr - xi + 1 = n → visited.length = canvas.width * canvas.height →
      (markSpan canvas.width y xr n xi visited filled).1.length = visited.length ∧
      (markSpan canvas.width y xr n xi visited filled).2 = filled ++ spanList xi y n ∧
      ∀ a b, inBounds canvas a b →
        visitedAt (markSpan canvas.width y xr n xi visited filled).1 (index canvas.width a b) =
          if b = y ∧ xi ≤ a ∧ a ≤ xr then true
          else visitedAt visited (index canvas.width a b) := by
  intro n
  induction n with
  | zero =>
    intro xi visited filled h0 hn hlen
    refine ⟨rfl, by simp [markSpan, spanList], ?_⟩
    intro a b hab
    have : ¬(b = y ∧ xi ≤ a ∧ a ≤ xr) := by simp at hn; omega
    simp [markSpan, this]
  | succ n ih =>
    intro xi visited filled h0 hn hlen
    have hle : xi ≤ xr := by push_cast at hn; omega
    have hin : inBounds canvas xi y := ⟨h0, hy.1, by omega, hy.2⟩
    obtain ⟨r1, r2, r3⟩ := ih (xi + 1) (markVisited visited (index canvas.width xi y))
      (filled ++ [(xi, y)]) (by omega) (by push_cast at hn; omega)
      (by rw [markVisited_length]; exact hlen)
    rw [markSpan, if_pos hle]
    refine ⟨by rw [r1, markVisited_length], ?_, ?_⟩
    · rw [r2, spanList_succ]; simp
    · intro a b hab
      rw [r3 a b hab, visitedAt_mark hlen hin hab]
      by_cases hb : b = y
      · by_cases ha : a = xi
        · subst ha hb
          simp [hle]
        · by_cases ha2 : xi + 1 ≤ a ∧ a ≤ xr
          · have : xi ≤ a ∧ a ≤ xr := by omega
            simp [hb, ha2, this]
          · have : ¬(xi ≤ a ∧ a ≤ xr) := by omega
            simp [hb, ha2, this, ha]
      · simp [hb]

theorem not_free_iff (canvas : Canvas) (target : Color) (visited : List Bool) (x y : Int) :
    (visitedAt visited (index canvas.width x y) = true ∨ canvas.pixelColor x y ≠ target) ↔
      ¬Free canvas target visited x y := by
  unfold Free
  cases visitedAt visited (index canvas.width x y) <;> simp

theorem skipBlocked_spec (canvas : Canvas) (visited : List Bool) (target : Color)
    (row xr : Int) :
    ∀ (n : Nat) (xi : Int), xr - xi + 1 ≤ n →
      xi ≤ skipBlocked canvas visited target row xr n xi ∧
      (∀ k, xi ≤ k → k < skipBlocked canvas visited target row xr n xi →
        ¬Free canvas target visited k row) ∧
      (skipBlocked canvas visited target row xr n xi ≤ xr →
        Free canvas target visited (skipBlocked canvas visited target row xr n xi) row) := by
  intro n
  induction n with
  | zero =>
    intro xi hn
    rw [skipBlocked]
    exact ⟨le_refl _, fun k h1 h2 => by omega, fun h => by simp at hn; omega⟩
  | succ n ih =>
    intro xi hn
    rw [skipBlocked]
    split_ifs with hc
    · obtain ⟨r0, r1, r2⟩ := ih (xi + 1) (by push_cast at hn; omega)
      refine ⟨by omega, ?_, r2⟩
      intro k hk1 hk2
      by_cases hk : xi + 1 ≤ k
      · exact r1 k hk hk2
      · have : k = xi := by omega
        subst this
        exact (not_free_iff _ _ _ _ _).mp hc.2
    · refine ⟨le_refl _, fun k h1 h2 => by omega, ?_⟩
      intro hle
      by_contra hfree
      exact hc ⟨hle, (not_free_iff _ _ _ _ _).mpr hfree⟩

theorem skipOpen_spec (canvas : Canvas) (visited : List Bool) (target : Color)
    (row xr : Int) :
    ∀ (n : Nat) (xi : Int), xr - xi + 1 ≤ n →
      xi ≤ skipOpen canvas visited target row xr n xi ∧
      (∀ k, xi ≤ k → k < skipOpen canvas visited target row xr n xi →
        Free canvas target visited k row) ∧
      (skipOpen canvas visited target row xr n xi ≤ xr →
        ¬Free canvas target visited (skipOpen canvas visited target row xr n xi) row) := by
  intro n
  induction n with
  | zero =>
    intro xi hn
    rw [skipOpen]
    exact ⟨le_refl _, fun k h1 h2 => by omega, fun h => by simp at hn; omega⟩
  | succ n ih =>
    intro xi hn
    rw [skipOpen]
    split_ifs with hc
    · obtain ⟨r0, r1, r2⟩ := ih (xi + 1) (by push_cast at hn; omega)
      refine ⟨by omega, ?_, r2⟩
      intro k hk1 hk2
      by_cases hk : xi + 1 ≤ k
      · exact r1 k hk hk2
      · have : k = xi := by omega
        subst this
        exact ⟨hc.2.1, hc.2.2⟩
    · refine ⟨le_refl _, fun k h1 h2 => by omega, ?_⟩
      intro hle hfree
      exact hc ⟨hle, hfree.1, hfree.2⟩

theorem scanRow_spec (canvas : Canvas) (visited : List Bool) (target : Color)
    (row xr : Int) :
    ∀ (n : Nat) (xi : Int) (st : List Point), xr - xi + 1 ≤ n →
      ∃ pushes : List Point,
        scanRow canvas visited target row xr n xi st = pushes ++ st ∧
        (pushes.length : Int) ≤ max (xr - xi + 1) 0 ∧
        (∀ p ∈ pushes, p.2 = row ∧ xi ≤ p.1 ∧ p.1 ≤ xr ∧ Free canvas target visited p.1 row) ∧
        (∀ k, xi ≤ k → k ≤ xr → Free canvas target visited k row →
          ∃ p ∈ pushes, p.2 = row ∧ p.1 ≤ k ∧
            ∀ j, p.1 ≤ j → j ≤ k → Free canvas target visited j row) := by
  intro n
  induction n with
  | zero =>
    intro xi st hn
    refine ⟨[], by rw [scanRow]; rfl, by simp, by simp, ?_⟩
    intro k h1 h2
    simp at hn
    omega
  | succ n ih =>
    intro xi st hn
    rw [scanRow]
    by_cases hle : xi ≤ xr
    · rw [if_pos hle]
      obtain ⟨b0, b1, b2⟩ := skipBlocked_spec canvas visited target row xr
        (xr - xi + 1).toNat xi (by omega)
      simp only
      by_cases hgt : skipBlocked canvas visited target row xr (xr - xi + 1).toNat xi > xr
      · rw [if_pos hgt]
        refine ⟨[], rfl, by simp, by simp, ?_⟩
        intro k h1 h2 hfree
        exact absurd hfree (b1 k h1 (by omega))
      · rw [if_neg hgt]
        generalize skipBlocked canvas visited target row xr (xr - xi + 1).toNat xi = xi1
          at b0 b1 b2 hgt
        have hfree1 := b2 (by omega)
        obtain ⟨o0, o1, o2⟩ := skipOpen_spec canvas visited target row xr
          (xr - xi1 + 1).toNat xi1 (by omega)
        generalize skipOpen canvas visited target row xr (xr - xi1 + 1).toNat xi1 = xi2
          at o0 o1 o2
        have hlt : xi1 < xi2 := by
          by_contra hnot
          have : xi2 = xi1 := by omega
          subst this
          exact o2 (by omega) hfree1
        obtain ⟨pushes, e, plen, pmem, pcov⟩ := ih xi2 ((xi1, row) :: st)
          (by push_cast at hn; omega)
        refine ⟨pushes ++ [(xi1, row)], by rw [e]; simp, ?_, ?_, ?_⟩
        · rw [List.length_append]
          push_cast
          simp only [List.length_singleton, Nat.cast_one]
          have := le_max_right (xr - xi + 1) 0
          rcases max_cases (xr - xi2 + 1) 0 with ⟨hm, -⟩ | ⟨hm, -⟩ <;>
            rcases max_cases (xr - xi + 1) 0 with ⟨hm2, -⟩ | ⟨hm2, -⟩ <;> omega
        · intro p hp
          rw [List.mem_append, List.mem_singleton] at hp
          rcases hp with hp | rfl
          · obtain ⟨q1, q2, q3, q4⟩ := pmem p hp
            exact ⟨q1, by omega, q3, q4⟩
          · exact ⟨rfl, b0, by omega, hfree1⟩
        · intro k h1 h2 hfree
          by_cases hk1 : k < xi1
          · exact absurd hfree (b1 k h1 hk1)
          · by_cases hk2 : k < xi2
            · exact ⟨(xi1, row), by simp, rfl, by simp; omega,
                fun j hj1 hj2 => o1 j hj1 (by omega)⟩
            · obtain ⟨p, hp, q⟩ := pcov k (by omega) h2 hfree
              exact ⟨p, by simp [hp], q⟩
    · rw [if_neg hle]
      refine ⟨[], rfl, by simp, by simp, ?_⟩
      intro k h1 h2
      omega

theorem Region.inBounds {canvas : Canvas} {target : Color} {seed p : Point}
    (h : Region canvas target seed p) : inBounds canvas p.1 p.2 := by
  cases h with
  | seed h1 h2 => exact h1
  | step p q h1 h2 h3 h4 => exact h3

theorem Region.color {canvas : Canvas} {target : Color} {seed p : Point}
    (h : Region canvas target seed p) : canvas.pixelColor p.1 p.2 = target := by
  cases h with
  | seed h1 h2 => exact h2
  | step p q h1 h2 h3 h4 => exact h4

theorem region_right {canvas : Canvas} {target : Color} {seed : Point} {x y : Int}
    (h : Region canvas target seed (x, y)) :
    ∀ n : Nat, (∀ k, x ≤ k → k ≤ x + n →
        DrawEngine.inBounds canvas k y ∧ canvas.pixelColor k y = target) →
      Region canvas target seed (x + n, y) := by
  intro n
  induction n with
  | zero => intro _; simpa using h
  | succ n ih =>
    intro hk
    have := ih (fun k h1 h2 => hk k h1 (by push_cast; omega))
    obtain ⟨b, c⟩ := hk (x + (n + 1 : Nat)) (by omega) (le_refl _)
    refine Region.step _ _ this (Or.inr ⟨rfl, Or.inl ?_⟩) b c
    push_cast; ring

theorem region_left {canvas : Canvas} {target : Color} {seed : Point} {x y : Int}
    (h : Region canvas target seed (x, y)) :
    ∀ n : Nat, (∀ k, x - n ≤ k → k ≤ x →
        DrawEngine.inBounds canvas k y ∧ canvas.pixelColor k y = target) →
      Region canvas target seed (x - n, y) := by
  intro n
  induction n with
  | zero => intro _; simpa using h
  | succ n ih =>
    intro hk
    have := ih (fun k h1 h2 => hk k (by push_cast; omega) h2)
    obtain ⟨b, c⟩ := hk (x - (n + 1 : Nat)) (le_refl _) (by omega)
    refine Region.step _ _ this (Or.inr ⟨rfl, Or.inr ?_⟩) b c
    push_cast; ring

theorem region_row {canvas : Canvas} {target : Color} {seed : Point} {x y a : Int}
    (h : Region canvas target seed (x, y))
    (hk : ∀ k, min x a ≤ k → k ≤ max x a →
      DrawEngine.inBounds canvas k y ∧ canvas.pixelColor k y = target) :
    Region canvas target seed (a, y) := by
  by_cases hle : x ≤ a
  · have := region_right h (a - x).toNat (fun k h1 h2 =>
      hk k (by rw [min_eq_left hle]; exact h1) (by rw [max_eq_right hle]; omega))
    have e : x + ((a - x).toNat : Int) = a := by omega
    rwa [e] at this
  · have hle2 : a ≤ x := by omega
    have := region_left h (x - a).toNat (fun k h1 h2 =>
      hk k (by rw [min_eq_right hle2]; omega) (by rw [max_eq_left hle2]; exact h2))
    have e : x - ((x - a).toNat : Int) = a := by omega
    rwa [e] at this

theorem region_up {canvas : Canvas} {target : Color} {seed : Point} {x y : Int}
    (h : Region canvas target seed (x, y)) :
    ∀ n : Nat, (∀ k, y ≤ k → k ≤ y + n →
        DrawEngine.inBounds canvas x k ∧ canvas.pixelColor x k = target) →
      Region canvas target seed (x, y + n) := by
  intro n
  induction n with
  | zero => intro _; simpa using h
  | succ n ih =>
    intro hk
    have := ih (fun k h1 h2 => hk k h1 (by push_cast; omega))
    obtain ⟨b, c⟩ := hk (y + (n + 1 : Nat)) (by omega) (le_refl _)
    refine Region.step _ _ this (Or.inl ⟨rfl, Or.inl ?_⟩) b c
    push_cast; ring

theorem region_down {canvas : Canvas} {target : Color} {seed : Point} {x y : Int}
    (h : Region canvas target seed (x, y)) :
    ∀ n : Nat, (∀ k, y - n ≤ k → k ≤ y →
        DrawEngine.inBounds canvas x k ∧ canvas.pixelColor x k = target) →
      Region canvas target seed (x, y - n) := by
  intro n
  induction n with
  | zero => intro _; simpa using h
  | succ n ih =>
    intro hk
    have := ih (fun k h1 h2 => hk k (by push_cast; omega) h2)
    obtain ⟨b, c⟩ := hk (y - (n + 1 : Nat)) (le_refl _) (by omega)
    refine Region.step _ _ this (Or.inl ⟨rfl, Or.inr ?_⟩) b c
    push_cast; ring

theorem inv_skip {canvas : Canvas} {target : Color} {seed : Point} {visited : List Bool}
    {s0 : Point} {rest filled : List Point}
    (I : Inv canvas target seed visited (s0 :: rest) filled)
    (hs : ¬Free canvas target visited s0.1 s0.2) :
    Inv canvas target seed visited rest filled := by
  have key : ∀ q, Covered canvas target visited (s0 :: rest) q →
      Covered canvas target visited rest q := by
    rintro q ⟨s, hmem, h1, h2, h3⟩
    rcases List.mem_cons.mp hmem with rfl | hmem
    · exact absurd (h1 ▸ h3 s.1 (le_refl _) h2) hs
    · exact ⟨s, hmem, h1, h2, h3⟩
  exact
    { len := I.len
      seedIn := I.seedIn
      mem := I.mem
      nodup := I.nodup
      sound := I.sound
      stack := fun s hs => I.stack s (List.mem_cons_of_mem _ hs)
      closed := fun p hp q h1 h2 h3 => (I.closed p hp q h1 h2 h3).imp id (key q)
      seeded := I.seeded.imp id (key seed) }

theorem inv_process {canvas : Canvas} {target : Color} {seed : Point}
    {visited visited2 : List Bool} {x y xl xr : Int} {n : Nat}
    {rest filled pushes : List Point}
    (I : Inv canvas target seed visited ((x, y) :: rest) filled)
    (hx : xl ≤ x ∧ x ≤ xr) (h0 : 0 ≤ xl) (hw : xr < canvas.width)
    (hspan : ∀ k, xl ≤ k → k ≤ xr → Free canvas target visited k y)
    (hleft : xl = 0 ∨ ¬Free canvas target visited (xl - 1) y)
    (hright : xr + 1 = canvas.width ∨ ¬Free canvas target visited (xr + 1) y)
    (hn : xr - xl + 1 = n)
    (hlen2 : visited2.length = visited.length)
    (hv2 : ∀ a b, inBounds canvas a b →
      visitedAt visited2 (index canvas.width a b) =
        if b = y ∧ xl ≤ a ∧ a ≤ xr then true else visitedAt visited (index canvas.width a b))
    (hP : ∀ p ∈ pushes, (p.2 = y - 1 ∨ p.2 = y + 1) ∧ 0 ≤ p.2 ∧ p.2 < canvas.height ∧
      xl ≤ p.1 ∧ p.1 ≤ xr ∧ Free canvas target visited2 p.1 p.2)
    (hPc : ∀ k r, (r = y - 1 ∨ r = y + 1) → 0 ≤ r → r < canvas.height → xl ≤ k → k ≤ xr →
      Free canvas target visited2 k r →
      ∃ p ∈ pushes, p.2 = r ∧ p.1 ≤ k ∧ ∀ j, p.1 ≤ j → j ≤ k → Free canvas target visited2 j r) :
    Inv canvas target seed visited2 (pushes ++ rest) (filled ++ spanList xl y n) := by
  have hxy : Region canvas target seed (x, y) := I.stack _ (List.mem_cons_self _ _)
  obtain ⟨-, hy0, -, hy1⟩ := hxy.inBounds
  simp only at hy0 hy1
  have hmemS : ∀ p : Point, p ∈ spanList xl y n ↔ p.2 = y ∧ xl ≤ p.1 ∧ p.1 ≤ xr := by
    intro p
    rw [mem_spanList]
    constructor
    · rintro ⟨a, b, c⟩; exact ⟨a, b, by omega⟩
    · rintro ⟨a, b, c⟩; exact ⟨a, b, by omega⟩
  have hSin : ∀ p : Point, p ∈ spanList xl y n → inBounds canvas p.1 p.2 := by
    intro p hp
    obtain ⟨a, b, c⟩ := (hmemS p).mp hp
    exact ⟨by omega, by omega, by omega, by omega⟩
  have hfree2 : ∀ a b, inBounds canvas a b → Free canvas target visited a b →
      ¬(b = y ∧ xl ≤ a ∧ a ≤ xr) → Free canvas target visited2 a b := by
    intro a b hab hf hns
    refine ⟨?_, hf.2⟩
    rw [hv2 a b hab, if_neg hns]
    exact hf.1
  -- membership in the new list of filled pixels
  have hmem2 : ∀ p : Point, p ∈ filled ++ spanList xl y n ↔
      inBounds canvas p.1 p.2 ∧ visitedAt visited2 (index canvas.width p.1 p.2) = true := by
    intro p
    rw [List.mem_append]
    constructor
    · rintro (hp | hp)
      · obtain ⟨a, b⟩ := (I.mem p).mp hp
        refine ⟨a, ?_⟩
        rw [hv2 _ _ a]
        split_ifs
        · rfl
        · exact b
      · refine ⟨hSin p hp, ?_⟩
        rw [hv2 _ _ (hSin p hp), if_pos ((hmemS p).mp hp)]
    · rintro ⟨a, b⟩
      rw [hv2 _ _ a] at b
      by_cases hs : p.2 = y ∧ xl ≤ p.1 ∧ p.1 ≤ xr
      · exact Or.inr ((hmemS p).mpr hs)
      · rw [if_neg hs] at b
        exact Or.inl ((I.mem p).mpr ⟨a, b⟩)
  have hsoundS : ∀ p : Point, p ∈ spanList xl y n → Region canvas target seed p := by
    intro p hp
    obtain ⟨a, b, c⟩ := (hmemS p).mp hp
    have : Region canvas target seed (p.1, y) := by
      apply region_row hxy
      intro k hk1 hk2
      have hk3 : xl ≤ k := by
        rcases min_cases x p.1 with ⟨e, -⟩ | ⟨e, -⟩ <;> omega
      have hk4 : k ≤ xr := by
        rcases max_cases x p.1 with ⟨e, -⟩ | ⟨e, -⟩ <;> omega
      exact ⟨⟨by omega, hy0, by omega, hy1⟩, (hspan k hk3 hk4).2⟩
    have e : p = (p.1, y) := by rw [← a]
    rw [e]
    exact this
  -- a pixel that was waiting on the old stack is filled now or still waiting
  have key : ∀ q : Point, inBounds canvas q.1 q.2 →
      Covered canvas target visited ((x, y) :: rest) q →
      q ∈ spanList xl y n ∨ Covered canvas target visited2 (pushes ++ rest) q := by
    rintro q hq ⟨s, hmem, h1, h2, h3⟩
    by_cases hA : q.2 = y ∧ s.1 ≤ xr ∧ xl ≤ q.1
    · left
      rw [hmemS]
      refine ⟨hA.1, hA.2.2, ?_⟩
      by_contra hgt
      have hf := h3 (xr + 1) (by omega) (by omega)
      rw [hA.1] at hf
      rcases hright with e | e
      · have := hq.2.2.1
        omega
      · exact e hf
    · right
      have hsne : s ≠ (x, y) := by
        rintro rfl
        exact hA ⟨h1.symm, hx.2, by simp only at h2; omega⟩
      have hsrest : s ∈ rest := by
        rcases List.mem_cons.mp hmem with e | e
        · exact absurd e hsne
        · exact e
      have hsin := (I.stack s hmem).inBounds
      refine ⟨s, List.mem_append_right _ hsrest, h1, h2, ?_⟩
      intro j hj1 hj2
      apply hfree2 j q.2 ⟨by have := hsin.1; omega, hq.2.1, by have := hq.2.2.1; omega,
        hq.2.2.2⟩ (h3 j hj1 hj2)
      rintro ⟨e1, e2, e3⟩
      exact hA ⟨e1, by omega, by omega⟩
  exact
    { len := by rw [hlen2]; exact I.len
      seedIn := I.seedIn
      mem := hmem2
      nodup := by
        refine List.Nodup.append I.nodup (spanList_nodup _ _ _) ?_
        intro p hp1 hp2
        obtain ⟨a, b, c⟩ := (hmemS p).mp hp2
        have hv := ((I.mem p).mp hp1).2
        have hf := (hspan p.1 b c).1
        rw [a] at hv
        rw [hv] at hf
        exact Bool.noConfusion hf
      sound := by
        intro p hp
        rcases List.mem_append.mp hp with hp | hp
        · exact I.sound p hp
        · exact hsoundS p hp
      stack := by
        intro s hs
        rcases List.mem_append.mp hs with hs | hs
        · obtain ⟨a, b, c, d, e, f⟩ := hP s hs
          have hb : Region canvas target seed (s.1, y) :=
            hsoundS (s.1, y) ((hmemS _).mpr ⟨rfl, d, e⟩)
          refine Region.step _ _ hb (Or.inl ⟨rfl, ?_⟩) ⟨by omega, b, by omega, c⟩ f.2
          rcases a with a | a
          · exact Or.inr a
          · exact Or.inl a
        · exact I.stack s (List.mem_cons_of_mem _ hs)
      closed := by
        intro p hp q hadj hq hcol
        rcases List.mem_append.mp hp with hp | hp
        · rcases I.closed p hp q hadj hq hcol with h | h
          · exact Or.inl (List.mem_append_left _ h)
          · rcases key q hq h with h | h
            · exact Or.inl (List.mem_append_right _ h)
            · exact Or.inr h
        · obtain ⟨a, b, c⟩ := (hmemS p).mp hp
          by_cases hvis : visitedAt visited2 (index canvas.width q.1 q.2) = true
          · exact Or.inl ((hmem2 q).mpr ⟨hq, hvis⟩)
          · have hfq : Free canvas target visited2 q.1 q.2 :=
              ⟨by simpa using hvis, hcol⟩
            have hnS : ¬(q.2 = y ∧ xl ≤ q.1 ∧ q.1 ≤ xr) := by
              intro hs
              apply hvis
              rw [hv2 _ _ hq, if_pos hs]
            have hvq : visitedAt visited (index canvas.width q.1 q.2) = false := by
              have := hfq.1
              rwa [hv2 _ _ hq, if_neg hnS] at this
            rcases hadj with ⟨e1, e2⟩ | ⟨e1, e2⟩
            · right
              have hr : q.2 = y - 1 ∨ q.2 = y + 1 := by omega
              obtain ⟨s, hs, g1, g2, g3⟩ := hPc q.1 q.2 hr hq.2.1 hq.2.2.2 (by omega)
                (by omega) hfq
              exact ⟨s, List.mem_append_left _ hs, g1, g2, g3⟩
            · exfalso
              rw [a] at e1
              have hfv : Free canvas target visited q.1 y := by
                rw [← e1]; exact ⟨hvq, hcol⟩
              have hcases : q.1 = xr + 1 ∨ q.1 = xl - 1 := by
                by_contra hne
                exact hnS ⟨e1, by omega, by omega⟩
              rcases hcases with e | e
              · rcases hright with r | r
                · have := hq.2.2.1
                  omega
                · rw [e] at hfv
                  exact r hfv
              · rcases hleft with r | r
                · have := hq.1
                  omega
                · rw [e] at hfv
                  exact r hfv
      seeded := by
        rcases I.seeded with h | h
        · exact Or.inl (List.mem_append_left _ h)
        · rcases key seed I.seedIn h with h | h
          · exact Or.inl (List.mem_append_right _ h)
          · exact Or.inr h }

theorem floodLoop_nil (canvas : Canvas) (target : Color) (fuel : Nat) (visited : List Bool)
    (filled : List Point) : floodLoop canvas target fuel visited [] filled = some filled := by
  cases fuel <;> rfl

theorem floodLoop_skip {canvas : Canvas} {target : Color} (fuel : Nat) {visited : List Bool}
    {x y : Int} (st filled : List Point) (hin : inBounds canvas x y)
    (h : ¬Free canvas target visited x y) :
    floodLoop canvas target (fuel + 1) visited ((x, y) :: st) filled =
      floodLoop canvas target fuel visited st filled := by
  rw [floodLoop]
  obtain ⟨h1, h2, h3, h4⟩ := hin
  have hb : ¬(x < 0 ∨ x ≥ canvas.width ∨ y < 0 ∨ y ≥ canvas.height) := by omega
  rw [if_neg hb]
  by_cases c1 : visitedAt visited (index canvas.width x y) = true
  · rw [if_pos c1]
  · rw [if_neg c1]
    by_cases c2 : canvas.pixelColor x y ≠ target
    · rw [if_pos c2]
    · exact absurd ⟨by simpa using c1, by simpa using c2⟩ h

theorem floodLoop_process {canvas : Canvas} {target : Color} (fuel : Nat)
    {visited : List Bool} {x y : Int} (st filled : List Point) (hin : inBounds canvas x y)
    (h : Free canvas target visited x y) :
    floodLoop canvas target (fuel + 1) visited ((x, y) :: st) filled =
      floodLoop canvas target fuel
        (markSpan canvas.width y
          (scanRight canvas visited target y ((canvas.width : Int) - 1 - x).toNat x)
          (scanRight canvas visited target y ((canvas.width : Int) - 1 - x).toNat x -
            scanLeft canvas visited target y x.toNat x + 1).toNat
          (scanLeft canvas visited target y x.toNat x) visited filled).1
        (pushRows canvas target
          (markSpan canvas.width y
            (scanRight canvas visited target y ((canvas.width : Int) - 1 - x).toNat x)
            (scanRight canvas visited target y ((canvas.width : Int) - 1 - x).toNat x -
              scanLeft canvas visited target y x.toNat x + 1).toNat
            (scanLeft canvas visited target y x.toNat x) visited filled).1
          y (scanLeft canvas visited target y x.toNat x)
          (scanRight canvas visited target y ((canvas.width : Int) - 1 - x).toNat x) st)
        (markSpan canvas.width y
          (scanRight canvas visited target y ((canvas.width : Int) - 1 - x).toNat x)
          (scanRight canvas visited target y ((canvas.width : Int) - 1 - x).toNat x -
            scanLeft canvas visited target y x.toNat x + 1).toNat
          (scanLeft canvas visited target y x.toNat x) visited filled).2 := by
  rw [floodLoop]
  obtain ⟨h1, h2, h3, h4⟩ := hin
  have hb : ¬(x < 0 ∨ x ≥ canvas.width ∨ y < 0 ∨ y ≥ canvas.height) := by omega
  have hv : ¬(visitedAt visited (index canvas.width x y) = true) := by simp [h.1]
  have hc : ¬(canvas.pixelColor x y ≠ target) := by simp [h.2]
  rw [if_neg hb, if_neg hv, if_neg hc]
  rfl

theorem pushRows_spec (canvas : Canvas) (target : Color) (visited : List Bool)
    (y xl xr : Int) (st : List Point) (hle : xl ≤ xr) (hy : 0 ≤ y ∧ y < canvas.height) :
    ∃ pushes : List Point,
      pushRows canvas target visited y xl xr st = pushes ++ st ∧
      (pushes.length : Int) ≤ 2 * (xr - xl + 1) ∧
      (∀ p ∈ pushes, (p.2 = y - 1 ∨ p.2 = y + 1) ∧ 0 ≤ p.2 ∧ p.2 < canvas.height ∧
        xl ≤ p.1 ∧ p.1 ≤ xr ∧ Free canvas target visited p.1 p.2) ∧
      (∀ k r, (r = y - 1 ∨ r = y + 1) → 0 ≤ r → r < canvas.height → xl ≤ k → k ≤ xr →
        Free canvas target visited k r →
        ∃ p ∈ pushes, p.2 = r ∧ p.1 ≤ k ∧
          ∀ j, p.1 ≤ j → j ≤ k → Free canvas target visited j r) := by
  have hmax : max (xr - xl + 1) 0 = xr - xl + 1 := max_eq_left (by omega)
  -- the scan of row y - 1
  have hup : ∃ pu : List Point,
      (if y - 1 ≥ 0 then
          scanRow canvas visited target (y - 1) xr (xr - xl + 1).toNat xl st
        else st) = pu ++ st ∧
      (pu.length : Int) ≤ xr - xl + 1 ∧
      (∀ p ∈ pu, p.2 = y - 1 ∧ 0 ≤ y - 1 ∧ xl ≤ p.1 ∧ p.1 ≤ xr ∧
        Free canvas target visited p.1 (y - 1)) ∧
      (0 ≤ y - 1 → ∀ k, xl ≤ k → k ≤ xr → Free canvas target visited k (y - 1) →
        ∃ p ∈ pu, p.2 = y - 1 ∧ p.1 ≤ k ∧
          ∀ j, p.1 ≤ j → j ≤ k → Free canvas target visited j (y - 1)) := by
    by_cases hc : y - 1 ≥ 0
    · rw [if_pos hc]
      obtain ⟨pu, e, l, m, c⟩ := scanRow_spec canvas visited target (y - 1) xr
        (xr - xl + 1).toNat xl st (by omega)
      rw [hmax] at l
      exact ⟨pu, e, l, fun p hp => ⟨(m p hp).1, hc, (m p hp).2⟩, fun _ => c⟩
    · rw [if_neg hc]
      exact ⟨[], rfl, by simp; omega, by simp, fun h => absurd h hc⟩
  obtain ⟨pu, eu, lu, mu, cu⟩ := hup
  have hdown : ∃ pd : List Point,
      (if y + 1 < (canvas.height : Int) then
          scanRow canvas visited target (y + 1) xr (xr - xl + 1).toNat xl (pu ++ st)
        else pu ++ st) = pd ++ (pu ++ st) ∧
      (pd.length : Int) ≤ xr - xl + 1 ∧
      (∀ p ∈ pd, p.2 = y + 1 ∧ y + 1 < canvas.height ∧ xl ≤ p.1 ∧ p.1 ≤ xr ∧
        Free canvas target visited p.1 (y + 1)) ∧
      (y + 1 < canvas.height → ∀ k, xl ≤ k → k ≤ xr →
        Free canvas target visited k (y + 1) →
        ∃ p ∈ pd, p.2 = y + 1 ∧ p.1 ≤ k ∧
          ∀ j, p.1 ≤ j → j ≤ k → Free canvas target visited j (y + 1)) := by
    by_cases hc : y + 1 < (canvas.height : Int)
    · rw [if_pos hc]
      obtain ⟨pd, e, l, m, c⟩ := scanRow_spec canvas visited target (y + 1) xr
        (xr - xl + 1).toNat xl (pu ++ st) (by omega)
      rw [hmax] at l
      exact ⟨pd, e, l, fun p hp => ⟨(m p hp).1, hc, (m p hp).2⟩, fun _ => c⟩
    · rw [if_neg hc]
      exact ⟨[], rfl, by simp; omega, by simp, fun h => absurd h hc⟩
  obtain ⟨pd, ed, ld, md, cd⟩ := hdown
  refine ⟨pd ++ pu, ?_, ?_, ?_, ?_⟩
  · unfold pushRows
    simp only
    rw [eu, ed, List.append_assoc]
  · rw [List.length_append]; push_cast; omega
  · intro p hp
    rcases List.mem_append.mp hp with hp | hp
    · obtain ⟨a, b, c, d, e⟩ := md p hp
      rw [← a] at e
      exact ⟨Or.inr a, by omega, by omega, c, d, e⟩
    · obtain ⟨a, b, c, d, e⟩ := mu p hp
      rw [← a] at e
      exact ⟨Or.inl a, by omega, by omega, c, d, e⟩
  · intro k r hr h0 h1 hk1 hk2 hf
    rcases hr with rfl | rfl
    · obtain ⟨p, hp, q⟩ := cu h0 k hk1 hk2 hf
      exact ⟨p, List.mem_append_right _ hp, q⟩
    · obtain ⟨p, hp, q⟩ := cd h1 k hk1 hk2 hf
      exact ⟨p, List.mem_append_left _ hp, q⟩

theorem length_le_of_inBounds (canvas : Canvas) (l : List Point) (hn : l.Nodup)
    (h : ∀ p ∈ l, inBounds canvas p.1 p.2) : l.length ≤ canvas.width * canvas.height := by
  have hsub : l.toFinset ⊆
      Finset.Ico (0 : Int) canvas.width ×ˢ Finset.Ico (0 : Int) canvas.height := by
    intro p hp
    obtain ⟨a, b, c, d⟩ := h p (List.mem_toFinset.mp hp)
    simp only [Finset.mem_product, Finset.mem_Ico]
    exact ⟨⟨a, c⟩, ⟨b, d⟩⟩
  have := Finset.card_le_card hsub
  rw [List.toFinset_card_of_nodup hn, Finset.card_product, Int.card_Ico, Int.card_Ico] at this
  simpa using this

theorem length_eq_of_inBounds (canvas : Canvas) (l : List Point) (hn : l.Nodup)
    (h : ∀ p : Point, p ∈ l ↔ inBounds canvas p.1 p.2) :
    l.length = canvas.width * canvas.height := by
  have heq : l.toFinset =
      Finset.Ico (0 : Int) canvas.width ×ˢ Finset.Ico (0 : Int) canvas.height := by
    ext p
    simp only [List.mem_toFinset, Finset.mem_product, Finset.mem_Ico, h p, inBounds]
    tauto
  have := congrArg Finset.card heq
  rw [List.toFinset_card_of_nodup hn, Finset.card_product, Int.card_Ico, Int.card_Ico] at this
  simpa using this

theorem inv_final {canvas : Canvas} {target : Color} {seed : Point} {visited : List Bool}
    {filled : List Point} (I : Inv canvas target seed visited [] filled) :
    ∀ p : Point, p ∈ filled ↔ Region canvas target seed p := by
  have hcov : ∀ q, ¬Covered canvas target visited [] q := by
    rintro q ⟨s, hs, -⟩
    simp at hs
  intro p
  constructor
  · exact I.sound p
  · intro h
    induction h with
    | seed h1 h2 => exact I.seeded.resolve_right (hcov _)
    | step p q _ h2 h3 h4 ih => exact (I.closed p ih q h2 h3 h4).resolve_right (hcov _)

theorem floodLoop_spec (canvas : Canvas) (target : Color) (seed : Point) :
    ∀ (fuel : Nat) (visited : List Bool) (st filled : List Point),
      Inv canvas target seed visited st filled →
      st.length + 2 * (canvas.width * canvas.height - filled.length) < fuel →
      ∃ r, floodLoop canvas target fuel visited st filled = some r ∧ r.Nodup ∧
        ∀ p : Point, p ∈ r ↔ Region canvas target seed p := by
  intro fuel
  induction fuel with
  | zero => intro visited st filled _ h; omega
  | succ fuel ih =>
    intro visited st filled I hfuel
    cases st with
    | nil => exact ⟨filled, floodLoop_nil _ _ _ _ _, I.nodup, inv_final I⟩
    | cons s0 rest =>
      obtain ⟨x, y⟩ := s0
      have hxy : Region canvas target seed (x, y) := I.stack _ (List.mem_cons_self _ _)
      have hin : inBounds canvas x y := hxy.inBounds
      rw [List.length_cons] at hfuel
      by_cases hfree : Free canvas target visited x y
      · rw [floodLoop_process fuel rest filled hin hfree]
        obtain ⟨l0, l1, l2, l3⟩ := scanLeft_spec canvas visited target y x.toNat x hin.1
          (by omega)
        obtain ⟨r0, r1, r2, r3⟩ := scanRight_spec canvas visited target y
          ((canvas.width : Int) - 1 - x).toNat x hin.2.2.1 (by omega)
        generalize scanLeft canvas visited target y x.toNat x = xl at *
        generalize scanRight canvas visited target y ((canvas.width : Int) - 1 - x).toNat x
          = xr at *
        have hn : xr - xl + 1 = ((xr - xl + 1).toNat : Int) := by omega
        obtain ⟨m1, m2, m3⟩ := markSpan_spec canvas y xr ⟨hin.2.1, hin.2.2.2⟩ r1
          (xr - xl + 1).toNat xl visited filled l0 hn I.len
        generalize markSpan canvas.width y xr (xr - xl + 1).toNat xl visited filled = ms at *
        obtain ⟨visited2, filled2⟩ := ms
        simp only at m1 m2 m3 ⊢
        subst m2
        obtain ⟨pushes, pe, pl, pm, pc⟩ := pushRows_spec canvas target visited2 y xl xr rest
          (by omega) ⟨hin.2.1, hin.2.2.2⟩
        rw [pe]
        have hspan : ∀ k, xl ≤ k → k ≤ xr → Free canvas target visited k y := by
          intro k hk1 hk2
          by_cases e1 : k < x
          · exact l2 k hk1 e1
          · by_cases e2 : x < k
            · exact r2 k e2 hk2
            · have : k = x := by omega
              rw [this]; exact hfree
        have I2 := inv_process I ⟨l1, r0⟩ l0 r1 hspan l3 r3 hn m1 m3 pm pc
        have hbound := length_le_of_inBounds canvas _ I2.nodup
          (fun p hp => ((I2.mem p).mp hp).1)
        have hslen : (spanList xl y (xr - xl + 1).toNat).length = (xr - xl + 1).toNat := by
          simp [spanList]
        apply ih _ _ _ I2
        rw [List.length_append, hslen] at hbound
        rw [List.length_append, List.length_append, hslen]
        omega
      · rw [floodLoop_skip fuel rest filled hin hfree]
        exact ih _ _ _ (inv_skip I hfree) (by omega)

theorem visitedAt_replicate (n : Nat) (i : Int) :
    visitedAt (List.replicate n false) i = false := by
  unfold visitedAt
  rw [List.getD_eq_getElem?_getD]
  by_cases h : i.toNat < n
  · simp [List.getElem?_replicate, h]
  · simp [List.getElem?_replicate, h]

theorem inv_init (canvas : Canvas) (sx sy : Int) (hin : inBounds canvas sx sy) :
    Inv canvas (canvas.pixelColor sx sy) (sx, sy)
      (List.replicate (canvas.width * canvas.height) false) [(sx, sy)] [] :=
  { len := List.length_replicate _ _
    seedIn := hin
    mem := by
      intro p
      simp [visitedAt_replicate]
    nodup := List.nodup_nil
    sound := by simp
    stack := by
      intro s hs
      rw [List.mem_singleton] at hs
      subst hs
      exact Region.seed hin rfl
    closed := by simp
    seeded := by
      right
      refine ⟨(sx, sy), List.mem_singleton_self _, rfl, le_refl _, ?_⟩
      intro j h1 h2
      have : j = sx := le_antisymm h2 h1
      subst this
      exact ⟨visitedAt_replicate _ _, rfl⟩ }

theorem floodFillAddShape_spec (canvas : Canvas) (sx sy : Int) (fillColor : Color)
    (extra : Nat) (hin : inBounds canvas sx sy) (hne : canvas.pixelColor sx sy ≠ fillColor) :
    ∃ pixels, floodFillAddShape (2 * (canvas.width * canvas.height) + 2 + extra) canvas sx sy
        fillColor = some (canvas, some pixels) ∧ pixels.Nodup ∧
      ∀ p : Point, p ∈ pixels ↔ Region canvas (canvas.pixelColor sx sy) (sx, sy) p := by
  obtain ⟨r, hr, hnd, hmem⟩ := floodLoop_spec canvas (canvas.pixelColor sx sy) (sx, sy)
    (2 * (canvas.width * canvas.height) + 2 + extra) _ _ _ (inv_init canvas sx sy hin)
    (by simp; omega)
  refine ⟨r, ?_, hnd, hmem⟩
  obtain ⟨h1, h2, h3, h4⟩ := hin
  have hb : ¬(sx < 0 ∨ sy < 0 ∨ sx ≥ canvas.width ∨ sy ≥ canvas.height) := by omega
  have hseed : (sx, sy) ∈ r := (hmem _).mpr (Region.seed ⟨h1, h2, h3, h4⟩ rfl)
  have hemp : r.isEmpty = false := by
    cases r with
    | nil => simp at hseed
    | cons a l => rfl
  unfold floodFillAddShape
  simp only [hb, hne, if_false, hr, hemp]
  rfl

end DrawEngine

theorem RasterFillShape.draw_spec (color : Color) :
    ∀ (pixels : List Point) (canvas : Canvas),
      (RasterFillShape.draw pixels color canvas).width = canvas.width ∧
      (RasterFillShape.draw pixels color canvas).height = canvas.height ∧
      ∀ x y, (RasterFillShape.draw pixels color canvas).pixelColor x y =
        if (x, y) ∈ pixels ∧ DrawEngine.inBounds canvas x y then color
        else canvas.pixelColor x y := by
  intro pixels
  induction pixels with
  | nil => intro canvas; simp [RasterFillShape.draw]
  | cons p l ih =>
    intro canvas
    have hstep : RasterFillShape.draw (p :: l) color canvas =
        RasterFillShape.draw l color (DrawEngine.setPixel canvas p.1 p.2 color) := rfl
    rw [hstep]
    obtain ⟨i1, i2, i3⟩ := ih (DrawEngine.setPixel canvas p.1 p.2 color)
    by_cases hb : p.1 < 0 ∨ p.2 < 0 ∨ p.1 ≥ canvas.width ∨ p.2 ≥ canvas.height
    · have e : DrawEngine.setPixel canvas p.1 p.2 color = canvas := by
        unfold DrawEngine.setPixel; rw [if_pos hb]
      rw [e] at i1 i2 i3 ⊢
      refine ⟨i1, i2, ?_⟩
      intro x y
      rw [i3]
      by_cases hm : (x, y) ∈ l ∧ DrawEngine.inBounds canvas x y
      · rw [if_pos hm, if_pos ⟨List.mem_cons_of_mem _ hm.1, hm.2⟩]
      · rw [if_neg hm, if_neg]
        rintro ⟨hm1, hm2⟩
        rcases List.mem_cons.mp hm1 with e1 | e1
        · subst e1
          obtain ⟨a, b, c, d⟩ := hm2
          simp only at hb
          omega
        · exact hm ⟨e1, hm2⟩
    · have ew : (DrawEngine.setPixel canvas p.1 p.2 color).width = canvas.width := by
        unfold DrawEngine.setPixel; rw [if_neg hb]
      have eh : (DrawEngine.setPixel canvas p.1 p.2 color).height = canvas.height := by
        unfold DrawEngine.setPixel; rw [if_neg hb]
      have ep : ∀ x y, (DrawEngine.setPixel canvas p.1 p.2 color).pixelColor x y =
          if x = p.1 ∧ y = p.2 then color else canvas.pixelColor x y := by
        intro x y
        unfold DrawEngine.setPixel; rw [if_neg hb]
      have ein : ∀ x y, DrawEngine.inBounds (DrawEngine.setPixel canvas p.1 p.2 color) x y ↔
          DrawEngine.inBounds canvas x y := by
        intro x y
        unfold DrawEngine.inBounds
        rw [ew, eh]
      refine ⟨by rw [i1, ew], by rw [i2, eh], ?_⟩
      intro x y
      rw [i3, ep]
      have hpin : DrawEngine.inBounds canvas p.1 p.2 := by
        unfold DrawEngine.inBounds; omega
      by_cases hm : (x, y) ∈ l ∧ DrawEngine.inBounds canvas x y
      · rw [if_pos ⟨hm.1, (ein x y).mpr hm.2⟩, if_pos ⟨List.mem_cons_of_mem _ hm.1, hm.2⟩]
      · rw [if_neg (fun h => hm ⟨h.1, (ein x y).mp h.2⟩)]
        by_cases he : x = p.1 ∧ y = p.2
        · rw [if_pos he, if_pos]
          obtain ⟨rfl, rfl⟩ := he
          exact ⟨List.mem_cons_self _ _, hpin⟩
        · rw [if_neg he, if_neg]
          rintro ⟨hm1, hm2⟩
          rcases List.mem_cons.mp hm1 with e1 | e1
          · apply he
            rw [← e1]
            exact ⟨rfl, rfl⟩
          · exact hm ⟨e1, hm2⟩

/-- C1: for an in-bounds seed whose colour `target` differs from the fill
colour, `floodFillAddShape` returns exactly the 4-connected component of the
seed among the pixels of colour `target`: every returned pixel is in bounds,
has colour `target` and is reachable from the seed through such pixels, and
every such pixel is returned. Writing the result back with
`RasterFillShape::draw` gives every pixel of the component the fill colour
and leaves every other pixel as it was. -/
theorem DrawEngine.floodFillAddShape_component (canvas : Canvas) (sx sy : Int)
    (fillColor : Color) (extra : Nat) (hin : DrawEngine.inBounds canvas sx sy)
    (hne : canvas.pixelColor sx sy ≠ fillColor) :
    ∃ pixels,
      DrawEngine.floodFillAddShape (2 * (canvas.width * canvas.height) + 2 + extra) canvas
        sx sy fillColor = some (canvas, some pixels) ∧
      (∀ p ∈ pixels, DrawEngine.inBounds canvas p.1 p.2 ∧
        canvas.pixelColor p.1 p.2 = canvas.pixelColor sx sy ∧
        DrawEngine.Region canvas (canvas.pixelColor sx sy) (sx, sy) p) ∧
      (∀ p, DrawEngine.Region canvas (canvas.pixelColor sx sy) (sx, sy) p → p ∈ pixels) ∧
      (∀ x y, DrawEngine.Region canvas (canvas.pixelColor sx sy) (sx, sy) (x, y) →
        (RasterFillShape.draw pixels fillColor canvas).pixelColor x y = fillColor) ∧
      (∀ x y, ¬DrawEngine.Region canvas (canvas.pixelColor sx sy) (sx, sy) (x, y) →
        (RasterFillShape.draw pixels fillColor canvas).pixelColor x y =
          canvas.pixelColor x y) := by
  obtain ⟨pixels, he, -, hmem⟩ :=
    DrawEngine.floodFillAddShape_spec canvas sx sy fillColor extra hin hne
  obtain ⟨-, -, hd⟩ := RasterFillShape.draw_spec fillColor pixels canvas
  refine ⟨pixels, he, ?_, fun p hp => (hmem p).mpr hp, ?_, ?_⟩
  · intro p hp
    have := (hmem p).mp hp
    exact ⟨this.inBounds, this.color, this⟩
  · intro x y hr
    rw [hd, if_pos ⟨(hmem _).mpr hr, hr.inBounds⟩]
  · intro x y hr
    rw [hd, if_neg (fun h => hr ((hmem _).mp h.1))]

theorem DrawEngine.floodFillAddShape_component_witness :
    ∃ pixels,
      DrawEngine.floodFillAddShape (2 * (4 * 3) + 2 + 0) sampleCanvas 0 0 5
        = some (sampleCanvas, some pixels) ∧
      (∀ p ∈ pixels, DrawEngine.inBounds sampleCanvas p.1 p.2 ∧
        sampleCanvas.pixelColor p.1 p.2 = sampleCanvas.pixelColor 0 0 ∧
        DrawEngine.Region sampleCanvas (sampleCanvas.pixelColor 0 0) (0, 0) p) ∧
      (∀ p, DrawEngine.Region sampleCanvas (sampleCanvas.pixelColor 0 0) (0, 0) p →
        p ∈ pixels) ∧
      (∀ x y, DrawEngine.Region sampleCanvas (sampleCanvas.pixelColor 0 0) (0, 0) (x, y) →
        (RasterFillShape.draw pixels 5 sampleCanvas).pixelColor x y = 5) ∧
      (∀ x y, ¬DrawEngine.Region sampleCanvas (sampleCanvas.pixelColor 0 0) (0, 0) (x, y) →
        (RasterFillShape.draw pixels 5 sampleCanvas).pixelColor x y =
          sampleCanvas.pixelColor x y) :=
  DrawEngine.floodFillAddShape_component sampleCanvas 0 0 5 0 (by decide) (by decide)

/-- C2: `floodFillAddShape` returns `nullptr` exactly when the seed is out of
bounds or the seed pixel already has the fill colour; in every other case it
returns a non-empty pixel list that contains the seed. The canvas after the
call is the canvas before the call. -/
theorem DrawEngine.floodFillAddShape_nullptr_iff (canvas : Canvas) (sx sy : Int)
    (fillColor : Color) (extra : Nat) :
    ∃ r, DrawEngine.floodFillAddShape (2 * (canvas.width * canvas.height) + 2 + extra) canvas
        sx sy fillColor = some (canvas, r) ∧
      (r = none ↔ (¬DrawEngine.inBounds canvas sx sy ∨ canvas.pixelColor sx sy = fillColor)) ∧
      (∀ pixels, r = some pixels → pixels ≠ [] ∧ (sx, sy) ∈ pixels) := by
  by_cases hin : DrawEngine.inBounds canvas sx sy
  · by_cases hc : canvas.pixelColor sx sy = fillColor
    · refine ⟨none, ?_, by simp [hc], by simp⟩
      have hb : ¬(sx < 0 ∨ sy < 0 ∨ sx ≥ canvas.width ∨ sy ≥ canvas.height) := by
        obtain ⟨h1, h2, h3, h4⟩ := hin
        omega
      unfold DrawEngine.floodFillAddShape
      simp only [hb, hc, if_false, if_true]
    · obtain ⟨pixels, he, -, hmem⟩ :=
        DrawEngine.floodFillAddShape_spec canvas sx sy fillColor extra hin hc
      refine ⟨some pixels, he, by simp [hin, hc], ?_⟩
      intro l hl
      simp only [Option.some.injEq] at hl
      subst hl
      have hseed : (sx, sy) ∈ pixels := (hmem _).mpr (DrawEngine.Region.seed hin rfl)
      exact ⟨List.ne_nil_of_mem hseed, hseed⟩
  · refine ⟨none, ?_, by simp [hin], by simp⟩
    have hb : sx < 0 ∨ sy < 0 ∨ sx ≥ canvas.width ∨ sy ≥ canvas.height := by
      unfold DrawEngine.inBounds at hin
      omega
    unfold DrawEngine.floodFillAddShape
    simp only [hb, if_true]

theorem DrawEngine.region_of_uniform (canvas : Canvas) (sx sy : Int) (c : Color)
    (hu : ∀ x y, DrawEngine.inBounds canvas x y → canvas.pixelColor x y = c)
    (hin : DrawEngine.inBounds canvas sx sy) (x y : Int)
    (hxy : DrawEngine.inBounds canvas x y) :
    DrawEngine.Region canvas c (sx, sy) (x, y) := by
  obtain ⟨h1, h2, h3, h4⟩ := hin
  obtain ⟨g1, g2, g3, g4⟩ := hxy
  have hs : DrawEngine.Region canvas c (sx, sy) (sx, sy) :=
    DrawEngine.Region.seed ⟨h1, h2, h3, h4⟩ (hu _ _ ⟨h1, h2, h3, h4⟩)
  have hrow : DrawEngine.Region canvas c (sx, sy) (x, sy) := by
    apply DrawEngine.region_row hs
    intro k hk1 hk2
    have hb : DrawEngine.inBounds canvas k sy := by
      refine ⟨?_, h2, ?_, h4⟩
      · rcases min_cases sx x with ⟨e, -⟩ | ⟨e, -⟩ <;> omega
      · rcases max_cases sx x with ⟨e, -⟩ | ⟨e, -⟩ <;> omega
    exact ⟨hb, hu _ _ hb⟩
  by_cases hle : sy ≤ y
  · have := DrawEngine.region_up hrow (y - sy).toNat (fun k hk1 hk2 =>
      have hb : DrawEngine.inBounds canvas x k := ⟨g1, by omega, g3, by omega⟩
      ⟨hb, hu _ _ hb⟩)
    have e : sy + ((y - sy).toNat : Int) = y := by omega
    rwa [e] at this
  · have := DrawEngine.region_down hrow (sy - y).toNat (fun k hk1 hk2 =>
      have hb : DrawEngine.inBounds canvas x k := ⟨g1, by omega, g3, by omega⟩
      ⟨hb, hu _ _ hb⟩)
    have e : sy - ((sy - y).toNat : Int) = y := by omega
    rwa [e] at this

/-- C3: on a canvas whose pixels all have one colour `c`, for every in-bounds
seed and every fill colour other than `c`, the list returned by
`floodFillAddShape` has `width * height` entries, no duplicates, and holds
every pixel of the canvas (so each exactly once) and nothing else. -/
theorem DrawEngine.floodFillAddShape_uniform (canvas : Canvas) (sx sy : Int)
    (fillColor c : Color) (extra : Nat)
    (hu : ∀ x y, DrawEngine.inBounds canvas x y → canvas.pixelColor x y = c)
    (hin : DrawEngine.inBounds canvas sx sy) (hne : fillColor ≠ c) :
    ∃ pixels,
      DrawEngine.floodFillAddShape (2 * (canvas.width * canvas.height) + 2 + extra) canvas
        sx sy fillColor = some (canvas, some pixels) ∧
      pixels.length = canvas.width * canvas.height ∧ pixels.Nodup ∧
      (∀ x y, DrawEngine.inBounds canvas x y → (x, y) ∈ pixels) ∧
      (∀ p ∈ pixels, DrawEngine.inBounds canvas p.1 p.2) := by
  have hseed : canvas.pixelColor sx sy = c := hu _ _ hin
  obtain ⟨pixels, he, hnd, hmem⟩ := DrawEngine.floodFillAddShape_spec canvas sx sy fillColor
    extra hin (by rw [hseed]; exact fun h => hne h.symm)
  rw [hseed] at hmem
  have hall : ∀ p : Point, p ∈ pixels ↔ DrawEngine.inBounds canvas p.1 p.2 := by
    intro p
    rw [hmem]
    exact ⟨fun h => h.inBounds, fun h => DrawEngine.region_of_uniform canvas sx sy c hu hin _ _ h⟩
  exact ⟨pixels, he, DrawEngine.length_eq_of_inBounds canvas pixels hnd hall, hnd,
    fun x y hxy => (hall (x, y)).mpr hxy, fun p hp => (hall p).mp hp⟩

theorem DrawEngine.floodFillAddShape_uniform_witness :
    ∃ pixels,
      DrawEngine.floodFillAddShape (2 * (20 * 20) + 2 + 0) whiteCanvas 10 10 0
        = some (whiteCanvas, some pixels) ∧
      pixels.length = 400 ∧ pixels.Nodup ∧
      (∀ x y, DrawEngine.inBounds whiteCanvas x y → (x, y) ∈ pixels) ∧
      (∀ p ∈ pixels, DrawEngine.inBounds whiteCanvas p.1 p.2) :=
  DrawEngine.floodFillAddShape_uniform whiteCanvas 10 10 0 16777215 0 (fun _ _ _ => rfl)
    (by decide) (by decide)

namespace LineShape

theorem loopPost_cons {sx sy x1 y1 : Int} {n : Nat} {x y step x2 y2 : Int}
    {l : List (Int × Int × Int)} (h : LoopPost sx sy x1 y1 n x2 y2 (step + 1) l)
    (hs : StepOk sx sy (x, y, step) (x2, y2, step + 1)) :
    LoopPost sx sy x1 y1 (n + 1) x y step ((x, y, step) :: l) := by
  obtain ⟨hlen, hhead, hlast, hchain⟩ := h
  cases l with
  | nil => simp at hlen
  | cons q l =>
    simp at hhead
    subst hhead
    refine ⟨by simp [hlen], by simp, ?_, List.Chain'.cons hs hchain⟩
    rw [List.getLast?_cons_cons, hlast]
    push_cast
    congr 3
    ring

theorem drawLoop_xmajor (x1 y1 a b sx sy : Int) (ha : 0 < a) (hb : 0 ≤ b) (hba : b ≤ a)
    (hsx : sx = 1 ∨ sx = -1) :
    ∀ (n : Nat) (fuel : Nat) (x y err step v : Int), n + 1 ≤ fuel →
      x1 = x + sx * n → y1 = y + sy * v → 0 ≤ v →
      err = n * b - v * a + a - b → a - 2 * b < 2 * err → 2 * err ≤ 3 * a - 2 * b →
      ∃ l, drawLoop x1 y1 a (-b) sx sy fuel x y err step = some l ∧
        LoopPost sx sy x1 y1 n x y step l := by
  intro n
  induction n with
  | zero =>
    intro fuel x y err step v hf hx hy hv herr h1 h2
    obtain ⟨fuel, rfl⟩ : ∃ k, fuel = k + 1 := ⟨fuel - 1, by omega⟩
    have hv0 : v = 0 := by
      simp at herr
      subst herr
      by_contra hne
      have : 1 ≤ v := by omega
      nlinarith
    subst hv0
    simp at hx hy
    subst hx hy
    refine ⟨[(x1, y1, step)], ?_, ?_⟩
    · simp [drawLoop]
    · simp [LoopPost]
  | succ n ih =>
    intro fuel x y err step v hf hx hy hv herr h1 h2
    obtain ⟨fuel, rfl⟩ : ∃ k, fuel = k + 1 := ⟨fuel - 1, by omega⟩
    have hxne : x ≠ x1 := by
      push_cast at hx
      rcases hsx with h | h <;> subst h <;> omega
    have hx2 : 2 * err ≥ -b := by linarith
    have hxn : x1 = (x + sx) + sx * (n : Int) := by push_cast at hx; linarith
    have hnb : 0 ≤ (n : Int) * b := mul_nonneg (Int.ofNat_nonneg n) hb
    by_cases hy2 : 2 * err ≤ a
    · have hv1 : 1 ≤ v := by
        by_contra hne
        have hv0 : v = 0 := by omega
        subst hv0
        push_cast at herr
        linarith
      obtain ⟨l, hl, hlen, hhead, hlast, hchain⟩ :=
        ih fuel (x + sx) (y + sy) (err + -b + a) (step + 1) (v - 1) (by omega) hxn
          (by rw [hy]; ring) (by omega) (by rw [herr]; push_cast; ring) (by linarith)
          (by linarith)
      refine ⟨(x, y, step) :: l, ?_, ?_⟩
      · simp [drawLoop, hxne, hx2, hy2, hl]
      · exact loopPost_cons ⟨hlen, hhead, hlast, hchain⟩ (by simp [StepOk])
    · obtain ⟨l, hl, hlen, hhead, hlast, hchain⟩ :=
        ih fuel (x + sx) y (err + -b) (step + 1) v (by omega) hxn
          hy hv (by rw [herr]; push_cast; ring) (by linarith)
          (by linarith)
      refine ⟨(x, y, step) :: l, ?_, ?_⟩
      · simp [drawLoop, hxne, hx2, hy2, hl]
      · exact loopPost_cons ⟨hlen, hhead, hlast, hchain⟩ (by simp [StepOk])

theorem drawLoop_ymajor (x1 y1 a b sx sy : Int) (ha : 0 ≤ a) (hab : a < b)
    (hsy : sy = 1 ∨ sy = -1) :
    ∀ (n : Nat) (fuel : Nat) (x y err step u : Int), n + 1 ≤ fuel →
      y1 = y + sy * n → x1 = x + sx * u → 0 ≤ u →
      err = u * b - n * a + a - b → 2 * a - 3 * b ≤ 2 * err → 2 * err < 2 * a - b →
      ∃ l, drawLoop x1 y1 a (-b) sx sy fuel x y err step = some l ∧
        LoopPost sx sy x1 y1 n x y step l := by
  intro n
  induction n with
  | zero =>
    intro fuel x y err step u hf hy hx hu herr h1 h2
    obtain ⟨fuel, rfl⟩ : ∃ k, fuel = k + 1 := ⟨fuel - 1, by omega⟩
    have hu0 : u = 0 := by
      simp at herr
      subst herr
      by_contra hne
      have : 1 ≤ u := by omega
      nlinarith
    subst hu0
    simp at hx hy
    subst hx hy
    refine ⟨[(x1, y1, step)], ?_, ?_⟩
    · simp [drawLoop]
    · simp [LoopPost]
  | succ n ih =>
    intro fuel x y err step u hf hy hx hu herr h1 h2
    obtain ⟨fuel, rfl⟩ : ∃ k, fuel = k + 1 := ⟨fuel - 1, by omega⟩
    have hyne : y ≠ y1 := by
      push_cast at hy
      rcases hsy with h | h <;> subst h <;> omega
    have hy2 : 2 * err ≤ a := by linarith
    have hyn : y1 = (y + sy) + sy * (n : Int) := by push_cast at hy; linarith
    have hna : 0 ≤ (n : Int) * a := mul_nonneg (Int.ofNat_nonneg n) ha
    by_cases hx2 : 2 * err ≥ -b
    · have hu1 : 1 ≤ u := by
        by_contra hne
        have hu0 : u = 0 := by omega
        subst hu0
        push_cast at herr
        linarith
      obtain ⟨l, hl, hpost⟩ :=
        ih fuel (x + sx) (y + sy) (err + -b + a) (step + 1) (u - 1) (by omega) hyn
          (by rw [hx]; ring) (by omega) (by rw [herr]; push_cast; ring) (by linarith)
          (by linarith)
      refine ⟨(x, y, step) :: l, ?_, ?_⟩
      · simp [drawLoop, hyne, hx2, hy2, hl]
      · exact loopPost_cons hpost (by simp [StepOk])
    · obtain ⟨l, hl, hpost⟩ :=
        ih fuel x (y + sy) (err + a) (step + 1) u (by omega) hyn
          hx hu (by rw [herr]; push_cast; ring) (by linarith)
          (by linarith)
      refine ⟨(x, y, step) :: l, ?_, ?_⟩
      · simp [drawLoop, hyne, hx2, hy2, hl]
      · exact loopPost_cons hpost (by simp [StepOk])

theorem draw_post (start stop : Point) (fuel : Nat) (hf : steps start stop + 1 ≤ fuel) :
    ∃ l, draw fuel start stop = some l ∧
      LoopPost (dir start.1 stop.1) (dir start.2 stop.2) stop.1 stop.2 (steps start stop)
        start.1 start.2 0 l := by
  obtain ⟨x0, y0⟩ := start
  obtain ⟨x1, y1⟩ := stop
  simp only [draw, steps, dir] at *
  have hax : ((x1 - x0).natAbs : Int) = |x1 - x0| := Int.natCast_natAbs _
  have hay : ((y1 - y0).natAbs : Int) = |y1 - y0| := Int.natCast_natAbs _
  have hx1 : x1 = x0 + (if x0 < x1 then 1 else -1) * |x1 - x0| := by
    split_ifs with h
    · rw [abs_of_nonneg (by omega)]; ring
    · rw [abs_of_nonpos (by omega)]; ring
  have hy1 : y1 = y0 + (if y0 < y1 then 1 else -1) * |y1 - y0| := by
    split_ifs with h
    · rw [abs_of_nonneg (by omega)]; ring
    · rw [abs_of_nonpos (by omega)]; ring
  have hsx : (if x0 < x1 then (1 : Int) else -1) = 1 ∨ (if x0 < x1 then (1 : Int) else -1) = -1 := by
    split_ifs <;> simp
  have hsy : (if y0 < y1 then (1 : Int) else -1) = 1 ∨ (if y0 < y1 then (1 : Int) else -1) = -1 := by
    split_ifs <;> simp
  have ha0 : 0 ≤ |x1 - x0| := abs_nonneg _
  have hb0 : 0 ≤ |y1 - y0| := abs_nonneg _
  by_cases hmaj : |y1 - y0| ≤ |x1 - x0|
  · have hmax : max (x1 - x0).natAbs (y1 - y0).natAbs = (x1 - x0).natAbs := by
      apply max_eq_left; omega
    rw [hmax] at hf ⊢
    by_cases hpos : 0 < |x1 - x0|
    · exact drawLoop_xmajor x1 y1 |x1 - x0| |y1 - y0| _ _ hpos hb0 hmaj hsx
        (x1 - x0).natAbs fuel x0 y0 _ 0 |y1 - y0| hf (by rw [hax]; exact hx1) hy1 hb0
        (by rw [hax]; ring) (by linarith) (by linarith)
    · have hxa : |x1 - x0| = 0 := by omega
      have hya : |y1 - y0| = 0 := by omega
      have hx : x0 = x1 := by have := abs_eq_zero.mp hxa; omega
      have hy : y0 = y1 := by have := abs_eq_zero.mp hya; omega
      subst hx hy
      obtain ⟨fuel, rfl⟩ : ∃ k, fuel = k + 1 := ⟨fuel - 1, by omega⟩
      refine ⟨[(x0, y0, 0)], by simp [drawLoop], by simp [LoopPost]⟩
  · have hmax : max (x1 - x0).natAbs (y1 - y0).natAbs = (y1 - y0).natAbs := by
      apply max_eq_right; omega
    rw [hmax] at hf ⊢
    exact drawLoop_ymajor x1 y1 |x1 - x0| |y1 - y0| _ _ ha0 (by omega) hsy
        (y1 - y0).natAbs fuel x0 y0 _ 0 |x1 - x0| hf (by rw [hay]; exact hy1) hx1 ha0
        (by rw [hay]; ring) (by linarith) (by linarith)

theorem drawLoop_stops (x1 y1 dx dy sx sy : Int) :
    ∀ (fuel : Nat) (x y err step : Int) (l : List (Int × Int × Int)),
      drawLoop x1 y1 dx dy sx sy fuel x y err step = some l →
      ∀ p ∈ l.dropLast, (p.1, p.2.1) ≠ (x1, y1) := by
  intro fuel
  induction fuel with
  | zero => intro x y err step l h; simp [drawLoop] at h
  | succ fuel ih =>
    intro x y err step l h
    rw [drawLoop] at h
    by_cases hend : x = x1 ∧ y = y1
    · simp [hend] at h
      subst h
      simp
    · simp only [hend, if_false, Option.map_eq_some'] at h
      obtain ⟨l2, hl2, rfl⟩ := h
      intro p hp
      cases l2 with
      | nil => simp at hp
      | cons q l2 =>
        rw [List.dropLast_cons₂, List.mem_cons] at hp
        rcases hp with rfl | hp
        · intro heq
          simp only [Prod.mk.injEq] at heq
          exact hend heq
        · exact ih _ _ _ _ _ hl2 p hp

theorem counters_of_chain (sx sy : Int) :
    ∀ (l : List (Int × Int × Int)) (s : Int), List.Chain' (StepOk sx sy) l →
      (∀ p ∈ l.head?, p.2.2 = s) →
      l.map (fun c => c.2.2) = (List.range l.length).map (fun i : Nat => s + (i : Int)) := by
  intro l
  induction l with
  | nil => intro s _ _; simp
  | cons p l ih =>
    intro s hc hh
    have hp : p.2.2 = s := hh p (by simp)
    have hrest := ih (s + 1) (List.Chain'.tail hc) (by
      intro q hq
      cases l with
      | nil => simp at hq
      | cons r l =>
        simp at hq
        subst hq
        have := (List.chain'_cons.mp hc).1
        rw [this.2, hp])
    rw [List.length_cons, List.range_succ_eq_map, List.map_cons, List.map_cons, List.map_map,
      hrest, hp]
    simp only [Nat.cast_zero, add_zero, List.cons.injEq, true_and]
    apply List.map_congr_left
    intro i _
    simp only [Function.comp, Nat.cast_succ]
    ring

end LineShape

/-- C4: for every pair of integer points the Bresenham loop of
`LineShape::draw` terminates (any fuel of at least `steps + 1` yields a
result), the first emitted point is the start point, the last one is the end
point, and no earlier emitted point equals the end point, which is where the
loop stops. -/
theorem LineShape.draw_visits_endpoints (start stop : Point) (extra : Nat) :
    ∃ l, LineShape.draw (LineShape.steps start stop + 1 + extra) start stop = some l ∧
      (l.map (fun c => (c.1, c.2.1))).head? = some start ∧
      (l.map (fun c => (c.1, c.2.1))).getLast? = some stop ∧
      ∀ c ∈ l.dropLast, (c.1, c.2.1) ≠ stop := by
  obtain ⟨l, hl, -, hhead, hlast, -⟩ :=
    LineShape.draw_post start stop (LineShape.steps start stop + 1 + extra) (by omega)
  refine ⟨l, hl, ?_, ?_, ?_⟩
  · rw [List.head?_map, hhead]; rfl
  · rw [List.getLast?_map, hlast]; rfl
  · exact LineShape.drawLoop_stops _ _ _ _ _ _ _ _ _ _ _ _ hl

/-- C5: `LineShape::draw` emits exactly `max(|x1-x0|, |y1-y0|) + 1` points,
the step counters of the calls are `0, 1, ..., n-1` in emission order, and a
degenerate segment emits the single call with step 0. -/
theorem LineShape.draw_count_and_counters (start stop : Point) (extra : Nat) :
    ∃ l, LineShape.draw (LineShape.steps start stop + 1 + extra) start stop = some l ∧
      l.length = max (stop.1 - start.1).natAbs (stop.2 - start.2).natAbs + 1 ∧
      l.map (fun c => c.2.2) = (List.range l.length).map (fun i : Nat => (i : Int)) ∧
      LineShape.draw (1 + extra) start start = some [(start.1, start.2, 0)] := by
  obtain ⟨l, hl, hlen, hhead, -, hchain⟩ :=
    LineShape.draw_post start stop (LineShape.steps start stop + 1 + extra) (by omega)
  refine ⟨l, hl, hlen, ?_, ?_⟩
  · have := LineShape.counters_of_chain _ _ l 0 hchain (by rw [hhead]; simp)
    simpa using this
  · rw [Nat.add_comm]
    simp [LineShape.draw, LineShape.drawLoop]

/-- C6: every point emitted by `LineShape::draw` after the first differs from
its predecessor by one unit step in x, in y or in both (never by nothing,
never by more than one per axis), x moving only by `sx` and y only by `sy`,
the signs of the direction towards the end point. -/
theorem LineShape.draw_unit_steps (start stop : Point) (extra : Nat) :
    ∃ l, LineShape.draw (LineShape.steps start stop + 1 + extra) start stop = some l ∧
      List.Chain' (fun p q : Int × Int × Int =>
        (q.1 = p.1 ∨ q.1 = p.1 + (if start.1 < stop.1 then 1 else -1)) ∧
        (q.2.1 = p.2.1 ∨ q.2.1 = p.2.1 + (if start.2 < stop.2 then 1 else -1)) ∧
        (q.1 ≠ p.1 ∨ q.2.1 ≠ p.2.1)) l := by
  obtain ⟨l, hl, -, -, -, hchain⟩ :=
    LineShape.draw_post start stop (LineShape.steps start stop + 1 + extra) (by omega)
  refine ⟨l, hl, hchain.imp ?_⟩
  intro p q h
  simp only [LineShape.StepOk, LineShape.dir] at h
  rcases h with ⟨(⟨hx, hy⟩ | ⟨hx, hy⟩), -⟩
  · refine ⟨Or.inr hx, hy, Or.inl ?_⟩
    rw [hx]; split_ifs <;> omega
  · refine ⟨Or.inl hx, Or.inr hy, Or.inr ?_⟩
    rw [hy]; split_ifs <;> omega

theorem cround_intCast (n : Int) : cround (n : ℚ) = n := by
  unfold cround
  split_ifs with h
  · rw [Int.floor_eq_iff]; constructor <;> linarith
  · rw [Int.ceil_eq_iff]; constructor <;> linarith

theorem le_cround {a : Int} {q : ℚ} (h : (a : ℚ) ≤ q) : a ≤ cround q := by
  unfold cround
  split_ifs with h0
  · rw [Int.le_floor]; linarith
  · rw [Int.le_ceil_iff]; linarith

theorem cround_le {b : Int} {q : ℚ} (h : q ≤ (b : ℚ)) : cround q ≤ b := by
  unfold cround
  split_ifs with h0
  · have : ⌊q + 1 / 2⌋ < b + 1 := by rw [Int.floor_lt]; push_cast; linarith
    omega
  · rw [Int.ceil_le]; linarith

theorem computeOutCode_inside {x y xmin ymin xmax ymax : Int}
    (h1 : xmin ≤ x) (h2 : x ≤ xmax) (h3 : ymin ≤ y) (h4 : y ≤ ymax) :
    computeOutCode x y xmin ymin xmax ymax = 0 := by
  simp [computeOutCode, CS_INSIDE, not_lt.mpr h1, not_lt.mpr h2, not_lt.mpr h3, not_lt.mpr h4]

/-- C7: a segment whose two endpoints lie inside a valid window (boundary
included) is accepted and its four coordinates are returned unchanged. -/
theorem DrawEngine.cohenSutherlandClip_inside (x0 y0 x1 y1 xmin ymin xmax ymax : Int)
    (extra : Nat)
    (h0 : xmin ≤ x0 ∧ x0 ≤ xmax ∧ ymin ≤ y0 ∧ y0 ≤ ymax)
    (h1 : xmin ≤ x1 ∧ x1 ≤ xmax ∧ ymin ≤ y1 ∧ y1 ≤ ymax) :
    DrawEngine.cohenSutherlandClip (extra + 1) x0 y0 x1 y1 xmin ymin xmax ymax
      = .ok (true, x0, y0, x1, y1) := by
  simp [DrawEngine.cohenSutherlandClip, cround_intCast, DrawEngine.clipLoop,
    computeOutCode_inside h0.1 h0.2.1 h0.2.2.1 h0.2.2.2,
    computeOutCode_inside h1.1 h1.2.1 h1.2.2.1 h1.2.2.2]

theorem DrawEngine.cohenSutherlandClip_inside_witness :
    DrawEngine.cohenSutherlandClip 1 12 20 40 45 10 10 50 50 = .ok (true, 12, 20, 40, 45) :=
  DrawEngine.cohenSutherlandClip_inside 12 20 40 45 10 10 50 50 0 (by decide) (by decide)

theorem computeOutCode_eq (x y xmin ymin xmax ymax : Int) :
    computeOutCode x y xmin ymin xmax ymax =
      (if x < xmin then 1 else if x > xmax then 2 else 0) +
      (if y < ymin then 8 else if y > ymax then 4 else 0) := by
  unfold computeOutCode CS_INSIDE CS_LEFT CS_RIGHT CS_TOP CS_BOTTOM
  split_ifs <;> rfl

theorem computeOutCode_common {x0 y0 x1 y1 xmin ymin xmax ymax : Int}
    (hwx : xmin ≤ xmax) (hwy : ymin ≤ ymax)
    (h : (x0 < xmin ∧ x1 < xmin) ∨ (x0 > xmax ∧ x1 > xmax) ∨
      (y0 < ymin ∧ y1 < ymin) ∨ (y0 > ymax ∧ y1 > ymax)) :
    (computeOutCode x0 y0 xmin ymin xmax ymax ||| computeOutCode x1 y1 xmin ymin xmax ymax) ≠ 0 ∧
    (computeOutCode x0 y0 xmin ymin xmax ymax &&& computeOutCode x1 y1 xmin ymin xmax ymax) ≠ 0 := by
  rw [computeOutCode_eq, computeOutCode_eq]
  rcases h with ⟨h0, h1⟩ | ⟨h0, h1⟩ | ⟨h0, h1⟩ | ⟨h0, h1⟩
  · rw [if_pos h0, if_pos h1]
    split_ifs <;> decide
  · rw [if_neg (by omega : ¬x0 < xmin), if_neg (by omega : ¬x1 < xmin), if_pos h0, if_pos h1]
    split_ifs <;> decide
  · rw [if_pos h0, if_pos h1]
    split_ifs <;> decide
  · rw [if_neg (by omega : ¬y0 < ymin), if_neg (by omega : ¬y1 < ymin), if_pos h0, if_pos h1]
    split_ifs <;> decide

/-- C8: a segment whose endpoints violate a common side of the window is
rejected, and whenever the call rejects, the reference parameters hold the
values they had before the call. -/
theorem DrawEngine.cohenSutherlandClip_reject (x0 y0 x1 y1 xmin ymin xmax ymax : Int) :
    (∀ extra : Nat, xmin ≤ xmax → ymin ≤ ymax → ((x0 < xmin ∧ x1 < xmin) ∨ (x0 > xmax ∧ x1 > xmax) ∨
        (y0 < ymin ∧ y1 < ymin) ∨ (y0 > ymax ∧ y1 > ymax)) →
      DrawEngine.cohenSutherlandClip (extra + 1) x0 y0 x1 y1 xmin ymin xmax ymax
        = .ok (false, x0, y0, x1, y1)) ∧
    (∀ (fuel : Nat) (a b c d : Int),
      DrawEngine.cohenSutherlandClip fuel x0 y0 x1 y1 xmin ymin xmax ymax
        = .ok (false, a, b, c, d) → a = x0 ∧ b = y0 ∧ c = x1 ∧ d = y1) := by
  constructor
  · intro extra hwx hwy h
    obtain ⟨hor, hand⟩ := computeOutCode_common hwx hwy h
    simp [DrawEngine.cohenSutherlandClip, cround_intCast, DrawEngine.clipLoop, hor, hand]
  · intro fuel a b c d h
    unfold DrawEngine.cohenSutherlandClip at h
    simp only at h
    split at h
    · simp at h
    · split_ifs at h with hacc
      · simp at h
      · simp only [Except.ok.injEq, Prod.mk.injEq, true_and] at h
        obtain ⟨rfl, rfl, rfl, rfl⟩ := h
        exact ⟨rfl, rfl, rfl, rfl⟩

theorem DrawEngine.cohenSutherlandClip_reject_witness :
    DrawEngine.cohenSutherlandClip 1 0 0 5 70 10 10 50 50 = .ok (false, 0, 0, 5, 70) :=
  (DrawEngine.cohenSutherlandClip_reject 0 0 5 70 10 10 50 50).1 0 (by decide) (by decide)
    (Or.inl ⟨by decide, by decide⟩)

theorem ratio_unit {c d : ℚ} (h : (0 ≤ c ∧ c ≤ d ∧ 0 < d) ∨ (d ≤ c ∧ c ≤ 0 ∧ d < 0)) :
    0 ≤ c / d ∧ c / d ≤ 1 := by
  rcases h with ⟨h1, h2, h3⟩ | ⟨h1, h2, h3⟩
  · exact ⟨div_nonneg h1 h3.le, (div_le_one h3).mpr h2⟩
  · exact ⟨div_nonneg_of_nonpos h2 h3.le, (div_le_one_of_neg h3).mpr h1⟩

theorem interp_bounds {a b lo hi c d : ℚ} (ha : lo ≤ a ∧ a ≤ hi) (hb : lo ≤ b ∧ b ≤ hi)
    (h : (0 ≤ c ∧ c ≤ d ∧ 0 < d) ∨ (d ≤ c ∧ c ≤ 0 ∧ d < 0)) :
    lo ≤ a + (b - a) * c / d ∧ a + (b - a) * c / d ≤ hi := by
  obtain ⟨t0, t1⟩ := ratio_unit h
  rw [mul_div_assoc]
  generalize c / d = t at t0 t1
  constructor <;> nlinarith

theorem cround_interp {a b lo hi : Int} {c d : ℚ} (ha : lo ≤ a ∧ a ≤ hi) (hb : lo ≤ b ∧ b ≤ hi)
    (h : (0 ≤ c ∧ c ≤ d ∧ 0 < d) ∨ (d ≤ c ∧ c ≤ 0 ∧ d < 0)) :
    lo ≤ cround ((a : ℚ) + ((b : ℚ) - a) * c / d) ∧
      cround ((a : ℚ) + ((b : ℚ) - a) * c / d) ≤ hi := by
  have := @interp_bounds (a : ℚ) b lo hi c d (by exact_mod_cast ha) (by exact_mod_cast hb) h
  exact ⟨le_cround this.1, cround_le this.2⟩

theorem outcode_bits :
    (2 &&& 8 = 0) ∧ (2 &&& 4 = 0) ∧ (2 &&& 2 = 2) ∧ (4 &&& 8 = 0) ∧ (4 &&& 4 = 4) ∧
      (8 &&& 8 = 8) ∧ (1 &&& 8 = 0) ∧ (1 &&& 4 = 0) ∧ (1 &&& 2 = 0) ∧ (1 &&& 1 = 1) := by
  decide

theorem cround_interp_int {a b lo hi m0 m1 bd : Int} (ha : lo ≤ a ∧ a ≤ hi)
    (hb : lo ≤ b ∧ b ≤ hi)
    (h : (m0 ≤ bd ∧ bd ≤ m1 ∧ m0 < m1) ∨ (m1 ≤ bd ∧ bd ≤ m0 ∧ m1 < m0)) :
    (lo ≤ cround ((a : ℚ) + ((b : ℚ) - a) * ((bd : ℚ) - m0) / ((m1 : ℚ) - m0)) ∧
      cround ((a : ℚ) + ((b : ℚ) - a) * ((bd : ℚ) - m0) / ((m1 : ℚ) - m0)) ≤ hi) ∧
    (m1 : ℚ) - m0 ≠ 0 := by
  have key : (0 ≤ (bd : ℚ) - m0 ∧ (bd : ℚ) - m0 ≤ (m1 : ℚ) - m0 ∧ 0 < (m1 : ℚ) - m0) ∨
      ((m1 : ℚ) - m0 ≤ (bd : ℚ) - m0 ∧ (bd : ℚ) - m0 ≤ 0 ∧ (m1 : ℚ) - m0 < 0) := by
    rcases h with ⟨h1, h2, h3⟩ | ⟨h1, h2, h3⟩
    · left
      have g1 : (m0 : ℚ) ≤ bd := by exact_mod_cast h1
      have g2 : (bd : ℚ) ≤ m1 := by exact_mod_cast h2
      have g3 : (m0 : ℚ) < m1 := by exact_mod_cast h3
      exact ⟨by linarith, by linarith, by linarith⟩
    · right
      have g1 : (m1 : ℚ) ≤ bd := by exact_mod_cast h1
      have g2 : (bd : ℚ) ≤ m0 := by exact_mod_cast h2
      have g3 : (m1 : ℚ) < m0 := by exact_mod_cast h3
      exact ⟨by linarith, by linarith, by linarith⟩
  refine ⟨cround_interp ha hb key, ?_⟩
  rcases key with ⟨-, -, h⟩ | ⟨-, -, h⟩
  · exact ne_of_gt h
  · exact ne_of_lt h

theorem clip_p1_left (x0 y0 x1 y1 xmin ymin xmax ymax : Int) (extra : Nat)
    (hw : xmin ≤ xmax) (hin : inWindow x0 y0 xmin ymin xmax ymax)
    (hv : x1 < xmin) (hk : ymin ≤ y1 ∧ y1 ≤ ymax) :
    DrawEngine.cohenSutherlandClip (extra + 2) x0 y0 x1 y1 xmin ymin xmax ymax
      = .ok (true, x0, y0, xmin, cround ((y0 : ℚ) + ((y1 : ℚ) - y0) * ((xmin : ℚ) - x0) / ((x1 : ℚ) - x0))) ∧
    ymin ≤ cround ((y0 : ℚ) + ((y1 : ℚ) - y0) * ((xmin : ℚ) - x0) / ((x1 : ℚ) - x0)) ∧
    cround ((y0 : ℚ) + ((y1 : ℚ) - y0) * ((xmin : ℚ) - x0) / ((x1 : ℚ) - x0)) ≤ ymax := by
  obtain ⟨i1, i2, i3, i4⟩ := hin
  obtain ⟨hb, hd⟩ := @cround_interp_int y0 y1 ymin ymax x0 x1 xmin
    (by omega) (by omega) (by omega)
  refine ⟨?_, hb⟩
  have cin := computeOutCode_inside i1 i2 i3 i4
  have cout : computeOutCode x1 y1 xmin ymin xmax ymax = 1 := by
    rw [computeOutCode_eq]; split_ifs <;> first | rfl | omega
  have c2 := @computeOutCode_inside xmin _ xmin ymin xmax ymax (by omega) (by omega) hb.1 hb.2
  simp [DrawEngine.cohenSutherlandClip, cround_intCast, DrawEngine.clipLoop, cin, cout, c2,
    DrawEngine.intersectAt, hd, CS_TOP, CS_BOTTOM, CS_LEFT, CS_RIGHT, Except.map, outcode_bits]

theorem clip_p1_right (x0 y0 x1 y1 xmin ymin xmax ymax : Int) (extra : Nat)
    (hw : xmin ≤ xmax) (hin : inWindow x0 y0 xmin ymin xmax ymax)
    (hv : xmax < x1) (hk : ymin ≤ y1 ∧ y1 ≤ ymax) :
    DrawEngine.cohenSutherlandClip (extra + 2) x0 y0 x1 y1 xmin ymin xmax ymax
      = .ok (true, x0, y0, xmax, cround ((y0 : ℚ) + ((y1 : ℚ) - y0) * ((xmax : ℚ) - x0) / ((x1 : ℚ) - x0))) ∧
    ymin ≤ cround ((y0 : ℚ) + ((y1 : ℚ) - y0) * ((xmax : ℚ) - x0) / ((x1 : ℚ) - x0)) ∧
    cround ((y0 : ℚ) + ((y1 : ℚ) - y0) * ((xmax : ℚ) - x0) / ((x1 : ℚ) - x0)) ≤ ymax := by
  obtain ⟨i1, i2, i3, i4⟩ := hin
  obtain ⟨hb, hd⟩ := @cround_interp_int y0 y1 ymin ymax x0 x1 xmax
    (by omega) (by omega) (by omega)
  refine ⟨?_, hb⟩
  have cin := computeOutCode_inside i1 i2 i3 i4
  have cout : computeOutCode x1 y1 xmin ymin xmax ymax = 2 := by
    rw [computeOutCode_eq]; split_ifs <;> first | rfl | omega
  have c2 := @computeOutCode_inside xmax _ xmin ymin xmax ymax (by omega) (by omega) hb.1 hb.2
  simp [DrawEngine.cohenSutherlandClip, cround_intCast, DrawEngine.clipLoop, cin, cout, c2,
    DrawEngine.intersectAt, hd, CS_TOP, CS_BOTTOM, CS_LEFT, CS_RIGHT, Except.map, outcode_bits]

theorem clip_p1_top (x0 y0 x1 y1 xmin ymin xmax ymax : Int) (extra : Nat)
    (hw : ymin ≤ ymax) (hin : inWindow x0 y0 xmin ymin xmax ymax)
    (hv : y1 < ymin) (hk : xmin ≤ x1 ∧ x1 ≤ xmax) :
    DrawEngine.cohenSutherlandClip (extra + 2) x0 y0 x1 y1 xmin ymin xmax ymax
      = .ok (true, x0, y0, cround ((x0 : ℚ) + ((x1 : ℚ) - x0) * ((ymin : ℚ) - y0) / ((y1 : ℚ) - y0)), ymin) ∧
    xmin ≤ cround ((x0 : ℚ) + ((x1 : ℚ) - x0) * ((ymin : ℚ) - y0) / ((y1 : ℚ) - y0)) ∧
    cround ((x0 : ℚ) + ((x1 : ℚ) - x0) * ((ymin : ℚ) - y0) / ((y1 : ℚ) - y0)) ≤ xmax := by
  obtain ⟨i1, i2, i3, i4⟩ := hin
  obtain ⟨hb, hd⟩ := @cround_interp_int x0 x1 xmin xmax y0 y1 ymin
    (by omega) (by omega) (by omega)
  refine ⟨?_, hb⟩
  have cin := computeOutCode_inside i1 i2 i3 i4
  have cout : computeOutCode x1 y1 xmin ymin xmax ymax = 8 := by
    rw [computeOutCode_eq]; split_ifs <;> first | rfl | omega
  have c2 := @computeOutCode_inside _ ymin xmin ymin xmax ymax hb.1 hb.2 (by omega) (by omega)
  simp [DrawEngine.cohenSutherlandClip, cround_intCast, DrawEngine.clipLoop, cin, cout, c2,
    DrawEngine.intersectAt, hd, CS_TOP, CS_BOTTOM, CS_LEFT, CS_RIGHT, Except.map, outcode_bits]

theorem clip_p1_bottom (x0 y0 x1 y1 xmin ymin xmax ymax : Int) (extra : Nat)
    (hw : ymin ≤ ymax) (hin : inWindow x0 y0 xmin ymin xmax ymax)
    (hv : ymax < y1) (hk : xmin ≤ x1 ∧ x1 ≤ xmax) :
    DrawEngine.cohenSutherlandClip (extra + 2) x0 y0 x1 y1 xmin ymin xmax ymax
      = .ok (true, x0, y0, cround ((x0 : ℚ) + ((x1 : ℚ) - x0) * ((ymax : ℚ) - y0) / ((y1 : ℚ) - y0)), ymax) ∧
    xmin ≤ cround ((x0 : ℚ) + ((x1 : ℚ) - x0) * ((ymax : ℚ) - y0) / ((y1 : ℚ) - y0)) ∧
    cround ((x0 : ℚ) + ((x1 : ℚ) - x0) * ((ymax : ℚ) - y0) / ((y1 : ℚ) - y0)) ≤ xmax := by
  obtain ⟨i1, i2, i3, i4⟩ := hin
  obtain ⟨hb, hd⟩ := @cround_interp_int x0 x1 xmin xmax y0 y1 ymax
    (by omega) (by omega) (by omega)
  refine ⟨?_, hb⟩
  have cin := computeOutCode_inside i1 i2 i3 i4
  have cout : computeOutCode x1 y1 xmin ymin xmax ymax = 4 := by
    rw [computeOutCode_eq]; split_ifs <;> first | rfl | omega
  have c2 := @computeOutCode_inside _ ymax xmin ymin xmax ymax hb.1 hb.2 (by omega) (by omega)
  simp [DrawEngine.cohenSutherlandClip, cround_intCast, DrawEngine.clipLoop, cin, cout, c2,
    DrawEngine.intersectAt, hd, CS_TOP, CS_BOTTOM, CS_LEFT, CS_RIGHT, Except.map, outcode_bits]

theorem clip_p0_left (x0 y0 x1 y1 xmin ymin xmax ymax : Int) (extra : Nat)
    (hw : xmin ≤ xmax) (hin : inWindow x1 y1 xmin ymin xmax ymax)
    (hv : x0 < xmin) (hk : ymin ≤ y0 ∧ y0 ≤ ymax) :
    DrawEngine.cohenSutherlandClip (extra + 2) x0 y0 x1 y1 xmin ymin xmax ymax
      = .ok (true, xmin, cround ((y0 : ℚ) + ((y1 : ℚ) - y0) * ((xmin : ℚ) - x0) / ((x1 : ℚ) - x0)), x1, y1) ∧
    ymin ≤ cround ((y0 : ℚ) + ((y1 : ℚ) - y0) * ((xmin : ℚ) - x0) / ((x1 : ℚ) - x0)) ∧
    cround ((y0 : ℚ) + ((y1 : ℚ) - y0) * ((xmin : ℚ) - x0) / ((x1 : ℚ) - x0)) ≤ ymax := by
  obtain ⟨i1, i2, i3, i4⟩ := hin
  obtain ⟨hb, hd⟩ := @cround_interp_int y0 y1 ymin ymax x0 x1 xmin
    (by omega) (by omega) (by omega)
  refine ⟨?_, hb⟩
  have cin := computeOutCode_inside i1 i2 i3 i4
  have cout : computeOutCode x0 y0 xmin ymin xmax ymax = 1 := by
    rw [computeOutCode_eq]; split_ifs <;> first | rfl | omega
  have c2 := @computeOutCode_inside xmin _ xmin ymin xmax ymax (by omega) (by omega) hb.1 hb.2
  simp [DrawEngine.cohenSutherlandClip, cround_intCast, DrawEngine.clipLoop, cin, cout, c2,
    DrawEngine.intersectAt, hd, CS_TOP, CS_BOTTOM, CS_LEFT, CS_RIGHT, Except.map, outcode_bits]

theorem clip_p0_right (x0 y0 x1 y1 xmin ymin xmax ymax : Int) (extra : Nat)
    (hw : xmin ≤ xmax) (hin : inWindow x1 y1 xmin ymin xmax ymax)
    (hv : xmax < x0) (hk : ymin ≤ y0 ∧ y0 ≤ ymax) :
    DrawEngine.cohenSutherlandClip (extra + 2) x0 y0 x1 y1 xmin ymin xmax ymax
      = .ok (true, xmax, cround ((y0 : ℚ) + ((y1 : ℚ) - y0) * ((xmax : ℚ) - x0) / ((x1 : ℚ) - x0)), x1, y1) ∧
    ymin ≤ cround ((y0 : ℚ) + ((y1 : ℚ) - y0) * ((xmax : ℚ) - x0) / ((x1 : ℚ) - x0)) ∧
    cround ((y0 : ℚ) + ((y1 : ℚ) - y0) * ((xmax : ℚ) - x0) / ((x1 : ℚ) - x0)) ≤ ymax := by
  obtain ⟨i1, i2, i3, i4⟩ := hin
  obtain ⟨hb, hd⟩ := @cround_interp_int y0 y1 ymin ymax x0 x1 xmax
    (by omega) (by omega) (by omega)
  refine ⟨?_, hb⟩
  have cin := computeOutCode_inside i1 i2 i3 i4
  have cout : computeOutCode x0 y0 xmin ymin xmax ymax = 2 := by
    rw [computeOutCode_eq]; split_ifs <;> first | rfl | omega
  have c2 := @computeOutCode_inside xmax _ xmin ymin xmax ymax (by omega) (by omega) hb.1 hb.2
  simp [DrawEngine.cohenSutherlandClip, cround_intCast, DrawEngine.clipLoop, cin, cout, c2,
    DrawEngine.intersectAt, hd, CS_TOP, CS_BOTTOM, CS_LEFT, CS_RIGHT, Except.map, outcode_bits]

theorem clip_p0_top (x0 y0 x1 y1 xmin ymin xmax ymax : Int) (extra : Nat)
    (hw : ymin ≤ ymax) (hin : inWindow x1 y1 xmin ymin xmax ymax)
    (hv : y0 < ymin) (hk : xmin ≤ x0 ∧ x0 ≤ xmax) :
    DrawEngine.cohenSutherlandClip (extra + 2) x0 y0 x1 y1 xmin ymin xmax ymax
      = .ok (true, cround ((x0 : ℚ) + ((x1 : ℚ) - x0) * ((ymin : ℚ) - y0) / ((y1 : ℚ) - y0)), ymin, x1, y1) ∧
    xmin ≤ cround ((x0 : ℚ) + ((x1 : ℚ) - x0) * ((ymin : ℚ) - y0) / ((y1 : ℚ) - y0)) ∧
    cround ((x0 : ℚ) + ((x1 : ℚ) - x0) * ((ymin : ℚ) - y0) / ((y1 : ℚ) - y0)) ≤ xmax := by
  obtain ⟨i1, i2, i3, i4⟩ := hin
  obtain ⟨hb, hd⟩ := @cround_interp_int x0 x1 xmin xmax y0 y1 ymin
    (by omega) (by omega) (by omega)
  refine ⟨?_, hb⟩
  have cin := computeOutCode_inside i1 i2 i3 i4
  have cout : computeOutCode x0 y0 xmin ymin xmax ymax = 8 := by
    rw [computeOutCode_eq]; split_ifs <;> first | rfl | omega
  have c2 := @computeOutCode_inside _ ymin xmin ymin xmax ymax hb.1 hb.2 (by omega) (by omega)
  simp [DrawEngine.cohenSutherlandClip, cround_intCast, DrawEngine.clipLoop, cin, cout, c2,
    DrawEngine.intersectAt, hd, CS_TOP, CS_BOTTOM, CS_LEFT, CS_RIGHT, Except.map, outcode_bits]

theorem clip_p0_bottom (x0 y0 x1 y1 xmin ymin xmax ymax : Int) (extra : Nat)
    (hw : ymin ≤ ymax) (hin : inWindow x1 y1 xmin ymin xmax ymax)
    (hv : ymax < y0) (hk : xmin ≤ x0 ∧ x0 ≤ xmax) :
    DrawEngine.cohenSutherlandClip (extra + 2) x0 y0 x1 y1 xmin ymin xmax ymax
      = .ok (true, cround ((x0 : ℚ) + ((x1 : ℚ) - x0) * ((ymax : ℚ) - y0) / ((y1 : ℚ) - y0)), ymax, x1, y1) ∧
    xmin ≤ cround ((x0 : ℚ) + ((x1 : ℚ) - x0) * ((ymax : ℚ) - y0) / ((y1 : ℚ) - y0)) ∧
    cround ((x0 : ℚ) + ((x1 : ℚ) - x0) * ((ymax : ℚ) - y0) / ((y1 : ℚ) - y0)) ≤ xmax := by
  obtain ⟨i1, i2, i3, i4⟩ := hin
  obtain ⟨hb, hd⟩ := @cround_interp_int x0 x1 xmin xmax y0 y1 ymax
    (by omega) (by omega) (by omega)
  refine ⟨?_, hb⟩
  have cin := computeOutCode_inside i1 i2 i3 i4
  have cout : computeOutCode x0 y0 xmin ymin xmax ymax = 4 := by
    rw [computeOutCode_eq]; split_ifs <;> first | rfl | omega
  have c2 := @computeOutCode_inside _ ymax xmin ymin xmax ymax hb.1 hb.2 (by omega) (by omega)
  simp [DrawEngine.cohenSutherlandClip, cround_intCast, DrawEngine.clipLoop, cin, cout, c2,
    DrawEngine.intersectAt, hd, CS_TOP, CS_BOTTOM, CS_LEFT, CS_RIGHT, Except.map, outcode_bits]

/-- C9: when one endpoint lies inside a valid window and the other violates
exactly one side of it, the segment is accepted, the inside endpoint is
returned unchanged, and the outside endpoint is replaced by a point of the
window that lies on the violated boundary line. Both orders of the two
endpoints are covered. -/
theorem DrawEngine.cohenSutherlandClip_single_boundary
    (xi yi xo yo xmin ymin xmax ymax : Int) (extra : Nat)
    (hwx : xmin ≤ xmax) (hwy : ymin ≤ ymax) (hin : inWindow xi yi xmin ymin xmax ymax)
    (hout : (xo < xmin ∧ ymin ≤ yo ∧ yo ≤ ymax) ∨ (xmax < xo ∧ ymin ≤ yo ∧ yo ≤ ymax) ∨
      (yo < ymin ∧ xmin ≤ xo ∧ xo ≤ xmax) ∨ (ymax < yo ∧ xmin ≤ xo ∧ xo ≤ xmax)) :
    (∃ x y, DrawEngine.cohenSutherlandClip (extra + 2) xi yi xo yo xmin ymin xmax ymax
        = .ok (true, xi, yi, x, y) ∧ inWindow x y xmin ymin xmax ymax ∧
        (xo < xmin → x = xmin) ∧ (xmax < xo → x = xmax) ∧
        (yo < ymin → y = ymin) ∧ (ymax < yo → y = ymax)) ∧
    (∃ x y, DrawEngine.cohenSutherlandClip (extra + 2) xo yo xi yi xmin ymin xmax ymax
        = .ok (true, x, y, xi, yi) ∧ inWindow x y xmin ymin xmax ymax ∧
        (xo < xmin → x = xmin) ∧ (xmax < xo → x = xmax) ∧
        (yo < ymin → y = ymin) ∧ (ymax < yo → y = ymax)) := by
  rcases hout with ⟨hv, hk⟩ | ⟨hv, hk⟩ | ⟨hv, hk⟩ | ⟨hv, hk⟩
  · obtain ⟨e1, b1⟩ := clip_p1_left xi yi xo yo xmin ymin xmax ymax extra hwx hin hv hk
    obtain ⟨e2, b2⟩ := clip_p0_left xo yo xi yi xmin ymin xmax ymax extra hwx hin hv hk
    exact ⟨⟨_, _, e1, ⟨le_refl _, hwx, b1⟩, fun _ => rfl, fun _ => by omega,
        fun _ => by omega, fun _ => by omega⟩,
      ⟨_, _, e2, ⟨le_refl _, hwx, b2⟩, fun _ => rfl, fun _ => by omega,
        fun _ => by omega, fun _ => by omega⟩⟩
  · obtain ⟨e1, b1⟩ := clip_p1_right xi yi xo yo xmin ymin xmax ymax extra hwx hin hv hk
    obtain ⟨e2, b2⟩ := clip_p0_right xo yo xi yi xmin ymin xmax ymax extra hwx hin hv hk
    exact ⟨⟨_, _, e1, ⟨hwx, le_refl _, b1⟩, fun _ => by omega, fun _ => rfl,
        fun _ => by omega, fun _ => by omega⟩,
      ⟨_, _, e2, ⟨hwx, le_refl _, b2⟩, fun _ => by omega, fun _ => rfl,
        fun _ => by omega, fun _ => by omega⟩⟩
  · obtain ⟨e1, b1⟩ := clip_p1_top xi yi xo yo xmin ymin xmax ymax extra hwy hin hv hk
    obtain ⟨e2, b2⟩ := clip_p0_top xo yo xi yi xmin ymin xmax ymax extra hwy hin hv hk
    exact ⟨⟨_, _, e1, ⟨b1.1, b1.2, le_refl _, hwy⟩, fun _ => by omega, fun _ => by omega,
        fun _ => rfl, fun _ => by omega⟩,
      ⟨_, _, e2, ⟨b2.1, b2.2, le_refl _, hwy⟩, fun _ => by omega, fun _ => by omega,
        fun _ => rfl, fun _ => by omega⟩⟩
  · obtain ⟨e1, b1⟩ := clip_p1_bottom xi yi xo yo xmin ymin xmax ymax extra hwy hin hv hk
    obtain ⟨e2, b2⟩ := clip_p0_bottom xo yo xi yi xmin ymin xmax ymax extra hwy hin hv hk
    exact ⟨⟨_, _, e1, ⟨b1.1, b1.2, hwy, le_refl _⟩, fun _ => by omega, fun _ => by omega,
        fun _ => by omega, fun _ => rfl⟩,
      ⟨_, _, e2, ⟨b2.1, b2.2, hwy, le_refl _⟩, fun _ => by omega, fun _ => by omega,
        fun _ => by omega, fun _ => rfl⟩⟩

theorem DrawEngine.cohenSutherlandClip_single_boundary_witness :
    (∃ x y, DrawEngine.cohenSutherlandClip 2 20 20 0 31 10 10 50 50
        = .ok (true, 20, 20, x, y) ∧ inWindow x y 10 10 50 50 ∧
        ((0 : Int) < 10 → x = 10) ∧ ((50 : Int) < 0 → x = 50) ∧
        ((31 : Int) < 10 → y = 10) ∧ ((50 : Int) < 31 → y = 50)) ∧
    (∃ x y, DrawEngine.cohenSutherlandClip 2 0 31 20 20 10 10 50 50
        = .ok (true, x, y, 20, 20) ∧ inWindow x y 10 10 50 50 ∧
        ((0 : Int) < 10 → x = 10) ∧ ((50 : Int) < 0 → x = 50) ∧
        ((31 : Int) < 10 → y = 10) ∧ ((50 : Int) < 31 → y = 50)) :=
  DrawEngine.cohenSutherlandClip_single_boundary 20 20 0 31 10 10 50 50 0 (by decide)
    (by decide) (by decide) (Or.inl (by decide))

/-- C10: a horizontal segment at a height inside a valid window that starts
left of the window and ends right of it is clipped to the segment between
the left and the right boundary at the same height. -/
theorem DrawEngine.cohenSutherlandClip_horizontal (x0 x1 y xmin ymin xmax ymax : Int)
    (extra : Nat) (hwx : xmin ≤ xmax) (hy : ymin ≤ y ∧ y ≤ ymax)
    (h0 : x0 < xmin) (h1 : xmax < x1) :
    DrawEngine.cohenSutherlandClip (extra + 3) x0 y x1 y xmin ymin xmax ymax
      = .ok (true, xmin, y, xmax, y) := by
  have c0 : computeOutCode x0 y xmin ymin xmax ymax = 1 := by
    rw [computeOutCode_eq]; split_ifs <;> first | rfl | omega
  have c1 : computeOutCode x1 y xmin ymin xmax ymax = 2 := by
    rw [computeOutCode_eq]; split_ifs <;> first | rfl | omega
  have c2 := @computeOutCode_inside xmin y xmin ymin xmax ymax (by omega) (by omega) hy.1 hy.2
  have c3 := @computeOutCode_inside xmax y xmin ymin xmax ymax (by omega) (by omega) hy.1 hy.2
  have d1 : (x1 : ℚ) - x0 ≠ 0 := by
    have : (x0 : ℚ) < x1 := by exact_mod_cast (by omega : x0 < x1)
    linarith
  have d2 : (x1 : ℚ) - xmin ≠ 0 := by
    have : (xmin : ℚ) < x1 := by exact_mod_cast (by omega : xmin < x1)
    linarith
  simp [DrawEngine.cohenSutherlandClip, cround_intCast, DrawEngine.clipLoop, c0, c1, c2, c3,
    DrawEngine.intersectAt, d1, d2, CS_TOP, CS_BOTTOM, CS_LEFT, CS_RIGHT, Except.map,
    outcode_bits]

theorem DrawEngine.cohenSutherlandClip_horizontal_witness :
    DrawEngine.cohenSutherlandClip 3 0 30 60 30 10 10 50 50 = .ok (true, 10, 30, 50, 30) :=
  DrawEngine.cohenSutherlandClip_horizontal 0 60 30 10 10 50 50 0 (by decide) (by decide)
    (by decide) (by decide)

theorem shouldDrawAtStep_nat (style : LineStyle) (step width offset : Nat) (hw : 1 ≤ width) :
    DrawEngine.shouldDrawAtStep step style width offset =
      some ((patternOfStyle style).getD ((step / width + offset) % patternLength style) 0 != 0) := by
  have hw0 : (width : Int) ≠ 0 := by omega
  have hidx : ∀ L : Nat, 0 < L →
      ((Int.tdiv (step : Int) width + offset).tmod L) = (((step / width + offset) % L : Nat) : Int) := by
    intro L hL
    rw [Int.tdiv_eq_ediv (by omega) (by omega)]
    have h1 : (0 : Int) ≤ (step : Int) / width + offset := by positivity
    rw [Int.tmod_eq_emod h1 (by omega)]
    push_cast
    rfl
  have hlt : ∀ L : Nat, 0 < L → (step / width + offset) % L < L := fun L hL => Nat.mod_lt _ hL
  cases style
  · simp only [DrawEngine.shouldDrawAtStep, hw0, if_false, SOLID_LEN, SOLID_PATTERN]
    have := hidx 1 (by omega)
    simp only [Nat.cast_one] at this
    rw [this]
    have hl := hlt 1 (by omega)
    simp only [patternOfStyle, patternLength]
    generalize (step / width + offset) % 1 = i at hl
    interval_cases i
    rfl
  · simp only [DrawEngine.shouldDrawAtStep, hw0, if_false, DASH_PATTERN]
    have := hidx 10 (by omega)
    simp only [Nat.cast_ofNat] at this
    rw [this]
    have hl := hlt 10 (by omega)
    simp only [patternOfStyle, patternLength]
    generalize (step / width + offset) % 10 = i at hl
    interval_cases i <;> rfl
  · simp only [DrawEngine.shouldDrawAtStep, hw0, if_false, DOT_PATTERN]
    have := hidx 3 (by omega)
    simp only [Nat.cast_ofNat] at this
    rw [this]
    have hl := hlt 3 (by omega)
    simp only [patternOfStyle, patternLength]
    generalize (step / width + offset) % 3 = i at hl
    interval_cases i <;> rfl
  · simp only [DrawEngine.shouldDrawAtStep, hw0, if_false, DASHDOT_PATTERN]
    have := hidx 11 (by omega)
    simp only [Nat.cast_ofNat] at this
    rw [this]
    have hl := hlt 11 (by omega)
    simp only [patternOfStyle, patternLength]
    generalize (step / width + offset) % 11 = i at hl
    interval_cases i <;> rfl

/-- C15: for every style, step ≥ 0, pen width ≥ 1 and offset ≥ 0,
`shouldDrawAtStep` returns whether `pattern[(step / width + offset) mod length]`
is non-zero, where the patterns are Solid = [1], Dash = [1,1,1,1,1,1,0,0,0,0],
Dot = [1,0,0], DashDot = [1,1,1,1,1,1,0,0,1,0,0], of lengths 1, 10, 3, 11. -/
theorem DrawEngine.shouldDrawAtStep_pattern (style : LineStyle) (step width offset : Int)
    (hs : 0 ≤ step) (hw : 1 ≤ width) (ho : 0 ≤ offset) :
    DrawEngine.shouldDrawAtStep step style width offset =
      some ((patternOfStyle style).getD
        ((step / width + offset) % ((patternOfStyle style).length : Int)).toNat 0 != 0) ∧
    patternOfStyle .Solid = [1] ∧
    patternOfStyle .Dash = [1, 1, 1, 1, 1, 1, 0, 0, 0, 0] ∧
    patternOfStyle .Dot = [1, 0, 0] ∧
    patternOfStyle .DashDot = [1, 1, 1, 1, 1, 1, 0, 0, 1, 0, 0] := by
  refine ⟨?_, rfl, rfl, rfl, rfl⟩
  have h := shouldDrawAtStep_nat style step.toNat width.toNat offset.toNat (by omega)
  rw [Int.toNat_of_nonneg hs, Int.toNat_of_nonneg (by omega : 0 ≤ width),
    Int.toNat_of_nonneg ho] at h
  rw [h]
  have hlen : (patternOfStyle style).length = patternLength style := by cases style <;> rfl
  rw [hlen]
  congr 3
  have e : ((step / width + offset) % (patternLength style : Int)) =
      (((step.toNat / width.toNat + offset.toNat) % patternLength style : Nat) : Int) := by
    push_cast
    rw [Int.toNat_of_nonneg hs, Int.toNat_of_nonneg (by omega : 0 ≤ width),
      Int.toNat_of_nonneg ho]
  rw [e, Int.toNat_ofNat]

theorem DrawEngine.shouldDrawAtStep_pattern_witness :
    DrawEngine.shouldDrawAtStep 13 .Dash 2 1 =
      some ((patternOfStyle .Dash).getD
        (((13 : Int) / 2 + 1) % ((patternOfStyle .Dash).length : Int)).toNat 0 != 0) ∧
    patternOfStyle .Solid = [1] ∧
    patternOfStyle .Dash = [1, 1, 1, 1, 1, 1, 0, 0, 0, 0] ∧
    patternOfStyle .Dot = [1, 0, 0] ∧
    patternOfStyle .DashDot = [1, 1, 1, 1, 1, 1, 0, 0, 1, 0, 0] :=
  DrawEngine.shouldDrawAtStep_pattern .Dash 13 2 1 (by decide) (by decide) (by decide)

/-- C16: `shouldDrawAtStep` is periodic in the step with period
`w * patternLength(style)`, for every style, step ≥ 0, pen width `w ≥ 1` and
offset ≥ 0. -/
theorem DrawEngine.shouldDrawAtStep_periodic (style : LineStyle) (step w off : Int)
    (hs : 0 ≤ step) (hw : 1 ≤ w) (ho : 0 ≤ off) :
    DrawEngine.shouldDrawAtStep step style w off =
      DrawEngine.shouldDrawAtStep (step + w * (patternLength style : Int)) style w off := by
  have h1 := shouldDrawAtStep_nat style step.toNat w.toNat off.toNat (by omega)
  have h2 := shouldDrawAtStep_nat style (step.toNat + w.toNat * patternLength style) w.toNat
    off.toNat (by omega)
  push_cast at h2
  rw [Int.toNat_of_nonneg hs, Int.toNat_of_nonneg (by omega : 0 ≤ w),
    Int.toNat_of_nonneg ho] at h1 h2
  rw [h1, h2]
  have hpos : 0 < w.toNat := by omega
  rw [Nat.add_mul_div_left _ _ hpos]
  congr 3
  have : step.toNat / w.toNat + patternLength style + off.toNat =
      (step.toNat / w.toNat + off.toNat) + patternLength style := by omega
  rw [this, Nat.add_mod_right]

theorem DrawEngine.shouldDrawAtStep_periodic_witness :
    DrawEngine.shouldDrawAtStep 13 .DashDot 2 1 =
      DrawEngine.shouldDrawAtStep (13 + 2 * (patternLength .DashDot : Int)) .DashDot 2 1 :=
  DrawEngine.shouldDrawAtStep_periodic .DashDot 13 2 1 (by decide) (by decide) (by decide)

theorem setPixel_spec (canvas : Canvas) (x y : Int) (color : Color) :
    (DrawEngine.setPixel canvas x y color).width = canvas.width ∧
    (DrawEngine.setPixel canvas x y color).height = canvas.height ∧
    ∀ a b, (DrawEngine.setPixel canvas x y color).pixelColor a b =
      if a = x ∧ b = y ∧ DrawEngine.inBounds canvas a b then color
      else canvas.pixelColor a b := by
  unfold DrawEngine.setPixel
  by_cases hb : x < 0 ∨ y < 0 ∨ x ≥ canvas.width ∨ y ≥ canvas.height
  · rw [if_pos hb]
    refine ⟨rfl, rfl, ?_⟩
    intro a b
    rw [if_neg]
    rintro ⟨rfl, rfl, h1, h2, h3, h4⟩
    omega
  · rw [if_neg hb]
    refine ⟨rfl, rfl, ?_⟩
    intro a b
    simp only
    by_cases h : a = x ∧ b = y
    · obtain ⟨rfl, rfl⟩ := h
      have : DrawEngine.inBounds canvas a b := by
        unfold DrawEngine.inBounds; omega
      simp [this]
    · have : ¬(a = x ∧ b = y ∧ DrawEngine.inBounds canvas a b) := fun g => h ⟨g.1, g.2.1⟩
      rw [if_neg h, if_neg this]

theorem thickInner_spec (x y : Int) (color : Color) (r dy : Int) :
    ∀ (n : Nat) (dx : Int) (canvas : Canvas), r - dx + 1 ≤ n →
      (DrawEngine.thickInner x y color r dy n dx canvas).width = canvas.width ∧
      (DrawEngine.thickInner x y color r dy n dx canvas).height = canvas.height ∧
      ∀ a b, (DrawEngine.thickInner x y color r dy n dx canvas).pixelColor a b =
        if DrawEngine.inBounds canvas a b ∧ b = y + dy ∧ dx ≤ a - x ∧ a - x ≤ r ∧
            (a - x) * (a - x) + dy * dy ≤ r * r then color
        else canvas.pixelColor a b := by
  intro n
  induction n with
  | zero =>
    intro dx canvas hn
    refine ⟨rfl, rfl, ?_⟩
    intro a b
    rw [DrawEngine.thickInner, if_neg]
    rintro ⟨-, -, h1, h2, -⟩
    simp at hn
    omega
  | succ n ih =>
    intro dx canvas hn
    rw [DrawEngine.thickInner]
    by_cases hle : dx ≤ r
    · rw [if_pos hle]
      by_cases hd : dx * dx + dy * dy ≤ r * r
      · rw [if_pos hd]
        obtain ⟨s1, s2, s3⟩ := setPixel_spec canvas (x + dx) (y + dy) color
        obtain ⟨i1, i2, i3⟩ := ih (dx + 1) (DrawEngine.setPixel canvas (x + dx) (y + dy) color)
          (by push_cast at hn; omega)
        refine ⟨by rw [i1, s1], by rw [i2, s2], ?_⟩
        intro a b
        have hin : DrawEngine.inBounds (DrawEngine.setPixel canvas (x + dx) (y + dy) color) a b ↔
            DrawEngine.inBounds canvas a b := by
          unfold DrawEngine.inBounds; rw [s1, s2]
        rw [i3, s3]
        simp only [hin]
        by_cases hnow : a = x + dx ∧ b = y + dy ∧ DrawEngine.inBounds canvas a b
        · obtain ⟨rfl, rfl, hb⟩ := hnow
          have e : x + dx - x = dx := by ring
          simp only [hb, true_and, e, hle, hd, le_refl, and_self, if_true]
          split_ifs <;> rfl
        · rw [if_neg hnow]
          by_cases hlater : DrawEngine.inBounds canvas a b ∧ b = y + dy ∧ dx + 1 ≤ a - x ∧
              a - x ≤ r ∧ (a - x) * (a - x) + dy * dy ≤ r * r
          · rw [if_pos hlater, if_pos ⟨hlater.1, hlater.2.1, by omega, hlater.2.2.2⟩]
          · rw [if_neg hlater, if_neg]
            rintro ⟨h1, h2, h3, h4, h5⟩
            by_cases hax : a - x = dx
            · exact hnow ⟨by omega, h2, h1⟩
            · exact hlater ⟨h1, h2, by omega, h4, h5⟩
      · rw [if_neg hd]
        obtain ⟨i1, i2, i3⟩ := ih (dx + 1) canvas (by push_cast at hn; omega)
        refine ⟨i1, i2, ?_⟩
        intro a b
        rw [i3]
        by_cases hlater : DrawEngine.inBounds canvas a b ∧ b = y + dy ∧ dx + 1 ≤ a - x ∧
            a - x ≤ r ∧ (a - x) * (a - x) + dy * dy ≤ r * r
        · rw [if_pos hlater, if_pos ⟨hlater.1, hlater.2.1, by omega, hlater.2.2.2⟩]
        · rw [if_neg hlater, if_neg]
          rintro ⟨h1, h2, h3, h4, h5⟩
          by_cases hax : a - x = dx
          · rw [hax] at h5
            exact hd h5
          · exact hlater ⟨h1, h2, by omega, h4, h5⟩
    · rw [if_neg hle]
      refine ⟨rfl, rfl, ?_⟩
      intro a b
      rw [if_neg]
      rintro ⟨-, -, h1, h2, -⟩
      omega

theorem thickOuter_spec (x y : Int) (color : Color) (r : Int) (hr : 0 ≤ r) :
    ∀ (n : Nat) (dy : Int) (canvas : Canvas), r - dy + 1 ≤ n →
      (DrawEngine.thickOuter x y color r n dy canvas).width = canvas.width ∧
      (DrawEngine.thickOuter x y color r n dy canvas).height = canvas.height ∧
      ∀ a b, (DrawEngine.thickOuter x y color r n dy canvas).pixelColor a b =
        if DrawEngine.inBounds canvas a b ∧ dy ≤ b - y ∧ b - y ≤ r ∧ -r ≤ a - x ∧ a - x ≤ r ∧
            (a - x) * (a - x) + (b - y) * (b - y) ≤ r * r then color
        else canvas.pixelColor a b := by
  intro n
  induction n with
  | zero =>
    intro dy canvas hn
    refine ⟨rfl, rfl, ?_⟩
    intro a b
    rw [DrawEngine.thickOuter, if_neg]
    rintro ⟨-, h1, h2, -⟩
    simp at hn
    omega
  | succ n ih =>
    intro dy canvas hn
    rw [DrawEngine.thickOuter]
    by_cases hle : dy ≤ r
    · rw [if_pos hle]
      obtain ⟨s1, s2, s3⟩ := thickInner_spec x y color r dy (2 * r + 1).toNat (-r) canvas
        (by omega)
      obtain ⟨i1, i2, i3⟩ := ih (dy + 1)
        (DrawEngine.thickInner x y color r dy (2 * r + 1).toNat (-r) canvas)
        (by push_cast at hn; omega)
      refine ⟨by rw [i1, s1], by rw [i2, s2], ?_⟩
      intro a b
      have hin : DrawEngine.inBounds
          (DrawEngine.thickInner x y color r dy (2 * r + 1).toNat (-r) canvas) a b ↔
          DrawEngine.inBounds canvas a b := by
        unfold DrawEngine.inBounds; rw [s1, s2]
      rw [i3, s3]
      simp only [hin]
      by_cases hlater : DrawEngine.inBounds canvas a b ∧ dy + 1 ≤ b - y ∧ b - y ≤ r ∧
          -r ≤ a - x ∧ a - x ≤ r ∧ (a - x) * (a - x) + (b - y) * (b - y) ≤ r * r
      · rw [if_pos hlater, if_pos ⟨hlater.1, by omega, hlater.2.2⟩]
      · rw [if_neg hlater]
        by_cases hnow : DrawEngine.inBounds canvas a b ∧ b = y + dy ∧ -r ≤ a - x ∧ a - x ≤ r ∧
            (a - x) * (a - x) + dy * dy ≤ r * r
        · rw [if_pos hnow, if_pos]
          obtain ⟨h1, h2, h3, h4, h5⟩ := hnow
          have e : b - y = dy := by omega
          rw [e]
          exact ⟨h1, le_refl _, hle, h3, h4, h5⟩
        · rw [if_neg hnow, if_neg]
          rintro ⟨h1, h2, h3, h4, h5, h6⟩
          by_cases hby : b - y = dy
          · rw [hby] at h6
            exact hnow ⟨h1, by omega, h4, h5, h6⟩
          · exact hlater ⟨h1, by omega, h3, h4, h5, h6⟩
    · rw [if_neg hle]
      refine ⟨rfl, rfl, ?_⟩
      intro a b
      rw [if_neg]
      rintro ⟨-, h1, h2, -⟩
      omega

/-- C17: after `drawThickPixel` a pixel `(px, py)` holds the given colour if
it is in bounds and `(px-x)² + (py-y)² ≤ r²` with `r = max(1, width / 2)`,
and holds its previous colour otherwise; the size of the canvas is unchanged.
Offsets of the disk that fall outside the canvas have no effect. -/
theorem DrawEngine.drawThickPixel_effect (canvas : Canvas) (x y : Int) (color : Color)
    (width : Int) :
    (DrawEngine.drawThickPixel canvas x y color width).width = canvas.width ∧
    (DrawEngine.drawThickPixel canvas x y color width).height = canvas.height ∧
    ∀ px py, (DrawEngine.drawThickPixel canvas x y color width).pixelColor px py =
      if DrawEngine.inBounds canvas px py ∧
          (px - x) ^ 2 + (py - y) ^ 2 ≤ (max 1 (Int.tdiv width 2)) ^ 2 then color
      else canvas.pixelColor px py := by
  have hr : (1 : Int) ≤ max 1 (Int.tdiv width 2) := le_max_left _ _
  unfold DrawEngine.drawThickPixel
  simp only
  generalize max 1 (Int.tdiv width 2) = r at hr
  obtain ⟨s1, s2, s3⟩ := thickOuter_spec x y color r (by omega) (2 * r + 1).toNat (-r) canvas
    (by omega)
  refine ⟨s1, s2, ?_⟩
  intro px py
  rw [s3]
  by_cases h : DrawEngine.inBounds canvas px py ∧ (px - x) ^ 2 + (py - y) ^ 2 ≤ r ^ 2
  · rw [if_pos h, if_pos]
    obtain ⟨h1, h2⟩ := h
    have ha : (px - x) * (px - x) ≤ r * r := by nlinarith [sq_nonneg (py - y)]
    have hb : (py - y) * (py - y) ≤ r * r := by nlinarith [sq_nonneg (px - x)]
    refine ⟨h1, ?_, ?_, ?_, ?_, by nlinarith⟩
    · by_contra hc; nlinarith
    · by_contra hc; nlinarith
    · by_contra hc; nlinarith
    · by_contra hc; nlinarith
  · rw [if_neg h, if_neg]
    rintro ⟨h1, -, -, -, -, h6⟩
    exact h ⟨h1, by nlinarith⟩

theorem slope_guard_false {a b : Int} (h : a ≠ b) : ¬|(b : ℚ) - (a : ℚ)| < 1 / 1000000000 := by
  have h1 : (1 : Int) ≤ |b - a| := Int.one_le_abs (by omega)
  have h2 : ((1 : Int) : ℚ) ≤ ((|b - a| : Int) : ℚ) := by exact_mod_cast h1
  rw [Int.cast_abs] at h2
  push_cast at h2
  intro hlt
  linarith

theorem cround_interp_t {a b lo hi m0 m1 bd : Int} (ha : lo ≤ a ∧ a ≤ hi)
    (hb : lo ≤ b ∧ b ≤ hi)
    (h : (m0 ≤ bd ∧ bd ≤ m1 ∧ m0 < m1) ∨ (m1 ≤ bd ∧ bd ≤ m0 ∧ m1 < m0)) :
    lo ≤ cround ((a : ℚ) + ((bd : ℚ) - m0) / ((m1 : ℚ) - m0) * ((b : ℚ) - a)) ∧
      cround ((a : ℚ) + ((bd : ℚ) - m0) / ((m1 : ℚ) - m0) * ((b : ℚ) - a)) ≤ hi := by
  have e : (a : ℚ) + ((bd : ℚ) - m0) / ((m1 : ℚ) - m0) * ((b : ℚ) - a) =
      (a : ℚ) + ((b : ℚ) - a) * ((bd : ℚ) - m0) / ((m1 : ℚ) - m0) := by ring
  rw [e]
  exact (cround_interp_int ha hb h).1

theorem intersectEdge_left (A B : Point) (xmin ymin xmax ymax : Int) (h : A.1 ≠ B.1) :
    intersectEdge A B 0 xmin ymin xmax ymax =
      (xmin, cround ((A.2 : ℚ) + ((xmin : ℚ) - A.1) / ((B.1 : ℚ) - A.1) * ((B.2 : ℚ) - A.2))) := by
  unfold intersectEdge
  simp only [if_true, if_neg (slope_guard_false h), cround_intCast]

theorem intersectEdge_right (A B : Point) (xmin ymin xmax ymax : Int) (h : A.1 ≠ B.1) :
    intersectEdge A B 1 xmin ymin xmax ymax =
      (xmax, cround ((A.2 : ℚ) + ((xmax : ℚ) - A.1) / ((B.1 : ℚ) - A.1) * ((B.2 : ℚ) - A.2))) := by
  unfold intersectEdge
  simp only [if_true, if_neg (slope_guard_false h), cround_intCast, one_ne_zero, if_false]

theorem intersectEdge_top (A B : Point) (xmin ymin xmax ymax : Int) (h : A.2 ≠ B.2) :
    intersectEdge A B 2 xmin ymin xmax ymax =
      (cround ((A.1 : ℚ) + ((ymin : ℚ) - A.2) / ((B.2 : ℚ) - A.2) * ((B.1 : ℚ) - A.1)), ymin) := by
  unfold intersectEdge
  simp only [if_neg (slope_guard_false h), cround_intCast, if_true, if_false,
    (by decide : ¬((2 : Int) = 0)), (by decide : ¬((2 : Int) = 1)),
    (by decide : ¬((3 : Int) = 0)), (by decide : ¬((3 : Int) = 1)),
    (by decide : ¬((3 : Int) = 2))]

theorem intersectEdge_bottom (A B : Point) (xmin ymin xmax ymax : Int) (h : A.2 ≠ B.2) :
    intersectEdge A B 3 xmin ymin xmax ymax =
      (cround ((A.1 : ℚ) + ((ymax : ℚ) - A.2) / ((B.2 : ℚ) - A.2) * ((B.1 : ℚ) - A.1)), ymax) := by
  unfold intersectEdge
  simp only [if_neg (slope_guard_false h), cround_intCast, if_true, if_false,
    (by decide : ¬((2 : Int) = 0)), (by decide : ¬((2 : Int) = 1)),
    (by decide : ¬((3 : Int) = 0)), (by decide : ¬((3 : Int) = 1)),
    (by decide : ¬((3 : Int) = 2))]

theorem insideRect_0 (p : Point) (xmin ymin xmax ymax : Int) :
    insideRect p 0 xmin ymin xmax ymax = true ↔ xmin ≤ p.1 := by
  simp [insideRect]

theorem insideRect_1 (p : Point) (xmin ymin xmax ymax : Int) :
    insideRect p 1 xmin ymin xmax ymax = true ↔ p.1 ≤ xmax := by
  simp [insideRect]

theorem insideRect_2 (p : Point) (xmin ymin xmax ymax : Int) :
    insideRect p 2 xmin ymin xmax ymax = true ↔ ymin ≤ p.2 := by
  simp [insideRect]

theorem insideRect_3 (p : Point) (xmin ymin xmax ymax : Int) :
    insideRect p 3 xmin ymin xmax ymax = true ↔ p.2 ≤ ymax := by
  simp [insideRect]

theorem clipPass_forall (edge xmin ymin xmax ymax : Int) (P : Point → Prop) :
    ∀ (l : List Point) (S : Point),
      (∀ p ∈ l, insideRect p edge xmin ymin xmax ymax = true → P p) →
      (∀ A B, A ∈ S :: l → B ∈ l →
        insideRect A edge xmin ymin xmax ymax ≠ insideRect B edge xmin ymin xmax ymax →
        P (intersectEdge A B edge xmin ymin xmax ymax)) →
      ∀ p ∈ DrawEngine.clipPass edge xmin ymin xmax ymax S l, P p := by
  intro l
  induction l with
  | nil => intro S _ _ p hp; simp [DrawEngine.clipPass] at hp
  | cons E rest ih =>
    intro S hkeep hint p hp
    rw [DrawEngine.clipPass] at hp
    rcases List.mem_append.mp hp with hp | hp
    · cases hS : insideRect S edge xmin ymin xmax ymax <;>
        cases hE : insideRect E edge xmin ymin xmax ymax <;>
        simp [hS, hE] at hp
      · rcases hp with rfl | rfl
        · exact hint S E (List.mem_cons_self _ _) (List.mem_cons_self _ _) (by simp [hS, hE])
        · exact hkeep _ (List.mem_cons_self _ _) hE
      · subst hp
        exact hint S E (List.mem_cons_self _ _) (List.mem_cons_self _ _) (by simp [hS, hE])
      · subst hp
        exact hkeep _ (List.mem_cons_self _ _) hE
    · exact ih E (fun q hq => hkeep q (List.mem_cons_of_mem _ hq))
        (fun A B hA hB => hint A B (List.mem_cons_of_mem _ hA) (List.mem_cons_of_mem _ hB)) p hp

theorem clipPass_id (edge xmin ymin xmax ymax : Int) :
    ∀ (l : List Point) (S : Point), insideRect S edge xmin ymin xmax ymax = true →
      (∀ p ∈ l, insideRect p edge xmin ymin xmax ymax = true) →
      DrawEngine.clipPass edge xmin ymin xmax ymax S l = l := by
  intro l
  induction l with
  | nil => intro S _ _; rfl
  | cons E rest ih =>
    intro S hS hl
    have hE := hl E (List.mem_cons_self _ _)
    rw [DrawEngine.clipPass]
    simp only [hS, hE, Bool.and_self, if_true, List.singleton_append, List.cons.injEq, true_and]
    exact ih E hE (fun p hp => hl p (List.mem_cons_of_mem _ hp))

theorem clipEdges_nil (xmin ymin xmax ymax : Int) (n : Nat) (edge : Int) :
    DrawEngine.clipEdges xmin ymin xmax ymax n edge [] = [] := by
  cases n <;> rfl

theorem clipEdges_step (xmin ymin xmax ymax : Int) (n : Nat) (edge : Int)
    (output : List Point) (Q R : Point → Prop)
    (hpass : ∀ S ∈ output, ∀ p ∈ DrawEngine.clipPass edge xmin ymin xmax ymax S output, Q p)
    (hrest : ∀ out2 : List Point, (∀ p ∈ out2, Q p) →
      ∀ p ∈ DrawEngine.clipEdges xmin ymin xmax ymax n (edge + 1) out2, R p) :
    ∀ p ∈ DrawEngine.clipEdges xmin ymin xmax ymax (n + 1) edge output, R p := by
  intro p hp
  rw [DrawEngine.clipEdges] at hp
  cases hlast : output.getLast? with
  | none => rw [hlast] at hp; simp at hp
  | some S =>
    rw [hlast] at hp
    simp only at hp
    exact hrest _ (hpass S (List.mem_of_getLast?_eq_some hlast)) p hp

theorem clipPolygonWithRect_inWindow (poly : List Point) (xmin ymin xmax ymax : Int)
    (hwx : xmin ≤ xmax) (hwy : ymin ≤ ymax) :
    ∀ p ∈ DrawEngine.clipPolygonWithRect poly xmin ymin xmax ymax,
      inWindow p.1 p.2 xmin ymin xmax ymax := by
  unfold DrawEngine.clipPolygonWithRect
  split_ifs with hemp
  · simp
  refine clipEdges_step xmin ymin xmax ymax 3 0 poly (fun p => xmin ≤ p.1) _ ?_ ?_
  · -- left edge
    intro S _
    apply clipPass_forall
    · intro p _ hp
      exact (insideRect_0 p xmin ymin xmax ymax).mp hp
    · intro A B _ _ hne
      have hAB : A.1 ≠ B.1 := by
        intro h
        apply hne
        simp [insideRect, h]
      rw [intersectEdge_left A B xmin ymin xmax ymax hAB]
  intro out1 h1
  refine clipEdges_step xmin ymin xmax ymax 2 (0 + 1) out1
    (fun p => xmin ≤ p.1 ∧ p.1 ≤ xmax) _ ?_ ?_
  · -- right edge
    intro S hS
    apply clipPass_forall
    · intro p hp hin
      exact ⟨h1 p hp, (insideRect_1 p xmin ymin xmax ymax).mp hin⟩
    · intro A B _ _ hne
      have hAB : A.1 ≠ B.1 := by
        intro h
        apply hne
        simp [insideRect, h]
      show xmin ≤ (intersectEdge A B 1 xmin ymin xmax ymax).1 ∧
        (intersectEdge A B 1 xmin ymin xmax ymax).1 ≤ xmax
      rw [intersectEdge_right A B xmin ymin xmax ymax hAB]
      exact ⟨hwx, le_refl _⟩
  intro out2 h2
  refine clipEdges_step xmin ymin xmax ymax 1 (0 + 1 + 1) out2
    (fun p => (xmin ≤ p.1 ∧ p.1 ≤ xmax) ∧ ymin ≤ p.2) _ ?_ ?_
  · -- top edge
    intro S hS
    apply clipPass_forall
    · intro p hp hin
      exact ⟨h2 p hp, (insideRect_2 p xmin ymin xmax ymax).mp hin⟩
    · intro A B hA hB hne
      have hA2 : xmin ≤ A.1 ∧ A.1 ≤ xmax := by
        rcases List.mem_cons.mp hA with rfl | hA
        · exact h2 _ hS
        · exact h2 _ hA
      have hB2 := h2 B hB
      have hs : (A.2 < ymin ∧ ymin ≤ B.2) ∨ (B.2 < ymin ∧ ymin ≤ A.2) := by
        have e1 := insideRect_2 A xmin ymin xmax ymax
        have e2 := insideRect_2 B xmin ymin xmax ymax
        change insideRect A 2 xmin ymin xmax ymax ≠ insideRect B 2 xmin ymin xmax ymax at hne
        cases hAi : insideRect A 2 xmin ymin xmax ymax <;>
          cases hBi : insideRect B 2 xmin ymin xmax ymax <;>
          simp [hAi, hBi] at hne e1 e2
        · exact Or.inl ⟨e1, e2⟩
        · exact Or.inr ⟨e2, e1⟩
      have hAB : A.2 ≠ B.2 := by omega
      show (xmin ≤ (intersectEdge A B 2 xmin ymin xmax ymax).1 ∧
        (intersectEdge A B 2 xmin ymin xmax ymax).1 ≤ xmax) ∧
        ymin ≤ (intersectEdge A B 2 xmin ymin xmax ymax).2
      rw [intersectEdge_top A B xmin ymin xmax ymax hAB]
      exact ⟨cround_interp_t hA2 hB2 (by omega), le_refl _⟩
  intro out3 h3
  refine clipEdges_step xmin ymin xmax ymax 0 (0 + 1 + 1 + 1) out3
    (fun p => inWindow p.1 p.2 xmin ymin xmax ymax) _ ?_ ?_
  · -- bottom edge
    intro S hS
    apply clipPass_forall
    · intro p hp hin
      have := h3 p hp
      exact ⟨this.1.1, this.1.2, this.2, (insideRect_3 p xmin ymin xmax ymax).mp hin⟩
    · intro A B hA hB hne
      have hA2 : xmin ≤ A.1 ∧ A.1 ≤ xmax := by
        rcases List.mem_cons.mp hA with rfl | hA
        · exact (h3 _ hS).1
        · exact (h3 _ hA).1
      have hB2 := (h3 B hB).1
      have hs : (ymax < A.2 ∧ B.2 ≤ ymax) ∨ (ymax < B.2 ∧ A.2 ≤ ymax) := by
        have e1 := insideRect_3 A xmin ymin xmax ymax
        have e2 := insideRect_3 B xmin ymin xmax ymax
        change insideRect A 3 xmin ymin xmax ymax ≠ insideRect B 3 xmin ymin xmax ymax at hne
        cases hAi : insideRect A 3 xmin ymin xmax ymax <;>
          cases hBi : insideRect B 3 xmin ymin xmax ymax <;>
          simp [hAi, hBi] at hne e1 e2
        · exact Or.inl ⟨e1, e2⟩
        · exact Or.inr ⟨e2, e1⟩
      have hAB : A.2 ≠ B.2 := by omega
      show inWindow (intersectEdge A B 3 xmin ymin xmax ymax).1
        (intersectEdge A B 3 xmin ymin xmax ymax).2 xmin ymin xmax ymax
      rw [intersectEdge_bottom A B xmin ymin xmax ymax hAB]
      have := cround_interp_t hA2 hB2 (by omega : (A.2 ≤ ymax ∧ ymax ≤ B.2 ∧ A.2 < B.2) ∨
        (B.2 ≤ ymax ∧ ymax ≤ A.2 ∧ B.2 < A.2))
      exact ⟨this.1, this.2, hwy, le_refl _⟩
  intro out4 h4 p hp
  rw [DrawEngine.clipEdges] at hp
  exact h4 p hp

theorem clipEdges_id (xmin ymin xmax ymax : Int) (poly : List Point)
    (h : ∀ p ∈ poly, inWindow p.1 p.2 xmin ymin xmax ymax) :
    DrawEngine.clipEdges xmin ymin xmax ymax 4 0 poly = poly := by
  cases hlast : poly.getLast? with
  | none =>
    have : poly = [] := List.getLast?_eq_none_iff.mp hlast
    subst this
    rfl
  | some S =>
    have hS := h S (List.mem_of_getLast?_eq_some hlast)
    have p0 := clipPass_id 0 xmin ymin xmax ymax poly S
      ((insideRect_0 S xmin ymin xmax ymax).mpr hS.1)
      (fun p hp => (insideRect_0 p xmin ymin xmax ymax).mpr (h p hp).1)
    have p1 := clipPass_id 1 xmin ymin xmax ymax poly S
      ((insideRect_1 S xmin ymin xmax ymax).mpr hS.2.1)
      (fun p hp => (insideRect_1 p xmin ymin xmax ymax).mpr (h p hp).2.1)
    have p2 := clipPass_id 2 xmin ymin xmax ymax poly S
      ((insideRect_2 S xmin ymin xmax ymax).mpr hS.2.2.1)
      (fun p hp => (insideRect_2 p xmin ymin xmax ymax).mpr (h p hp).2.2.1)
    have p3 := clipPass_id 3 xmin ymin xmax ymax poly S
      ((insideRect_3 S xmin ymin xmax ymax).mpr hS.2.2.2)
      (fun p hp => (insideRect_3 p xmin ymin xmax ymax).mpr (h p hp).2.2.2)
    have e1 : (0 : Int) + 1 = 1 := rfl
    have e2 : (1 : Int) + 1 = 2 := rfl
    have e3 : (2 : Int) + 1 = 3 := rfl
    rw [DrawEngine.clipEdges, hlast]
    simp only
    rw [p0, DrawEngine.clipEdges, hlast]
    simp only
    rw [e1, p1, DrawEngine.clipEdges, hlast]
    simp only
    rw [e2, p2, DrawEngine.clipEdges, hlast]
    simp only
    rw [e3, p3, DrawEngine.clipEdges]

/-- C12: `clipPolygonWithRect` is idempotent: clipping the result of a clip
against the same valid window returns it unchanged, as a list. -/
theorem DrawEngine.clipPolygonWithRect_idempotent (poly : List Point)
    (xmin ymin xmax ymax : Int) (hwx : xmin ≤ xmax) (hwy : ymin ≤ ymax) :
    DrawEngine.clipPolygonWithRect
        (DrawEngine.clipPolygonWithRect poly xmin ymin xmax ymax) xmin ymin xmax ymax =
      DrawEngine.clipPolygonWithRect poly xmin ymin xmax ymax := by
  have hin := clipPolygonWithRect_inWindow poly xmin ymin xmax ymax hwx hwy
  generalize DrawEngine.clipPolygonWithRect poly xmin ymin xmax ymax = out at hin
  unfold DrawEngine.clipPolygonWithRect
  split_ifs with hemp
  · exact (List.isEmpty_iff.mp hemp).symm
  · exact clipEdges_id xmin ymin xmax ymax out hin

theorem DrawEngine.clipPolygonWithRect_idempotent_witness :
    DrawEngine.clipPolygonWithRect
        (DrawEngine.clipPolygonWithRect [(0, 0), (60, 20), (30, 70)] 10 10 50 50) 10 10 50 50 =
      DrawEngine.clipPolygonWithRect [(0, 0), (60, 20), (30, 70)] 10 10 50 50 :=
  DrawEngine.clipPolygonWithRect_idempotent [(0, 0), (60, 20), (30, 70)] 10 10 50 50
    (by decide) (by decide)

theorem intersectEdge_horizontal (x1 x2 y xmin ymin xmax ymax : Int) (h : x1 ≠ x2) :
    intersectEdge (x1, y) (x2, y) 0 xmin ymin xmax ymax = (xmin, y) ∧
    intersectEdge (x1, y) (x2, y) 1 xmin ymin xmax ymax = (xmax, y) := by
  rw [intersectEdge_left _ _ _ _ _ _ h, intersectEdge_right _ _ _ _ _ _ h]
  simp [cround_intCast]

theorem intersectEdge_vertical (x y1 y2 xmin ymin xmax ymax : Int) (h : y1 ≠ y2) :
    intersectEdge (x, y1) (x, y2) 2 xmin ymin xmax ymax = (x, ymin) ∧
    intersectEdge (x, y1) (x, y2) 3 xmin ymin xmax ymax = (x, ymax) := by
  rw [intersectEdge_top _ _ _ _ _ _ h, intersectEdge_bottom _ _ _ _ _ _ h]
  simp [cround_intCast]

/-- C13: an axis-aligned rectangle `(a,b),(c,b),(c,d),(a,d)` that strictly
encloses a valid window is clipped to the four corners of the window, each
once, in cyclic boundary order: the list starts at `(xmin, ymax)` and is the
list `(xmin,ymin),(xmax,ymin),(xmax,ymax),(xmin,ymax)` rotated by three. -/
theorem DrawEngine.clipPolygonWithRect_enclosing (a b c d xmin ymin xmax ymax : Int)
    (hwx : xmin ≤ xmax) (hwy : ymin ≤ ymax)
    (ha : a < xmin) (hb : b < ymin) (hc : xmax < c) (hd : ymax < d) :
    DrawEngine.clipPolygonWithRect [(a, b), (c, b), (c, d), (a, d)] xmin ymin xmax ymax =
      [(xmin, ymax), (xmin, ymin), (xmax, ymin), (xmax, ymax)] ∧
    DrawEngine.clipPolygonWithRect [(a, b), (c, b), (c, d), (a, d)] xmin ymin xmax ymax =
      [(xmin, ymin), (xmax, ymin), (xmax, ymax), (xmin, ymax)].rotate 3 := by
  have hac : a ≠ c := by omega
  have hca : c ≠ a := by omega
  have hbd : b ≠ d := by omega
  have hdb : d ≠ b := by omega
  have hxc : c ≠ xmin := by omega
  have hxa : xmax ≠ a := by omega
  have i1 := (intersectEdge_horizontal a c b xmin ymin xmax ymax hac).1
  have i2 := (intersectEdge_horizontal c a d xmin ymin xmax ymax hca).1
  have i3 := (intersectEdge_horizontal xmin c b xmin ymin xmax ymax (by omega)).2
  have i4 := (intersectEdge_horizontal c xmin d xmin ymin xmax ymax (by omega)).2
  have i5 := (intersectEdge_vertical xmin d b xmin ymin xmax ymax hdb).1
  have i6 := (intersectEdge_vertical xmax b d xmin ymin xmax ymax hbd).1
  have i7 := (intersectEdge_vertical xmin d ymin xmin ymin xmax ymax (by omega)).2
  have i8 := (intersectEdge_vertical xmax ymin d xmin ymin xmax ymax (by omega)).2
  have p0 : DrawEngine.clipPass 0 xmin ymin xmax ymax (a, d) [(a, b), (c, b), (c, d), (a, d)] =
      [(xmin, b), (c, b), (c, d), (xmin, d)] := by
    simp [DrawEngine.clipPass, insideRect, i1, i2, not_le.mpr ha, (by omega : xmin ≤ c)]
  have p1 : DrawEngine.clipPass 1 xmin ymin xmax ymax (xmin, d)
      [(xmin, b), (c, b), (c, d), (xmin, d)] = [(xmin, b), (xmax, b), (xmax, d), (xmin, d)] := by
    simp [DrawEngine.clipPass, insideRect, i3, i4, not_le.mpr hc, hwx]
  have p2 : DrawEngine.clipPass 2 xmin ymin xmax ymax (xmin, d)
      [(xmin, b), (xmax, b), (xmax, d), (xmin, d)] =
      [(xmin, ymin), (xmax, ymin), (xmax, d), (xmin, d)] := by
    simp [DrawEngine.clipPass, insideRect, i5, i6, not_le.mpr hb, (by omega : ymin ≤ d)]
  have p3 : DrawEngine.clipPass 3 xmin ymin xmax ymax (xmin, d)
      [(xmin, ymin), (xmax, ymin), (xmax, d), (xmin, d)] =
      [(xmin, ymax), (xmin, ymin), (xmax, ymin), (xmax, ymax)] := by
    simp [DrawEngine.clipPass, insideRect, i7, i8, not_le.mpr hd, hwy]
  have e1 : (0 : Int) + 1 = 1 := rfl
  have e2 : (1 : Int) + 1 = 2 := rfl
  have e3 : (2 : Int) + 1 = 3 := rfl
  have key : DrawEngine.clipPolygonWithRect [(a, b), (c, b), (c, d), (a, d)] xmin ymin xmax ymax =
      [(xmin, ymax), (xmin, ymin), (xmax, ymin), (xmax, ymax)] := by
    simp only [DrawEngine.clipPolygonWithRect, List.isEmpty_cons, Bool.false_eq_true, if_false,
      DrawEngine.clipEdges, List.getLast?_cons_cons, List.getLast?_singleton, p0, e1, p1, e2,
      p2, e3, p3]
  exact ⟨key, by rw [key]; rfl⟩

theorem DrawEngine.clipPolygonWithRect_enclosing_witness :
    DrawEngine.clipPolygonWithRect [(0, 0), (100, 0), (100, 100), (0, 100)] 10 10 50 50 =
      [(10, 50), (10, 10), (50, 10), (50, 50)] ∧
    DrawEngine.clipPolygonWithRect [(0, 0), (100, 0), (100, 100), (0, 100)] 10 10 50 50 =
      [(10, 10), (50, 10), (50, 50), (10, 50)].rotate 3 :=
  DrawEngine.clipPolygonWithRect_enclosing 0 0 100 100 10 10 50 50 (by decide) (by decide)
    (by decide) (by decide) (by decide) (by decide)

theorem clipPass_all_out (edge xmin ymin xmax ymax : Int) :
    ∀ (l : List Point) (S : Point), insideRect S edge xmin ymin xmax ymax = false →
      (∀ p ∈ l, insideRect p edge xmin ymin xmax ymax = false) →
      DrawEngine.clipPass edge xmin ymin xmax ymax S l = [] := by
  intro l
  induction l with
  | nil => intro S _ _; rfl
  | cons E rest ih =>
    intro S hS hl
    have hE := hl E (List.mem_cons_self _ _)
    rw [DrawEngine.clipPass]
    simp only [hS, hE, Bool.and_self, Bool.false_eq_true, if_false, Bool.not_false,
      Bool.and_false, Bool.and_true, List.nil_append]
    exact ih E hE (fun p hp => hl p (List.mem_cons_of_mem _ hp))

theorem clipEdges_of_empty (xmin ymin xmax ymax : Int) (n : Nat) (edge : Int)
    (out : List Point) (h : ∀ p ∈ out, False) :
    ∀ p ∈ DrawEngine.clipEdges xmin ymin xmax ymax n edge out, False := by
  have : out = [] := List.eq_nil_iff_forall_not_mem.mpr (fun p hp => h p hp)
  subst this
  rw [clipEdges_nil]
  simp

/-- One pass over a list whose vertices all lie outside the edge pushes
nothing, so the remaining passes return the empty list. -/
theorem clipEdges_all_out (xmin ymin xmax ymax : Int) (n : Nat) (edge : Int)
    (out : List Point) (h : ∀ p ∈ out, insideRect p edge xmin ymin xmax ymax = false) :
    ∀ p ∈ DrawEngine.clipEdges xmin ymin xmax ymax (n + 1) edge out, False := by
  refine clipEdges_step xmin ymin xmax ymax n edge out (fun _ => False) _ ?_
    (fun out2 h2 => clipEdges_of_empty xmin ymin xmax ymax n (edge + 1) out2 h2)
  intro S hS p hp
  rw [clipPass_all_out edge xmin ymin xmax ymax out S (h S hS) h] at hp
  simp at hp

/-- The intersection with a vertical window edge of two vertices on opposite
sides of it has its ordinate between the ordinates of the two vertices. -/
theorem intersectEdge_vertical_between (edge xmin ymin xmax ymax : Int)
    (he : edge = 0 ∨ edge = 1) (A B : Point)
    (hne : insideRect A edge xmin ymin xmax ymax ≠ insideRect B edge xmin ymin xmax ymax) :
    min A.2 B.2 ≤ (intersectEdge A B edge xmin ymin xmax ymax).2 ∧
      (intersectEdge A B edge xmin ymin xmax ymax).2 ≤ max A.2 B.2 := by
  have hA2 : min A.2 B.2 ≤ A.2 ∧ A.2 ≤ max A.2 B.2 := ⟨min_le_left _ _, le_max_left _ _⟩
  have hB2 : min A.2 B.2 ≤ B.2 ∧ B.2 ≤ max A.2 B.2 := ⟨min_le_right _ _, le_max_right _ _⟩
  rcases he with rfl | rfl
  · have hs : (A.1 < xmin ∧ xmin ≤ B.1) ∨ (B.1 < xmin ∧ xmin ≤ A.1) := by
      have e1 := insideRect_0 A xmin ymin xmax ymax
      have e2 := insideRect_0 B xmin ymin xmax ymax
      cases hAi : insideRect A 0 xmin ymin xmax ymax <;>
        cases hBi : insideRect B 0 xmin ymin xmax ymax <;>
        simp [hAi, hBi] at hne e1 e2
      · exact Or.inl ⟨e1, e2⟩
      · exact Or.inr ⟨e2, e1⟩
    rw [intersectEdge_left A B xmin ymin xmax ymax (by omega)]
    exact cround_interp_t hA2 hB2 (by omega)
  · have hs : (xmax < A.1 ∧ B.1 ≤ xmax) ∨ (xmax < B.1 ∧ A.1 ≤ xmax) := by
      have e1 := insideRect_1 A xmin ymin xmax ymax
      have e2 := insideRect_1 B xmin ymin xmax ymax
      cases hAi : insideRect A 1 xmin ymin xmax ymax <;>
        cases hBi : insideRect B 1 xmin ymin xmax ymax <;>
        simp [hAi, hBi] at hne e1 e2
      · exact Or.inl ⟨e1, e2⟩
      · exact Or.inr ⟨e2, e1⟩
    rw [intersectEdge_right A B xmin ymin xmax ymax (by omega)]
    exact cround_interp_t hA2 hB2 (by omega : (A.1 ≤ xmax ∧ xmax ≤ B.1 ∧ A.1 < B.1) ∨
      (B.1 ≤ xmax ∧ xmax ≤ A.1 ∧ B.1 < A.1))

/-- A pass against a vertical window edge keeps an upper bound on the
ordinates of the vertices. -/
theorem clipPass_vertical_le (edge xmin ymin xmax ymax hi : Int)
    (he : edge = 0 ∨ edge = 1) (S : Point) (l : List Point) (hS : S ∈ l)
    (hl : ∀ p ∈ l, p.2 ≤ hi) :
    ∀ p ∈ DrawEngine.clipPass edge xmin ymin xmax ymax S l, p.2 ≤ hi := by
  apply clipPass_forall
  · intro p hp _
    exact hl p hp
  · intro A B hA hB hne
    have hA2 : A.2 ≤ hi := by
      rcases List.mem_cons.mp hA with rfl | hA
      · exact hl _ hS
      · exact hl _ hA
    have hB2 := hl B hB
    have := (intersectEdge_vertical_between edge xmin ymin xmax ymax he A B hne).2
    exact le_trans this (max_le hA2 hB2)

/-- A pass against a vertical window edge keeps a lower bound on the
ordinates of the vertices. -/
theorem clipPass_vertical_ge (edge xmin ymin xmax ymax lo : Int)
    (he : edge = 0 ∨ edge = 1) (S : Point) (l : List Point) (hS : S ∈ l)
    (hl : ∀ p ∈ l, lo ≤ p.2) :
    ∀ p ∈ DrawEngine.clipPass edge xmin ymin xmax ymax S l, lo ≤ p.2 := by
  apply clipPass_forall
  · intro p hp _
    exact hl p hp
  · intro A B hA hB hne
    have hA2 : lo ≤ A.2 := by
      rcases List.mem_cons.mp hA with rfl | hA
      · exact hl _ hS
      · exact hl _ hA
    have hB2 := hl B hB
    have := (intersectEdge_vertical_between edge xmin ymin xmax ymax he A B hne).1
    exact le_trans (le_min hA2 hB2) this

/-- C14, as amended: for every valid window and every polygon all of whose
vertices violate one common side of the window (all left of it, all right of
it, all above it or all below it), `clipPolygonWithRect` returns the empty
list. -/
theorem DrawEngine.clipPolygonWithRect_common_side (poly : List Point)
    (xmin ymin xmax ymax : Int) (hwx : xmin ≤ xmax) (hwy : ymin ≤ ymax)
    (h : (∀ p ∈ poly, p.1 < xmin) ∨ (∀ p ∈ poly, xmax < p.1) ∨
      (∀ p ∈ poly, p.2 < ymin) ∨ (∀ p ∈ poly, ymax < p.2)) :
    DrawEngine.clipPolygonWithRect poly xmin ymin xmax ymax = [] := by
  unfold DrawEngine.clipPolygonWithRect
  split_ifs with hemp
  · rfl
  apply List.eq_nil_iff_forall_not_mem.mpr
  intro p hp
  have out0 : ∀ q : Point, q.1 < xmin → insideRect q 0 xmin ymin xmax ymax = false := by
    intro q hq
    have := insideRect_0 q xmin ymin xmax ymax
    cases hi : insideRect q 0 xmin ymin xmax ymax
    · rfl
    · rw [hi] at this; simp at this; omega
  have out1 : ∀ q : Point, xmax < q.1 → insideRect q 1 xmin ymin xmax ymax = false := by
    intro q hq
    have := insideRect_1 q xmin ymin xmax ymax
    cases hi : insideRect q 1 xmin ymin xmax ymax
    · rfl
    · rw [hi] at this; simp at this; omega
  have out2 : ∀ q : Point, q.2 < ymin → insideRect q 2 xmin ymin xmax ymax = false := by
    intro q hq
    have := insideRect_2 q xmin ymin xmax ymax
    cases hi : insideRect q 2 xmin ymin xmax ymax
    · rfl
    · rw [hi] at this; simp at this; omega
  have out3 : ∀ q : Point, ymax < q.2 → insideRect q 3 xmin ymin xmax ymax = false := by
    intro q hq
    have := insideRect_3 q xmin ymin xmax ymax
    cases hi : insideRect q 3 xmin ymin xmax ymax
    · rfl
    · rw [hi] at this; simp at this; omega
  rcases h with h | h | h | h
  · -- all vertices left of the window: the first pass pushes nothing
    exact clipEdges_all_out xmin ymin xmax ymax 3 0 poly (fun q hq => out0 q (h q hq)) p hp
  · -- all vertices right of the window: the first pass keeps them, the second drops them
    refine clipEdges_step xmin ymin xmax ymax 3 0 poly (fun q => xmax < q.1) (fun _ => False)
      ?_ ?_ p hp
    · intro S hS
      rw [clipPass_id 0 xmin ymin xmax ymax poly S
        ((insideRect_0 S xmin ymin xmax ymax).mpr (by have := h S hS; omega))
        (fun q hq => (insideRect_0 q xmin ymin xmax ymax).mpr (by have := h q hq; omega))]
      exact h
    · intro out1l h1
      exact clipEdges_all_out xmin ymin xmax ymax 2 (0 + 1) out1l (fun q hq => out1 q (h1 q hq))
  · -- all vertices above the window: the two vertical passes keep them above
    refine clipEdges_step xmin ymin xmax ymax 3 0 poly (fun q => q.2 ≤ ymin - 1)
      (fun _ => False) ?_ ?_ p hp
    · intro S hS
      exact clipPass_vertical_le 0 xmin ymin xmax ymax (ymin - 1) (Or.inl rfl) S poly hS
        (fun q hq => by have := h q hq; omega)
    · intro o1 h1
      refine clipEdges_step xmin ymin xmax ymax 2 (0 + 1) o1 (fun q => q.2 ≤ ymin - 1)
        (fun _ => False) ?_ ?_
      · intro S hS
        exact clipPass_vertical_le (0 + 1) xmin ymin xmax ymax (ymin - 1) (Or.inr rfl) S o1 hS h1
      · intro o2 h2
        exact clipEdges_all_out xmin ymin xmax ymax 1 (0 + 1 + 1) o2
          (fun q hq => out2 q (by have := h2 q hq; omega))
  · -- all vertices below the window
    refine clipEdges_step xmin ymin xmax ymax 3 0 poly (fun q => ymax + 1 ≤ q.2)
      (fun _ => False) ?_ ?_ p hp
    · intro S hS
      exact clipPass_vertical_ge 0 xmin ymin xmax ymax (ymax + 1) (Or.inl rfl) S poly hS
        (fun q hq => by have := h q hq; omega)
    · intro o1 h1
      refine clipEdges_step xmin ymin xmax ymax 2 (0 + 1) o1 (fun q => ymax + 1 ≤ q.2)
        (fun _ => False) ?_ ?_
      · intro S hS
        exact clipPass_vertical_ge (0 + 1) xmin ymin xmax ymax (ymax + 1) (Or.inr rfl) S o1 hS h1
      · intro o2 h2
        refine clipEdges_step xmin ymin xmax ymax 1 (0 + 1 + 1) o2 (fun q => ymax + 1 ≤ q.2)
          (fun _ => False) ?_ ?_
        · intro S hS
          have e : ((0 : Int) + 1 + 1) = 2 := rfl
          rw [e, clipPass_id 2 xmin ymin xmax ymax o2 S
            ((insideRect_2 S xmin ymin xmax ymax).mpr (by have := h2 S hS; omega))
            (fun q hq => (insideRect_2 q xmin ymin xmax ymax).mpr (by have := h2 q hq; omega))]
          exact h2
        · intro o3 h3
          exact clipEdges_all_out xmin ymin xmax ymax 0 (0 + 1 + 1 + 1) o3
            (fun q hq => out3 q (by have := h3 q hq; omega))

theorem DrawEngine.clipPolygonWithRect_common_side_witness :
    DrawEngine.clipPolygonWithRect [(0, 0), (100, 3), (40, 9)] 10 10 50 50 = [] :=
  DrawEngine.clipPolygonWithRect_common_side [(0, 0), (100, 3), (40, 9)] 10 10 50 50
    (by decide) (by decide) (Or.inr (Or.inr (Or.inl (by decide))))

/-- C14 fails as stated. The triangle `(9,10),(19,7),(9,7)`, the convex hull
of its vertices, has no point in the window `(10,10)-(50,50)`, yet clipping it
returns three vertices, because the intersection `(10, 9.7)` is rounded to the
corner `(10,10)`. The C-shaped polygon that consists of the strips
`[0,100]×[0,5]`, `[95,100]×[0,100]` and `[0,100]×[95,100]` has no point in the
window either (the strips end at `y = 5 < 10`, or start at `x = 95 > 50` or at
`y = 95 > 50`), yet clipping it returns four vertices on the right window edge,
without any rounding. -/
theorem DrawEngine.clipPolygonWithRect_outside_counterexample :
    (∀ l1 l2 l3 : ℚ, 0 ≤ l1 → 0 ≤ l2 → 0 ≤ l3 → l1 + l2 + l3 = 1 →
      ¬((10 : ℚ) ≤ l1 * 9 + l2 * 19 + l3 * 9 ∧ l1 * 9 + l2 * 19 + l3 * 9 ≤ 50 ∧
        (10 : ℚ) ≤ l1 * 10 + l2 * 7 + l3 * 7 ∧ l1 * 10 + l2 * 7 + l3 * 7 ≤ 50)) ∧
    DrawEngine.clipPolygonWithRect [(9, 10), (19, 7), (9, 7)] 10 10 50 50 =
      [(10, 10), (10, 10), (10, 10)] ∧
    DrawEngine.clipPolygonWithRect
      [(0, 0), (100, 0), (100, 100), (0, 100), (0, 95), (95, 95), (95, 5), (0, 5)]
      10 10 50 50 = [(50, 10), (50, 50), (50, 50), (50, 10)] := by
  refine ⟨?_, by decide!, by decide!⟩
  rintro l1 l2 l3 h1 h2 h3 hs ⟨a, -, c, -⟩
  have e2 : l2 = 0 := by linarith
  have e3 : l3 = 0 := by linarith
  have e1 : l1 = 1 := by linarith
  subst e1 e2 e3
  norm_num at a

theorem clipLoop_fuel_succ (xmin ymin xmax ymax : Int) :
    ∀ (fuel : Nat) (x0d y0d x1d y1d : ℚ) (out0 out1 : Nat) (r : Bool × ℚ × ℚ × ℚ × ℚ),
      DrawEngine.clipLoop xmin ymin xmax ymax fuel x0d y0d x1d y1d out0 out1 = .ok r →
      DrawEngine.clipLoop xmin ymin xmax ymax (fuel + 1) x0d y0d x1d y1d out0 out1 = .ok r := by
  intro fuel
  induction fuel with
  | zero => intro x0d y0d x1d y1d out0 out1 r h; simp [DrawEngine.clipLoop] at h
  | succ n ih =>
    intro x0d y0d x1d y1d out0 out1 r h
    rw [DrawEngine.clipLoop] at h
    rw [DrawEngine.clipLoop]
    by_cases hacc : (out0 ||| out1) = 0
    · rw [if_pos hacc] at h ⊢
      exact h
    · rw [if_neg hacc] at h ⊢
      by_cases hrej : (out0 &&& out1) ≠ 0
      · rw [if_pos hrej] at h ⊢
        exact h
      · rw [if_neg hrej] at h ⊢
        simp only at h ⊢
        split at h
        · exact absurd h (by simp)
        · next x y heq =>
          by_cases hsel : (if out0 ≠ 0 then out0 else out1) = out0
          · rw [if_pos hsel] at h ⊢
            exact ih _ _ _ _ _ _ _ h
          · rw [if_neg hsel] at h ⊢
            exact ih _ _ _ _ _ _ _ h

theorem clipLoop_fuel_add (xmin ymin xmax ymax : Int) (fuel extra : Nat)
    (x0d y0d x1d y1d : ℚ) (out0 out1 : Nat) (r : Bool × ℚ × ℚ × ℚ × ℚ)
    (h : DrawEngine.clipLoop xmin ymin xmax ymax fuel x0d y0d x1d y1d out0 out1 = .ok r) :
    DrawEngine.clipLoop xmin ymin xmax ymax (fuel + extra) x0d y0d x1d y1d out0 out1 = .ok r := by
  induction extra with
  | zero => exact h
  | succ k ih => exact clipLoop_fuel_succ _ _ _ _ _ _ _ _ _ _ _ _ ih

theorem cohenSutherlandClip_fuel_add (fuel extra : Nat) (x0 y0 x1 y1 xmin ymin xmax ymax : Int)
    (r : Bool × Int × Int × Int × Int)
    (h : DrawEngine.cohenSutherlandClip fuel x0 y0 x1 y1 xmin ymin xmax ymax = .ok r) :
    DrawEngine.cohenSutherlandClip (fuel + extra) x0 y0 x1 y1 xmin ymin xmax ymax = .ok r := by
  unfold DrawEngine.cohenSutherlandClip at h ⊢
  simp only at h ⊢
  split at h
  · exact absurd h (by simp)
  · next acc a b c d heq =>
    rw [clipLoop_fuel_add _ _ _ _ _ extra _ _ _ _ _ _ _ heq]
    exact h

/-- C11 at a failing input. The segment `(9,10)-(19,7)` has no point in the
window `(10,10)-(50,50)`: its points are `(9 + 10t, 10 - 3t)` for `t` in
`[0,1]`, so `y ≥ 10` forces `t = 0`, where `x = 9`. Yet `cohenSutherlandClip`
accepts it, with any fuel of at least 4, and returns the corner
`(10,10)-(10,10)`: the intersection `(10, 9.7)` with the left edge is
classified by its rounded coordinates `(10, 10)`. -/
theorem DrawEngine.cohenSutherlandClip_accepts_outside (extra : Nat) :
    (∀ t : ℚ, 0 ≤ t → t ≤ 1 →
      ¬((10 : ℚ) ≤ 9 + t * 10 ∧ 9 + t * 10 ≤ 50 ∧ (10 : ℚ) ≤ 10 - t * 3 ∧ 10 - t * 3 ≤ 50)) ∧
    DrawEngine.cohenSutherlandClip (4 + extra) 9 10 19 7 10 10 50 50 =
      .ok (true, 10, 10, 10, 10) := by
  constructor
  · rintro t h0 h1 ⟨a, -, c, -⟩
    have : t = 0 := by linarith
    subst this
    norm_num at a
  · apply cohenSutherlandClip_fuel_add
    with_unfolding_all rfl

namespace ArcShape

theorem emitPoints_mem (f : Int → Int → Bool) :
    ∀ (pts : List Point) (step : Int) (px py : Int),
      (∃ k, (px, py, k) ∈ (emitPoints f pts step).1) ↔ ((px, py) ∈ pts ∧ f px py = true) := by
  intro pts
  induction pts with
  | nil => intro step px py; simp [emitPoints]
  | cons p rest ih =>
    intro step px py
    rw [emitPoints]
    by_cases hf : f p.1 p.2 = true
    · rw [if_pos hf]
      simp only [List.mem_cons, Prod.mk.injEq]
      constructor
      · rintro ⟨k, (⟨h1, h2, -⟩ | h)⟩
        · subst h1 h2
          exact ⟨Or.inl rfl, hf⟩
        · have := (ih (step + 1) px py).mp ⟨k, h⟩
          exact ⟨Or.inr this.1, this.2⟩
      · rintro ⟨h | h, hpf⟩
        · subst h
          exact ⟨step, Or.inl ⟨rfl, rfl, rfl⟩⟩
        · obtain ⟨k, hk⟩ := (ih (step + 1) px py).mpr ⟨h, hpf⟩
          exact ⟨k, Or.inr hk⟩
    · rw [if_neg hf]
      rw [ih step px py]
      simp only [List.mem_cons]
      constructor
      · rintro ⟨h1, h2⟩
        exact ⟨Or.inr h1, h2⟩
      · rintro ⟨h | h, hpf⟩
        · subst h
          exact absurd hpf hf
        · exact ⟨h, hpf⟩

theorem drawLoop_some (f : Int → Int → Bool) (cx cy : Int) :
    ∀ (fuel : Nat) (x y d step : Int), y - x + 2 ≤ fuel → 1 ≤ fuel →
      ∃ l, drawLoop f cx cy fuel x y d step = some l := by
  intro fuel
  induction fuel with
  | zero => intro x y d step _ h; omega
  | succ fuel ih =>
    intro x y d step h _
    rw [drawLoop]
    by_cases hxy : x ≤ y
    · rw [if_pos hxy]
      simp only
      by_cases hd : d < 0
      · rw [if_pos hd]
        obtain ⟨l, hl⟩ := ih (x + 1) y (d + (2 * x + 3))
          (drawSymmetricPoints f cx cy x y step).2 (by push_cast at h; omega)
          (by push_cast at h; omega)
        exact ⟨_, by rw [hl]; rfl⟩
      · rw [if_neg hd]
        obtain ⟨l, hl⟩ := ih (x + 1) (y - 1) (d + (2 * (x - y) + 5))
          (drawSymmetricPoints f cx cy x y step).2 (by push_cast at h; omega)
          (by push_cast at h; omega)
        exact ⟨_, by rw [hl]; rfl⟩
    · rw [if_neg hxy]
      exact ⟨[], rfl⟩

theorem emitPoints_sub (f : Int → Int → Bool) (pts : List Point) (step : Int)
    (c : Int × Int × Int) (hc : c ∈ (emitPoints f pts step).1) :
    (c.1, c.2.1) ∈ pts ∧ f c.1 c.2.1 = true :=
  (emitPoints_mem f pts step c.1 c.2.1).mp ⟨c.2.2, hc⟩

theorem symmetricPoints_dist (cx cy x y : Int) (p : Point)
    (hp : p ∈ symmetricPoints cx cy x y) :
    (p.1 - cx) ^ 2 + (p.2 - cy) ^ 2 = x * x + y * y := by
  simp only [symmetricPoints, List.mem_cons, List.mem_singleton, List.not_mem_nil, or_false] at hp
  rcases hp with rfl | rfl | rfl | rfl | rfl | rfl | rfl | rfl <;> simp only <;> ring

theorem drawLoop_near_circle (f : Int → Int → Bool) (cx cy r : Int) (hr : 1 ≤ r) :
    ∀ (fuel : Nat) (x y d step : Int) (l : List (Int × Int × Int)),
      d = x * x + y * y - r * r + 2 * x - y + 1 → 0 ≤ x → y ≤ r →
      2 * x - 2 * y + 1 ≤ d → (x ≤ y → d ≤ 2 * x + 1) →
      drawLoop f cx cy fuel x y d step = some l →
      ∀ c ∈ l, (r - 1) ^ 2 ≤ (c.1 - cx) ^ 2 + (c.2.1 - cy) ^ 2 ∧
        (c.1 - cx) ^ 2 + (c.2.1 - cy) ^ 2 ≤ (r + 1) ^ 2 := by
  intro fuel
  induction fuel with
  | zero => intro x y d step l _ _ _ _ _ h; simp [drawLoop] at h
  | succ fuel ih =>
    intro x y d step l hd hx hy hlo hhi h
    rw [drawLoop] at h
    by_cases hxy : x ≤ y
    · rw [if_pos hxy] at h
      simp only [Option.map_eq_some'] at h
      obtain ⟨l2, hl2, rfl⟩ := h
      intro c hc
      rcases List.mem_append.mp hc with hc | hc
      · have hmem := (emitPoints_sub f _ step c hc).1
        have hdist := symmetricPoints_dist cx cy x y (c.1, c.2.1) hmem
        simp only at hdist
        rw [hdist]
        have hup := hhi hxy
        have e1 : (r - 1) ^ 2 = r * r - 2 * r + 1 := by ring
        have e2 : (r + 1) ^ 2 = r * r + 2 * r + 1 := by ring
        rw [e1, e2]
        constructor <;> linarith
      · by_cases hneg : d < 0
        · rw [if_pos hneg] at hl2
          simp only at hl2
          refine ih (x + 1) y (d + (2 * x + 3)) _ l2 ?_ (by omega) hy (by omega) ?_ hl2 c hc
          · rw [hd]; ring
          · intro _; omega
        · rw [if_neg hneg] at hl2
          simp only at hl2
          refine ih (x + 1) (y - 1) (d + (2 * (x - y) + 5)) _ l2 ?_ (by omega) (by omega)
            (by omega) ?_ hl2 c hc
          · rw [hd]; ring
          · intro hle
            have := hhi hxy
            omega
    · rw [if_neg hxy] at h
      simp only [Option.some.injEq] at h
      subst h
      simp

theorem drawLoop_filter (f : Int → Int → Bool) (cx cy : Int) :
    ∀ (fuel : Nat) (x y d step step2 : Int) (l lall : List (Int × Int × Int)),
      drawLoop f cx cy fuel x y d step = some l →
      drawLoop (fun _ _ => true) cx cy fuel x y d step2 = some lall →
      ∀ px py, (∃ k, (px, py, k) ∈ l) ↔ ((∃ k, (px, py, k) ∈ lall) ∧ f px py = true) := by
  intro fuel
  induction fuel with
  | zero => intro x y d step step2 l lall h; simp [drawLoop] at h
  | succ fuel ih =>
    intro x y d step step2 l lall h hall px py
    rw [drawLoop] at h hall
    by_cases hxy : x ≤ y
    · rw [if_pos hxy] at h hall
      simp only [Option.map_eq_some'] at h hall
      obtain ⟨l2, hl2, rfl⟩ := h
      obtain ⟨lall2, hlall2, rfl⟩ := hall
      have hrec := ih _ _ _ _ _ l2 lall2 hl2 hlall2 px py
      have h1 := emitPoints_mem f (symmetricPoints cx cy x y) step px py
      have h2 := emitPoints_mem (fun _ _ => true) (symmetricPoints cx cy x y) step2 px py
      simp only [and_true] at h2
      simp only [List.mem_append, exists_or, drawSymmetricPoints]
      rw [h1, h2, hrec]
      tauto
    · rw [if_neg hxy] at h hall
      simp only [Option.some.injEq] at h hall
      subst h hall
      simp

theorem symmetricPoints_closed (cx cy x y dx dy : Int)
    (hp : (cx + dx, cy + dy) ∈ symmetricPoints cx cy x y) (q : Point)
    (hq : q ∈ symmetricPoints cx cy dx dy) : q ∈ symmetricPoints cx cy x y := by
  obtain ⟨q1, q2⟩ := q
  simp only [symmetricPoints, List.mem_cons, List.mem_singleton, List.not_mem_nil, or_false,
    Prod.mk.injEq] at hp hq ⊢
  rcases hp with ⟨h1, h2⟩ | ⟨h1, h2⟩ | ⟨h1, h2⟩ | ⟨h1, h2⟩ | ⟨h1, h2⟩ | ⟨h1, h2⟩ | ⟨h1, h2⟩ |
    ⟨h1, h2⟩ <;>
  rcases hq with ⟨h3, h4⟩ | ⟨h3, h4⟩ | ⟨h3, h4⟩ | ⟨h3, h4⟩ | ⟨h3, h4⟩ | ⟨h3, h4⟩ | ⟨h3, h4⟩ |
    ⟨h3, h4⟩ <;>
  first
    | exact Or.inl ⟨by omega, by omega⟩
    | exact Or.inr (Or.inl ⟨by omega, by omega⟩)
    | exact Or.inr (Or.inr (Or.inl ⟨by omega, by omega⟩))
    | exact Or.inr (Or.inr (Or.inr (Or.inl ⟨by omega, by omega⟩)))
    | exact Or.inr (Or.inr (Or.inr (Or.inr (Or.inl ⟨by omega, by omega⟩))))
    | exact Or.inr (Or.inr (Or.inr (Or.inr (Or.inr (Or.inl ⟨by omega, by omega⟩)))))
    | exact Or.inr (Or.inr (Or.inr (Or.inr (Or.inr (Or.inr (Or.inl ⟨by omega, by omega⟩))))))
    | exact Or.inr (Or.inr (Or.inr (Or.inr (Or.inr (Or.inr (Or.inr (⟨by omega, by omega⟩)))))))

theorem drawLoop_symmetric (cx cy : Int) :
    ∀ (fuel : Nat) (x y d step : Int) (lall : List (Int × Int × Int)),
      drawLoop (fun _ _ => true) cx cy fuel x y d step = some lall →
      ∀ dx dy, (∃ k, (cx + dx, cy + dy, k) ∈ lall) →
        ∀ q ∈ symmetricPoints cx cy dx dy, ∃ k, (q.1, q.2, k) ∈ lall := by
  intro fuel
  induction fuel with
  | zero => intro x y d step lall h; simp [drawLoop] at h
  | succ fuel ih =>
    intro x y d step lall h dx dy hex q hq
    rw [drawLoop] at h
    by_cases hxy : x ≤ y
    · rw [if_pos hxy] at h
      simp only [Option.map_eq_some'] at h
      obtain ⟨l2, hl2, rfl⟩ := h
      obtain ⟨k, hk⟩ := hex
      rcases List.mem_append.mp hk with hk | hk
      · have hmem := (emitPoints_sub _ _ step _ hk).1
        have hq2 := symmetricPoints_closed cx cy x y dx dy hmem q hq
        obtain ⟨k2, hk2⟩ := (emitPoints_mem (fun _ _ => true) (symmetricPoints cx cy x y) step
          q.1 q.2).mpr ⟨hq2, rfl⟩
        exact ⟨k2, List.mem_append_left _ hk2⟩
      · obtain ⟨k2, hk2⟩ := ih _ _ _ _ l2 hl2 dx dy ⟨k, hk⟩ q hq
        exact ⟨k2, List.mem_append_right _ hk2⟩
    · rw [if_neg hxy] at h
      simp only [Option.some.injEq] at h
      subst h
      obtain ⟨k, hk⟩ := hex
      simp at hk

theorem realLibm_fmod_id (x y : ℝ) (h0 : 0 ≤ x) (h1 : x < y) : realLibm.fmod x y = x := by
  have hy : 0 < y := lt_of_le_of_lt h0 h1
  have hq0 : 0 ≤ x / y := div_nonneg h0 hy.le
  have hq1 : x / y < 1 := (div_lt_one hy).mpr h1
  have hf : ⌊x / y⌋ = 0 := Int.floor_eq_zero_iff.mpr ⟨hq0, hq1⟩
  simp only [realLibm]
  rw [if_pos hq0, hf]
  simp

theorem realLibm_fmod_self (y : ℝ) (hy : 0 < y) : realLibm.fmod y y = 0 := by
  have h1 : y / y = 1 := div_self hy.ne'
  simp only [realLibm]
  rw [h1, if_pos zero_le_one, Int.floor_one]
  simp

theorem normalizedAngle_nonneg (cx cy px py : Int) : 0 ≤ normalizedAngle cx cy px py := by
  unfold normalizedAngle
  simp only
  split_ifs with h
  · have := Complex.neg_pi_lt_arg ⟨((px - cx : Int) : ℝ), ((py - cy : Int) : ℝ)⟩
    linarith [Real.pi_pos]
  · exact not_lt.mp h

theorem normalizedAngle_lt (cx cy px py : Int) : normalizedAngle cx cy px py < 2 * Real.pi := by
  unfold normalizedAngle
  simp only
  split_ifs with h
  · linarith
  · have := Complex.arg_le_pi ⟨((px - cx : Int) : ℝ), ((py - cy : Int) : ℝ)⟩
    linarith [Real.pi_pos]

theorem normalizedAngle_eq_zero_iff (cx cy px py : Int) :
    normalizedAngle cx cy px py = 0 ↔ (py = cy ∧ px ≥ cx) := by
  unfold normalizedAngle
  simp only
  split_ifs with h
  · have h1 := Complex.neg_pi_lt_arg ⟨((px - cx : Int) : ℝ), ((py - cy : Int) : ℝ)⟩
    have h2 : ((py - cy : Int) : ℝ) < 0 := Complex.arg_neg_iff.mp h
    constructor
    · intro h3; linarith [Real.pi_pos]
    · rintro ⟨rfl, -⟩
      simp at h2
  · rw [Complex.arg_eq_zero_iff]
    simp only [ge_iff_le]
    constructor
    · rintro ⟨h1, h2⟩
      have h1 : (0 : Int) ≤ px - cx := by exact_mod_cast h1
      have h2 : py - cy = (0 : Int) := by exact_mod_cast h2
      constructor <;> omega
    · rintro ⟨h1, h2⟩
      have h3 : (0 : Int) ≤ px - cx := by omega
      have h4 : py - cy = (0 : Int) := by omega
      exact ⟨by exact_mod_cast h3, by exact_mod_cast h4⟩

theorem normalizedAngle_le_half_pi_iff (cx cy px py : Int) :
    normalizedAngle cx cy px py ≤ Real.pi / 2 ↔ (px ≥ cx ∧ py ≥ cy) := by
  unfold normalizedAngle
  simp only
  split_ifs with h
  · have h1 := Complex.neg_pi_lt_arg ⟨((px - cx : Int) : ℝ), ((py - cy : Int) : ℝ)⟩
    have h2 : ((py - cy : Int) : ℝ) < 0 := Complex.arg_neg_iff.mp h
    have h2 : py - cy < (0 : Int) := by exact_mod_cast h2
    constructor
    · intro h3; linarith [Real.pi_pos]
    · rintro ⟨-, h4⟩
      omega
  · have h2 : (0 : ℝ) ≤ ((py - cy : Int) : ℝ) := Complex.arg_nonneg_iff.mp (not_lt.mp h)
    have h2i : (0 : Int) ≤ py - cy := by exact_mod_cast h2
    rw [Complex.arg_le_pi_div_two_iff]
    simp only [ge_iff_le]
    constructor
    · rintro (h1 | h1)
      · have h1 : (0 : Int) ≤ px - cx := by exact_mod_cast h1
        constructor <;> omega
      · linarith
    · rintro ⟨h1, -⟩
      have h3 : (0 : Int) ≤ px - cx := by omega
      exact Or.inl (by exact_mod_cast h3)

theorem inArcRange_real (cx cy px py : Int) (s e : ℝ) (hs : 0 ≤ s) (hs2 : s < 360)
    (he : 0 ≤ e) (he2 : e < 360) :
    inArcRange realLibm cx cy s e px py = true ↔
      (if s ≤ e then
        s * (Real.pi / 180) ≤ normalizedAngle cx cy px py ∧
          normalizedAngle cx cy px py ≤ e * (Real.pi / 180)
      else
        normalizedAngle cx cy px py ≥ s * (Real.pi / 180) ∨
          normalizedAngle cx cy px py ≤ e * (Real.pi / 180)) := by
  have hpi := Real.pi_pos
  have hs0 : 0 ≤ s * (Real.pi / 180) := by positivity
  have he0 : 0 ≤ e * (Real.pi / 180) := by positivity
  have hs1 : s * (Real.pi / 180) < 2 * Real.pi := by nlinarith
  have he1 : e * (Real.pi / 180) < 2 * Real.pi := by nlinarith
  have hfs := realLibm_fmod_id _ _ hs0 hs1
  have hfe := realLibm_fmod_id _ _ he0 he1
  have hpi2 : realLibm.pi = Real.pi := rfl
  have hat : realLibm.atan2 ((py - cy : Int) : ℝ) ((px - cx : Int) : ℝ) =
      Complex.arg ⟨((px - cx : Int) : ℝ), ((py - cy : Int) : ℝ)⟩ := rfl
  unfold inArcRange
  simp only [hpi2, hat, hfs, hfe, if_neg (not_lt.mpr hs0), if_neg (not_lt.mpr he0)]
  change (if decide (s > e) = true then decide (normalizedAngle cx cy px py ≥ _ ∨
    normalizedAngle cx cy px py ≤ _) else decide (normalizedAngle cx cy px py ≥ _ ∧
    normalizedAngle cx cy px py ≤ _)) = true ↔ _
  by_cases hse : s ≤ e
  · have : ¬ (s > e) := not_lt.mpr hse
    simp only [this, decide_False, if_pos hse, decide_eq_true_eq, ge_iff_le]
    simp
  · have : s > e := not_le.mp hse
    simp only [this, decide_True, if_neg hse, decide_eq_true_eq, ge_iff_le]
    simp

theorem inArcRange_zero_full (cx cy px py : Int) :
    inArcRange realLibm cx cy 0 360 px py = decide (py = cy ∧ px ≥ cx) := by
  have hpi := Real.pi_pos
  have hpi2 : realLibm.pi = Real.pi := rfl
  have hat : realLibm.atan2 ((py - cy : Int) : ℝ) ((px - cx : Int) : ℝ) =
      Complex.arg ⟨((px - cx : Int) : ℝ), ((py - cy : Int) : ℝ)⟩ := rfl
  have h0 : (0 : ℝ) * (Real.pi / 180) = 0 := by ring
  have h360 : (360 : ℝ) * (Real.pi / 180) = 2 * Real.pi := by ring
  have hfs : realLibm.fmod 0 (2 * Real.pi) = 0 := realLibm_fmod_id 0 _ le_rfl (by linarith)
  have hfe : realLibm.fmod (2 * Real.pi) (2 * Real.pi) = 0 := realLibm_fmod_self _ (by linarith)
  have hno : ¬ ((0 : ℝ) > 360) := by norm_num
  unfold inArcRange
  simp only [hpi2, hat, h0, h360, hfs, hfe, lt_irrefl, if_false, hno, decide_False]
  change decide (normalizedAngle cx cy px py ≥ 0 ∧ normalizedAngle cx cy px py ≤ 0) = _
  have hiff : (normalizedAngle cx cy px py ≥ 0 ∧ normalizedAngle cx cy px py ≤ 0) ↔
      (py = cy ∧ px ≥ cx) := by
    rw [← normalizedAngle_eq_zero_iff]
    constructor
    · rintro ⟨h1, h2⟩; exact le_antisymm h2 h1
    · intro h; rw [h]; exact ⟨le_rfl, le_rfl⟩
  exact decide_eq_decide.mpr hiff

theorem inArcRange_full_zero (cx cy px py : Int) :
    inArcRange realLibm cx cy 360 0 px py = true := by
  have hpi := Real.pi_pos
  have hpi2 : realLibm.pi = Real.pi := rfl
  have hat : realLibm.atan2 ((py - cy : Int) : ℝ) ((px - cx : Int) : ℝ) =
      Complex.arg ⟨((px - cx : Int) : ℝ), ((py - cy : Int) : ℝ)⟩ := rfl
  have h0 : (0 : ℝ) * (Real.pi / 180) = 0 := by ring
  have h360 : (360 : ℝ) * (Real.pi / 180) = 2 * Real.pi := by ring
  have hfs : realLibm.fmod 0 (2 * Real.pi) = 0 := realLibm_fmod_id 0 _ le_rfl (by linarith)
  have hfe : realLibm.fmod (2 * Real.pi) (2 * Real.pi) = 0 := realLibm_fmod_self _ (by linarith)
  have hyes : (360 : ℝ) > 0 := by norm_num
  unfold inArcRange
  simp only [hpi2, hat, h0, h360, hfs, hfe, lt_irrefl, if_false, hyes, decide_True, if_true]
  change decide (normalizedAngle cx cy px py ≥ 0 ∨ normalizedAngle cx cy px py ≤ 0) = true
  exact decide_eq_true (Or.inl (normalizedAngle_nonneg cx cy px py))

theorem inArcRange_quarter (cx cy px py : Int) :
    inArcRange realLibm cx cy 0 90 px py = true ↔ (px ≥ cx ∧ py ≥ cy) := by
  rw [inArcRange_real cx cy px py 0 90 le_rfl (by norm_num) (by norm_num) (by norm_num)]
  rw [if_pos (by norm_num : (0 : ℝ) ≤ 90)]
  have h0 : (0 : ℝ) * (Real.pi / 180) = 0 := by ring
  have h90 : (90 : ℝ) * (Real.pi / 180) = Real.pi / 2 := by ring
  rw [h0, h90, normalizedAngle_le_half_pi_iff]
  have := normalizedAngle_nonneg cx cy px py
  tauto

theorem drawLoop_first (f : Int → Int → Bool) (cx cy : Int) (fuel : Nat) (x y d step : Int)
    (l : List (Int × Int × Int)) (hxy : x ≤ y)
    (h : drawLoop f cx cy fuel x y d step = some l) (p : Point)
    (hp : p ∈ symmetricPoints cx cy x y) (hf : f p.1 p.2 = true) :
    ∃ k, (p.1, p.2, k) ∈ l := by
  cases fuel with
  | zero => simp [drawLoop] at h
  | succ fuel =>
    rw [drawLoop, if_pos hxy] at h
    simp only [Option.map_eq_some'] at h
    obtain ⟨l2, -, rfl⟩ := h
    obtain ⟨k, hk⟩ := (emitPoints_mem f (symmetricPoints cx cy x y) step p.1 p.2).mpr ⟨hp, hf⟩
    exact ⟨k, List.mem_append_left _ hk⟩

theorem draw_eq_drawLoop {R : Type} [LinearOrderedField R] (m : Libm R) (fuel : Nat)
    (center : Point) (radius : Int) (s e : R) (hr : 0 < radius) :
    draw m fuel center radius s e =
      drawLoop (inArcRange m center.1 center.2 s e) center.1 center.2 fuel 0 radius
        (1 - radius) 0 := by
  unfold draw
  rw [if_neg (not_le.mpr hr)]

theorem draw_some {R : Type} [LinearOrderedField R] (m : Libm R)
    (center : Point) (radius : Int) (s e : R) (extra : Nat) (hr : 0 < radius) :
    ∃ l, draw m (radius.toNat + 2 + extra) center radius s e = some l := by
  rw [draw_eq_drawLoop m _ center radius s e hr]
  apply drawLoop_some
  · have := Int.toNat_of_nonneg hr.le
    push_cast
    omega
  · omega

end ArcShape

/-- C19: for every arc with radius `r > 0`, whatever the centre, the angles
and the C library, `ArcShape::draw` returns, and every point it emits lies
within one pixel of the ideal circle. -/
theorem ArcShape.draw_near_circle {R : Type} [LinearOrderedField R] (m : Libm R)
    (center : Point) (radius : Int) (startAngle endAngle : R) (extra : Nat)
    (hr : 0 < radius) :
    ∃ l, ArcShape.draw m (radius.toNat + 2 + extra) center radius startAngle endAngle = some l ∧
      ∀ c ∈ l, (radius - 1) ^ 2 ≤ (c.1 - center.1) ^ 2 + (c.2.1 - center.2) ^ 2 ∧
        (c.1 - center.1) ^ 2 + (c.2.1 - center.2) ^ 2 ≤ (radius + 1) ^ 2 := by
  obtain ⟨l, hl⟩ := ArcShape.draw_some m center radius startAngle endAngle extra hr
  refine ⟨l, hl, ?_⟩
  rw [ArcShape.draw_eq_drawLoop m _ center radius startAngle endAngle hr] at hl
  exact ArcShape.drawLoop_near_circle _ center.1 center.2 radius (by omega) _ 0 radius
    (1 - radius) 0 l (by ring) le_rfl le_rfl (by omega) (by intro _; omega) hl

theorem ArcShape.draw_near_circle_witness :
    (0 : Int) < 5 ∧
    ∃ l, ArcShape.draw realLibm ((5 : Int).toNat + 2 + 0) ((3, 4) : Point) 5 0 90 = some l ∧
      ∀ c ∈ l, ((5 : Int) - 1) ^ 2 ≤ (c.1 - 3) ^ 2 + (c.2.1 - 4) ^ 2 ∧
        (c.1 - 3) ^ 2 + (c.2.1 - 4) ^ 2 ≤ ((5 : Int) + 1) ^ 2 :=
  ⟨by decide, ArcShape.draw_near_circle realLibm (3, 4) 5 0 90 0 (by decide)⟩

/-- C18 (counterexample): with `startAngle = 0°` and `endAngle = 360°` the end
angle is reduced to `0` by `fmod`, so for the circle of radius 5 around the
origin only the point `(5, 0)` is emitted (twice), and its mirror images are
not: the emitted set is not symmetric. -/
theorem ArcShape.draw_full_circle_counterexample :
    ArcShape.draw realLibm 7 ((0, 0) : Point) 5 0 360 = some [(5, 0, 0), (5, 0, 1)] ∧
    ¬ (∀ l, ArcShape.draw realLibm 7 ((0, 0) : Point) 5 0 360 = some l →
        ∀ dx dy : Int, (∃ k, (0 + dx, 0 + dy, k) ∈ l) →
          ∀ q ∈ ArcShape.symmetricPoints 0 0 dx dy, ∃ k, (q.1, q.2, k) ∈ l) := by
  have hf : ArcShape.inArcRange realLibm 0 0 0 360 = fun px py => decide (py = 0 ∧ px ≥ 0) := by
    funext px py
    exact ArcShape.inArcRange_zero_full 0 0 px py
  have h : ArcShape.draw realLibm 7 ((0, 0) : Point) 5 0 360 = some [(5, 0, 0), (5, 0, 1)] := by
    rw [ArcShape.draw_eq_drawLoop realLibm 7 (0, 0) 5 0 360 (by decide)]
    simp only [hf]
    decide
  refine ⟨h, ?_⟩
  intro hsym
  obtain ⟨k, hk⟩ := hsym _ h 5 0 ⟨0, by simp⟩ (-5, 0) (by simp [ArcShape.symmetricPoints])
  simp at hk

/-- C18 (amended): for every centre and every radius > 0, rasterising the
arc with `startAngle = 360°` and `endAngle = 0°` (the wrapping range that
accepts every direction) returns, emits the point `(cx + r, cy)`, and emits a
point set that is symmetric under the 8 reflections used by the algorithm. -/
theorem ArcShape.draw_wrapped_circle_symmetric (center : Point) (radius : Int) (extra : Nat)
    (hr : 0 < radius) :
    ∃ l, ArcShape.draw realLibm (radius.toNat + 2 + extra) center radius 360 0 = some l ∧
      (∃ k, (center.1 + radius, center.2, k) ∈ l) ∧
      ∀ dx dy : Int, (∃ k, (center.1 + dx, center.2 + dy, k) ∈ l) →
        ∀ q ∈ ArcShape.symmetricPoints center.1 center.2 dx dy, ∃ k, (q.1, q.2, k) ∈ l := by
  obtain ⟨l, hl⟩ := ArcShape.draw_some realLibm center radius 360 0 extra hr
  refine ⟨l, hl, ?_, ?_⟩
  · rw [ArcShape.draw_eq_drawLoop realLibm _ center radius 360 0 hr] at hl
    have := ArcShape.drawLoop_first _ center.1 center.2 _ 0 radius (1 - radius) 0 l hr.le hl
      (center.1 + radius, center.2 + 0) (by simp [ArcShape.symmetricPoints])
      (ArcShape.inArcRange_full_zero _ _ _ _)
    simpa using this
  · have hf : ArcShape.inArcRange realLibm center.1 center.2 360 0 = fun _ _ => true := by
      funext px py
      exact ArcShape.inArcRange_full_zero center.1 center.2 px py
    rw [ArcShape.draw_eq_drawLoop realLibm _ center radius 360 0 hr, hf] at hl
    exact ArcShape.drawLoop_symmetric center.1 center.2 _ 0 radius (1 - radius) 0 l hl

theorem ArcShape.draw_wrapped_circle_symmetric_witness :
    (0 : Int) < 5 ∧
    ∃ l, ArcShape.draw realLibm ((5 : Int).toNat + 2 + 0) ((3, 4) : Point) 5 360 0 = some l ∧
      (∃ k, ((3 : Int) + 5, (4 : Int), k) ∈ l) ∧
      ∀ dx dy : Int, (∃ k, ((3 : Int) + dx, (4 : Int) + dy, k) ∈ l) →
        ∀ q ∈ ArcShape.symmetricPoints 3 4 dx dy, ∃ k, (q.1, q.2, k) ∈ l :=
  ⟨by decide, ArcShape.draw_wrapped_circle_symmetric (3, 4) 5 0 (by decide)⟩

/-- C20: over the real numbers, for every arc with radius > 0 the symmetric
midpoint-circle points exist, and for all angles `0 ≤ start, end < 360` a
point is emitted iff it is one of them and its angle, normalised to `[0, 2π)`,
lies in `[start, end]` when `start ≤ end`, and is `≥ start` or `≤ end` when
`start > end`; with `start = 0°`, `end = 90°` exactly the circle points with
`px ≥ cx` and `py ≥ cy` are emitted; the direction `+x` has angle `0` and the
direction `+y` (down on the screen) has angle `π / 2`. -/
theorem ArcShape.draw_angle_filter (center : Point) (radius : Int) (extra : Nat)
    (hr : 0 < radius) :
    ∃ cand, ArcShape.circlePoints (radius.toNat + 2 + extra) center radius = some cand ∧
      (∀ s e : ℝ, 0 ≤ s → s < 360 → 0 ≤ e → e < 360 →
        ∃ l, ArcShape.draw realLibm (radius.toNat + 2 + extra) center radius s e = some l ∧
          ∀ px py : Int, (∃ k, (px, py, k) ∈ l) ↔
            ((∃ k, (px, py, k) ∈ cand) ∧
              (if s ≤ e then
                s * (Real.pi / 180) ≤ normalizedAngle center.1 center.2 px py ∧
                  normalizedAngle center.1 center.2 px py ≤ e * (Real.pi / 180)
              else
                normalizedAngle center.1 center.2 px py ≥ s * (Real.pi / 180) ∨
                  normalizedAngle center.1 center.2 px py ≤ e * (Real.pi / 180)))) ∧
      (∃ l, ArcShape.draw realLibm (radius.toNat + 2 + extra) center radius 0 90 = some l ∧
        ∀ px py : Int, (∃ k, (px, py, k) ∈ l) ↔
          ((∃ k, (px, py, k) ∈ cand) ∧ px ≥ center.1 ∧ py ≥ center.2)) ∧
      normalizedAngle center.1 center.2 (center.1 + radius) center.2 = 0 ∧
      normalizedAngle center.1 center.2 center.1 (center.2 + radius) = Real.pi / 2 := by
  obtain ⟨cand, hcand⟩ := ArcShape.drawLoop_some (fun _ _ => true) center.1 center.2
    (radius.toNat + 2 + extra) 0 radius (1 - radius) 0
    (by have := Int.toNat_of_nonneg hr.le; push_cast; omega) (by omega)
  refine ⟨cand, hcand, ?_, ?_, ?_, ?_⟩
  · intro s e hs hs2 he he2
    obtain ⟨l, hl⟩ := ArcShape.draw_some realLibm center radius s e extra hr
    refine ⟨l, hl, ?_⟩
    intro px py
    rw [ArcShape.draw_eq_drawLoop realLibm _ center radius s e hr] at hl
    rw [ArcShape.drawLoop_filter _ center.1 center.2 _ 0 radius (1 - radius) 0 0 l cand hl hcand
      px py, ArcShape.inArcRange_real center.1 center.2 px py s e hs hs2 he he2]
  · obtain ⟨l, hl⟩ := ArcShape.draw_some realLibm center radius 0 90 extra hr
    refine ⟨l, hl, ?_⟩
    intro px py
    rw [ArcShape.draw_eq_drawLoop realLibm _ center radius 0 90 hr] at hl
    rw [ArcShape.drawLoop_filter _ center.1 center.2 _ 0 radius (1 - radius) 0 0 l cand hl hcand
      px py, ArcShape.inArcRange_quarter]
  · rw [ArcShape.normalizedAngle_eq_zero_iff]
    constructor <;> omega
  · unfold normalizedAngle
    have harg : Complex.arg ⟨((center.1 - center.1 : Int) : ℝ),
        ((center.2 + radius - center.2 : Int) : ℝ)⟩ = Real.pi / 2 := by
      rw [Complex.arg_eq_pi_div_two_iff]
      refine ⟨by simp, ?_⟩
      have : (0 : Int) < center.2 + radius - center.2 := by omega
      show (0 : ℝ) < ((center.2 + radius - center.2 : Int) : ℝ)
      exact_mod_cast this
    simp only [harg]
    rw [if_neg (by linarith [Real.pi_pos])]

theorem ArcShape.draw_angle_filter_witness :
    (0 : Int) < 5 ∧
    ∃ cand, ArcShape.circlePoints ((5 : Int).toNat + 2 + 0) ((3, 4) : Point) 5 = some cand ∧
      (∀ s e : ℝ, 0 ≤ s → s < 360 → 0 ≤ e → e < 360 →
        ∃ l, ArcShape.draw realLibm ((5 : Int).toNat + 2 + 0) ((3, 4) : Point) 5 s e = some l ∧
          ∀ px py : Int, (∃ k, (px, py, k) ∈ l) ↔
            ((∃ k, (px, py, k) ∈ cand) ∧
              (if s ≤ e then
                s * (Real.pi / 180) ≤ normalizedAngle 3 4 px py ∧
                  normalizedAngle 3 4 px py ≤ e * (Real.pi / 180)
              else
                normalizedAngle 3 4 px py ≥ s * (Real.pi / 180) ∨
                  normalizedAngle 3 4 px py ≤ e * (Real.pi / 180)))) ∧
      (∃ l, ArcShape.draw realLibm ((5 : Int).toNat + 2 + 0) ((3, 4) : Point) 5 0 90 = some l ∧
        ∀ px py : Int, (∃ k, (px, py, k) ∈ l) ↔
          ((∃ k, (px, py, k) ∈ cand) ∧ px ≥ 3 ∧ py ≥ 4)) ∧
      normalizedAngle 3 4 (3 + 5) 4 = 0 ∧
      normalizedAngle 3 4 3 (4 + 5) = Real.pi / 2 :=
  ⟨by decide, ArcShape.draw_angle_filter (3, 4) 5 0 (by decide)⟩

namespace ArcShape

theorem realLibm_fmod_once (x y : ℝ) (hy : 0 < y) (h0 : y ≤ x) (h1 : x < 2 * y) :
    realLibm.fmod x y = x - y := by
  have hq0 : 0 ≤ x / y := div_nonneg (le_trans hy.le h0) hy.le
  have hq1 : (1 : ℝ) ≤ x / y := (one_le_div hy).mpr h0
  have hq2 : x / y < 2 := (div_lt_iff₀ hy).mpr h1
  have hf : ⌊x / y⌋ = 1 := by
    rw [Int.floor_eq_iff]
    constructor
    · simpa using hq1
    · norm_num
      linarith
  simp only [realLibm]
  rw [if_pos hq0, hf]
  simp

theorem inArcRange_wrap_370_10 (cx cy px py : Int) :
    realLibm.fmod (370 * (realLibm.pi / 180)) (2 * realLibm.pi) = 10 * (Real.pi / 180) ∧
    realLibm.fmod (10 * (realLibm.pi / 180)) (2 * realLibm.pi) = 10 * (Real.pi / 180) ∧
    inArcRange realLibm cx cy 370 10 px py = true := by
  have hpi := Real.pi_pos
  have hpi2 : realLibm.pi = Real.pi := rfl
  have hat : realLibm.atan2 ((py - cy : Int) : ℝ) ((px - cx : Int) : ℝ) =
      Complex.arg ⟨((px - cx : Int) : ℝ), ((py - cy : Int) : ℝ)⟩ := rfl
  have hfs : realLibm.fmod (370 * (Real.pi / 180)) (2 * Real.pi) = 10 * (Real.pi / 180) := by
    rw [realLibm_fmod_once _ _ (by linarith) (by linarith) (by linarith)]
    ring
  have hfe : realLibm.fmod (10 * (Real.pi / 180)) (2 * Real.pi) = 10 * (Real.pi / 180) :=
    realLibm_fmod_id _ _ (by positivity) (by linarith)
  have h10 : ¬ (10 * (Real.pi / 180) < 0) := by
    have : 0 ≤ 10 * (Real.pi / 180) := by positivity
    linarith
  have hyes : (370 : ℝ) > 10 := by norm_num
  refine ⟨by rw [hpi2]; exact hfs, by rw [hpi2]; exact hfe, ?_⟩
  unfold inArcRange
  simp only [hpi2, hat, hfs, hfe, if_neg h10, hyes, decide_True, if_true]
  change decide (normalizedAngle cx cy px py ≥ _ ∨ normalizedAngle cx cy px py ≤ _) = true
  exact decide_eq_true (le_total _ _)

end ArcShape

/-- C27: with `startAngle = 370°` and `endAngle = 10°` the wrap flag is set
(`370 > 10`), `fmod` reduces both angles to `10°`, the filter accepts every
point, and for every centre and radius > 0 `ArcShape::draw` emits the whole
circle: with any fuel it makes exactly the calls that the unfiltered loop
makes, and with fuel `radius + 2` or more it returns. -/
theorem ArcShape.draw_wrap_whole_circle (center : Point) (radius : Int) (extra : Nat)
    (hr : 0 < radius) :
    (370 : ℝ) > 10 ∧
    realLibm.fmod (370 * (realLibm.pi / 180)) (2 * realLibm.pi) = 10 * (Real.pi / 180) ∧
    realLibm.fmod (10 * (realLibm.pi / 180)) (2 * realLibm.pi) = 10 * (Real.pi / 180) ∧
    (∀ px py : Int, ArcShape.inArcRange realLibm center.1 center.2 370 10 px py = true) ∧
    (∀ fuel : Nat, ArcShape.draw realLibm fuel center radius 370 10 =
      ArcShape.circlePoints fuel center radius) ∧
    ∃ l, ArcShape.draw realLibm (radius.toNat + 2 + extra) center radius 370 10 = some l ∧
      ∃ k, (center.1 + radius, center.2, k) ∈ l := by
  have hf : ArcShape.inArcRange realLibm center.1 center.2 370 10 = fun _ _ => true := by
    funext px py
    exact (ArcShape.inArcRange_wrap_370_10 center.1 center.2 px py).2.2
  have h12 := ArcShape.inArcRange_wrap_370_10 center.1 center.2 0 0
  refine ⟨by norm_num, h12.1, h12.2.1, fun px py => by rw [hf], ?_, ?_⟩
  · intro fuel
    rw [ArcShape.draw_eq_drawLoop realLibm fuel center radius 370 10 hr, hf]
    rfl
  · obtain ⟨l, hl⟩ := ArcShape.draw_some realLibm center radius 370 10 extra hr
    refine ⟨l, hl, ?_⟩
    rw [ArcShape.draw_eq_drawLoop realLibm _ center radius 370 10 hr] at hl
    have := ArcShape.drawLoop_first _ center.1 center.2 _ 0 radius (1 - radius) 0 l hr.le hl
      (center.1 + radius, center.2 + 0) (by simp [ArcShape.symmetricPoints])
      (by rw [hf])
    simpa using this

theorem ArcShape.draw_wrap_whole_circle_witness :
    (0 : Int) < 5 ∧
    ((370 : ℝ) > 10 ∧
    realLibm.fmod (370 * (realLibm.pi / 180)) (2 * realLibm.pi) = 10 * (Real.pi / 180) ∧
    realLibm.fmod (10 * (realLibm.pi / 180)) (2 * realLibm.pi) = 10 * (Real.pi / 180) ∧
    (∀ px py : Int, ArcShape.inArcRange realLibm 3 4 370 10 px py = true) ∧
    (∀ fuel : Nat, ArcShape.draw realLibm fuel ((3, 4) : Point) 5 370 10 =
      ArcShape.circlePoints fuel (3, 4) 5) ∧
    ∃ l, ArcShape.draw realLibm ((5 : Int).toNat + 2 + 0) ((3, 4) : Point) 5 370 10 = some l ∧
      ∃ k, ((3 : Int) + 5, (4 : Int), k) ∈ l) :=
  ⟨by decide, ArcShape.draw_wrap_whole_circle (3, 4) 5 0 (by decide)⟩

/-- C28: for every vertex list and every valid window, every vertex returned by
`clipPolygonWithRect` lies inside the window, boundary included. -/
theorem DrawEngine.clipPolygonWithRect_vertices_inside (poly : List Point)
    (xmin ymin xmax ymax : Int) (hwx : xmin ≤ xmax) (hwy : ymin ≤ ymax) :
    ∀ p ∈ DrawEngine.clipPolygonWithRect poly xmin ymin xmax ymax,
      xmin ≤ p.1 ∧ p.1 ≤ xmax ∧ ymin ≤ p.2 ∧ p.2 ≤ ymax := by
  intro p hp
  exact clipPolygonWithRect_inWindow poly xmin ymin xmax ymax hwx hwy p hp

theorem DrawEngine.clipPolygonWithRect_vertices_inside_witness :
    (10 : Int) ≤ 50 ∧ (10 : Int) ≤ 50 ∧
    ∀ p ∈ DrawEngine.clipPolygonWithRect [(3, 20), (30, -7), (70, 30), (30, 80)] 10 10 50 50,
      10 ≤ p.1 ∧ p.1 ≤ 50 ∧ 10 ≤ p.2 ∧ p.2 ≤ 50 :=
  ⟨by decide, by decide,
    DrawEngine.clipPolygonWithRect_vertices_inside [(3, 20), (30, -7), (70, 30), (30, 80)]
      10 10 50 50 (by decide) (by decide)⟩

/-- C30 at a failing input. The C++ remainder has the sign of the dividend, so
a press position with `x + y = -1` gives `dashOffset = (-1) % 13 = -1`, and
for step 0, width 1, offset -1 and the dash style the index
`(0 / 1 + (-1)) % 10` is `-1`: the pattern array is read out of range. -/
theorem DrawEngine.shouldDrawAtStep_negative_offset_out_of_range :
    Int.tmod ((-1) + 0) 13 = -1 ∧
    Int.tmod (Int.tdiv 0 1 + (-1)) (patternLength .Dash) = -1 ∧
    ¬ (0 ≤ Int.tmod (Int.tdiv 0 1 + (-1)) (patternLength .Dash)) ∧
    DrawEngine.shouldDrawAtStep 0 .Dash 1 (-1) = none := by
  refine ⟨?_, ?_, ?_, ?_⟩ <;> decide

/-- Where the lookup is in range: for every style, step ≥ 0, pen width ≥ 1 and
offset ≥ 0 the index `(step / width + offset) % patternLength`, computed with the C++
division and remainder, lies in `[0, patternLength)`, and `shouldDrawAtStep`
returns the entry of the pattern at that index. -/
theorem DrawEngine.shouldDrawAtStep_index_in_range (style : LineStyle)
    (step width offset : Int) (hs : 0 ≤ step) (hw : 1 ≤ width) (ho : 0 ≤ offset) :
    0 ≤ Int.tmod (Int.tdiv step width + offset) (patternLength style) ∧
    Int.tmod (Int.tdiv step width + offset) (patternLength style) < patternLength style ∧
    DrawEngine.shouldDrawAtStep step style width offset =
      some ((patternOfStyle style).getD
        (Int.tmod (Int.tdiv step width + offset) (patternLength style)).toNat 0 != 0) := by
  have hL : 0 < (patternLength style : Int) := by cases style <;> decide
  have hd : 0 ≤ Int.tdiv step width := by
    rw [Int.tdiv_eq_ediv hs (by omega)]
    exact Int.ediv_nonneg hs (by omega)
  have hsum : 0 ≤ Int.tdiv step width + offset := by omega
  have hmod : Int.tmod (Int.tdiv step width + offset) (patternLength style) =
      (Int.tdiv step width + offset) % (patternLength style : Int) :=
    Int.tmod_eq_emod hsum hL.le
  refine ⟨?_, ?_, ?_⟩
  · rw [hmod]; exact Int.emod_nonneg _ hL.ne'
  · rw [hmod]; exact Int.emod_lt_of_pos _ hL
  · obtain ⟨s, rfl⟩ := Int.eq_ofNat_of_zero_le hs
    obtain ⟨w, rfl⟩ := Int.eq_ofNat_of_zero_le (by omega : 0 ≤ width)
    obtain ⟨o, rfl⟩ := Int.eq_ofNat_of_zero_le ho
    rw [shouldDrawAtStep_nat style s w o (by omega), hmod]
    rw [Int.tdiv_eq_ediv (by omega) (by omega)]
    congr 2

theorem DrawEngine.shouldDrawAtStep_index_in_range_witness :
    (0 : Int) ≤ 25 ∧ (1 : Int) ≤ 2 ∧ (0 : Int) ≤ 12 ∧
    (0 ≤ Int.tmod (Int.tdiv 25 2 + 12) (patternLength .DashDot) ∧
    Int.tmod (Int.tdiv 25 2 + 12) (patternLength .DashDot) < patternLength .DashDot ∧
    DrawEngine.shouldDrawAtStep 25 .DashDot 2 12 =
      some ((patternOfStyle .DashDot).getD
        (Int.tmod (Int.tdiv 25 2 + 12) (patternLength .DashDot)).toNat 0 != 0)) :=
  ⟨by decide, by decide, by decide,
    DrawEngine.shouldDrawAtStep_index_in_range .DashDot 25 2 12 (by decide) (by decide)
      (by decide)⟩

namespace LineShape

theorem dev_le (sx sy e m : Int) (hsx : sx = 1 ∨ sx = -1) (hsy : sy = 1 ∨ sy = -1)
    (h1 : -m ≤ 2 * e) (h2 : 2 * e ≤ m) : 2 * |sx * sy * e| ≤ m := by
  have : |sx * sy * e| = |e| := by
    rcases hsx with h | h <;> rcases hsy with h' | h' <;> subst h <;> subst h' <;> simp
  rw [this]
  rcases abs_cases e with ⟨h, _⟩ | ⟨h, _⟩ <;> rw [h] <;> linarith

theorem drawLoop_xmajor_near (x1 y1 a b sx sy : Int) (ha : 0 < a) (hb : 0 ≤ b) (hba : b ≤ a)
    (hsx : sx = 1 ∨ sx = -1) (hsy : sy = 1 ∨ sy = -1) :
    ∀ (n : Nat) (fuel : Nat) (x y err step v : Int) (l : List (Int × Int × Int)),
      x1 = x + sx * n → y1 = y + sy * v → 0 ≤ v →
      err = n * b - v * a + a - b → a - 2 * b < 2 * err → 2 * err ≤ 3 * a - 2 * b →
      drawLoop x1 y1 a (-b) sx sy fuel x y err step = some l →
      ∀ c ∈ l, 2 * |(c.1 - x1) * (sy * b) - (c.2.1 - y1) * (sx * a)| ≤ a := by
  intro n
  induction n with
  | zero =>
    intro fuel x y err step v l hx hy hv herr h1 h2 hl c hc
    have hv0 : v = 0 := by
      simp at herr
      subst herr
      by_contra hne
      have : 1 ≤ v := by omega
      nlinarith
    subst hv0
    simp at hx hy
    subst hx hy
    cases fuel with
    | zero => simp [drawLoop] at hl
    | succ fuel =>
      simp [drawLoop] at hl
      subst hl
      simp at hc
      subst hc
      simp
      omega
  | succ n ih =>
    intro fuel x y err step v l hx hy hv herr h1 h2 hl c hc
    cases fuel with
    | zero => simp [drawLoop] at hl
    | succ fuel =>
      have hxne : x ≠ x1 := by
        push_cast at hx
        rcases hsx with h | h <;> subst h <;> omega
      have hx2 : 2 * err ≥ -b := by linarith
      have hxn : x1 = (x + sx) + sx * (n : Int) := by push_cast at hx; linarith
      have hhead : 2 * |(x - x1) * (sy * b) - (y - y1) * (sx * a)| ≤ a := by
        have e : (x - x1) * (sy * b) - (y - y1) * (sx * a) = sx * sy * (a - b - err) := by
          rw [hx, hy, herr]; push_cast; ring
        rw [e]
        exact dev_le sx sy _ a hsx hsy (by linarith) (by linarith)
      by_cases hy2 : 2 * err ≤ a
      · have hv1 : 1 ≤ v := by
          by_contra hne
          have hv0 : v = 0 := by omega
          subst hv0
          push_cast at herr
          have hnb : 0 ≤ (n : Int) * b := mul_nonneg (Int.ofNat_nonneg n) hb
          linarith
        simp [drawLoop, hxne, hx2, hy2] at hl
        obtain ⟨l2, hl2, rfl⟩ := hl
        rcases List.mem_cons.mp hc with rfl | hc
        · exact hhead
        · exact ih fuel (x + sx) (y + sy) (err + -b + a) (step + 1) (v - 1) l2 hxn
            (by rw [hy]; ring) (by omega) (by rw [herr]; push_cast; ring) (by linarith)
            (by linarith) hl2 c hc
      · simp [drawLoop, hxne, hx2, hy2] at hl
        obtain ⟨l2, hl2, rfl⟩ := hl
        rcases List.mem_cons.mp hc with rfl | hc
        · exact hhead
        · exact ih fuel (x + sx) y (err + -b) (step + 1) v l2 hxn
            hy hv (by rw [herr]; push_cast; ring) (by linarith) (by linarith) hl2 c hc

theorem drawLoop_ymajor_near (x1 y1 a b sx sy : Int) (ha : 0 ≤ a) (hab : a < b)
    (hsx : sx = 1 ∨ sx = -1) (hsy : sy = 1 ∨ sy = -1) :
    ∀ (n : Nat) (fuel : Nat) (x y err step u : Int) (l : List (Int × Int × Int)),
      y1 = y + sy * n → x1 = x + sx * u → 0 ≤ u →
      err = u * b - n * a + a - b → 2 * a - 3 * b ≤ 2 * err → 2 * err < 2 * a - b →
      drawLoop x1 y1 a (-b) sx sy fuel x y err step = some l →
      ∀ c ∈ l, 2 * |(c.1 - x1) * (sy * b) - (c.2.1 - y1) * (sx * a)| ≤ b := by
  intro n
  induction n with
  | zero =>
    intro fuel x y err step u l hy hx hu herr h1 h2 hl c hc
    have hu0 : u = 0 := by
      simp at herr
      subst herr
      by_contra hne
      have : 1 ≤ u := by omega
      nlinarith
    subst hu0
    simp at hx hy
    subst hx hy
    cases fuel with
    | zero => simp [drawLoop] at hl
    | succ fuel =>
      simp [drawLoop] at hl
      subst hl
      simp at hc
      subst hc
      simp
      omega
  | succ n ih =>
    intro fuel x y err step u l hy hx hu herr h1 h2 hl c hc
    cases fuel with
    | zero => simp [drawLoop] at hl
    | succ fuel =>
      have hyne : y ≠ y1 := by
        push_cast at hy
        rcases hsy with h | h <;> subst h <;> omega
      have hend : ¬ (x = x1 ∧ y = y1) := fun h => hyne h.2
      have hy2 : 2 * err ≤ a := by linarith
      have hyn : y1 = (y + sy) + sy * (n : Int) := by push_cast at hy; linarith
      have hhead : 2 * |(x - x1) * (sy * b) - (y - y1) * (sx * a)| ≤ b := by
        have e : (x - x1) * (sy * b) - (y - y1) * (sx * a) = sx * sy * (a - b - err) := by
          rw [hx, hy, herr]; push_cast; ring
        rw [e]
        exact dev_le sx sy _ b hsx hsy (by linarith) (by linarith)
      by_cases hx2 : 2 * err ≥ -b
      · have hu1 : 1 ≤ u := by
          by_contra hne
          have hu0 : u = 0 := by omega
          subst hu0
          push_cast at herr
          have hna : 0 ≤ (n : Int) * a := mul_nonneg (Int.ofNat_nonneg n) ha
          linarith
        simp [drawLoop, hend, hx2, hy2] at hl
        obtain ⟨l2, hl2, rfl⟩ := hl
        rcases List.mem_cons.mp hc with rfl | hc
        · exact hhead
        · exact ih fuel (x + sx) (y + sy) (err + -b + a) (step + 1) (u - 1) l2 hyn
            (by rw [hx]; ring) (by omega) (by rw [herr]; push_cast; ring) (by linarith)
            (by linarith) hl2 c hc
      · simp [drawLoop, hend, hx2, hy2] at hl
        obtain ⟨l2, hl2, rfl⟩ := hl
        rcases List.mem_cons.mp hc with rfl | hc
        · exact hhead
        · exact ih fuel x (y + sy) (err + a) (step + 1) u l2 hyn
            hx hu (by rw [herr]; push_cast; ring) (by linarith) (by linarith) hl2 c hc

end LineShape

/-- C29: for every segment, with fuel `max(|dx|, |dy|) + 1` or more
`LineShape::draw` returns, and every point `(x, y)` it emits lies within half a
pixel of the ideal line along the minor axis:
`2·|(x−x0)·(y1−y0) − (y−y0)·(x1−x0)| ≤ max(|x1−x0|, |y1−y0|)`. -/
theorem LineShape.draw_near_line (start stop : Point) (extra : Nat) :
    ∃ l, LineShape.draw (LineShape.steps start stop + 1 + extra) start stop = some l ∧
      ∀ c ∈ l, 2 * |(c.1 - start.1) * (stop.2 - start.2) - (c.2.1 - start.2) * (stop.1 - start.1)|
        ≤ max |stop.1 - start.1| |stop.2 - start.2| := by
  obtain ⟨l, hl, -⟩ := LineShape.draw_post start stop (LineShape.steps start stop + 1 + extra)
    (by omega)
  refine ⟨l, hl, ?_⟩
  obtain ⟨x0, y0⟩ := start
  obtain ⟨x1, y1⟩ := stop
  simp only [LineShape.draw] at hl
  simp only
  have hx1 : x1 = x0 + (if x0 < x1 then 1 else -1) * |x1 - x0| := by
    split_ifs with h
    · rw [abs_of_nonneg (by omega)]; ring
    · rw [abs_of_nonpos (by omega)]; ring
  have hy1 : y1 = y0 + (if y0 < y1 then 1 else -1) * |y1 - y0| := by
    split_ifs with h
    · rw [abs_of_nonneg (by omega)]; ring
    · rw [abs_of_nonpos (by omega)]; ring
  have hsx : (if x0 < x1 then (1 : Int) else -1) = 1 ∨ (if x0 < x1 then (1 : Int) else -1) = -1 := by
    split_ifs <;> simp
  have hsy : (if y0 < y1 then (1 : Int) else -1) = 1 ∨ (if y0 < y1 then (1 : Int) else -1) = -1 := by
    split_ifs <;> simp
  have ha0 : 0 ≤ |x1 - x0| := abs_nonneg _
  have hb0 : 0 ≤ |y1 - y0| := abs_nonneg _
  have hax : ((x1 - x0).natAbs : Int) = |x1 - x0| := Int.natCast_natAbs _
  have hay : ((y1 - y0).natAbs : Int) = |y1 - y0| := Int.natCast_natAbs _
  have hdx : x1 - x0 = (if x0 < x1 then 1 else -1) * |x1 - x0| := by linarith
  have hdy : y1 - y0 = (if y0 < y1 then 1 else -1) * |y1 - y0| := by linarith
  have hconv : ∀ c : Int × Int × Int,
      (c.1 - x0) * (y1 - y0) - (c.2.1 - y0) * (x1 - x0) =
        (c.1 - x1) * ((if y0 < y1 then 1 else -1) * |y1 - y0|) -
          (c.2.1 - y1) * ((if x0 < x1 then 1 else -1) * |x1 - x0|) := by
    intro c
    rw [← hdx, ← hdy]
    ring
  intro c hc
  rw [hconv c]
  by_cases hmaj : |y1 - y0| ≤ |x1 - x0|
  · rw [max_eq_left hmaj]
    by_cases hpos : 0 < |x1 - x0|
    · exact LineShape.drawLoop_xmajor_near x1 y1 |x1 - x0| |y1 - y0| _ _ hpos hb0 hmaj hsx hsy
        (x1 - x0).natAbs _ x0 y0 _ 0 |y1 - y0| l (by rw [hax]; exact hx1) hy1 hb0
        (by rw [hax]; ring) (by linarith) (by linarith) hl c hc
    · have hxa : |x1 - x0| = 0 := by omega
      have hya : |y1 - y0| = 0 := by omega
      rw [hxa, hya]
      simp
  · rw [max_eq_right (by omega)]
    exact LineShape.drawLoop_ymajor_near x1 y1 |x1 - x0| |y1 - y0| _ _ ha0 (by omega) hsx hsy
        (y1 - y0).natAbs _ x0 y0 _ 0 |x1 - x0| l (by rw [hay]; exact hy1) hx1 ha0
        (by rw [hay]; ring) (by linarith) (by linarith) hl c hc

namespace PolygonShape

theorem strokeLoop_eq (x1 y1 dx dy sx sy : Int) :
    ∀ (fuel : Nat) (x0 y0 err step : Int),
      strokeLoop x1 y1 dx dy sx sy fuel x0 y0 err step =
        LineShape.drawLoop x1 y1 dx dy sx sy fuel x0 y0 err step := by
  intro fuel
  induction fuel with
  | zero => intro x0 y0 err step; rfl
  | succ fuel ih =>
    intro x0 y0 err step
    rw [strokeLoop, LineShape.drawLoop]
    simp only [ih]

theorem strokeEdge_eq (fuel : Nat) (p1 p2 : Point) :
    strokeEdge fuel p1 p2 = LineShape.draw fuel p1 p2 := by
  unfold strokeEdge LineShape.draw
  simp only [strokeLoop_eq]

theorem le_foldr_max (l : List Nat) : ∀ a ∈ l, a ≤ l.foldr max 0 := by
  induction l with
  | nil => intro a h; simp at h
  | cons b l ih =>
    intro a h
    simp only [List.foldr_cons]
    rcases List.mem_cons.mp h with rfl | h
    · exact le_max_left _ _
    · exact le_trans (ih a h) (le_max_right _ _)

theorem steps_le_outlineFuel (vertices : List Point) (i : Nat) (hi : i < vertices.length) :
    LineShape.steps (vertices.getD i (0, 0))
      (vertices.getD ((i + 1) % vertices.length) (0, 0)) + 1 ≤ outlineFuel vertices := by
  unfold outlineFuel
  apply Nat.succ_le_succ
  apply le_foldr_max
  exact List.mem_map.mpr ⟨i, List.mem_range.mpr hi, rfl⟩

theorem strokeEdges_spec (fuel : Nat) (vertices : List Point)
    (hf : outlineFuel vertices ≤ fuel) :
    ∀ (k i : Nat), i + k ≤ vertices.length →
      ∃ traces : List (List (Int × Int × Int)), traces.length = k ∧
        (∀ j, j < k →
          LineShape.draw fuel (vertices.getD (i + j) (0, 0))
            (vertices.getD ((i + j + 1) % vertices.length) (0, 0)) = some (traces.getD j [])) ∧
        strokeEdges fuel vertices k i = some traces.flatten := by
  intro k
  induction k with
  | zero =>
    intro i _
    exact ⟨[], rfl, fun j hj => absurd hj (Nat.not_lt_zero j), rfl⟩
  | succ k ih =>
    intro i hik
    obtain ⟨l, hl, -⟩ := LineShape.draw_post (vertices.getD i (0, 0))
      (vertices.getD ((i + 1) % vertices.length) (0, 0)) fuel
      (le_trans (steps_le_outlineFuel vertices i (by omega)) hf)
    obtain ⟨traces, hlen, hj, hrest⟩ := ih (i + 1) (by omega)
    refine ⟨l :: traces, by simp [hlen], ?_, ?_⟩
    · intro j hjlt
      cases j with
      | zero => simpa using hl
      | succ j =>
        have := hj j (by omega)
        have e1 : i + 1 + j = i + (j + 1) := by omega
        have e2 : i + 1 + j + 1 = i + (j + 1) + 1 := by omega
        rw [e2, e1] at this
        simpa only [List.getD_cons_succ] using this
    · rw [strokeEdges, strokeEdge_eq, hl]
      simp only [hrest, Option.map_some', List.flatten_cons]

end PolygonShape

/-- C23: the outline pass is repeated line rasterisation. For every vertex
list, with fuel `outlineFuel` or more the outline pass returns, and the calls
of `drawStyledPixelAtStep` it makes are, for `i = 0..n-1` in order, the calls
that `LineShape::draw` makes for the segment from vertex `i` to vertex
`(i+1) mod n`, the step counter starting at 0 on every edge. -/
theorem PolygonShape.drawOutline_eq_lines (vertices : List Point) (extra : Nat) :
    ∃ traces : List (List (Int × Int × Int)), traces.length = vertices.length ∧
      (∀ i, i < vertices.length →
        LineShape.draw (PolygonShape.outlineFuel vertices + extra) (vertices.getD i (0, 0))
          (vertices.getD ((i + 1) % vertices.length) (0, 0)) = some (traces.getD i []) ∧
        (traces.getD i []).head? = some ((vertices.getD i (0, 0)).1, (vertices.getD i (0, 0)).2, 0)) ∧
      PolygonShape.drawOutline (PolygonShape.outlineFuel vertices + extra) vertices =
        some traces.flatten := by
  obtain ⟨traces, hlen, hj, hall⟩ := PolygonShape.strokeEdges_spec
    (PolygonShape.outlineFuel vertices + extra) vertices (by omega) vertices.length 0 (by omega)
  refine ⟨traces, hlen, ?_, hall⟩
  intro i hi
  have h := hj i hi
  simp only [Nat.zero_add] at h
  refine ⟨h, ?_⟩
  obtain ⟨l, hl, -, hhead, -⟩ := LineShape.draw_post (vertices.getD i (0, 0))
    (vertices.getD ((i + 1) % vertices.length) (0, 0))
    (PolygonShape.outlineFuel vertices + extra)
    (le_trans (PolygonShape.steps_le_outlineFuel vertices i hi) (by omega))
  rw [hl] at h
  rw [← Option.some.inj h]
  exact hhead

namespace DrawEngine

theorem clipLoop_succ (xmin ymin xmax ymax : Int) (fuel : Nat) (x0d y0d x1d y1d : ℚ)
    (out0 out1 : Nat) :
    clipLoop xmin ymin xmax ymax (fuel + 1) x0d y0d x1d y1d out0 out1 =
      if (out0 ||| out1) = 0 then .ok (true, x0d, y0d, x1d, y1d)
      else if (out0 &&& out1) ≠ 0 then .ok (false, x0d, y0d, x1d, y1d)
      else
        match clipPoint xmin ymin xmax ymax x0d y0d x1d y1d (if out0 ≠ 0 then out0 else out1) with
        | .error e => .error e
        | .ok (x, y) =>
          if (if out0 ≠ 0 then out0 else out1) = out0 then
            clipLoop xmin ymin xmax ymax fuel x y x1d y1d
              (computeOutCode (cround x) (cround y) xmin ymin xmax ymax) out1
          else
            clipLoop xmin ymin xmax ymax fuel x0d y0d x y out0
              (computeOutCode (cround x) (cround y) xmin ymin xmax ymax) := by
  rfl

theorem cround_mono {p q : ℚ} (h : p ≤ q) : cround p ≤ cround q := by
  unfold cround
  split_ifs with h1 h2 h2
  · exact Int.floor_le_floor (by linarith)
  · linarith
  · have a1 : ⌈p - 1 / 2⌉ ≤ 0 := Int.ceil_le.mpr (by push_cast; linarith)
    have a2 : 0 ≤ ⌊q + 1 / 2⌋ := Int.le_floor.mpr (by push_cast; linarith)
    omega
  · exact Int.ceil_le_ceil (by linarith)

theorem lt_of_cround_lt {q : ℚ} {m : Int} (h : cround q < m) : q < (m : ℚ) := by
  by_contra hn
  have := @le_cround m q (not_lt.mp hn)
  omega

theorem gt_of_cround_gt {q : ℚ} {m : Int} (h : m < cround q) : (m : ℚ) < q := by
  by_contra hn
  have := @cround_le m q (not_lt.mp hn)
  omega

theorem cround_between {a b c d : ℚ}
    (h : (0 ≤ c ∧ c ≤ d ∧ 0 < d) ∨ (d ≤ c ∧ c ≤ 0 ∧ d < 0)) :
    (cround a ≤ cround (a + (b - a) * c / d) ∨ cround b ≤ cround (a + (b - a) * c / d)) ∧
    (cround (a + (b - a) * c / d) ≤ cround a ∨ cround (a + (b - a) * c / d) ≤ cround b) := by
  have hb := @interp_bounds a b (min a b) (max a b) c d ⟨min_le_left _ _, le_max_left _ _⟩
    ⟨min_le_right _ _, le_max_right _ _⟩ h
  constructor
  · rcases le_total a b with hab | hab
    · left; exact cround_mono (by rw [min_eq_left hab] at hb; exact hb.1)
    · right; exact cround_mono (by rw [min_eq_right hab] at hb; exact hb.1)
  · rcases le_total a b with hab | hab
    · right; exact cround_mono (by rw [max_eq_right hab] at hb; exact hb.2)
    · left; exact cround_mono (by rw [max_eq_left hab] at hb; exact hb.2)

theorem code_eq_zero_iff (a b xmin ymin xmax ymax : Int) :
    computeOutCode a b xmin ymin xmax ymax = 0 ↔
      (xmin ≤ a ∧ a ≤ xmax) ∧ (ymin ≤ b ∧ b ≤ ymax) := by
  rw [computeOutCode_eq]
  split_ifs <;> constructor <;> intro h <;> first | omega | simp at h

theorem code_or_eq_zero_iff (a0 b0 a1 b1 xmin ymin xmax ymax : Int) :
    (computeOutCode a0 b0 xmin ymin xmax ymax ||| computeOutCode a1 b1 xmin ymin xmax ymax) = 0 ↔
      computeOutCode a0 b0 xmin ymin xmax ymax = 0 ∧
        computeOutCode a1 b1 xmin ymin xmax ymax = 0 := by
  rw [computeOutCode_eq, computeOutCode_eq]
  split_ifs <;> decide

theorem code_and_ne_zero_iff (a0 b0 a1 b1 xmin ymin xmax ymax : Int)
    (hwx : xmin ≤ xmax) (hwy : ymin ≤ ymax) :
    (computeOutCode a0 b0 xmin ymin xmax ymax &&& computeOutCode a1 b1 xmin ymin xmax ymax) ≠ 0 ↔
      ((a0 < xmin ∧ a1 < xmin) ∨ (xmax < a0 ∧ xmax < a1) ∨
        (b0 < ymin ∧ b1 < ymin) ∨ (ymax < b0 ∧ ymax < b1)) := by
  constructor
  · intro h
    by_contra hn
    apply h
    rw [computeOutCode_eq, computeOutCode_eq]
    split_ifs <;> first | rfl | (exfalso; omega)
  · intro h
    exact (computeOutCode_common hwx hwy (by omega)).2

theorem code_top_iff (a b xmin ymin xmax ymax : Int) :
    (computeOutCode a b xmin ymin xmax ymax &&& CS_TOP) ≠ 0 ↔ b < ymin := by
  rw [computeOutCode_eq]
  unfold CS_TOP
  split_ifs <;> constructor <;> intro h <;> first | omega | decide | (exfalso; exact h (by decide))

theorem code_bottom_iff (a b xmin ymin xmax ymax : Int) :
    (computeOutCode a b xmin ymin xmax ymax &&& CS_BOTTOM) ≠ 0 ↔ (¬ b < ymin ∧ ymax < b) := by
  rw [computeOutCode_eq]
  unfold CS_BOTTOM
  split_ifs <;> constructor <;> intro h <;> first | omega | decide | (exfalso; exact h (by decide))

theorem code_right_iff (a b xmin ymin xmax ymax : Int) :
    (computeOutCode a b xmin ymin xmax ymax &&& CS_RIGHT) ≠ 0 ↔ (¬ a < xmin ∧ xmax < a) := by
  rw [computeOutCode_eq]
  unfold CS_RIGHT
  split_ifs <;> constructor <;> intro h <;> first | omega | decide | (exfalso; exact h (by decide))

theorem code_left_iff (a b xmin ymin xmax ymax : Int) :
    (computeOutCode a b xmin ymin xmax ymax &&& CS_LEFT) ≠ 0 ↔ a < xmin := by
  rw [computeOutCode_eq]
  unfold CS_LEFT
  split_ifs <;> constructor <;> intro h <;> first | omega | decide | (exfalso; exact h (by decide))

theorem intersectAt_ok {a b c d : ℚ} (hd : d ≠ 0) :
    intersectAt a b c d = .ok (a + b * c / d) := by
  unfold intersectAt
  rw [if_neg hd]

theorem clipPoint_top (xmin ymin xmax ymax : Int) (x0 y0 x1 y1 : ℚ) (c : Nat)
    (h : (c &&& CS_TOP) ≠ 0) (hd : y1 - y0 ≠ 0) :
    clipPoint xmin ymin xmax ymax x0 y0 x1 y1 c =
      .ok (x0 + (x1 - x0) * ((ymin : ℚ) - y0) / (y1 - y0), (ymin : ℚ)) := by
  unfold clipPoint
  rw [if_pos h, intersectAt_ok hd]
  rfl

theorem clipPoint_bottom (xmin ymin xmax ymax : Int) (x0 y0 x1 y1 : ℚ) (c : Nat)
    (h0 : ¬ (c &&& CS_TOP) ≠ 0) (h : (c &&& CS_BOTTOM) ≠ 0) (hd : y1 - y0 ≠ 0) :
    clipPoint xmin ymin xmax ymax x0 y0 x1 y1 c =
      .ok (x0 + (x1 - x0) * ((ymax : ℚ) - y0) / (y1 - y0), (ymax : ℚ)) := by
  unfold clipPoint
  rw [if_neg h0, if_pos h, intersectAt_ok hd]
  rfl

theorem clipPoint_right (xmin ymin xmax ymax : Int) (x0 y0 x1 y1 : ℚ) (c : Nat)
    (h0 : ¬ (c &&& CS_TOP) ≠ 0) (h1 : ¬ (c &&& CS_BOTTOM) ≠ 0) (h : (c &&& CS_RIGHT) ≠ 0)
    (hd : x1 - x0 ≠ 0) :
    clipPoint xmin ymin xmax ymax x0 y0 x1 y1 c =
      .ok ((xmax : ℚ), y0 + (y1 - y0) * ((xmax : ℚ) - x0) / (x1 - x0)) := by
  unfold clipPoint
  rw [if_neg h0, if_neg h1, if_pos h, intersectAt_ok hd]
  rfl

theorem clipPoint_left (xmin ymin xmax ymax : Int) (x0 y0 x1 y1 : ℚ) (c : Nat)
    (h0 : ¬ (c &&& CS_TOP) ≠ 0) (h1 : ¬ (c &&& CS_BOTTOM) ≠ 0) (h2 : ¬ (c &&& CS_RIGHT) ≠ 0)
    (h : (c &&& CS_LEFT) ≠ 0) (hd : x1 - x0 ≠ 0) :
    clipPoint xmin ymin xmax ymax x0 y0 x1 y1 c =
      .ok ((xmin : ℚ), y0 + (y1 - y0) * ((xmin : ℚ) - x0) / (x1 - x0)) := by
  unfold clipPoint
  rw [if_neg h0, if_neg h1, if_neg h2, if_pos h, intersectAt_ok hd]
  rfl

/-- One iteration that moves the first endpoint. -/
theorem clipLoop_move0 (xmin ymin xmax ymax : Int) (fuel : Nat) (x0 y0 x1 y1 : ℚ)
    (hnd : ¬ ClipDone xmin ymin xmax ymax x0 y0 x1 y1)
    (h0 : codeAt xmin ymin xmax ymax x0 y0 ≠ 0) (X : ℚ × ℚ)
    (hX : clipPoint xmin ymin xmax ymax x0 y0 x1 y1 (codeAt xmin ymin xmax ymax x0 y0) = .ok X) :
    clipLoop xmin ymin xmax ymax (fuel + 1) x0 y0 x1 y1 (codeAt xmin ymin xmax ymax x0 y0)
        (codeAt xmin ymin xmax ymax x1 y1) =
      clipLoop xmin ymin xmax ymax fuel X.1 X.2 x1 y1 (codeAt xmin ymin xmax ymax X.1 X.2)
        (codeAt xmin ymin xmax ymax x1 y1) := by
  have h1 : ¬ ((codeAt xmin ymin xmax ymax x0 y0 ||| codeAt xmin ymin xmax ymax x1 y1) = 0) := by
    intro h
    exact h0 ((code_or_eq_zero_iff _ _ _ _ _ _ _ _).mp h).1
  have h2 : ¬ ((codeAt xmin ymin xmax ymax x0 y0 &&& codeAt xmin ymin xmax ymax x1 y1) ≠ 0) :=
    fun h => hnd (Or.inr h)
  rw [clipLoop_succ, if_neg h1, if_neg h2]
  simp only [if_pos h0, hX, if_true]
  rfl

/-- One iteration that moves the second endpoint. -/
theorem clipLoop_move1 (xmin ymin xmax ymax : Int) (fuel : Nat) (x0 y0 x1 y1 : ℚ)
    (hnd : ¬ ClipDone xmin ymin xmax ymax x0 y0 x1 y1)
    (h0 : codeAt xmin ymin xmax ymax x0 y0 = 0) (X : ℚ × ℚ)
    (hX : clipPoint xmin ymin xmax ymax x0 y0 x1 y1 (codeAt xmin ymin xmax ymax x1 y1) = .ok X) :
    clipLoop xmin ymin xmax ymax (fuel + 1) x0 y0 x1 y1 (codeAt xmin ymin xmax ymax x0 y0)
        (codeAt xmin ymin xmax ymax x1 y1) =
      clipLoop xmin ymin xmax ymax fuel x0 y0 X.1 X.2 (codeAt xmin ymin xmax ymax x0 y0)
        (codeAt xmin ymin xmax ymax X.1 X.2) := by
  have hc1 : codeAt xmin ymin xmax ymax x1 y1 ≠ 0 := fun h => hnd (Or.inl ⟨h0, h⟩)
  have h1 : ¬ ((codeAt xmin ymin xmax ymax x0 y0 ||| codeAt xmin ymin xmax ymax x1 y1) = 0) := by
    intro h
    exact hc1 ((code_or_eq_zero_iff _ _ _ _ _ _ _ _).mp h).2
  have h2 : ¬ ((codeAt xmin ymin xmax ymax x0 y0 &&& codeAt xmin ymin xmax ymax x1 y1) ≠ 0) :=
    fun h => hnd (Or.inr h)
  have h3 : ¬ (codeAt xmin ymin xmax ymax x0 y0 ≠ 0) := fun h => h h0
  have h4 : ¬ (codeAt xmin ymin xmax ymax x1 y1 = codeAt xmin ymin xmax ymax x0 y0) := by
    rw [h0]; exact hc1
  rw [clipLoop_succ, if_neg h1, if_neg h2]
  simp only [if_neg h3, hX, if_neg h4]
  rfl

theorem clipLoop_done (xmin ymin xmax ymax : Int) (fuel : Nat) (x0 y0 x1 y1 : ℚ)
    (hd : ClipDone xmin ymin xmax ymax x0 y0 x1 y1) :
    ∃ r, clipLoop xmin ymin xmax ymax (fuel + 1) x0 y0 x1 y1 (codeAt xmin ymin xmax ymax x0 y0)
        (codeAt xmin ymin xmax ymax x1 y1) = .ok r := by
  rw [clipLoop_succ]
  by_cases h1 : (codeAt xmin ymin xmax ymax x0 y0 ||| codeAt xmin ymin xmax ymax x1 y1) = 0
  · rw [if_pos h1]; exact ⟨_, rfl⟩
  · rw [if_neg h1]
    have h2 : (codeAt xmin ymin xmax ymax x0 y0 &&& codeAt xmin ymin xmax ymax x1 y1) ≠ 0 := by
      rcases hd with ⟨a, b⟩ | h
      · exact absurd ((code_or_eq_zero_iff _ _ _ _ _ _ _ _).mpr ⟨a, b⟩) h1
      · exact h
    rw [if_pos h2]; exact ⟨_, rfl⟩

theorem codeAt_eq_zero_iff (xmin ymin xmax ymax : Int) (x y : ℚ) :
    codeAt xmin ymin xmax ymax x y = 0 ↔
      (xmin ≤ cround x ∧ cround x ≤ xmax) ∧ (ymin ≤ cround y ∧ cround y ≤ ymax) :=
  code_eq_zero_iff _ _ _ _ _ _

theorem clipDone_iff (xmin ymin xmax ymax : Int) (hwx : xmin ≤ xmax) (hwy : ymin ≤ ymax)
    (x0 y0 x1 y1 : ℚ) :
    ClipDone xmin ymin xmax ymax x0 y0 x1 y1 ↔
      ((((xmin ≤ cround x0 ∧ cround x0 ≤ xmax) ∧ (ymin ≤ cround y0 ∧ cround y0 ≤ ymax)) ∧
        ((xmin ≤ cround x1 ∧ cround x1 ≤ xmax) ∧ (ymin ≤ cround y1 ∧ cround y1 ≤ ymax))) ∨
      ((cround x0 < xmin ∧ cround x1 < xmin) ∨ (xmax < cround x0 ∧ xmax < cround x1) ∨
        (cround y0 < ymin ∧ cround y1 < ymin) ∨ (ymax < cround y0 ∧ ymax < cround y1))) := by
  unfold ClipDone
  rw [codeAt_eq_zero_iff, codeAt_eq_zero_iff]
  unfold codeAt
  rw [code_and_ne_zero_iff _ _ _ _ _ _ _ _ hwx hwy]

theorem measure_done {xmin ymin xmax ymax : Int} {x0 y0 x1 y1 : ℚ}
    (h : ClipDone xmin ymin xmax ymax x0 y0 x1 y1) :
    clipMeasure xmin ymin xmax ymax x0 y0 x1 y1 = 0 := by
  unfold clipMeasure
  rw [if_pos h]

theorem measure_phase1 {xmin ymin xmax ymax : Int} {x0 y0 x1 y1 : ℚ}
    (h : ¬ ClipDone xmin ymin xmax ymax x0 y0 x1 y1)
    (h0 : codeAt xmin ymin xmax ymax x0 y0 ≠ 0) :
    clipMeasure xmin ymin xmax ymax x0 y0 x1 y1 =
      outAxes xmin ymin xmax ymax x0 y0 + 2 * outAxes xmin ymin xmax ymax x1 y1 + 1 := by
  unfold clipMeasure
  rw [if_neg h, if_pos h0]

theorem measure_phase2 {xmin ymin xmax ymax : Int} {x0 y0 x1 y1 : ℚ}
    (h : ¬ ClipDone xmin ymin xmax ymax x0 y0 x1 y1)
    (h0 : codeAt xmin ymin xmax ymax x0 y0 = 0) :
    clipMeasure xmin ymin xmax ymax x0 y0 x1 y1 =
      2 * outAxes xmin ymin xmax ymax x1 y1 +
        (if ClipLoose xmin ymin xmax ymax x0 y0 x1 y1 then 1 else 0) := by
  unfold clipMeasure
  rw [if_neg h, if_neg (not_not.mpr h0)]

theorem step0_vert (xmin ymin xmax ymax : Int) (hwx : xmin ≤ xmax) (hwy : ymin ≤ ymax)
    (x0 y0 x1 y1 x' : ℚ) (m : Int) (hm1 : ymin ≤ m) (hm2 : m ≤ ymax)
    (hinv : ClipInv xmin ymin xmax ymax x0 y0 x1 y1)
    (hnd : ¬ ClipDone xmin ymin xmax ymax x0 y0 x1 y1)
    (hout : cround y0 < ymin ∨ ymax < cround y0)
    (hbt : (cround x0 ≤ cround x' ∨ cround x1 ≤ cround x') ∧
      (cround x' ≤ cround x0 ∨ cround x' ≤ cround x1)) :
    ClipInv xmin ymin xmax ymax x' m x1 y1 ∧
      clipMeasure xmin ymin xmax ymax x' m x1 y1 < clipMeasure xmin ymin xmax ymax x0 y0 x1 y1 := by
  have h0 : codeAt xmin ymin xmax ymax x0 y0 ≠ 0 := by
    rw [Ne, codeAt_eq_zero_iff]; omega
  have hb' : cround (m : ℚ) = m := cround_intCast m
  constructor
  · exact ⟨fun _ => hinv.1 h0, fun _ => Or.inr ⟨by exact_mod_cast hm1, by exact_mod_cast hm2⟩⟩
  · rw [measure_phase1 hnd h0]
    by_cases hd' : ClipDone xmin ymin xmax ymax x' m x1 y1
    · rw [measure_done hd']; omega
    · by_cases h0' : codeAt xmin ymin xmax ymax x' m = 0
      · rw [measure_phase2 hd' h0']
        unfold outAxes
        split_ifs <;> omega
      · rw [measure_phase1 hd' h0']
        rw [clipDone_iff _ _ _ _ hwx hwy] at hd' hnd
        rw [hb'] at hd'
        unfold outAxes
        rw [hb']
        split_ifs <;> omega

theorem step0_horiz (xmin ymin xmax ymax : Int) (hwx : xmin ≤ xmax) (hwy : ymin ≤ ymax)
    (x0 y0 x1 y1 y' : ℚ) (m : Int) (hm1 : xmin ≤ m) (hm2 : m ≤ xmax)
    (hinv : ClipInv xmin ymin xmax ymax x0 y0 x1 y1)
    (hnd : ¬ ClipDone xmin ymin xmax ymax x0 y0 x1 y1)
    (hout : cround x0 < xmin ∨ xmax < cround x0)
    (hbt : (cround y0 ≤ cround y' ∨ cround y1 ≤ cround y') ∧
      (cround y' ≤ cround y0 ∨ cround y' ≤ cround y1)) :
    ClipInv xmin ymin xmax ymax m y' x1 y1 ∧
      clipMeasure xmin ymin xmax ymax m y' x1 y1 < clipMeasure xmin ymin xmax ymax x0 y0 x1 y1 := by
  have h0 : codeAt xmin ymin xmax ymax x0 y0 ≠ 0 := by
    rw [Ne, codeAt_eq_zero_iff]; omega
  have hb' : cround (m : ℚ) = m := cround_intCast m
  constructor
  · exact ⟨fun _ => hinv.1 h0, fun _ => Or.inl ⟨by exact_mod_cast hm1, by exact_mod_cast hm2⟩⟩
  · rw [measure_phase1 hnd h0]
    by_cases hd' : ClipDone xmin ymin xmax ymax m y' x1 y1
    · rw [measure_done hd']; omega
    · by_cases h0' : codeAt xmin ymin xmax ymax m y' = 0
      · rw [measure_phase2 hd' h0']
        unfold outAxes
        split_ifs <;> omega
      · rw [measure_phase1 hd' h0']
        rw [clipDone_iff _ _ _ _ hwx hwy] at hd' hnd
        rw [hb'] at hd'
        unfold outAxes
        rw [hb']
        split_ifs <;> omega

theorem step1_vert (xmin ymin xmax ymax : Int)
    (x0 y0 x1 y1 x' : ℚ) (m : Int) (hm1 : ymin ≤ m) (hm2 : m ≤ ymax)
    (hinv : ClipInv xmin ymin xmax ymax x0 y0 x1 y1)
    (hnd : ¬ ClipDone xmin ymin xmax ymax x0 y0 x1 y1)
    (h0 : codeAt xmin ymin xmax ymax x0 y0 = 0)
    (hout : cround y1 < ymin ∨ ymax < cround y1)
    (hbt : ((ymin : ℚ) ≤ y0 ∧ y0 ≤ (ymax : ℚ)) →
      (cround x0 ≤ cround x' ∨ cround x1 ≤ cround x') ∧
        (cround x' ≤ cround x0 ∨ cround x' ≤ cround x1)) :
    ClipInv xmin ymin xmax ymax x0 y0 x' m ∧
      clipMeasure xmin ymin xmax ymax x0 y0 x' m < clipMeasure xmin ymin xmax ymax x0 y0 x1 y1 := by
  have hb' : cround (m : ℚ) = m := cround_intCast m
  have h0i := (codeAt_eq_zero_iff _ _ _ _ _ _).mp h0
  constructor
  · exact ⟨fun h => absurd h0 h, hinv.2⟩
  · rw [measure_phase2 hnd h0]
    by_cases hd' : ClipDone xmin ymin xmax ymax x0 y0 x' m
    · rw [measure_done hd']
      unfold outAxes
      split_ifs <;> omega
    · rw [measure_phase2 hd' h0]
      by_cases hex : (ymin : ℚ) ≤ y0 ∧ y0 ≤ (ymax : ℚ)
      · have hb := hbt hex
        unfold outAxes
        rw [hb']
        split_ifs <;> omega
      · have hexx := (hinv.2 h0).resolve_right hex
        have hl : ClipLoose xmin ymin xmax ymax x0 y0 x1 y1 := Or.inr ⟨hout, hex⟩
        have hl' : ¬ ClipLoose xmin ymin xmax ymax x0 y0 x' m := by
          unfold ClipLoose
          rw [hb']
          rintro (⟨-, h⟩ | ⟨h, -⟩)
          · exact h hexx
          · omega
        rw [if_pos hl, if_neg hl']
        unfold outAxes
        rw [hb']
        split_ifs <;> omega

theorem step1_horiz (xmin ymin xmax ymax : Int)
    (x0 y0 x1 y1 y' : ℚ) (m : Int) (hm1 : xmin ≤ m) (hm2 : m ≤ xmax)
    (hinv : ClipInv xmin ymin xmax ymax x0 y0 x1 y1)
    (hnd : ¬ ClipDone xmin ymin xmax ymax x0 y0 x1 y1)
    (h0 : codeAt xmin ymin xmax ymax x0 y0 = 0)
    (hout : cround x1 < xmin ∨ xmax < cround x1)
    (hbt : ((xmin : ℚ) ≤ x0 ∧ x0 ≤ (xmax : ℚ)) →
      (cround y0 ≤ cround y' ∨ cround y1 ≤ cround y') ∧
        (cround y' ≤ cround y0 ∨ cround y' ≤ cround y1)) :
    ClipInv xmin ymin xmax ymax x0 y0 m y' ∧
      clipMeasure xmin ymin xmax ymax x0 y0 m y' < clipMeasure xmin ymin xmax ymax x0 y0 x1 y1 := by
  have hb' : cround (m : ℚ) = m := cround_intCast m
  have h0i := (codeAt_eq_zero_iff _ _ _ _ _ _).mp h0
  constructor
  · exact ⟨fun h => absurd h0 h, hinv.2⟩
  · rw [measure_phase2 hnd h0]
    by_cases hd' : ClipDone xmin ymin xmax ymax x0 y0 m y'
    · rw [measure_done hd']
      unfold outAxes
      split_ifs <;> omega
    · rw [measure_phase2 hd' h0]
      by_cases hex : (xmin : ℚ) ≤ x0 ∧ x0 ≤ (xmax : ℚ)
      · have hb := hbt hex
        unfold outAxes
        rw [hb']
        split_ifs <;> omega
      · have hexy := (hinv.2 h0).resolve_left hex
        have hl : ClipLoose xmin ymin xmax ymax x0 y0 x1 y1 := Or.inl ⟨hout, hex⟩
        have hl' : ¬ ClipLoose xmin ymin xmax ymax x0 y0 m y' := by
          unfold ClipLoose
          rw [hb']
          rintro (⟨h, -⟩ | ⟨-, h⟩)
          · omega
          · exact h hexy
        rw [if_pos hl, if_neg hl']
        unfold outAxes
        rw [hb']
        split_ifs <;> omega

theorem clip_step0 (xmin ymin xmax ymax : Int) (hwx : xmin ≤ xmax) (hwy : ymin ≤ ymax)
    (x0 y0 x1 y1 : ℚ) (hinv : ClipInv xmin ymin xmax ymax x0 y0 x1 y1)
    (hnd : ¬ ClipDone xmin ymin xmax ymax x0 y0 x1 y1)
    (h0 : codeAt xmin ymin xmax ymax x0 y0 ≠ 0) :
    ∃ X : ℚ × ℚ,
      clipPoint xmin ymin xmax ymax x0 y0 x1 y1 (codeAt xmin ymin xmax ymax x0 y0) = .ok X ∧
      ClipInv xmin ymin xmax ymax X.1 X.2 x1 y1 ∧
      clipMeasure xmin ymin xmax ymax X.1 X.2 x1 y1 <
        clipMeasure xmin ymin xmax ymax x0 y0 x1 y1 := by
  obtain ⟨hx1, hy1⟩ := hinv.1 h0
  have hnd' := hnd
  rw [clipDone_iff _ _ _ _ hwx hwy] at hnd'
  have h0' := h0
  rw [Ne, codeAt_eq_zero_iff] at h0'
  by_cases hT : cround y0 < ymin
  · have hq0 : y0 < (ymin : ℚ) := lt_of_cround_lt hT
    have hi1 : ymin ≤ cround y1 := by omega
    have hq1 : (ymin : ℚ) ≤ y1 := by rw [← hy1]; exact_mod_cast hi1
    have hd : y1 - y0 ≠ 0 := by intro h; linarith
    refine ⟨(x0 + (x1 - x0) * ((ymin : ℚ) - y0) / (y1 - y0), (ymin : ℚ)),
      clipPoint_top _ _ _ _ _ _ _ _ _ ((code_top_iff _ _ _ _ _ _).mpr hT) hd, ?_⟩
    exact step0_vert xmin ymin xmax ymax hwx hwy x0 y0 x1 y1 _ ymin le_rfl hwy hinv hnd
      (Or.inl hT) (cround_between (Or.inl ⟨by linarith, by linarith, by linarith⟩))
  · have hnT : ¬ (codeAt xmin ymin xmax ymax x0 y0 &&& CS_TOP) ≠ 0 :=
      fun h => hT ((code_top_iff _ _ _ _ _ _).mp h)
    by_cases hB : ymax < cround y0
    · have hq0 : (ymax : ℚ) < y0 := gt_of_cround_gt hB
      have hi1 : cround y1 ≤ ymax := by omega
      have hq1 : y1 ≤ (ymax : ℚ) := by rw [← hy1]; exact_mod_cast hi1
      have hd : y1 - y0 ≠ 0 := by intro h; linarith
      refine ⟨(x0 + (x1 - x0) * ((ymax : ℚ) - y0) / (y1 - y0), (ymax : ℚ)),
        clipPoint_bottom _ _ _ _ _ _ _ _ _ hnT ((code_bottom_iff _ _ _ _ _ _).mpr ⟨hT, hB⟩) hd, ?_⟩
      exact step0_vert xmin ymin xmax ymax hwx hwy x0 y0 x1 y1 _ ymax hwy le_rfl hinv hnd
        (Or.inr hB) (cround_between (Or.inr ⟨by linarith, by linarith, by linarith⟩))
    · have hnB : ¬ (codeAt xmin ymin xmax ymax x0 y0 &&& CS_BOTTOM) ≠ 0 :=
        fun h => hB ((code_bottom_iff _ _ _ _ _ _).mp h).2
      by_cases hR : xmax < cround x0
      · have hq0 : (xmax : ℚ) < x0 := gt_of_cround_gt hR
        have hi1 : cround x1 ≤ xmax := by omega
        have hq1 : x1 ≤ (xmax : ℚ) := by rw [← hx1]; exact_mod_cast hi1
        have hd : x1 - x0 ≠ 0 := by intro h; linarith
        refine ⟨((xmax : ℚ), y0 + (y1 - y0) * ((xmax : ℚ) - x0) / (x1 - x0)),
          clipPoint_right _ _ _ _ _ _ _ _ _ hnT hnB
            ((code_right_iff _ _ _ _ _ _).mpr ⟨by omega, hR⟩) hd, ?_⟩
        exact step0_horiz xmin ymin xmax ymax hwx hwy x0 y0 x1 y1 _ xmax hwx le_rfl hinv hnd
          (Or.inr hR) (cround_between (Or.inr ⟨by linarith, by linarith, by linarith⟩))
      · have hnR : ¬ (codeAt xmin ymin xmax ymax x0 y0 &&& CS_RIGHT) ≠ 0 :=
          fun h => hR ((code_right_iff _ _ _ _ _ _).mp h).2
        have hL : cround x0 < xmin := by omega
        have hq0 : x0 < (xmin : ℚ) := lt_of_cround_lt hL
        have hi1 : xmin ≤ cround x1 := by omega
        have hq1 : (xmin : ℚ) ≤ x1 := by rw [← hx1]; exact_mod_cast hi1
        have hd : x1 - x0 ≠ 0 := by intro h; linarith
        refine ⟨((xmin : ℚ), y0 + (y1 - y0) * ((xmin : ℚ) - x0) / (x1 - x0)),
          clipPoint_left _ _ _ _ _ _ _ _ _ hnT hnB hnR
            ((code_left_iff _ _ _ _ _ _).mpr hL) hd, ?_⟩
        exact step0_horiz xmin ymin xmax ymax hwx hwy x0 y0 x1 y1 _ xmin le_rfl hwx hinv hnd
          (Or.inl hL) (cround_between (Or.inl ⟨by linarith, by linarith, by linarith⟩))

theorem clip_step1 (xmin ymin xmax ymax : Int) (hwx : xmin ≤ xmax) (hwy : ymin ≤ ymax)
    (x0 y0 x1 y1 : ℚ) (hinv : ClipInv xmin ymin xmax ymax x0 y0 x1 y1)
    (hnd : ¬ ClipDone xmin ymin xmax ymax x0 y0 x1 y1)
    (h0 : codeAt xmin ymin xmax ymax x0 y0 = 0) :
    ∃ X : ℚ × ℚ,
      clipPoint xmin ymin xmax ymax x0 y0 x1 y1 (codeAt xmin ymin xmax ymax x1 y1) = .ok X ∧
      ClipInv xmin ymin xmax ymax x0 y0 X.1 X.2 ∧
      clipMeasure xmin ymin xmax ymax x0 y0 X.1 X.2 <
        clipMeasure xmin ymin xmax ymax x0 y0 x1 y1 := by
  have h0i := (codeAt_eq_zero_iff _ _ _ _ _ _).mp h0
  have h1 : codeAt xmin ymin xmax ymax x1 y1 ≠ 0 := fun h => hnd (Or.inl ⟨h0, h⟩)
  have h1' := h1
  rw [Ne, codeAt_eq_zero_iff] at h1'
  by_cases hT : cround y1 < ymin
  · have hq1 : y1 < (ymin : ℚ) := lt_of_cround_lt hT
    have hd : y1 - y0 ≠ 0 := by
      intro h
      have e : y1 = y0 := by linarith
      rw [e] at hT
      omega
    refine ⟨(x0 + (x1 - x0) * ((ymin : ℚ) - y0) / (y1 - y0), (ymin : ℚ)),
      clipPoint_top _ _ _ _ _ _ _ _ _ ((code_top_iff _ _ _ _ _ _).mpr hT) hd, ?_⟩
    exact step1_vert xmin ymin xmax ymax x0 y0 x1 y1 _ ymin le_rfl hwy hinv hnd h0
      (Or.inl hT) (fun hex =>
        cround_between (Or.inr ⟨by linarith, by linarith [hex.1], by linarith [hex.1]⟩))
  · have hnT : ¬ (codeAt xmin ymin xmax ymax x1 y1 &&& CS_TOP) ≠ 0 :=
      fun h => hT ((code_top_iff _ _ _ _ _ _).mp h)
    by_cases hB : ymax < cround y1
    · have hq1 : (ymax : ℚ) < y1 := gt_of_cround_gt hB
      have hd : y1 - y0 ≠ 0 := by
        intro h
        have e : y1 = y0 := by linarith
        rw [e] at hB
        omega
      refine ⟨(x0 + (x1 - x0) * ((ymax : ℚ) - y0) / (y1 - y0), (ymax : ℚ)),
        clipPoint_bottom _ _ _ _ _ _ _ _ _ hnT ((code_bottom_iff _ _ _ _ _ _).mpr ⟨hT, hB⟩) hd, ?_⟩
      exact step1_vert xmin ymin xmax ymax x0 y0 x1 y1 _ ymax hwy le_rfl hinv hnd h0
        (Or.inr hB) (fun hex =>
          cround_between (Or.inl ⟨by linarith [hex.2], by linarith, by linarith [hex.2]⟩))
    · have hnB : ¬ (codeAt xmin ymin xmax ymax x1 y1 &&& CS_BOTTOM) ≠ 0 :=
        fun h => hB ((code_bottom_iff _ _ _ _ _ _).mp h).2
      by_cases hR : xmax < cround x1
      · have hq1 : (xmax : ℚ) < x1 := gt_of_cround_gt hR
        have hd : x1 - x0 ≠ 0 := by
          intro h
          have e : x1 = x0 := by linarith
          rw [e] at hR
          omega
        refine ⟨((xmax : ℚ), y0 + (y1 - y0) * ((xmax : ℚ) - x0) / (x1 - x0)),
          clipPoint_right _ _ _ _ _ _ _ _ _ hnT hnB
            ((code_right_iff _ _ _ _ _ _).mpr ⟨by omega, hR⟩) hd, ?_⟩
        exact step1_horiz xmin ymin xmax ymax x0 y0 x1 y1 _ xmax hwx le_rfl hinv hnd h0
          (Or.inr hR) (fun hex =>
            cround_between (Or.inl ⟨by linarith [hex.2], by linarith, by linarith [hex.2]⟩))
      · have hnR : ¬ (codeAt xmin ymin xmax ymax x1 y1 &&& CS_RIGHT) ≠ 0 :=
          fun h => hR ((code_right_iff _ _ _ _ _ _).mp h).2
        have hL : cround x1 < xmin := by omega
        have hq1 : x1 < (xmin : ℚ) := lt_of_cround_lt hL
        have hd : x1 - x0 ≠ 0 := by
          intro h
          have e : x1 = x0 := by linarith
          rw [e] at hL
          omega
        refine ⟨((xmin : ℚ), y0 + (y1 - y0) * ((xmin : ℚ) - x0) / (x1 - x0)),
          clipPoint_left _ _ _ _ _ _ _ _ _ hnT hnB hnR
            ((code_left_iff _ _ _ _ _ _).mpr hL) hd, ?_⟩
        exact step1_horiz xmin ymin xmax ymax x0 y0 x1 y1 _ xmin le_rfl hwx hinv hnd h0
          (Or.inl hL) (fun hex =>
            cround_between (Or.inr ⟨by linarith, by linarith [hex.1], by linarith [hex.1]⟩))

/-- One iteration from a state in which the loop does not stop: the next
state, which keeps the invariant and has a smaller measure. -/
theorem clip_step (xmin ymin xmax ymax : Int) (hwx : xmin ≤ xmax) (hwy : ymin ≤ ymax)
    (x0 y0 x1 y1 : ℚ) (hinv : ClipInv xmin ymin xmax ymax x0 y0 x1 y1)
    (hnd : ¬ ClipDone xmin ymin xmax ymax x0 y0 x1 y1) :
    ∃ a0 b0 a1 b1 : ℚ,
      (∀ fuel, clipLoop xmin ymin xmax ymax (fuel + 1) x0 y0 x1 y1
          (codeAt xmin ymin xmax ymax x0 y0) (codeAt xmin ymin xmax ymax x1 y1) =
        clipLoop xmin ymin xmax ymax fuel a0 b0 a1 b1
          (codeAt xmin ymin xmax ymax a0 b0) (codeAt xmin ymin xmax ymax a1 b1)) ∧
      ClipInv xmin ymin xmax ymax a0 b0 a1 b1 ∧
      clipMeasure xmin ymin xmax ymax a0 b0 a1 b1 <
        clipMeasure xmin ymin xmax ymax x0 y0 x1 y1 := by
  by_cases h0 : codeAt xmin ymin xmax ymax x0 y0 = 0
  · obtain ⟨X, hX, hi, hm⟩ := clip_step1 xmin ymin xmax ymax hwx hwy x0 y0 x1 y1 hinv hnd h0
    exact ⟨x0, y0, X.1, X.2,
      fun fuel => clipLoop_move1 xmin ymin xmax ymax fuel x0 y0 x1 y1 hnd h0 X hX, hi, hm⟩
  · obtain ⟨X, hX, hi, hm⟩ := clip_step0 xmin ymin xmax ymax hwx hwy x0 y0 x1 y1 hinv hnd h0
    exact ⟨X.1, X.2, x1, y1,
      fun fuel => clipLoop_move0 xmin ymin xmax ymax fuel x0 y0 x1 y1 hnd h0 X hX, hi, hm⟩

theorem clipLoop_terminates (xmin ymin xmax ymax : Int) (hwx : xmin ≤ xmax) (hwy : ymin ≤ ymax) :
    ∀ (k : Nat) (x0 y0 x1 y1 : ℚ), ClipInv xmin ymin xmax ymax x0 y0 x1 y1 →
      clipMeasure xmin ymin xmax ymax x0 y0 x1 y1 ≤ k →
      ∃ r, clipLoop xmin ymin xmax ymax (k + 1) x0 y0 x1 y1
        (codeAt xmin ymin xmax ymax x0 y0) (codeAt xmin ymin xmax ymax x1 y1) = .ok r := by
  intro k
  induction k with
  | zero =>
    intro x0 y0 x1 y1 hinv hm
    by_cases hd : ClipDone xmin ymin xmax ymax x0 y0 x1 y1
    · exact clipLoop_done _ _ _ _ _ _ _ _ _ hd
    · obtain ⟨a0, b0, a1, b1, -, -, hlt⟩ := clip_step xmin ymin xmax ymax hwx hwy x0 y0 x1 y1 hinv hd
      omega
  | succ k ih =>
    intro x0 y0 x1 y1 hinv hm
    by_cases hd : ClipDone xmin ymin xmax ymax x0 y0 x1 y1
    · exact clipLoop_done _ _ _ _ _ _ _ _ _ hd
    · obtain ⟨a0, b0, a1, b1, hstep, hinv', hlt⟩ :=
        clip_step xmin ymin xmax ymax hwx hwy x0 y0 x1 y1 hinv hd
      rw [hstep]
      exact ih a0 b0 a1 b1 hinv' (by omega)

theorem clipLoop_no_zero_divisor (xmin ymin xmax ymax : Int) (hwx : xmin ≤ xmax)
    (hwy : ymin ≤ ymax) :
    ∀ (fuel : Nat) (x0 y0 x1 y1 : ℚ), ClipInv xmin ymin xmax ymax x0 y0 x1 y1 →
      clipLoop xmin ymin xmax ymax fuel x0 y0 x1 y1
        (codeAt xmin ymin xmax ymax x0 y0) (codeAt xmin ymin xmax ymax x1 y1) ≠
          .error .zeroDivisor := by
  intro fuel
  induction fuel with
  | zero =>
    intro x0 y0 x1 y1 _ h
    simp [clipLoop] at h
  | succ fuel ih =>
    intro x0 y0 x1 y1 hinv
    by_cases hd : ClipDone xmin ymin xmax ymax x0 y0 x1 y1
    · obtain ⟨r, hr⟩ := clipLoop_done xmin ymin xmax ymax fuel x0 y0 x1 y1 hd
      rw [hr]
      intro h
      cases h
    · obtain ⟨a0, b0, a1, b1, hstep, hinv', -⟩ :=
        clip_step xmin ymin xmax ymax hwx hwy x0 y0 x1 y1 hinv hd
      rw [hstep]
      exact ih a0 b0 a1 b1 hinv'

theorem clipInv_init (xmin ymin xmax ymax x0 y0 x1 y1 : Int) :
    ClipInv xmin ymin xmax ymax (x0 : ℚ) (y0 : ℚ) (x1 : ℚ) (y1 : ℚ) := by
  constructor
  · intro _
    simp [cround_intCast]
  · intro h
    have := (codeAt_eq_zero_iff _ _ _ _ _ _).mp h
    rw [cround_intCast, cround_intCast] at this
    exact Or.inl ⟨by exact_mod_cast this.1.1, by exact_mod_cast this.1.2⟩

theorem clipMeasure_le (xmin ymin xmax ymax : Int) (x0 y0 x1 y1 : ℚ) :
    clipMeasure xmin ymin xmax ymax x0 y0 x1 y1 ≤ 7 := by
  unfold clipMeasure outAxes
  split_ifs <;> omega

end DrawEngine

/-- C24: for every integer segment and every valid window the loop of
`cohenSutherlandClip` exits: with fuel for 8 iterations or more the function
returns a result. -/
theorem DrawEngine.cohenSutherlandClip_terminates (x0 y0 x1 y1 xmin ymin xmax ymax : Int)
    (extra : Nat) (hwx : xmin ≤ xmax) (hwy : ymin ≤ ymax) :
    ∃ r, DrawEngine.cohenSutherlandClip (8 + extra) x0 y0 x1 y1 xmin ymin xmax ymax = .ok r := by
  obtain ⟨r, hr⟩ := DrawEngine.clipLoop_terminates xmin ymin xmax ymax hwx hwy 7 x0 y0 x1 y1
    (DrawEngine.clipInv_init xmin ymin xmax ymax x0 y0 x1 y1)
    (DrawEngine.clipMeasure_le _ _ _ _ _ _ _ _)
  have hr2 := clipLoop_fuel_add xmin ymin xmax ymax (7 + 1) extra _ _ _ _ _ _ r hr
  obtain ⟨accept, a, b, c, d⟩ := r
  unfold DrawEngine.cohenSutherlandClip
  unfold DrawEngine.codeAt at hr2
  simp only [hr2]
  split_ifs
  · exact ⟨_, rfl⟩
  · exact ⟨_, rfl⟩

theorem DrawEngine.cohenSutherlandClip_terminates_witness :
    (10 : Int) ≤ 50 ∧ (10 : Int) ≤ 50 ∧
    ∃ r, DrawEngine.cohenSutherlandClip (8 + 0) (-3) 70 64 2 10 10 50 50 = .ok r :=
  ⟨by decide, by decide,
    DrawEngine.cohenSutherlandClip_terminates (-3) 70 64 2 10 10 50 50 0 (by decide) (by decide)⟩

/-- C25: for every integer segment and every valid window no iteration of
`cohenSutherlandClip` divides by zero: whatever the number of iterations that
are run, the divisor `y1 - y0` (top and bottom boundary) or `x1 - x0` (left and
right boundary) of every intersection that is computed is non-zero. -/
theorem DrawEngine.cohenSutherlandClip_no_zero_divisor
    (x0 y0 x1 y1 xmin ymin xmax ymax : Int) (fuel : Nat)
    (hwx : xmin ≤ xmax) (hwy : ymin ≤ ymax) :
    DrawEngine.cohenSutherlandClip fuel x0 y0 x1 y1 xmin ymin xmax ymax ≠
      .error .zeroDivisor := by
  have h := DrawEngine.clipLoop_no_zero_divisor xmin ymin xmax ymax hwx hwy fuel x0 y0 x1 y1
    (DrawEngine.clipInv_init xmin ymin xmax ymax x0 y0 x1 y1)
  unfold DrawEngine.codeAt at h
  unfold DrawEngine.cohenSutherlandClip
  simp only
  split
  · rename_i e he
    intro h2
    rw [he] at h
    injection h2 with h3
    rw [h3] at h
    exact h rfl
  · split_ifs <;> intro h2 <;> cases h2

theorem DrawEngine.cohenSutherlandClip_no_zero_divisor_witness :
    (10 : Int) ≤ 50 ∧ (10 : Int) ≤ 50 ∧
    DrawEngine.cohenSutherlandClip 3 (-3) 70 64 2 10 10 50 50 ≠ .error .zeroDivisor :=
  ⟨by decide, by decide,
    DrawEngine.cohenSutherlandClip_no_zero_divisor (-3) 70 64 2 10 10 50 50 3
      (by decide) (by decide)⟩

namespace PolygonShape

theorem mem_spanPixels (y a b : Int) (p : Point) :
    p ∈ spanPixels y a b ↔ p.2 = y ∧ a ≤ p.1 ∧ p.1 ≤ b := by
  obtain ⟨px, py⟩ := p
  unfold spanPixels
  split_ifs with h
  · simp only [List.not_mem_nil, false_iff]
    intro ⟨_, h1, h2⟩
    omega
  · simp only [List.mem_map, List.mem_range, Prod.mk.injEq]
    constructor
    · rintro ⟨k, hk, rfl, rfl⟩
      refine ⟨rfl, by omega, by omega⟩
    · rintro ⟨rfl, h1, h2⟩
      exact ⟨(px - a).toNat, by omega, by omega, rfl⟩

theorem mem_fillSpans (y : Int) :
    ∀ (l : List Edge) (p : Point),
      p ∈ fillSpans y l ↔ p.2 = y ∧ spanCover (l.map (fun e => e.x)) p.1
  | [], p => by simp [fillSpans, spanCover]
  | [_], p => by simp [fillSpans, spanCover]
  | a :: b :: rest, p => by
    simp only [fillSpans, List.mem_append, mem_spanPixels, List.map_cons, spanCover,
      mem_fillSpans y rest p]
    tauto

theorem foldl_min_le (vs : List Point) :
    ∀ (m : Int), vs.foldl (fun m p => min m p.2) m ≤ m ∧
      ∀ p ∈ vs, vs.foldl (fun m p => min m p.2) m ≤ p.2 := by
  induction vs with
  | nil => intro m; simp
  | cons q vs ih =>
    intro m
    simp only [List.foldl_cons, List.mem_cons]
    obtain ⟨h1, h2⟩ := ih (min m q.2)
    refine ⟨le_trans h1 (min_le_left _ _), ?_⟩
    rintro p (rfl | hp)
    · exact le_trans h1 (min_le_right _ _)
    · exact h2 p hp

theorem foldl_max_ge (vs : List Point) :
    ∀ (m : Int), m ≤ vs.foldl (fun m p => max m p.2) m ∧
      ∀ p ∈ vs, p.2 ≤ vs.foldl (fun m p => max m p.2) m := by
  induction vs with
  | nil => intro m; simp
  | cons q vs ih =>
    intro m
    simp only [List.foldl_cons, List.mem_cons]
    obtain ⟨h1, h2⟩ := ih (max m q.2)
    refine ⟨le_trans (le_max_left _ _) h1, ?_⟩
    rintro p (rfl | hp)
    · exact le_trans (le_max_right _ _) h1
    · exact h2 p hp

theorem minY_le (vs : List Point) (p : Point) (hp : p ∈ vs) : minY vs ≤ p.2 :=
  (foldl_min_le vs INT_MAX).2 p hp

theorem le_maxY (vs : List Point) (p : Point) (hp : p ∈ vs) : p.2 ≤ maxY vs :=
  (foldl_max_ge vs INT_MIN).2 p hp

theorem getD_mem (vs : List Point) (i : Nat) (hi : i < vs.length) : vs.getD i (0, 0) ∈ vs := by
  rw [List.getD_eq_getElem _ _ hi]
  exact List.getElem_mem hi

theorem next_mem (vs : List Point) (i : Nat) (hi : i < vs.length) :
    vs.getD ((i + 1) % vs.length) (0, 0) ∈ vs :=
  getD_mem vs _ (Nat.mod_lt _ (by omega))

theorem addEdge_apply (vs : List Point) (minY size : Int) (b : Int → List Edge) (m : Nat)
    (k : Int) :
    addEdge vs minY size b m k =
      b k ++ (if ((vs.getD m (0, 0)).2 ≠ (vs.getD ((m + 1) % vs.length) (0, 0)).2 ∧
          min (vs.getD m (0, 0)).2 (vs.getD ((m + 1) % vs.length) (0, 0)).2 - minY = k ∧
          0 ≤ k ∧ k < size) then
        [edgeOn vs (min (vs.getD m (0, 0)).2 (vs.getD ((m + 1) % vs.length) (0, 0)).2) m]
      else []) := by
  unfold addEdge
  simp only
  by_cases hh : (vs.getD m (0, 0)).2 = (vs.getD ((m + 1) % vs.length) (0, 0)).2
  · have hc : ¬ ((vs.getD m (0, 0)).2 ≠ (vs.getD ((m + 1) % vs.length) (0, 0)).2 ∧
        min (vs.getD m (0, 0)).2 (vs.getD ((m + 1) % vs.length) (0, 0)).2 - minY = k ∧
        0 ≤ k ∧ k < size) := fun h => h.1 hh
    rw [if_pos hh, if_neg hc]
    simp
  · rw [if_neg hh]
    by_cases hg : min (vs.getD m (0, 0)).2 (vs.getD ((m + 1) % vs.length) (0, 0)).2 - minY ≥ 0 ∧
        min (vs.getD m (0, 0)).2 (vs.getD ((m + 1) % vs.length) (0, 0)).2 - minY < size
    · rw [if_pos hg]
      by_cases hk : k = min (vs.getD m (0, 0)).2 (vs.getD ((m + 1) % vs.length) (0, 0)).2 - minY
      · have hc : ((vs.getD m (0, 0)).2 ≠ (vs.getD ((m + 1) % vs.length) (0, 0)).2 ∧
            min (vs.getD m (0, 0)).2 (vs.getD ((m + 1) % vs.length) (0, 0)).2 - minY = k ∧
            0 ≤ k ∧ k < size) := ⟨hh, hk.symm, by omega, by omega⟩
        rw [if_pos hk, if_pos hc]
        congr 2
        unfold edgeOn
        simp
      · have hc : ¬ ((vs.getD m (0, 0)).2 ≠ (vs.getD ((m + 1) % vs.length) (0, 0)).2 ∧
            min (vs.getD m (0, 0)).2 (vs.getD ((m + 1) % vs.length) (0, 0)).2 - minY = k ∧
            0 ≤ k ∧ k < size) := fun h => hk h.2.1.symm
        rw [if_neg hk, if_neg hc]
        simp
    · have hc : ¬ ((vs.getD m (0, 0)).2 ≠ (vs.getD ((m + 1) % vs.length) (0, 0)).2 ∧
          min (vs.getD m (0, 0)).2 (vs.getD ((m + 1) % vs.length) (0, 0)).2 - minY = k ∧
          0 ≤ k ∧ k < size) := fun h => hg ⟨by omega, by omega⟩
      rw [if_neg hg, if_neg hc]
      simp

theorem buildBuckets_eq (vs : List Point) (minY size : Int) :
    ∀ (m : Nat) (k : Int),
      (List.range m).foldl (addEdge vs minY size) (fun _ => []) k =
        ((List.range m).filter (fun i =>
          decide ((vs.getD i (0, 0)).2 ≠ (vs.getD ((i + 1) % vs.length) (0, 0)).2 ∧
            min (vs.getD i (0, 0)).2 (vs.getD ((i + 1) % vs.length) (0, 0)).2 - minY = k ∧
            0 ≤ k ∧ k < size))).map
          (fun i => edgeOn vs (min (vs.getD i (0, 0)).2 (vs.getD ((i + 1) % vs.length) (0, 0)).2) i) := by
  intro m
  induction m with
  | zero => intro k; rfl
  | succ m ih =>
    intro k
    rw [List.range_succ, List.foldl_append, List.filter_append, List.map_append]
    simp only [List.foldl_cons, List.foldl_nil]
    rw [addEdge_apply, ih k]
    congr 1
    by_cases hc : ((vs.getD m (0, 0)).2 ≠ (vs.getD ((m + 1) % vs.length) (0, 0)).2 ∧
          min (vs.getD m (0, 0)).2 (vs.getD ((m + 1) % vs.length) (0, 0)).2 - minY = k ∧
          0 ≤ k ∧ k < size)
    · rw [if_pos hc]
      simp only [List.filter_cons, decide_eq_true hc, if_true, List.filter_nil, List.map_cons,
        List.map_nil]
    · rw [if_neg hc]
      simp only [List.filter_cons, decide_eq_false hc, List.filter_nil, List.map_nil]
      rfl

theorem filter_split_perm {α : Type} (c c1 c2 : α → Bool) :
    ∀ (l : List α), (∀ a ∈ l, c a = (c1 a || c2 a)) → (∀ a ∈ l, ¬ (c1 a = true ∧ c2 a = true)) →
      (l.filter c1 ++ l.filter c2).Perm (l.filter c) := by
  intro l
  induction l with
  | nil => intro _ _; simp
  | cons a l ih =>
    intro h1 h2
    have ih' := ih (fun b hb => h1 b (List.mem_cons_of_mem _ hb))
      (fun b hb => h2 b (List.mem_cons_of_mem _ hb))
    have ha := h1 a (List.mem_cons_self _ _)
    have hb := h2 a (List.mem_cons_self _ _)
    cases hc1 : c1 a <;> cases hc2 : c2 a
    · simp only [List.filter_cons, hc1, hc2, ha, Bool.or_self]
      simpa using ih'
    · simp only [List.filter_cons, hc1, hc2, ha, Bool.false_or, if_true]
      simp only [Bool.false_eq_true, if_false]
      exact List.perm_middle.trans (ih'.cons a)
    · simp only [List.filter_cons, hc1, hc2, ha, Bool.or_false, if_true]
      simp only [Bool.false_eq_true, if_false, List.cons_append]
      exact ih'.cons a
    · exact absurd ⟨hc1, hc2⟩ hb

theorem edgeOn_succ (vs : List Point) (y : Int) (i : Nat) :
    ({ edgeOn vs y i with x := (edgeOn vs y i).x + (edgeOn vs y i).invSlope } : Edge) =
      edgeOn vs (y + 1) i := by
  unfold edgeOn
  simp only [Edge.mk.injEq, true_and, and_true]
  push_cast
  ring

theorem edgeOn_ymax (vs : List Point) (y : Int) (i : Nat) :
    (edgeOn vs y i).ymax =
      max (vs.getD i (0, 0)).2 (vs.getD ((i + 1) % vs.length) (0, 0)).2 := rfl

theorem crosses_iff (vs : List Point) (y : Int) (i : Nat) :
    crosses vs y i = true ↔
      min (vs.getD i (0, 0)).2 (vs.getD ((i + 1) % vs.length) (0, 0)).2 ≤ y ∧
        y < max (vs.getD i (0, 0)).2 (vs.getD ((i + 1) % vs.length) (0, 0)).2 := by
  unfold crosses
  rw [decide_eq_true_eq]

/-- The active edge table on the row `y` after the edges that start on this
row are added and the edges that end on it are removed. -/
theorem row_active (vs : List Point) (y : Int) (aet : List Edge)
    (hperm : aet.Perm (((List.range vs.length).filter (crosses vs (y - 1))).map (edgeOn vs y)))
    (hy : y ≤ maxY vs) :
    ((if y - minY vs ≥ 0 ∧ y - minY vs < max 1 (maxY vs - minY vs + 1) then
        aet ++ buildBuckets vs (minY vs) (max 1 (maxY vs - minY vs + 1)) (y - minY vs)
      else aet).filter (fun e => !decide (e.ymax ≤ y))).Perm
      (((List.range vs.length).filter (crosses vs y)).map (edgeOn vs y)) := by
  by_cases hg : y - minY vs ≥ 0 ∧ y - minY vs < max 1 (maxY vs - minY vs + 1)
  · rw [if_pos hg]
    have hb : buildBuckets vs (minY vs) (max 1 (maxY vs - minY vs + 1)) (y - minY vs) =
        ((List.range vs.length).filter (fun i =>
          decide ((vs.getD i (0, 0)).2 ≠ (vs.getD ((i + 1) % vs.length) (0, 0)).2 ∧
            min (vs.getD i (0, 0)).2 (vs.getD ((i + 1) % vs.length) (0, 0)).2 = y))).map
          (edgeOn vs y) := by
      unfold buildBuckets
      rw [buildBuckets_eq]
      have hf : ∀ i ∈ List.range vs.length,
          decide ((vs.getD i (0, 0)).2 ≠ (vs.getD ((i + 1) % vs.length) (0, 0)).2 ∧
            min (vs.getD i (0, 0)).2 (vs.getD ((i + 1) % vs.length) (0, 0)).2 - minY vs =
              y - minY vs ∧ 0 ≤ y - minY vs ∧ y - minY vs < max 1 (maxY vs - minY vs + 1)) =
          decide ((vs.getD i (0, 0)).2 ≠ (vs.getD ((i + 1) % vs.length) (0, 0)).2 ∧
            min (vs.getD i (0, 0)).2 (vs.getD ((i + 1) % vs.length) (0, 0)).2 = y) := by
        intro i _
        apply decide_eq_decide.mpr
        constructor
        · rintro ⟨h1, h2, -, -⟩; exact ⟨h1, by omega⟩
        · rintro ⟨h1, h2⟩; exact ⟨h1, by omega, by omega, hg.2⟩
      rw [List.filter_congr hf]
      apply List.map_congr_left
      intro i hi
      have := (List.mem_filter.mp hi).2
      rw [decide_eq_true_eq] at this
      rw [this.2]
    rw [hb]
    refine ((hperm.append_right _).filter _).trans ?_
    rw [List.filter_append, List.filter_map, List.filter_map, List.filter_filter,
      List.filter_filter, ← List.map_append]
    apply List.Perm.map
    apply filter_split_perm
    · intro i _
      simp only [Function.comp, edgeOn_ymax]
      rw [Bool.eq_iff_iff]
      simp only [crosses_iff, Bool.or_eq_true, Bool.and_eq_true, Bool.not_eq_true',
        decide_eq_false_iff_not, decide_eq_true_eq, not_le]
      constructor
      · intro ⟨h1, h2⟩
        by_cases he : min (vs.getD i (0, 0)).2 (vs.getD ((i + 1) % vs.length) (0, 0)).2 = y
        · right
          refine ⟨h2, ?_, he⟩
          intro heq
          rw [heq] at he h2
          simp at he h2
          omega
        · left
          exact ⟨h2, by omega, by omega⟩
      · rintro (⟨h1, h2, h3⟩ | ⟨h1, h2, h3⟩)
        · exact ⟨by omega, h1⟩
        · exact ⟨by omega, h1⟩
    · intro i _
      simp only [Function.comp, edgeOn_ymax]
      simp only [crosses_iff, Bool.and_eq_true, Bool.not_eq_true',
        decide_eq_false_iff_not, decide_eq_true_eq, not_le]
      rintro ⟨⟨-, h2, -⟩, ⟨-, -, h3⟩⟩
      omega
  · rw [if_neg hg]
    have hlow : minY vs ≤ y ∨ y < minY vs := le_or_lt _ _
    have hnone : ∀ i ∈ List.range vs.length, crosses vs y i = false := by
      intro i hi
      have hi' := List.mem_range.mp hi
      have h1 := minY_le vs _ (getD_mem vs i hi')
      have h2 := minY_le vs _ (next_mem vs i hi')
      have h3 := le_maxY vs _ (getD_mem vs i hi')
      have h4 := le_maxY vs _ (next_mem vs i hi')
      rw [Bool.eq_false_iff, Ne, crosses_iff]
      rintro ⟨h5, h6⟩
      apply hg
      have : minY vs ≤ y := le_trans (le_min h1 h2) h5
      refine ⟨by omega, ?_⟩
      have : y - minY vs < maxY vs - minY vs + 1 := by omega
      exact lt_of_lt_of_le this (le_max_right _ _)
    have hnone' : ∀ i ∈ List.range vs.length, crosses vs (y - 1) i = true →
        ¬ (y < max (vs.getD i (0, 0)).2 (vs.getD ((i + 1) % vs.length) (0, 0)).2) := by
      intro i hi hc hlt
      have := hnone i hi
      rw [Bool.eq_false_iff, Ne, crosses_iff] at this
      rw [crosses_iff] at hc
      exact this ⟨by omega, hlt⟩
    have e1 : ((List.range vs.length).filter (crosses vs y)) = [] := by
      rw [List.filter_eq_nil_iff]
      intro i hi
      rw [hnone i hi]
      simp
    rw [e1]
    refine (hperm.filter _).trans ?_
    rw [List.filter_map]
    simp only [List.map_nil, List.map_eq_nil_iff, List.perm_nil]
    rw [List.filter_filter, List.filter_eq_nil_iff]
    intro i hi
    simp only [Function.comp, edgeOn_ymax, Bool.and_eq_true, Bool.not_eq_true',
      decide_eq_false_iff_not, not_le, not_and]
    intro h1 h2
    exact hnone' i hi h2 h1

theorem sorted_map_x (vs : List Point) (y : Int) (aet : List Edge)
    (h : aet.Perm (((List.range vs.length).filter (crosses vs y)).map (edgeOn vs y))) :
    (aet.insertionSort (fun a b => a.x ≤ b.x)).map (fun e => e.x) = sortedCrossings vs y := by
  haveI : IsTotal Edge (fun a b => a.x ≤ b.x) := ⟨fun a b => le_total a.x b.x⟩
  haveI : IsTrans Edge (fun a b => a.x ≤ b.x) := ⟨fun a b c h1 h2 => le_trans h1 h2⟩
  have hs1 : List.Sorted (fun a b : ℚ => a ≤ b)
      ((aet.insertionSort (fun a b => a.x ≤ b.x)).map (fun e => e.x)) := by
    have := List.sorted_insertionSort (fun a b : Edge => a.x ≤ b.x) aet
    exact List.Pairwise.map _ (fun a b hab => hab) this
  have hs2 : List.Sorted (fun a b : ℚ => a ≤ b) (sortedCrossings vs y) :=
    List.sorted_insertionSort _ _
  have hp : ((aet.insertionSort (fun a b => a.x ≤ b.x)).map (fun e => e.x)).Perm
      (sortedCrossings vs y) := by
    refine ((List.perm_insertionSort _ aet).map _).trans ?_
    refine (h.map _).trans ?_
    unfold sortedCrossings crossings
    rw [List.map_map]
    exact (List.perm_insertionSort _ _).symm
  exact List.eq_of_perm_of_sorted hp hs1 hs2

theorem spanCover_nil (x : Int) : ¬ spanCover [] x := by
  simp [spanCover]

theorem crossings_nil_of (vs : List Point) (y : Int)
    (h : ((List.range vs.length).filter (crosses vs y)).map (edgeOn vs y) = []) :
    sortedCrossings vs y = [] := by
  unfold sortedCrossings crossings
  rw [List.map_eq_nil_iff] at h
  rw [h]
  rfl

theorem exists_crosses_of_spanCover (vs : List Point) (y x : Int)
    (h : spanCover (sortedCrossings vs y) x) : ∃ i, i < vs.length ∧ crosses vs y i = true := by
  by_contra hn
  have e : (List.range vs.length).filter (crosses vs y) = [] := by
    rw [List.filter_eq_nil_iff]
    intro i hi hc
    exact hn ⟨i, List.mem_range.mp hi, hc⟩
  have : sortedCrossings vs y = [] := crossings_nil_of vs y (by rw [e]; rfl)
  rw [this] at h
  exact spanCover_nil x h

theorem fillRows_mem (vs : List Point) :
    ∀ (k : Nat) (y : Int) (aet : List Edge),
      aet.Perm (((List.range vs.length).filter (crosses vs (y - 1))).map (edgeOn vs y)) →
      ∀ p : Point,
        p ∈ fillRows (maxY vs) (minY vs) (max 1 (maxY vs - minY vs + 1))
            (buildBuckets vs (minY vs) (max 1 (maxY vs - minY vs + 1))) k y aet ↔
          (y ≤ p.2 ∧ p.2 < y + k ∧ p.2 ≤ maxY vs ∧ spanCover (sortedCrossings vs p.2) p.1) := by
  intro k
  induction k with
  | zero =>
    intro y aet _ p
    simp only [fillRows, List.not_mem_nil, false_iff]
    rintro ⟨h1, h2, -⟩
    simp at h2
    omega
  | succ k ih =>
    intro y aet hperm p
    rw [fillRows]
    by_cases hy : y ≤ maxY vs
    · rw [if_pos hy]
      simp only
      have hact := row_active vs y aet hperm hy
      have hnext : ∀ l : List Edge,
          l.Perm (((List.range vs.length).filter (crosses vs y)).map (edgeOn vs y)) →
          (l.map (fun e => ({ e with x := e.x + e.invSlope } : Edge))).Perm
            (((List.range vs.length).filter (crosses vs (y + 1 - 1))).map (edgeOn vs (y + 1))) := by
        intro l hl
        refine (hl.map _).trans ?_
        rw [List.map_map]
        have e : y + 1 - 1 = y := by ring
        rw [e]
        apply List.Perm.of_eq
        apply List.map_congr_left
        intro i _
        exact edgeOn_succ vs y i
      obtain ⟨aet2, hA⟩ : ∃ a, a = ((if y - minY vs ≥ 0 ∧ y - minY vs < max 1 (maxY vs - minY vs + 1) then
          aet ++ buildBuckets vs (minY vs) (max 1 (maxY vs - minY vs + 1)) (y - minY vs)
        else aet).filter (fun e => !decide (e.ymax ≤ y))) := ⟨_, rfl⟩
      rw [← hA] at hact ⊢
      by_cases hemp : aet2.isEmpty = true
      · rw [if_pos hemp]
        rw [List.isEmpty_iff] at hemp
        rw [hemp] at hact
        have hnil := List.perm_nil.mp hact.symm
        have hsc : sortedCrossings vs y = [] := crossings_nil_of vs y hnil
        have hp2 : ([] : List Edge).Perm
            (((List.range vs.length).filter (crosses vs (y + 1 - 1))).map (edgeOn vs (y + 1))) := by
          have := hnext [] (by rw [hnil])
          simpa using this
        rw [hemp, ih (y + 1) [] hp2 p]
        constructor
        · rintro ⟨h1, h2, h3, h4⟩
          exact ⟨by omega, by push_cast; omega, h3, h4⟩
        · rintro ⟨h1, h2, h3, h4⟩
          have hne : p.2 ≠ y := by
            rintro rfl
            rw [hsc] at h4
            exact spanCover_nil _ h4
          exact ⟨by omega, by push_cast at h2; omega, h3, h4⟩
      · rw [if_neg hemp]
        rw [List.mem_append, mem_fillSpans, sorted_map_x vs y _ hact,
          ih (y + 1) _ (hnext _ ((List.perm_insertionSort _ _).trans hact)) p]
        constructor
        · rintro (⟨h1, h2⟩ | ⟨h1, h2, h3, h4⟩)
          · exact ⟨by omega, by push_cast; omega, by omega, by rw [h1]; exact h2⟩
          · exact ⟨by omega, by push_cast; omega, h3, h4⟩
        · rintro ⟨h1, h2, h3, h4⟩
          by_cases he : p.2 = y
          · left
            exact ⟨he, by rw [← he]; exact h4⟩
          · right
            exact ⟨by omega, by push_cast at h2; omega, h3, h4⟩
    · rw [if_neg hy]
      simp only [List.not_mem_nil, false_iff]
      rintro ⟨h1, -, h3, -⟩
      omega

/-- The pixels written by the fill: the integers of the spans between the
consecutive pairs of the sorted crossings of the row. -/
theorem mem_fillPixels (vs : List Point) (p : Point) :
    p ∈ fillPixels vs ↔ 3 ≤ vs.length ∧ spanCover (sortedCrossings vs p.2) p.1 := by
  unfold fillPixels
  simp only
  by_cases hn : vs.length ≥ 3
  · rw [if_pos hn]
    have h0 : ([] : List Edge).Perm
        (((List.range vs.length).filter (crosses vs (minY vs - 1))).map (edgeOn vs (minY vs))) := by
      have e : (List.range vs.length).filter (crosses vs (minY vs - 1)) = [] := by
        rw [List.filter_eq_nil_iff]
        intro i hi hc
        rw [crosses_iff] at hc
        have hi' := List.mem_range.mp hi
        have h1 := minY_le vs _ (getD_mem vs i hi')
        have h2 := minY_le vs _ (next_mem vs i hi')
        have := le_min h1 h2
        omega
      rw [e]
      exact List.Perm.refl _
    rw [fillRows_mem vs _ _ [] h0 p]
    constructor
    · rintro ⟨-, -, -, h⟩
      exact ⟨hn, h⟩
    · rintro ⟨-, h⟩
      obtain ⟨i, hi, hc⟩ := exists_crosses_of_spanCover vs p.2 p.1 h
      rw [crosses_iff] at hc
      have h1 := minY_le vs _ (getD_mem vs i hi)
      have h2 := minY_le vs _ (next_mem vs i hi)
      have h3 := le_maxY vs _ (getD_mem vs i hi)
      have h4 := le_maxY vs _ (next_mem vs i hi)
      have h5 := le_min h1 h2
      have h6 := max_le h3 h4
      refine ⟨by omega, ?_, by omega, h⟩
      have : ((maxY vs - minY vs + 1).toNat : Int) = maxY vs - minY vs + 1 :=
        Int.toNat_of_nonneg (by omega)
      omega
  · rw [if_neg hn]
    simp only [List.not_mem_nil, false_iff]
    rintro ⟨h, -⟩
    exact hn h

theorem interp_low (p1 q1 p2 q2 yy : ℚ) :
    p1 + (yy - p2) * ((q1 - p1) / (q2 - p2)) = p1 + (q1 - p1) * (yy - p2) / (q2 - p2) := by
  ring

theorem interp_high (p1 q1 p2 q2 yy : ℚ) (hd : q2 - p2 ≠ 0) :
    q1 + (yy - q2) * ((q1 - p1) / (q2 - p2)) = p1 + (q1 - p1) * (yy - p2) / (q2 - p2) := by
  field_simp
  ring

theorem crossing_eq (vs : List Point) (y : Int) (i : Nat)
    (h : (vs.getD i (0, 0)).2 ≠ (vs.getD ((i + 1) % vs.length) (0, 0)).2) :
    (edgeOn vs y i).x =
      ((vs.getD i (0, 0)).1 : ℚ) +
        ((vs.getD ((i + 1) % vs.length) (0, 0)).1 - (vs.getD i (0, 0)).1 : ℚ) *
          ((y : ℚ) - (vs.getD i (0, 0)).2) /
            ((vs.getD ((i + 1) % vs.length) (0, 0)).2 - (vs.getD i (0, 0)).2 : ℚ) := by
  unfold edgeOn
  simp only
  have hd : (((vs.getD ((i + 1) % vs.length) (0, 0)).2 : ℚ) - (vs.getD i (0, 0)).2) ≠ 0 := by
    intro h0
    apply h
    have : ((vs.getD ((i + 1) % vs.length) (0, 0)).2 : ℚ) = (vs.getD i (0, 0)).2 := by linarith
    exact_mod_cast this.symm
  rcases lt_or_gt_of_ne h with hlt | hgt
  · rw [if_pos hlt, min_eq_left hlt.le]
    push_cast
    exact interp_low _ _ _ _ _
  · rw [if_neg (by omega), min_eq_right hgt.le]
    push_cast
    exact interp_high _ _ _ _ _ hd

theorem crosses_ne (vs : List Point) (y : Int) (i : Nat) (h : crosses vs y i = true) :
    (vs.getD i (0, 0)).2 ≠ (vs.getD ((i + 1) % vs.length) (0, 0)).2 := by
  rw [crosses_iff] at h
  intro he
  rw [he] at h
  simp at h
  omega

theorem crossing_bounds (vs : List Point) (y : Int) (i : Nat) (h : crosses vs y i = true) :
    ((min (vs.getD i (0, 0)).1 (vs.getD ((i + 1) % vs.length) (0, 0)).1 : Int) : ℚ) ≤
        (edgeOn vs y i).x ∧
      (edgeOn vs y i).x ≤
        ((max (vs.getD i (0, 0)).1 (vs.getD ((i + 1) % vs.length) (0, 0)).1 : Int) : ℚ) := by
  have hne := crosses_ne vs y i h
  rw [crossing_eq vs y i hne]
  rw [crosses_iff] at h
  apply interp_bounds
  · exact ⟨by exact_mod_cast min_le_left _ _, by exact_mod_cast le_max_left _ _⟩
  · exact ⟨by exact_mod_cast min_le_right _ _, by exact_mod_cast le_max_right _ _⟩
  · rcases lt_or_gt_of_ne hne with hlt | hgt
    · left
      rw [min_eq_left hlt.le, max_eq_right hlt.le] at h
      have h1 : ((vs.getD i (0, 0)).2 : ℚ) ≤ y := by exact_mod_cast h.1
      have h2 : (y : ℚ) < (vs.getD ((i + 1) % vs.length) (0, 0)).2 := by exact_mod_cast h.2
      exact ⟨by linarith, by linarith, by linarith⟩
    · right
      rw [min_eq_right hgt.le, max_eq_left hgt.le] at h
      have h1 : ((vs.getD ((i + 1) % vs.length) (0, 0)).2 : ℚ) ≤ y := by exact_mod_cast h.1
      have h2 : (y : ℚ) < (vs.getD i (0, 0)).2 := by exact_mod_cast h.2
      exact ⟨by linarith, by linarith, by linarith⟩

theorem spanCover_mem : ∀ (l : List ℚ) (x : Int), spanCover l x →
    ∃ a ∈ l, ∃ b ∈ l, ⌈a⌉ ≤ x ∧ x ≤ ⌊b⌋
  | [], x, h => absurd h (spanCover_nil x)
  | [_], x, h => by simp [spanCover] at h
  | a :: b :: rest, x, h => by
    rcases h with h | h
    · exact ⟨a, by simp, b, by simp, h⟩
    · obtain ⟨c, hc, d, hd, hcd⟩ := spanCover_mem rest x h
      exact ⟨c, by simp [hc], d, by simp [hd], hcd⟩

theorem mem_sortedCrossings (vs : List Point) (y : Int) (a : ℚ) :
    a ∈ sortedCrossings vs y ↔
      ∃ i, i < vs.length ∧ crosses vs y i = true ∧ a = (edgeOn vs y i).x := by
  unfold sortedCrossings
  rw [(List.perm_insertionSort _ _).mem_iff]
  unfold crossings
  simp only [List.mem_map, List.mem_filter, List.mem_range]
  constructor
  · rintro ⟨i, ⟨h1, h2⟩, rfl⟩; exact ⟨i, h1, h2, rfl⟩
  · rintro ⟨i, h1, h2, rfl⟩; exact ⟨i, ⟨h1, h2⟩, rfl⟩

/-- The rows of the fill are those of `[minY, maxY)`. -/
theorem fillPixels_rows (vs : List Point) (p : Point) (hp : p ∈ fillPixels vs) :
    (∃ c ∈ vs, c.2 ≤ p.2) ∧ (∃ d ∈ vs, p.2 < d.2) := by
  obtain ⟨-, h⟩ := (mem_fillPixels vs p).mp hp
  obtain ⟨i, hi, hc⟩ := exists_crosses_of_spanCover vs p.2 p.1 h
  rw [crosses_iff] at hc
  have hP := getD_mem vs i hi
  have hQ := next_mem vs i hi
  constructor
  · rcases le_total (vs.getD i (0, 0)).2 (vs.getD ((i + 1) % vs.length) (0, 0)).2 with h1 | h1
    · exact ⟨_, hP, by rw [min_eq_left h1] at hc; exact hc.1⟩
    · exact ⟨_, hQ, by rw [min_eq_right h1] at hc; exact hc.1⟩
  · rcases le_total (vs.getD i (0, 0)).2 (vs.getD ((i + 1) % vs.length) (0, 0)).2 with h1 | h1
    · exact ⟨_, hQ, by rw [max_eq_right h1] at hc; exact hc.2⟩
    · exact ⟨_, hP, by rw [max_eq_left h1] at hc; exact hc.2⟩

end PolygonShape

/-- C21: the scan-line fill never writes a pixel outside the bounding box of
the polygon: for every pixel `(x, y)` it writes there are vertices `a`, `b`,
`c`, `d` with `a.x ≤ x ≤ b.x` and `c.y ≤ y ≤ d.y`, so
`minX ≤ x ≤ maxX` and `minY ≤ y ≤ maxY`; the row also lies between the values
of `minY` and `maxY` that the code computes. -/
theorem PolygonShape.fillPixels_in_bounding_box (vertices : List Point) :
    ∀ p ∈ PolygonShape.fillPixels vertices,
      (∃ a ∈ vertices, a.1 ≤ p.1) ∧ (∃ b ∈ vertices, p.1 ≤ b.1) ∧
      (∃ c ∈ vertices, c.2 ≤ p.2) ∧ (∃ d ∈ vertices, p.2 ≤ d.2) ∧
      PolygonShape.minY vertices ≤ p.2 ∧ p.2 ≤ PolygonShape.maxY vertices := by
  intro p hp
  obtain ⟨⟨c, hc, hc2⟩, ⟨d, hd, hd2⟩⟩ := PolygonShape.fillPixels_rows vertices p hp
  obtain ⟨-, h⟩ := (PolygonShape.mem_fillPixels vertices p).mp hp
  obtain ⟨a, ha, b, hb, hab⟩ := PolygonShape.spanCover_mem _ _ h
  obtain ⟨i, hi, hci, rfl⟩ := (PolygonShape.mem_sortedCrossings vertices p.2 a).mp ha
  obtain ⟨j, hj, hcj, rfl⟩ := (PolygonShape.mem_sortedCrossings vertices p.2 b).mp hb
  have h1 := (PolygonShape.crossing_bounds vertices p.2 i hci).1
  have h2 := (PolygonShape.crossing_bounds vertices p.2 j hcj).2
  have h3 : min (vertices.getD i (0, 0)).1 (vertices.getD ((i + 1) % vertices.length) (0, 0)).1
      ≤ p.1 := by
    have : min (vertices.getD i (0, 0)).1 (vertices.getD ((i + 1) % vertices.length) (0, 0)).1
        ≤ ⌈(PolygonShape.edgeOn vertices p.2 i).x⌉ := by
      have := le_trans h1 (Int.le_ceil _)
      exact_mod_cast this
    omega
  have h4 : p.1 ≤
      max (vertices.getD j (0, 0)).1 (vertices.getD ((j + 1) % vertices.length) (0, 0)).1 := by
    have : ⌊(PolygonShape.edgeOn vertices p.2 j).x⌋ ≤
        max (vertices.getD j (0, 0)).1 (vertices.getD ((j + 1) % vertices.length) (0, 0)).1 := by
      have := le_trans (Int.floor_le _) h2
      exact_mod_cast this
    omega
  refine ⟨?_, ?_, ⟨c, hc, hc2⟩, ⟨d, hd, by omega⟩,
    le_trans (PolygonShape.minY_le vertices c hc) hc2,
    le_trans (by omega) (PolygonShape.le_maxY vertices d hd)⟩
  · rcases le_total (vertices.getD i (0, 0)).1
      (vertices.getD ((i + 1) % vertices.length) (0, 0)).1 with h | h
    · exact ⟨_, PolygonShape.getD_mem vertices i hi, by rw [min_eq_left h] at h3; exact h3⟩
    · exact ⟨_, PolygonShape.next_mem vertices i hi, by rw [min_eq_right h] at h3; exact h3⟩
  · rcases le_total (vertices.getD j (0, 0)).1
      (vertices.getD ((j + 1) % vertices.length) (0, 0)).1 with h | h
    · exact ⟨_, PolygonShape.next_mem vertices j hj, by rw [max_eq_right h] at h4; exact h4⟩
    · exact ⟨_, PolygonShape.getD_mem vertices j hj, by rw [max_eq_left h] at h4; exact h4⟩

theorem PolygonShape.fillPixels_in_bounding_box_witness :
    ((2, 2) : Point) ∈ PolygonShape.fillPixels [(0, 0), (4, 2), (0, 4), (-3, 1)] ∧
    ((∃ a ∈ ([(0, 0), (4, 2), (0, 4), (-3, 1)] : List Point), a.1 ≤ (2 : Int)) ∧
      (∃ b ∈ ([(0, 0), (4, 2), (0, 4), (-3, 1)] : List Point), (2 : Int) ≤ b.1) ∧
      (∃ c ∈ ([(0, 0), (4, 2), (0, 4), (-3, 1)] : List Point), c.2 ≤ (2 : Int)) ∧
      (∃ d ∈ ([(0, 0), (4, 2), (0, 4), (-3, 1)] : List Point), (2 : Int) ≤ d.2) ∧
      PolygonShape.minY [(0, 0), (4, 2), (0, 4), (-3, 1)] ≤ 2 ∧
      2 ≤ PolygonShape.maxY [(0, 0), (4, 2), (0, 4), (-3, 1)]) :=
  ⟨by decide!, PolygonShape.fillPixels_in_bounding_box [(0, 0), (4, 2), (0, 4), (-3, 1)] (2, 2)
    (by decide!)⟩

/-- C22 (counterexample): the rectangles `(0,0),(2,0),(2,2),(0,2)` and
`(2,0),(4,0),(4,2),(2,2)` have disjoint interiors and share the vertical edge
`x = 2`; the fill of each of them writes the pixels `(2, 0)` and `(2, 1)`. -/
theorem PolygonShape.fillPixels_shared_edge_counterexample :
    PolygonShape.fillPixels [(0, 0), (2, 0), (2, 2), (0, 2)] =
      [(0, 0), (1, 0), (2, 0), (0, 1), (1, 1), (2, 1)] ∧
    PolygonShape.fillPixels [(2, 0), (4, 0), (4, 2), (2, 2)] =
      [(2, 0), (3, 0), (4, 0), (2, 1), (3, 1), (4, 1)] ∧
    ((2, 0) : Point) ∈ PolygonShape.fillPixels [(0, 0), (2, 0), (2, 2), (0, 2)] ∧
    ((2, 0) : Point) ∈ PolygonShape.fillPixels [(2, 0), (4, 0), (4, 2), (2, 2)] := by
  have h1 : PolygonShape.fillPixels [(0, 0), (2, 0), (2, 2), (0, 2)] =
      [(0, 0), (1, 0), (2, 0), (0, 1), (1, 1), (2, 1)] := by decide!
  have h2 : PolygonShape.fillPixels [(2, 0), (4, 0), (4, 2), (2, 2)] =
      [(2, 0), (3, 0), (4, 0), (2, 1), (3, 1), (4, 1)] := by decide!
  refine ⟨h1, h2, ?_, ?_⟩
  · rw [h1]; decide
  · rw [h2]; decide

/-- C22 (amended): the rows of the fill are half-open. If every vertex of one
polygon has `y ≤ h` and every vertex of another has `y ≥ h` (two polygons on
either side of a horizontal line, such as two rectangles that share a
horizontal edge), no pixel is written by the fill of both. -/
theorem PolygonShape.fillPixels_no_overlap_across_row (P Q : List Point) (h : Int)
    (hP : ∀ p ∈ P, p.2 ≤ h) (hQ : ∀ q ∈ Q, h ≤ q.2) :
    ∀ p : Point, ¬ (p ∈ PolygonShape.fillPixels P ∧ p ∈ PolygonShape.fillPixels Q) := by
  rintro p ⟨h1, h2⟩
  obtain ⟨-, ⟨d, hd, hd2⟩⟩ := PolygonShape.fillPixels_rows P p h1
  obtain ⟨⟨c, hc, hc2⟩, -⟩ := PolygonShape.fillPixels_rows Q p h2
  have := hP d hd
  have := hQ c hc
  omega

theorem PolygonShape.fillPixels_no_overlap_across_row_witness :
    (∀ p ∈ ([(0, 0), (4, 0), (4, 2), (0, 2)] : List Point), p.2 ≤ 2) ∧
    (∀ q ∈ ([(0, 2), (4, 2), (4, 5), (0, 5)] : List Point), 2 ≤ q.2) ∧
    ∀ p : Point, ¬ (p ∈ PolygonShape.fillPixels [(0, 0), (4, 0), (4, 2), (0, 2)] ∧
      p ∈ PolygonShape.fillPixels [(0, 2), (4, 2), (4, 5), (0, 5)]) :=
  ⟨by decide, by decide,
    PolygonShape.fillPixels_no_overlap_across_row [(0, 0), (4, 0), (4, 2), (0, 2)]
      [(0, 2), (4, 2), (4, 5), (0, 5)] 2 (by decide) (by decide)⟩

namespace PolygonShape

theorem side_cast (a b c : Point) : side a b (c.1 : ℚ) (c.2 : ℚ) = ((sideInt a b c : Int) : ℚ) := by
  unfold side sideInt
  push_cast
  ring

theorem side_on_edge (a b p q : Point) (y X : ℚ) (hd : ((q.2 : ℚ) - p.2) ≠ 0)
    (hX : X = (p.1 : ℚ) + ((q.1 : ℚ) - p.1) * (y - p.2) / ((q.2 : ℚ) - p.2)) :
    ((q.2 : ℚ) - p.2) * side a b X y =
      ((q.2 : ℚ) - y) * side a b p.1 p.2 + (y - p.2) * side a b q.1 q.2 := by
  unfold side
  rw [hX]
  field_simp
  ring

theorem side_self (p q : Point) (t y X : ℚ) (hd : ((q.2 : ℚ) - p.2) ≠ 0)
    (hX : X = (p.1 : ℚ) + ((q.1 : ℚ) - p.1) * (y - p.2) / ((q.2 : ℚ) - p.2)) :
    side p q t y = ((q.2 : ℚ) - p.2) * (X - t) := by
  unfold side
  rw [hX]
  field_simp
  ring

theorem succ_mod (n i : Nat) (hi : i < n) : (i + 1) % n = if i + 1 = n then 0 else i + 1 := by
  split_ifs with h
  · rw [h, Nat.mod_self]
  · exact Nat.mod_eq_of_lt (by omega)

theorem cyclic_transition (n : Nat) (f : Nat → Prop) [DecidablePred f] (a b : Nat)
    (ha : a < n) (hb : b < n) (fa : f a) (fb : ¬ f b) :
    ∃ u, u < n ∧ f u ∧ ¬ f ((u + 1) % n) := by
  have hn : 0 < n := by omega
  have hex : ∃ j, ¬ f ((a + j) % n) := by
    refine ⟨b + n - a, ?_⟩
    have : (a + (b + n - a)) % n = b := by
      have e : a + (b + n - a) = b + n := by omega
      rw [e, Nat.add_mod_right, Nat.mod_eq_of_lt hb]
    rw [this]
    exact fb
  have hj := Nat.find_spec hex
  have hmin := fun m (hm : m < Nat.find hex) => Nat.find_min hex hm
  have hj0 : Nat.find hex ≠ 0 := by
    intro h0
    rw [h0, Nat.add_zero, Nat.mod_eq_of_lt ha] at hj
    exact hj fa
  obtain ⟨m, hm⟩ : ∃ m, Nat.find hex = m + 1 := ⟨Nat.find hex - 1, by omega⟩
  refine ⟨(a + m) % n, Nat.mod_lt _ hn, ?_, ?_⟩
  · have := hmin m (by omega)
    exact not_not.mp this
  · rw [hm] at hj
    have e : ((a + m) % n + 1) % n = (a + (m + 1)) % n := by
      rw [Nat.add_mod, Nat.mod_mod, ← Nat.add_mod]
      rfl
    rw [e]
    exact hj

theorem on_edge_nonneg (s : ℚ) (a b p q : Point) (y : Int) (X : ℚ)
    (hc : (p.2 ≤ y ∧ y < q.2) ∨ (q.2 ≤ y ∧ y < p.2))
    (hX : X = (p.1 : ℚ) + ((q.1 : ℚ) - p.1) * ((y : ℚ) - p.2) / ((q.2 : ℚ) - p.2))
    (h1 : 0 ≤ s * side a b p.1 p.2) (h2 : 0 ≤ s * side a b q.1 q.2) :
    0 ≤ s * side a b X y := by
  rcases hc with ⟨c1, c2⟩ | ⟨c1, c2⟩
  · have d1 : ((p.2 : ℚ)) ≤ y := by exact_mod_cast c1
    have d2 : ((y : ℚ)) < q.2 := by exact_mod_cast c2
    have hd : ((q.2 : ℚ) - p.2) ≠ 0 := by intro h; linarith
    have key := side_on_edge a b p q y X hd hX
    have hpos : 0 < ((q.2 : ℚ) - p.2) := by linarith
    have : 0 ≤ ((q.2 : ℚ) - p.2) * (s * side a b X y) := by
      have e : ((q.2 : ℚ) - p.2) * (s * side a b X y) =
          ((q.2 : ℚ) - y) * (s * side a b p.1 p.2) + ((y : ℚ) - p.2) * (s * side a b q.1 q.2) := by
        rw [mul_left_comm, key]; ring
      rw [e]
      exact add_nonneg (mul_nonneg (by linarith) h1) (mul_nonneg (by linarith) h2)
    exact nonneg_of_mul_nonneg_right this hpos
  · have d1 : ((q.2 : ℚ)) ≤ y := by exact_mod_cast c1
    have d2 : ((y : ℚ)) < p.2 := by exact_mod_cast c2
    have hd : ((q.2 : ℚ) - p.2) ≠ 0 := by intro h; linarith
    have key := side_on_edge a b p q y X hd hX
    have hpos : 0 < ((p.2 : ℚ) - q.2) := by linarith
    have : 0 ≤ ((p.2 : ℚ) - q.2) * (s * side a b X y) := by
      have e : ((p.2 : ℚ) - q.2) * (s * side a b X y) =
          ((y : ℚ) - q.2) * (s * side a b p.1 p.2) + ((p.2 : ℚ) - y) * (s * side a b q.1 q.2) := by
        have : ((p.2 : ℚ) - q.2) * (s * side a b X y) =
            -(s * (((q.2 : ℚ) - p.2) * side a b X y)) := by ring
        rw [this, key]; ring
      rw [e]
      exact add_nonneg (mul_nonneg (by linarith) h1) (mul_nonneg (by linarith) h2)
    exact nonneg_of_mul_nonneg_right this hpos

theorem on_edge_pos (s : ℚ) (a b p q : Point) (y : Int) (X : ℚ)
    (hc : (p.2 ≤ y ∧ y < q.2) ∨ (q.2 ≤ y ∧ y < p.2))
    (hX : X = (p.1 : ℚ) + ((q.1 : ℚ) - p.1) * ((y : ℚ) - p.2) / ((q.2 : ℚ) - p.2))
    (h1 : 0 < s * side a b p.1 p.2) (h2 : 0 < s * side a b q.1 q.2) :
    0 < s * side a b X y := by
  rcases hc with ⟨c1, c2⟩ | ⟨c1, c2⟩
  · have d1 : ((p.2 : ℚ)) ≤ y := by exact_mod_cast c1
    have d2 : ((y : ℚ)) < q.2 := by exact_mod_cast c2
    have hd : ((q.2 : ℚ) - p.2) ≠ 0 := by intro h; linarith
    have key := side_on_edge a b p q y X hd hX
    have hpos : 0 < ((q.2 : ℚ) - p.2) := by linarith
    have : 0 < ((q.2 : ℚ) - p.2) * (s * side a b X y) := by
      have e : ((q.2 : ℚ) - p.2) * (s * side a b X y) =
          ((q.2 : ℚ) - y) * (s * side a b p.1 p.2) + ((y : ℚ) - p.2) * (s * side a b q.1 q.2) := by
        rw [mul_left_comm, key]; ring
      rw [e]
      exact add_pos_of_pos_of_nonneg (mul_pos (by linarith) h1) (mul_nonneg (by linarith) h2.le)
    exact pos_of_mul_pos_right this hpos.le
  · have d1 : ((q.2 : ℚ)) ≤ y := by exact_mod_cast c1
    have d2 : ((y : ℚ)) < p.2 := by exact_mod_cast c2
    have hd : ((q.2 : ℚ) - p.2) ≠ 0 := by intro h; linarith
    have key := side_on_edge a b p q y X hd hX
    have hpos : 0 < ((p.2 : ℚ) - q.2) := by linarith
    have : 0 < ((p.2 : ℚ) - q.2) * (s * side a b X y) := by
      have e : ((p.2 : ℚ) - q.2) * (s * side a b X y) =
          ((y : ℚ) - q.2) * (s * side a b p.1 p.2) + ((p.2 : ℚ) - y) * (s * side a b q.1 q.2) := by
        have : ((p.2 : ℚ) - q.2) * (s * side a b X y) =
            -(s * (((q.2 : ℚ) - p.2) * side a b X y)) := by ring
        rw [this, key]; ring
      rw [e]
      exact add_pos_of_nonneg_of_pos (mul_nonneg (by linarith) h1.le) (mul_pos (by linarith) h2)
    exact pos_of_mul_pos_right this hpos.le

theorem crosses_kind (vs : List Point) (y : Int) (i : Nat) :
    crosses vs y i = true ↔
      (((vs.getD i (0, 0)).2 ≤ y ∧ y < (vs.getD ((i + 1) % vs.length) (0, 0)).2) ∨
        ((vs.getD ((i + 1) % vs.length) (0, 0)).2 ≤ y ∧ y < (vs.getD i (0, 0)).2)) := by
  rw [crosses_iff]
  constructor
  · intro ⟨h1, h2⟩
    rcases le_total (vs.getD i (0, 0)).2 (vs.getD ((i + 1) % vs.length) (0, 0)).2 with h | h
    · rw [min_eq_left h, max_eq_right h] at *
      exact Or.inl ⟨h1, h2⟩
    · rw [min_eq_right h, max_eq_left h] at *
      exact Or.inr ⟨h1, h2⟩
  · rintro (⟨h1, h2⟩ | ⟨h1, h2⟩)
    · rw [min_eq_left (by omega), max_eq_right (by omega)]
      exact ⟨h1, h2⟩
    · rw [min_eq_right (by omega), max_eq_left (by omega)]
      exact ⟨h1, h2⟩

theorem weak_vertex (s : Int) (vs : List Point) (hconv : StrictlyConvex s vs) (j k : Nat)
    (hj : j < vs.length) (hk : k < vs.length) :
    0 ≤ (s : ℚ) * side (vs.getD j (0, 0)) (vs.getD ((j + 1) % vs.length) (0, 0))
      (vs.getD k (0, 0)).1 (vs.getD k (0, 0)).2 := by
  rw [side_cast]
  have : 0 ≤ s * sideInt (vs.getD j (0, 0)) (vs.getD ((j + 1) % vs.length) (0, 0))
      (vs.getD k (0, 0)) := by
    by_cases h1 : k = j
    · rw [h1]
      unfold sideInt
      apply le_of_eq
      ring
    · by_cases h2 : k = (j + 1) % vs.length
      · rw [← h2]
        unfold sideInt
        apply le_of_eq
        ring
      · exact (hconv.2.2 j hj k hk h1 h2).le
  exact_mod_cast this

theorem crossing_inside (s : Int) (vs : List Point) (hconv : StrictlyConvex s vs) (y : Int)
    (i j : Nat) (hi : i < vs.length) (hj : j < vs.length) (hc : crosses vs y i = true) :
    0 ≤ (s : ℚ) * side (vs.getD j (0, 0)) (vs.getD ((j + 1) % vs.length) (0, 0))
      (edgeOn vs y i).x y := by
  have hn : 0 < vs.length := by omega
  exact on_edge_nonneg s _ _ (vs.getD i (0, 0)) (vs.getD ((i + 1) % vs.length) (0, 0)) y _
    ((crosses_kind vs y i).mp hc) (crossing_eq vs y i (crosses_ne vs y i hc))
    (weak_vertex s vs hconv j i hj hi)
    (weak_vertex s vs hconv j ((i + 1) % vs.length) hj (Nat.mod_lt _ hn))

theorem crossing_strict (s : Int) (vs : List Point) (hconv : StrictlyConvex s vs) (y : Int)
    (i k : Nat) (hi : i < vs.length) (hk : k < vs.length) (hc : crosses vs y k = true)
    (h1 : k ≠ i) (h2 : k ≠ (i + 1) % vs.length) (h3 : (k + 1) % vs.length ≠ i)
    (h4 : (k + 1) % vs.length ≠ (i + 1) % vs.length) :
    0 < (s : ℚ) * side (vs.getD i (0, 0)) (vs.getD ((i + 1) % vs.length) (0, 0))
      (edgeOn vs y k).x y := by
  have hn : 0 < vs.length := by omega
  have a1 := hconv.2.2 i hi k hk h1 h2
  have a2 := hconv.2.2 i hi ((k + 1) % vs.length) (Nat.mod_lt _ hn) h3 h4
  have b1 : 0 < (s : ℚ) * side (vs.getD i (0, 0)) (vs.getD ((i + 1) % vs.length) (0, 0))
      (vs.getD k (0, 0)).1 (vs.getD k (0, 0)).2 := by
    rw [side_cast]; exact_mod_cast a1
  have b2 : 0 < (s : ℚ) * side (vs.getD i (0, 0)) (vs.getD ((i + 1) % vs.length) (0, 0))
      (vs.getD ((k + 1) % vs.length) (0, 0)).1 (vs.getD ((k + 1) % vs.length) (0, 0)).2 := by
    rw [side_cast]; exact_mod_cast a2
  exact on_edge_pos s _ _ (vs.getD k (0, 0)) (vs.getD ((k + 1) % vs.length) (0, 0)) y _
    ((crosses_kind vs y k).mp hc) (crossing_eq vs y k (crosses_ne vs y k hc)) b1 b2

/-- Two edges that cross the row in the same direction are the same edge. -/
theorem same_kind_unique (s : Int) (vs : List Point) (hconv : StrictlyConvex s vs) (y : Int)
    (i k : Nat) (hi : i < vs.length) (hk : k < vs.length)
    (h : (((vs.getD i (0, 0)).2 ≤ y ∧ y < (vs.getD ((i + 1) % vs.length) (0, 0)).2) ∧
        ((vs.getD k (0, 0)).2 ≤ y ∧ y < (vs.getD ((k + 1) % vs.length) (0, 0)).2)) ∨
      (((vs.getD ((i + 1) % vs.length) (0, 0)).2 ≤ y ∧ y < (vs.getD i (0, 0)).2) ∧
        ((vs.getD ((k + 1) % vs.length) (0, 0)).2 ≤ y ∧ y < (vs.getD k (0, 0)).2))) :
    i = k := by
  by_contra hne
  have hci : crosses vs y i = true := by
    rw [crosses_kind]; rcases h with h | h
    · exact Or.inl h.1
    · exact Or.inr h.1
  have hck : crosses vs y k = true := by
    rw [crosses_kind]; rcases h with h | h
    · exact Or.inl h.2
    · exact Or.inr h.2
  have e1 : k ≠ (i + 1) % vs.length := by
    intro e
    rw [← e] at h
    rcases h with h | h <;> omega
  have e2 : i ≠ (k + 1) % vs.length := by
    intro e
    rw [← e] at h
    rcases h with h | h <;> omega
  have e3 : (k + 1) % vs.length ≠ (i + 1) % vs.length := by
    rw [succ_mod _ _ hi, succ_mod _ _ hk]
    split_ifs <;> omega
  have s1 := crossing_strict s vs hconv y i k hi hk hck (fun e => hne e.symm) e1
    (fun e => e2 e.symm) e3
  have s2 := crossing_strict s vs hconv y k i hk hi hci hne e2 (fun e => e1 e.symm)
    (fun e => e3 e.symm)
  have di : (((vs.getD ((i + 1) % vs.length) (0, 0)).2 : ℚ) - (vs.getD i (0, 0)).2) ≠ 0 := by
    have := crosses_ne vs y i hci
    intro h0
    apply this
    have : ((vs.getD ((i + 1) % vs.length) (0, 0)).2 : ℚ) = (vs.getD i (0, 0)).2 := by linarith
    exact_mod_cast this.symm
  have dk : (((vs.getD ((k + 1) % vs.length) (0, 0)).2 : ℚ) - (vs.getD k (0, 0)).2) ≠ 0 := by
    have := crosses_ne vs y k hck
    intro h0
    apply this
    have : ((vs.getD ((k + 1) % vs.length) (0, 0)).2 : ℚ) = (vs.getD k (0, 0)).2 := by linarith
    exact_mod_cast this.symm
  rw [side_self _ _ _ _ _ di (crossing_eq vs y i (crosses_ne vs y i hci))] at s1
  rw [side_self _ _ _ _ _ dk (crossing_eq vs y k (crosses_ne vs y k hck))] at s2
  rcases h with ⟨⟨a1, a2⟩, ⟨b1, b2⟩⟩ | ⟨⟨a1, a2⟩, ⟨b1, b2⟩⟩
  · have pi : (0 : ℚ) < ((vs.getD ((i + 1) % vs.length) (0, 0)).2 : ℚ) - (vs.getD i (0, 0)).2 := by
      have : (vs.getD i (0, 0)).2 < (vs.getD ((i + 1) % vs.length) (0, 0)).2 := by omega
      have : ((vs.getD i (0, 0)).2 : ℚ) < (vs.getD ((i + 1) % vs.length) (0, 0)).2 := by
        exact_mod_cast this
      linarith
    have pk : (0 : ℚ) < ((vs.getD ((k + 1) % vs.length) (0, 0)).2 : ℚ) - (vs.getD k (0, 0)).2 := by
      have : (vs.getD k (0, 0)).2 < (vs.getD ((k + 1) % vs.length) (0, 0)).2 := by omega
      have : ((vs.getD k (0, 0)).2 : ℚ) < (vs.getD ((k + 1) % vs.length) (0, 0)).2 := by
        exact_mod_cast this
      linarith
    have t1 : 0 < (s : ℚ) * ((edgeOn vs y i).x - (edgeOn vs y k).x) := by
      have : 0 < (((vs.getD ((i + 1) % vs.length) (0, 0)).2 : ℚ) - (vs.getD i (0, 0)).2) *
          ((s : ℚ) * ((edgeOn vs y i).x - (edgeOn vs y k).x)) := by
        rw [mul_left_comm]; exact s1
      exact pos_of_mul_pos_right this pi.le
    have t2 : 0 < (s : ℚ) * ((edgeOn vs y k).x - (edgeOn vs y i).x) := by
      have : 0 < (((vs.getD ((k + 1) % vs.length) (0, 0)).2 : ℚ) - (vs.getD k (0, 0)).2) *
          ((s : ℚ) * ((edgeOn vs y k).x - (edgeOn vs y i).x)) := by
        rw [mul_left_comm]; exact s2
      exact pos_of_mul_pos_right this pk.le
    nlinarith
  · have pi : (0 : ℚ) < ((vs.getD i (0, 0)).2 : ℚ) - (vs.getD ((i + 1) % vs.length) (0, 0)).2 := by
      have : (vs.getD ((i + 1) % vs.length) (0, 0)).2 < (vs.getD i (0, 0)).2 := by omega
      have : ((vs.getD ((i + 1) % vs.length) (0, 0)).2 : ℚ) < (vs.getD i (0, 0)).2 := by
        exact_mod_cast this
      linarith
    have pk : (0 : ℚ) < ((vs.getD k (0, 0)).2 : ℚ) - (vs.getD ((k + 1) % vs.length) (0, 0)).2 := by
      have : (vs.getD ((k + 1) % vs.length) (0, 0)).2 < (vs.getD k (0, 0)).2 := by omega
      have : ((vs.getD ((k + 1) % vs.length) (0, 0)).2 : ℚ) < (vs.getD k (0, 0)).2 := by
        exact_mod_cast this
      linarith
    have t1 : 0 < (s : ℚ) * ((edgeOn vs y k).x - (edgeOn vs y i).x) := by
      have : 0 < (((vs.getD i (0, 0)).2 : ℚ) - (vs.getD ((i + 1) % vs.length) (0, 0)).2) *
          ((s : ℚ) * ((edgeOn vs y k).x - (edgeOn vs y i).x)) := by
        have e : (((vs.getD i (0, 0)).2 : ℚ) - (vs.getD ((i + 1) % vs.length) (0, 0)).2) *
            ((s : ℚ) * ((edgeOn vs y k).x - (edgeOn vs y i).x)) =
            (s : ℚ) * ((((vs.getD ((i + 1) % vs.length) (0, 0)).2 : ℚ) - (vs.getD i (0, 0)).2) *
              ((edgeOn vs y i).x - (edgeOn vs y k).x)) := by ring
        rw [e]; exact s1
      exact pos_of_mul_pos_right this pi.le
    have t2 : 0 < (s : ℚ) * ((edgeOn vs y i).x - (edgeOn vs y k).x) := by
      have : 0 < (((vs.getD k (0, 0)).2 : ℚ) - (vs.getD ((k + 1) % vs.length) (0, 0)).2) *
          ((s : ℚ) * ((edgeOn vs y i).x - (edgeOn vs y k).x)) := by
        have e : (((vs.getD k (0, 0)).2 : ℚ) - (vs.getD ((k + 1) % vs.length) (0, 0)).2) *
            ((s : ℚ) * ((edgeOn vs y i).x - (edgeOn vs y k).x)) =
            (s : ℚ) * ((((vs.getD ((k + 1) % vs.length) (0, 0)).2 : ℚ) - (vs.getD k (0, 0)).2) *
              ((edgeOn vs y k).x - (edgeOn vs y i).x)) := by ring
        rw [e]; exact s2
      exact pos_of_mul_pos_right this pk.le
    nlinarith

theorem index_of_mem (vs : List Point) (c : Point) (hc : c ∈ vs) :
    ∃ a, a < vs.length ∧ vs.getD a (0, 0) = c := by
  obtain ⟨a, ha, rfl⟩ := List.getElem_of_mem hc
  exact ⟨a, ha, List.getD_eq_getElem _ _ ha⟩

/-- On a row of `[minY, maxY)` a strictly convex polygon has exactly one edge
that goes up through the row and one that goes down through it. -/
theorem convex_row (s : Int) (vs : List Point) (hconv : StrictlyConvex s vs) (y : Int)
    (hlow : ∃ c ∈ vs, c.2 ≤ y) (hhigh : ∃ d ∈ vs, y < d.2) :
    ∃ u d, u < vs.length ∧ d < vs.length ∧
      ((vs.getD u (0, 0)).2 ≤ y ∧ y < (vs.getD ((u + 1) % vs.length) (0, 0)).2) ∧
      ((vs.getD ((d + 1) % vs.length) (0, 0)).2 ≤ y ∧ y < (vs.getD d (0, 0)).2) ∧
      sortedCrossings vs y =
        [min (edgeOn vs y u).x (edgeOn vs y d).x, max (edgeOn vs y u).x (edgeOn vs y d).x] := by
  obtain ⟨c, hc, hc2⟩ := hlow
  obtain ⟨e, he, he2⟩ := hhigh
  obtain ⟨a, ha, rfl⟩ := index_of_mem vs c hc
  obtain ⟨b, hb, rfl⟩ := index_of_mem vs e he
  obtain ⟨u, hu, fu1, fu2⟩ := cyclic_transition vs.length
    (fun i => (vs.getD i (0, 0)).2 ≤ y) a b ha hb hc2 (by simp only; omega)
  obtain ⟨d, hd, fd1, fd2⟩ := cyclic_transition vs.length
    (fun i => y < (vs.getD i (0, 0)).2) b a hb ha he2 (by simp only; omega)
  simp only [not_le, not_lt] at fu1 fu2 fd1 fd2
  refine ⟨u, d, hu, hd, ⟨fu1, fu2⟩, ⟨fd2, fd1⟩, ?_⟩
  have hud : u ≠ d := by
    intro h
    rw [h] at fu1
    omega
  have hmem : ∀ i, i ∈ (List.range vs.length).filter (crosses vs y) ↔ i ∈ [u, d] := by
    intro i
    simp only [List.mem_filter, List.mem_range, List.mem_cons, List.mem_singleton,
      List.not_mem_nil, or_false]
    constructor
    · rintro ⟨hi, hci⟩
      rcases (crosses_kind vs y i).mp hci with h | h
      · left
        exact same_kind_unique s vs hconv y i u hi hu (Or.inl ⟨h, ⟨fu1, fu2⟩⟩)
      · right
        exact same_kind_unique s vs hconv y i d hi hd (Or.inr ⟨h, ⟨fd2, fd1⟩⟩)
    · rintro (rfl | rfl)
      · exact ⟨hu, (crosses_kind vs y _).mpr (Or.inl ⟨fu1, fu2⟩)⟩
      · exact ⟨hd, (crosses_kind vs y _).mpr (Or.inr ⟨fd2, fd1⟩)⟩
  have hperm : ((List.range vs.length).filter (crosses vs y)).Perm [u, d] :=
    (List.perm_ext_iff_of_nodup ((List.nodup_range _).filter _) (by simp [hud])).mpr hmem
  have hp2 : (sortedCrossings vs y).Perm
      [min (edgeOn vs y u).x (edgeOn vs y d).x, max (edgeOn vs y u).x (edgeOn vs y d).x] := by
    unfold sortedCrossings crossings
    refine (List.perm_insertionSort _ _).trans ?_
    refine (hperm.map _).trans ?_
    simp only [List.map_cons, List.map_nil]
    rcases le_total (edgeOn vs y u).x (edgeOn vs y d).x with h | h
    · rw [min_eq_left h, max_eq_right h]
    · rw [min_eq_right h, max_eq_left h]
      exact List.Perm.swap _ _ _
  have hs1 : List.Sorted (fun a b : ℚ => a ≤ b) (sortedCrossings vs y) :=
    List.sorted_insertionSort _ _
  have hs2 : List.Sorted (fun a b : ℚ => a ≤ b)
      [min (edgeOn vs y u).x (edgeOn vs y d).x, max (edgeOn vs y u).x (edgeOn vs y d).x] := by
    simp [List.Sorted]
  exact List.eq_of_perm_of_sorted hp2 hs1 hs2

theorem side_between (s : ℚ) (a b : Point) (y xL xR t : ℚ)
    (h1 : 0 ≤ s * side a b xL y) (h2 : 0 ≤ s * side a b xR y) (hl : xL ≤ t) (hr : t ≤ xR) :
    0 ≤ s * side a b t y := by
  unfold side at *
  by_cases hb : 0 ≤ s * ((b.2 : ℚ) - a.2)
  · have : s * (((b.1 : ℚ) - a.1) * (y - a.2) - ((b.2 : ℚ) - a.2) * (t - a.1)) =
        s * (((b.1 : ℚ) - a.1) * (y - a.2) - ((b.2 : ℚ) - a.2) * (xR - a.1)) +
          s * ((b.2 : ℚ) - a.2) * (xR - t) := by ring
    rw [this]
    exact add_nonneg h2 (mul_nonneg hb (by linarith))
  · have : s * (((b.1 : ℚ) - a.1) * (y - a.2) - ((b.2 : ℚ) - a.2) * (t - a.1)) =
        s * (((b.1 : ℚ) - a.1) * (y - a.2) - ((b.2 : ℚ) - a.2) * (xL - a.1)) +
          (-(s * ((b.2 : ℚ) - a.2))) * (t - xL) := by ring
    rw [this]
    exact add_nonneg h1 (mul_nonneg (by linarith) (by linarith))

/-- The pixels of a row of a strictly convex polygon. -/
theorem convex_row_pixels (s : Int) (vs : List Point) (hconv : StrictlyConvex s vs) (y : Int)
    (hlow : ∃ c ∈ vs, c.2 ≤ y) (hhigh : ∃ d ∈ vs, y < d.2) :
    ∃ xL xR : ℚ, xL ≤ xR ∧ (∀ t : ℚ, insidePolygon s vs t y ↔ xL ≤ t ∧ t ≤ xR) ∧
      ∀ x : Int, (x, y) ∈ fillPixels vs ↔ ⌈xL⌉ ≤ x ∧ x ≤ ⌊xR⌋ := by
  obtain ⟨u, d, hu, hd, ⟨u1, u2⟩, ⟨d1, d2⟩, hsc⟩ := convex_row s vs hconv y hlow hhigh
  have hcu : crosses vs y u = true := (crosses_kind vs y u).mpr (Or.inl ⟨u1, u2⟩)
  have hcd : crosses vs y d = true := (crosses_kind vs y d).mpr (Or.inr ⟨d1, d2⟩)
  have du : (((vs.getD ((u + 1) % vs.length) (0, 0)).2 : ℚ) - (vs.getD u (0, 0)).2) ≠ 0 := by
    have : ((vs.getD u (0, 0)).2 : ℚ) < (vs.getD ((u + 1) % vs.length) (0, 0)).2 := by
      exact_mod_cast (by omega : (vs.getD u (0, 0)).2 < (vs.getD ((u + 1) % vs.length) (0, 0)).2)
    intro h; linarith
  have dd : (((vs.getD ((d + 1) % vs.length) (0, 0)).2 : ℚ) - (vs.getD d (0, 0)).2) ≠ 0 := by
    have : ((vs.getD ((d + 1) % vs.length) (0, 0)).2 : ℚ) < (vs.getD d (0, 0)).2 := by
      exact_mod_cast (by omega : (vs.getD ((d + 1) % vs.length) (0, 0)).2 < (vs.getD d (0, 0)).2)
    intro h; linarith
  have pu : (0 : ℚ) < ((vs.getD ((u + 1) % vs.length) (0, 0)).2 : ℚ) - (vs.getD u (0, 0)).2 := by
    have : ((vs.getD u (0, 0)).2 : ℚ) < (vs.getD ((u + 1) % vs.length) (0, 0)).2 := by
      exact_mod_cast (by omega : (vs.getD u (0, 0)).2 < (vs.getD ((u + 1) % vs.length) (0, 0)).2)
    linarith
  have pd : (0 : ℚ) < ((vs.getD d (0, 0)).2 : ℚ) - (vs.getD ((d + 1) % vs.length) (0, 0)).2 := by
    have : ((vs.getD ((d + 1) % vs.length) (0, 0)).2 : ℚ) < (vs.getD d (0, 0)).2 := by
      exact_mod_cast (by omega : (vs.getD ((d + 1) % vs.length) (0, 0)).2 < (vs.getD d (0, 0)).2)
    linarith
  have selfu := fun t => side_self (vs.getD u (0, 0)) (vs.getD ((u + 1) % vs.length) (0, 0)) t y
    (edgeOn vs y u).x du (crossing_eq vs y u (crosses_ne vs y u hcu))
  have selfd := fun t => side_self (vs.getD d (0, 0)) (vs.getD ((d + 1) % vs.length) (0, 0)) t y
    (edgeOn vs y d).x dd (crossing_eq vs y d (crosses_ne vs y d hcd))
  have hs : ((s : ℚ) = 1 ∨ (s : ℚ) = -1) := by
    rcases hconv.2.1 with h | h <;> rw [h]
    · left; norm_num
    · right; norm_num
  refine ⟨min (edgeOn vs y u).x (edgeOn vs y d).x, max (edgeOn vs y u).x (edgeOn vs y d).x,
    le_trans (min_le_left _ _) (le_max_left _ _), ?_, ?_⟩
  · intro t
    constructor
    · intro hin
      have h1 := hin u hu
      have h2 := hin d hd
      rw [selfu t] at h1
      rw [selfd t] at h2
      have k1 : 0 ≤ (s : ℚ) * ((edgeOn vs y u).x - t) := by
        have : 0 ≤ (((vs.getD ((u + 1) % vs.length) (0, 0)).2 : ℚ) - (vs.getD u (0, 0)).2) *
            ((s : ℚ) * ((edgeOn vs y u).x - t)) := by
          rw [mul_left_comm]; exact h1
        exact nonneg_of_mul_nonneg_right this pu
      have k2 : 0 ≤ (s : ℚ) * (t - (edgeOn vs y d).x) := by
        have : 0 ≤ (((vs.getD d (0, 0)).2 : ℚ) - (vs.getD ((d + 1) % vs.length) (0, 0)).2) *
            ((s : ℚ) * (t - (edgeOn vs y d).x)) := by
          have e : (((vs.getD d (0, 0)).2 : ℚ) - (vs.getD ((d + 1) % vs.length) (0, 0)).2) *
              ((s : ℚ) * (t - (edgeOn vs y d).x)) =
              (s : ℚ) * ((((vs.getD ((d + 1) % vs.length) (0, 0)).2 : ℚ) - (vs.getD d (0, 0)).2) *
                ((edgeOn vs y d).x - t)) := by ring
          rw [e]; exact h2
        exact nonneg_of_mul_nonneg_right this pd
      rcases hs with h | h <;> rw [h] at k1 k2
      · exact ⟨le_trans (min_le_right _ _) (by linarith), le_trans (by linarith) (le_max_left _ _)⟩
      · exact ⟨le_trans (min_le_left _ _) (by linarith), le_trans (by linarith) (le_max_right _ _)⟩
    · rintro ⟨hl, hr⟩ j hj
      have iu := crossing_inside s vs hconv y u j hu hj hcu
      have id := crossing_inside s vs hconv y d j hd hj hcd
      have hmin : 0 ≤ (s : ℚ) * side (vs.getD j (0, 0)) (vs.getD ((j + 1) % vs.length) (0, 0))
          (min (edgeOn vs y u).x (edgeOn vs y d).x) y := by
        rcases le_total (edgeOn vs y u).x (edgeOn vs y d).x with h | h
        · rw [min_eq_left h]; exact iu
        · rw [min_eq_right h]; exact id
      have hmax : 0 ≤ (s : ℚ) * side (vs.getD j (0, 0)) (vs.getD ((j + 1) % vs.length) (0, 0))
          (max (edgeOn vs y u).x (edgeOn vs y d).x) y := by
        rcases le_total (edgeOn vs y u).x (edgeOn vs y d).x with h | h
        · rw [max_eq_right h]; exact id
        · rw [max_eq_left h]; exact iu
      exact side_between _ _ _ _ _ _ _ hmin hmax hl hr
  · intro x
    rw [mem_fillPixels]
    simp only
    rw [hsc]
    simp only [spanCover, or_false]
    constructor
    · rintro ⟨-, h⟩; exact h
    · intro h; exact ⟨hconv.1, h⟩

theorem rectangle_pixels (a b c d : Int) (hac : a < c) (hbd : b < d) (x y : Int) :
    (x, y) ∈ fillPixels [(a, b), (c, b), (c, d), (a, d)] ↔ (a ≤ x ∧ x ≤ c ∧ b ≤ y ∧ y < d) := by
  rw [mem_fillPixels]
  simp only
  have hr : List.range 4 = [0, 1, 2, 3] := by decide
  have hlen : ([(a, b), (c, b), (c, d), (a, d)] : List Point).length = 4 := rfl
  have c0 : crosses [(a, b), (c, b), (c, d), (a, d)] y 0 = false := by
    rw [Bool.eq_false_iff, Ne, crosses_iff]
    simp
  have c2 : crosses [(a, b), (c, b), (c, d), (a, d)] y 2 = false := by
    rw [Bool.eq_false_iff, Ne, crosses_iff]
    simp
  have c1 : crosses [(a, b), (c, b), (c, d), (a, d)] y 1 = decide (b ≤ y ∧ y < d) := by
    unfold crosses
    simp [min_eq_left hbd.le, max_eq_right hbd.le]
  have c3 : crosses [(a, b), (c, b), (c, d), (a, d)] y 3 = decide (b ≤ y ∧ y < d) := by
    unfold crosses
    simp [min_eq_right hbd.le, max_eq_left hbd.le]
  have x1 : (edgeOn [(a, b), (c, b), (c, d), (a, d)] y 1).x = (c : ℚ) := by
    unfold edgeOn
    simp
  have x3 : (edgeOn [(a, b), (c, b), (c, d), (a, d)] y 3).x = (a : ℚ) := by
    unfold edgeOn
    simp
  by_cases hy : b ≤ y ∧ y < d
  · have hs : sortedCrossings [(a, b), (c, b), (c, d), (a, d)] y = [(a : ℚ), (c : ℚ)] := by
      unfold sortedCrossings crossings
      rw [hlen, hr]
      simp only [List.filter_cons, c0, c1, c2, c3, decide_eq_true hy, List.filter_nil, if_true,
        Bool.false_eq_true, if_false, List.map_cons, List.map_nil, x1, x3]
      have hle : (a : ℚ) ≤ c := by exact_mod_cast hac.le
      have hnle : ¬ ((c : ℚ) ≤ a) := by
        have : (a : ℚ) < c := by exact_mod_cast hac
        linarith
      simp [List.insertionSort, List.orderedInsert, hnle]
    rw [hs]
    simp only [spanCover, or_false, Int.ceil_intCast, Int.floor_intCast]
    constructor
    · rintro ⟨-, h1, h2⟩; exact ⟨h1, h2, hy.1, hy.2⟩
    · rintro ⟨h1, h2, -, -⟩; exact ⟨by rw [hlen]; omega, h1, h2⟩
  · have hs : sortedCrossings [(a, b), (c, b), (c, d), (a, d)] y = [] := by
      unfold sortedCrossings crossings
      rw [hlen, hr]
      simp only [List.filter_cons, c0, c1, c2, c3, decide_eq_false hy, List.filter_nil,
        Bool.false_eq_true, if_false, List.map_nil]
      rfl
    rw [hs]
    simp only [spanCover, and_false, false_iff]
    rintro ⟨-, -, h3, h4⟩
    exact hy ⟨h3, h4⟩

end PolygonShape

/-- C26: a strictly convex polygon with integer vertices (every vertex that is
not an end of an edge lies strictly on the inner side of that edge; `s` is the
orientation). The fill writes pixels only on the rows `minY ≤ y < maxY`; on each
such row the polygon meets the row in an interval `[xL, xR]`, and the fill
writes exactly the pixels `⌈xL⌉ ≤ x ≤ ⌊xR⌋`. In particular an axis-aligned
rectangle `(a,b),(c,b),(c,d),(a,d)` with `a < c`, `b < d` is filled with
exactly the pixels `a ≤ x ≤ c`, `b ≤ y < d`: the last row is never filled. -/
theorem PolygonShape.fillPixels_convex (s : Int) (vertices : List Point)
    (hconv : PolygonShape.StrictlyConvex s vertices) :
    (∀ p ∈ PolygonShape.fillPixels vertices,
      (∃ c ∈ vertices, c.2 ≤ p.2) ∧ (∃ d ∈ vertices, p.2 < d.2)) ∧
    (∀ y : Int, (∃ c ∈ vertices, c.2 ≤ y) → (∃ d ∈ vertices, y < d.2) →
      ∃ xL xR : ℚ, xL ≤ xR ∧
        (∀ t : ℚ, PolygonShape.insidePolygon s vertices t y ↔ xL ≤ t ∧ t ≤ xR) ∧
        ∀ x : Int, (x, y) ∈ PolygonShape.fillPixels vertices ↔ ⌈xL⌉ ≤ x ∧ x ≤ ⌊xR⌋) ∧
    (∀ a b c d : Int, a < c → b < d → ∀ x y : Int,
      (x, y) ∈ PolygonShape.fillPixels [(a, b), (c, b), (c, d), (a, d)] ↔
        (a ≤ x ∧ x ≤ c ∧ b ≤ y ∧ y < d)) :=
  ⟨fun p hp => PolygonShape.fillPixels_rows vertices p hp,
    fun y hlow hhigh => PolygonShape.convex_row_pixels s vertices hconv y hlow hhigh,
    fun a b c d hac hbd x y => PolygonShape.rectangle_pixels a b c d hac hbd x y⟩

theorem PolygonShape.fillPixels_convex_witness :
    PolygonShape.StrictlyConvex 1 [(0, 0), (4, 2), (0, 4), (-3, 1)] ∧
    ((∀ p ∈ PolygonShape.fillPixels [(0, 0), (4, 2), (0, 4), (-3, 1)],
      (∃ c ∈ ([(0, 0), (4, 2), (0, 4), (-3, 1)] : List Point), c.2 ≤ p.2) ∧
        (∃ d ∈ ([(0, 0), (4, 2), (0, 4), (-3, 1)] : List Point), p.2 < d.2)) ∧
    (∀ y : Int, (∃ c ∈ ([(0, 0), (4, 2), (0, 4), (-3, 1)] : List Point), c.2 ≤ y) →
      (∃ d ∈ ([(0, 0), (4, 2), (0, 4), (-3, 1)] : List Point), y < d.2) →
      ∃ xL xR : ℚ, xL ≤ xR ∧
        (∀ t : ℚ, PolygonShape.insidePolygon 1 [(0, 0), (4, 2), (0, 4), (-3, 1)] t y ↔
          xL ≤ t ∧ t ≤ xR) ∧
        ∀ x : Int, (x, y) ∈ PolygonShape.fillPixels [(0, 0), (4, 2), (0, 4), (-3, 1)] ↔
          ⌈xL⌉ ≤ x ∧ x ≤ ⌊xR⌋) ∧
    (∀ a b c d : Int, a < c → b < d → ∀ x y : Int,
      (x, y) ∈ PolygonShape.fillPixels [(a, b), (c, b), (c, d), (a, d)] ↔
        (a ≤ x ∧ x ≤ c ∧ b ≤ y ∧ y < d))) :=
  ⟨by decide, PolygonShape.fillPixels_convex 1 [(0, 0), (4, 2), (0, 4), (-3, 1)] (by decide)⟩
